import Mathlib

/-!
# Kronecker edge generator and rand-sort permutation: a shallow embedding

The definitions below follow `src/generator/graph_generator.c` and
`src/generator/permutation_gen.c` function by function.

Conventions of the embedding.

* `count_type` is the unsigned 64-bit integer type of the generator.  Values are
  natural numbers and every addition, subtraction and multiplication performed
  on `count_type` in the C text is written with `cadd`, `csub`, `cmul`, which
  reduce modulo `2^64`.
* A C `assert` that fails, a write past the end of the output array, a division
  by zero and an exhausted recursion budget are the constructors of `Fault`;
  every function that can hit one of them returns `Except Fault _`.
* The compile-time switches `GRAPHGEN_INITIATOR_SIZE`, `GRAPHGEN_UNDIRECTED`
  and `GRAPHGEN_DISTRIBUTED_MEMORY` are the fields of `Build`.  The switch
  `GRAPHGEN_KEEP_MULTIPLICITIES` changes the type of the output array, so the
  two variants of the writing functions are two definitions: the plain name is
  the variant with the switch defined, the suffix `_pairs` is the variant with
  the switch undefined.
* The PRNG, the binomial sampler and the arithmetic of `double` are external to
  the sources; they are the fields of `Collab`.
-/

/-! ## `count_type` arithmetic -/

/-- Number of values of the 64-bit unsigned `count_type`. -/
def COUNT_MOD : Nat := 18446744073709551616

/-- Addition on `count_type`. -/
def cadd (a b : Nat) : Nat := (a + b) % 18446744073709551616

/-- Subtraction on `count_type` (wraps below zero). -/
def csub (a b : Nat) : Nat :=
  (a % 18446744073709551616 + 18446744073709551616 - b % 18446744073709551616)
    % 18446744073709551616

/-- Multiplication on `count_type`. -/
def cmul (a b : Nat) : Nat := (a * b) % 18446744073709551616

/-! ## `compute_edge_array_size` (graph_generator.c, lines 260-268) -/

/-- The expression assigned to `my_start_edge` at lines 265 and 286. -/
def my_start_edge (rank size M : Nat) : Nat :=
  cadd (cmul rank (M / size)) (if rank < M % size then rank else M % size)

/-- The expression assigned to `my_end_edge` at lines 266 and 287. -/
def my_end_edge (rank size M : Nat) : Nat :=
  cadd (cmul (cadd rank 1) (M / size))
    (if cadd rank 1 < M % size then cadd rank 1 else M % size)

/-- The function `compute_edge_array_size`. -/
def compute_edge_array_size (rank size M : Nat) : Nat :=
  csub (my_end_edge rank size M) (my_start_edge rank size M)

/-! ## Faults, collaborators and build switches -/

/-- The ways a run can stop without returning: a failed `assert` of the C text,
or undefined behaviour of the C text that the embedding makes observable. -/
inductive Fault where
  /-- Line 47 of graph_generator.c: `assert (!"Should not get here")`. -/
  | should_not_get_here
  /-- Lines 119 and 164 of graph_generator.c: `assert (base_src <= base_tgt)`. -/
  | base_src_le_base_tgt
  /-- Line 167 of graph_generator.c: `assert (num_edges != 0)`. -/
  | num_edges_nonzero
  /-- Line 137 of graph_generator.c: `assert (result->multiplicity == 0)`. -/
  | slot_not_used
  /-- A store past the end of the output array. -/
  | out_of_bounds
  /-- Division by `nverts == 0` at line 160 of graph_generator.c. -/
  | division_by_zero
  /-- The recursion or a loop did not finish within its budget of steps. -/
  | budget
  /-- Line 53 of permutation_gen.c:
  `assert (n > 0 && n <= UINT64_C(0x3FFFFFFF00000001))`. -/
  | random_up_to_domain
  /-- Line 129 of permutation_gen.c:
  `assert (!"Should not happen: overflow in hash table")`. -/
  | hash_table_overflow
  /-- Lines 268 and 430 of permutation_gen.c: `assert (running_sum == n)` and
  `assert (running_sum == total_incount)`. -/
  | running_sum
  /-- Line 352 of permutation_gen.c: `assert (owner < size)`. -/
  | owner_lt_size
  /-- Line 405 of permutation_gen.c: `assert (HT_OWNER(index) == rank)`. -/
  | owner_is_rank
  deriving DecidableEq, Repr

/-- Modelled from the spec: the PRNG façade (`splittable_mrg.h`) and the
binomial sampler (`btrd_binomial_distribution.h`) are external collaborators
whose code is not among the sources.  The state is a plain value; `mrg_skip`
is a pure function of the state and the three skip coordinates, the draws
return the value drawn and the advanced state.  `D` stands for the C type
`double` with its comparison, subtraction and division. -/
structure Collab (St D : Type) where
  mrg_seed : Nat → Nat → Nat → Nat → Nat → St
  mrg_skip : St → Nat → Nat → Nat → St
  mrg_get_double_orig : St → D × St
  mrg_get_uint_orig : St → Nat × St
  btrd_binomial_distribution : Nat → D → St → Nat × St
  dlt : D → D → Bool
  dsub : D → D → D
  ddiv : D → D → D
  done : D

/-- The compile-time switches of `graph_generator.h`. -/
structure Build where
  GRAPHGEN_INITIATOR_SIZE : Nat
  GRAPHGEN_UNDIRECTED : Bool
  GRAPHGEN_DISTRIBUTED_MEMORY : Bool
  deriving DecidableEq, Repr

/-- The macro `GRAPHGEN_INITIATOR_SIZE2` (line 23). -/
def GRAPHGEN_INITIATOR_SIZE2 (B : Build) : Nat :=
  B.GRAPHGEN_INITIATOR_SIZE * B.GRAPHGEN_INITIATOR_SIZE

/-- The record `generated_edge` of the keep-multiplicities output. -/
structure generated_edge where
  src : Nat
  tgt : Nat
  multiplicity : Nat
  deriving DecidableEq, Repr

/-- The struct `generator_settings` (lines 25-34) without its `out` pointer:
the output array is passed along as a value. -/
structure generator_settings (D : Type) where
  initiator : Nat → D
  my_first_edge : Nat
  my_last_edge : Nat
  total_nverts : Nat

/-- Store `v` at index `i` of an output array. -/
def store {α : Type} (out : List α) (i : Nat) (v : α) : Except Fault (List α) :=
  if i < out.length then .ok (out.set i v) else .error Fault.out_of_bounds

/-! ## `generate_nway_bernoulli` (lines 36-49) -/

/-- The `for` loop of lines 40-46 (and of lines 64-71): `todo` iterations are
left, `j` is the loop variable.  `none` means that the loop ran to its end. -/
def nway_scan {St D : Type} (C : Collab St D) (initiator : Nat → D) (K : Nat) :
    Nat → Nat → D → Option Nat
  | 0, _, _ => none
  | todo + 1, j, random_number =>
    if C.dlt random_number (initiator j) || j == K - 1 then some j
    else nway_scan C initiator K todo (j + 1) (C.dsub random_number (initiator j))

/-- The function `generate_nway_bernoulli`. -/
def generate_nway_bernoulli {St D : Type} (C : Collab St D) (B : Build)
    (s : generator_settings D) (st : St) : Except Fault (Nat × St) :=
  let r := C.mrg_get_double_orig st
  match nway_scan C s.initiator (GRAPHGEN_INITIATOR_SIZE2 B) (GRAPHGEN_INITIATOR_SIZE2 B) 0 r.1 with
  | some j => .ok (j, r.2)
  | none => .error Fault.should_not_get_here

/-! ## `make_square_counts` (lines 51-85) -/

/-- The loop of lines 60-72: one categorical draw per edge, tallied. -/
def square_counts_direct {St D : Type} (C : Collab St D) (initiator : Nat → D) (K : Nat) :
    Nat → St → (Nat → Nat) → (Nat → Nat) × St
  | 0, st, square_counts => (square_counts, st)
  | todo + 1, st, square_counts =>
    let r := C.mrg_get_double_orig st
    match nway_scan C initiator K K 0 r.1 with
    | some j =>
      square_counts_direct C initiator K todo r.2
        (Function.update square_counts j (cadd (square_counts j) 1))
    | none => square_counts_direct C initiator K todo r.2 square_counts

/-- The loop of lines 77-81: `todo` iterations are left, `i` is the loop
variable.  Returns the counts, `num_edges_left` and the PRNG state. -/
def square_counts_binomial {St D : Type} (C : Collab St D) (initiator : Nat → D) :
    Nat → Nat → Nat → D → St → (Nat → Nat) → (Nat → Nat) × Nat × St
  | 0, _, num_edges_left, _, st, square_counts => (square_counts, num_edges_left, st)
  | todo + 1, i, num_edges_left, divisor, st, square_counts =>
    let r := C.btrd_binomial_distribution num_edges_left (C.ddiv (initiator i) divisor) st
    square_counts_binomial C initiator todo (i + 1) (csub num_edges_left r.1)
      (C.dsub divisor (initiator i)) r.2 (Function.update square_counts i r.1)

/-- The function `make_square_counts`; the array `square_counts` of the caller
is a function of the index. -/
def make_square_counts {St D : Type} (C : Collab St D) (B : Build) (num_edges : Nat) (st : St)
    (s : generator_settings D) (square_counts : Nat → Nat) : (Nat → Nat) × St :=
  if num_edges ≤ 20 then
    square_counts_direct C s.initiator (GRAPHGEN_INITIATOR_SIZE2 B) num_edges st
      (fun i => if i < GRAPHGEN_INITIATOR_SIZE2 B then 0 else square_counts i)
  else
    let r := square_counts_binomial C s.initiator (GRAPHGEN_INITIATOR_SIZE2 B - 1) 0 num_edges
      C.done st square_counts
    (Function.update r.1 (GRAPHGEN_INITIATOR_SIZE2 B - 1) r.2.1, r.2.2)

/-! ## Clip-and-flip of the counts (lines 222-233) -/

/-- The inner loop of lines 227-230 for a fixed `i`. -/
def clip_and_flip_row (S i : Nat) : Nat → Nat → (Nat → Nat) → (Nat → Nat)
  | 0, _, square_counts => square_counts
  | todo + 1, j, square_counts =>
    let sc1 := Function.update square_counts (i * S + j)
      (cadd (square_counts (i * S + j)) (square_counts (j * S + i)))
    clip_and_flip_row S i todo (j + 1) (Function.update sc1 (j * S + i) 0)

/-- The outer loop of lines 226-231. -/
def clip_and_flip_rows (S : Nat) : Nat → Nat → (Nat → Nat) → (Nat → Nat)
  | 0, _, square_counts => square_counts
  | todo + 1, i, square_counts =>
    clip_and_flip_rows S todo (i + 1) (clip_and_flip_row S i (S - (i + 1)) (i + 1) square_counts)

/-- The body of `if (base_src == base_tgt)` at lines 223-232. -/
def clip_and_flip (S : Nat) (square_counts : Nat → Nat) : Nat → Nat :=
  clip_and_flip_rows S S 0 square_counts

/-! ## `make_one_edge` (lines 100-145) -/

/-- The `while (nverts > 1)` loop of lines 114-135.  The first argument bounds
the number of iterations. -/
def make_one_edge_loop {St D : Type} (C : Collab St D) (B : Build) (s : generator_settings D) :
    Nat → Nat → Nat → Nat → St → Except Fault (Nat × Nat × St)
  | 0, base_src, base_tgt, nverts, st =>
    if 1 < nverts then .error Fault.budget else .ok (base_src, base_tgt, st)
  | todo + 1, base_src, base_tgt, nverts, st =>
    if 1 < nverts then
      match generate_nway_bernoulli C B s st with
      | .error e => .error e
      | .ok (square, st1) =>
        let src_offset := square / B.GRAPHGEN_INITIATOR_SIZE
        let tgt_offset := square % B.GRAPHGEN_INITIATOR_SIZE
        if B.GRAPHGEN_UNDIRECTED && decide (base_tgt < base_src) then
          .error Fault.base_src_le_base_tgt
        else
          let flip := B.GRAPHGEN_UNDIRECTED && decide (base_src = base_tgt)
            && decide (tgt_offset < src_offset)
          let src_offset1 := if flip then tgt_offset else src_offset
          let tgt_offset1 := if flip then src_offset else tgt_offset
          let nverts1 := nverts / B.GRAPHGEN_INITIATOR_SIZE
          make_one_edge_loop C B s todo (cadd base_src (cmul nverts1 src_offset1))
            (cadd base_tgt (cmul nverts1 tgt_offset1)) nverts1 st1
    else .ok (base_src, base_tgt, st)

/-- The function `make_one_edge` with `GRAPHGEN_KEEP_MULTIPLICITIES` defined;
`result` is the slot `loc` of `out`.  The loop halves `nverts` at least, so
`nverts` iterations are a budget that a terminating run never exhausts. -/
def make_one_edge {St D : Type} (C : Collab St D) (B : Build) (base_src base_tgt nverts : Nat)
    (st : St) (s : generator_settings D) (out : List generated_edge) (loc : Nat) :
    Except Fault (List generated_edge × St) :=
  match make_one_edge_loop C B s nverts base_src base_tgt nverts st with
  | .error e => .error e
  | .ok (src, tgt, st1) =>
    match out[loc]? with
    | none => .error Fault.out_of_bounds
    | some e =>
      if e.multiplicity = 0 then .ok (out.set loc ⟨src, tgt, 1⟩, st1)
      else .error Fault.slot_not_used

/-- The function `make_one_edge` with `GRAPHGEN_KEEP_MULTIPLICITIES` undefined;
`result` points at index `loc` of the flat array `out`. -/
def make_one_edge_pairs {St D : Type} (C : Collab St D) (B : Build)
    (base_src base_tgt nverts : Nat) (st : St) (s : generator_settings D) (out : List Nat)
    (loc : Nat) : Except Fault (List Nat × St) :=
  match make_one_edge_loop C B s nverts base_src base_tgt nverts st with
  | .error e => .error e
  | .ok (src, tgt, st1) =>
    match store out loc src with
    | .error e => .error e
    | .ok out1 =>
      match store out1 (loc + 1) tgt with
      | .error e => .error e
      | .ok out2 => .ok (out2, st1)

/-! ## `generate_kronecker_internal` (lines 147-258) -/

/-- The value of `lhs_pos` and `rhs_pos` (lines 238-239) for the edge index `x`. -/
def edge_pos {D : Type} (s : generator_settings D) (x : Nat) : Int :=
  if x < s.my_first_edge then -1 else if x < s.my_last_edge then 0 else 1

/-- The test of line 240. -/
def descend_test {D : Type} (s : generator_settings D) (fei count : Nat) : Bool :=
  decide (edge_pos s fei = 0) || decide (edge_pos s (cadd fei count) = 0)
    || decide (edge_pos s fei ≠ edge_pos s (cadd fei count))

/-- The test of lines 168 and 196. -/
def in_my_range {D : Type} (s : generator_settings D) (first_edge_index : Nat) : Bool :=
  decide (s.my_first_edge ≤ first_edge_index) && decide (first_edge_index < s.my_last_edge)

/-- The value of `write_offset` (lines 169-173 and 197-201). -/
def write_offset {D : Type} (B : Build) (s : generator_settings D) (first_edge_index : Nat) :
    Nat :=
  if B.GRAPHGEN_DISTRIBUTED_MEMORY then csub first_edge_index s.my_first_edge
  else first_edge_index

/-- The `for` loop of lines 236-256.  `descend fei count base_src base_tgt out`
is the recursive call of lines 245-252; `todo` iterations are left and `i` is
the loop variable. -/
def kronecker_children {D α : Type} (B : Build) (s : generator_settings D)
    (square_counts : Nat → Nat) (new_nverts base_src base_tgt : Nat)
    (descend : Nat → Nat → Nat → Nat → α → Except Fault α) :
    Nat → Nat → Nat → α → Except Fault α
  | 0, _, _, out => .ok out
  | todo + 1, i, fei, out =>
    if square_counts i ≠ 0 then
      if descend_test s fei (square_counts i) then
        match descend fei (square_counts i)
            (cadd base_src (cmul new_nverts (i / B.GRAPHGEN_INITIATOR_SIZE)))
            (cadd base_tgt (cmul new_nverts (i % B.GRAPHGEN_INITIATOR_SIZE))) out with
        | .error e => .error e
        | .ok out1 =>
          kronecker_children B s square_counts new_nverts base_src base_tgt descend todo (i + 1)
            (cadd fei (square_counts i)) out1
      else
        kronecker_children B s square_counts new_nverts base_src base_tgt descend todo (i + 1)
          (cadd fei (square_counts i)) out
    else
      kronecker_children B s square_counts new_nverts base_src base_tgt descend todo (i + 1)
        fei out

/-- The counts of the recursive case after lines 220-233. -/
def block_counts {St D : Type} (C : Collab St D) (B : Build) (s : generator_settings D)
    (state : St) (num_edges base_src base_tgt : Nat) : Nat → Nat :=
  let square_counts := (make_square_counts C B num_edges state s (fun _ => 0)).1
  if B.GRAPHGEN_UNDIRECTED && decide (base_src = base_tgt) then
    clip_and_flip B.GRAPHGEN_INITIATOR_SIZE square_counts
  else square_counts

/-- The PRNG state of a block after line 160. -/
def block_state {St D : Type} (C : Collab St D) (s : generator_settings D) (orig_state : St)
    (nverts base_src base_tgt : Nat) : St :=
  C.mrg_skip orig_state 0 (cadd base_src s.total_nverts / nverts)
    (cadd base_tgt s.total_nverts / nverts)

/-- The function `generate_kronecker_internal` with
`GRAPHGEN_KEEP_MULTIPLICITIES` defined.  The first argument bounds the depth of
the recursion. -/
def generate_kronecker_internal {St D : Type} (C : Collab St D) (B : Build) :
    Nat → St → Nat → Nat → Nat → generator_settings D → Nat → Nat → List generated_edge →
      Except Fault (List generated_edge)
  | 0, _, _, _, _, _, _, _, _ => .error Fault.budget
  | depth + 1, orig_state, first_edge_index, num_edges, nverts, s, base_src, base_tgt, out =>
    if nverts = 0 then .error Fault.division_by_zero
    else
      let state := block_state C s orig_state nverts base_src base_tgt
      if B.GRAPHGEN_UNDIRECTED && decide (base_tgt < base_src) then
        .error Fault.base_src_le_base_tgt
      else if nverts = 1 then
        if num_edges = 0 then .error Fault.num_edges_nonzero
        else if in_my_range s first_edge_index then
          store out (write_offset B s first_edge_index) ⟨base_src, base_tgt, num_edges⟩
        else .ok out
      else if num_edges = 1 then
        if in_my_range s first_edge_index then
          match make_one_edge C B base_src base_tgt nverts state s out
              (write_offset B s first_edge_index) with
          | .error e => .error e
          | .ok r => .ok r.1
        else .ok out
      else
        kronecker_children B s (block_counts C B s state num_edges base_src base_tgt)
          (nverts / B.GRAPHGEN_INITIATOR_SIZE) base_src base_tgt
          (fun fei count bs bt o =>
            generate_kronecker_internal C B depth orig_state fei count
              (nverts / B.GRAPHGEN_INITIATOR_SIZE) s bs bt o)
          (GRAPHGEN_INITIATOR_SIZE2 B) 0 first_edge_index out

/-- The loop of lines 188-191: tombstone pairs `i = 1 .. num_edges - 1` behind
`out_loc = out + loc`; `todo` iterations are left. -/
def tombstones : Nat → Nat → Nat → List Nat → Except Fault (List Nat)
  | 0, _, _, out => .ok out
  | todo + 1, i, loc, out =>
    match store out (loc + (2 * i + 0)) (COUNT_MOD - 1) with
    | .error e => .error e
    | .ok out1 =>
      match store out1 (loc + (2 * i + 1)) (COUNT_MOD - 1) with
      | .error e => .error e
      | .ok out2 => tombstones todo (i + 1) loc out2

/-- The function `generate_kronecker_internal` with
`GRAPHGEN_KEEP_MULTIPLICITIES` undefined (flat array of pairs with tombstones). -/
def generate_kronecker_internal_pairs {St D : Type} (C : Collab St D) (B : Build) :
    Nat → St → Nat → Nat → Nat → generator_settings D → Nat → Nat → List Nat →
      Except Fault (List Nat)
  | 0, _, _, _, _, _, _, _, _ => .error Fault.budget
  | depth + 1, orig_state, first_edge_index, num_edges, nverts, s, base_src, base_tgt, out =>
    if nverts = 0 then .error Fault.division_by_zero
    else
      let state := block_state C s orig_state nverts base_src base_tgt
      if B.GRAPHGEN_UNDIRECTED && decide (base_tgt < base_src) then
        .error Fault.base_src_le_base_tgt
      else if nverts = 1 then
        if num_edges = 0 then .error Fault.num_edges_nonzero
        else if in_my_range s first_edge_index then
          let loc := cmul 2 (write_offset B s first_edge_index)
          match store out (loc + 0) base_src with
          | .error e => .error e
          | .ok out1 =>
            match store out1 (loc + 1) base_tgt with
            | .error e => .error e
            | .ok out2 => tombstones (num_edges - 1) 1 loc out2
        else .ok out
      else if num_edges = 1 then
        if in_my_range s first_edge_index then
          match make_one_edge_pairs C B base_src base_tgt nverts state s out
              (cmul 2 (write_offset B s first_edge_index)) with
          | .error e => .error e
          | .ok r => .ok r.1
        else .ok out
      else
        kronecker_children B s (block_counts C B s state num_edges base_src base_tgt)
          (nverts / B.GRAPHGEN_INITIATOR_SIZE) base_src base_tgt
          (fun fei count bs bt o =>
            generate_kronecker_internal_pairs C B depth orig_state fei count
              (nverts / B.GRAPHGEN_INITIATOR_SIZE) s bs bt o)
          (GRAPHGEN_INITIATOR_SIZE2 B) 0 first_edge_index out

/-! ## `generate_kronecker` (lines 270-309) -/

/-- Modelled from the spec: `count_pow` is declared in a header that is not
among the sources; the spec gives the vertex count as `N = S^logN`.  Its value
is stored in a `count_type` (lines 298 and 305), which is where the callers
below reduce it. -/
def count_pow (base exp : Nat) : Nat := base ^ exp

/-- The settings built at lines 293-299. -/
def settings_data {D : Type} (B : Build) (rank size logN M : Nat) (initiator : Nat → D) :
    generator_settings D :=
  { initiator := initiator
    my_first_edge := my_start_edge rank size M
    my_last_edge := my_end_edge rank size M
    total_nverts := count_pow B.GRAPHGEN_INITIATOR_SIZE logN % 18446744073709551616 }

/-- The function `generate_kronecker` with `GRAPHGEN_KEEP_MULTIPLICITIES`
defined.  The recursion visits the levels `logN, logN - 1, .., 0`, which is the
depth bound handed to `generate_kronecker_internal`. -/
def generate_kronecker {St D : Type} (C : Collab St D) (B : Build) (rank size : Nat)
    (seed : Nat → Nat) (logN M : Nat) (initiator : Nat → D) (edges : List generated_edge) :
    Except Fault (List generated_edge) :=
  generate_kronecker_internal C B (logN + 1)
    (C.mrg_seed (seed 0) (seed 1) (seed 2) (seed 3) (seed 4)) 0 M
    (count_pow B.GRAPHGEN_INITIATOR_SIZE logN % 18446744073709551616)
    (settings_data B rank size logN M initiator) 0 0
    edges

/-- The function `generate_kronecker` with `GRAPHGEN_KEEP_MULTIPLICITIES`
undefined. -/
def generate_kronecker_pairs {St D : Type} (C : Collab St D) (B : Build) (rank size : Nat)
    (seed : Nat → Nat) (logN M : Nat) (initiator : Nat → D) (edges : List Nat) :
    Except Fault (List Nat) :=
  generate_kronecker_internal_pairs C B (logN + 1)
    (C.mrg_seed (seed 0) (seed 1) (seed 2) (seed 3) (seed 4)) 0 M
    (count_pow B.GRAPHGEN_INITIATOR_SIZE logN % 18446744073709551616)
    (settings_data B rank size logN M initiator) 0 0
    edges

/-! ## Blocks of the recursion -/

/-- Invariant of a block `(base_src, base_tgt, nverts)` with `nverts = S^k` in a
graph of `N` vertices: the block lies inside the adjacency matrix and, in
undirected mode, on or strictly above the diagonal. -/
def block_inv (B : Build) (N k base_src base_tgt : Nat) : Prop :=
  base_src + B.GRAPHGEN_INITIATOR_SIZE ^ k ≤ N ∧ base_tgt + B.GRAPHGEN_INITIATOR_SIZE ^ k ≤ N
    ∧ (B.GRAPHGEN_UNDIRECTED = true →
        base_src = base_tgt ∨ base_src + B.GRAPHGEN_INITIATOR_SIZE ^ k ≤ base_tgt)

/-- State of the counts when the loops of lines 226-231 have reached `(i, j)`:
the pairs `(r, c)` with `r < c`, taken row by row, are folded up to `(i, j)`. -/
def flip_upto (S : Nat) (sc : Nat → Nat) (i j x : Nat) : Nat :=
  if x < S * S ∧ x / S < x % S ∧ (x / S < i ∨ (x / S = i ∧ x % S < j)) then
    cadd (sc x) (sc (x % S * S + x / S))
  else if x < S * S ∧ x % S < x / S ∧ (x % S < i ∨ (x % S = i ∧ x / S < j)) then 0
  else sc x

/-! ## Safety of the edge placer: what a write can store -/

/-- A record with both end points below `N` and, in undirected mode, ordered. -/
def edge_ok (B : Build) (N : Nat) (e : generated_edge) : Prop :=
  e.src < N ∧ e.tgt < N ∧ (B.GRAPHGEN_UNDIRECTED = true → e.src ≤ e.tgt)

/-- The array `out1` arises from `out` by stores of records satisfying `good`. -/
def frame (good : generated_edge → Prop) (out out1 : List generated_edge) : Prop :=
  out1.length = out.length ∧
    ∀ (i : Nat) (e : generated_edge), out1[i]? = some e → out[i]? = some e ∨ good e

/-- A run either returns an array framed by `good`, or stops at one of the three
faults that depend on the caller's array. -/
def run_safe (good : generated_edge → Prop) (out : List generated_edge)
    (r : Except Fault (List generated_edge)) : Prop :=
  match r with
  | .ok out1 => frame good out out1
  | .error e =>
    e = Fault.num_edges_nonzero ∨ e = Fault.slot_not_used ∨ e = Fault.out_of_bounds

/-! ## Concrete collaborators for evaluating the definitions -/

/-- A small deterministic stand-in for the PRNG and the binomial sampler, with
`double` values written in thousandths. -/
def sample_collab : Collab Nat Nat where
  mrg_seed a b c d e := a + 2 * b + 3 * c + 5 * d + 7 * e
  mrg_skip st a b c := (st * 31 + a * 17 + b * 1009 + c * 7919 + 5) % 65521
  mrg_get_double_orig st := ((st * 7919 + 13) % 1000, (st * 75 + 74) % 65537)
  mrg_get_uint_orig st := ((st * 7919 + 13) % 2147483647, (st * 75 + 74) % 65537)
  btrd_binomial_distribution n p st :=
    (min n ((n * p + st % 1000) / 1000), (st * 75 + 74) % 65537)
  dlt a b := decide (a < b)
  dsub a b := a - b
  ddiv a b := a * 1000 / b
  done := 1000

/-- The initiator `[0.57, 0.19, 0.19, 0.05]` in thousandths. -/
def sample_initiator : Nat → Nat := fun j => [570, 190, 190, 50].getD j 0

/-- The seed `[1, 2, 3, 4, 5]`. -/
def sample_seed : Nat → Nat := fun i => i + 1

/-- The zero-initialised output array of `n` records. -/
def zero_edges (n : Nat) : List generated_edge := List.replicate n ⟨0, 0, 0⟩

/-! ## The canonical content of a block's edge interval -/

/-- The record of a slot that was never written. -/
def zero_edge : generated_edge := ⟨0, 0, 0⟩

/-- Concatenation of the contents of the sub-blocks with a non-zero count, in
the order of the loop of lines 236-256. -/
def children_cells (B : Build) (sc : Nat → Nat) (nn bs bt : Nat)
    (cells : Nat → Nat → Nat → List generated_edge) : Nat → Nat → List generated_edge
  | 0, _ => []
  | todo + 1, i =>
    (if sc i ≠ 0 then
        cells (sc i) (cadd bs (cmul nn (i / B.GRAPHGEN_INITIATOR_SIZE)))
          (cadd bt (cmul nn (i % B.GRAPHGEN_INITIATOR_SIZE)))
      else [])
    ++ children_cells B sc nn bs bt cells todo (i + 1)

/-- The records that the slots `first_edge_index, .., first_edge_index +
num_edges - 1` of the whole edge list receive from the block
`(num_edges, nverts, base_src, base_tgt)`: a leaf fills its first slot, a
single edge fills its slot, the recursive case concatenates its sub-blocks. -/
def block_cells {St D : Type} (C : Collab St D) (B : Build) (s : generator_settings D)
    (orig_state : St) : Nat → Nat → Nat → Nat → Nat → List generated_edge
  | 0, num_edges, _, _, _ => List.replicate num_edges zero_edge
  | depth + 1, num_edges, nverts, bs, bt =>
    if nverts = 1 then ⟨bs, bt, num_edges⟩ :: List.replicate (num_edges - 1) zero_edge
    else if num_edges = 1 then
      match make_one_edge_loop C B s nverts bs bt nverts
          (block_state C s orig_state nverts bs bt) with
      | .ok r => [⟨r.1, r.2.1, 1⟩]
      | .error _ => [⟨bs, bt, 1⟩]
    else
      children_cells B
        (block_counts C B s (block_state C s orig_state nverts bs bt) num_edges bs bt)
        (nverts / B.GRAPHGEN_INITIATOR_SIZE) bs bt
        (fun count bs1 bt1 =>
          block_cells C B s orig_state depth count (nverts / B.GRAPHGEN_INITIATOR_SIZE) bs1 bt1)
        (GRAPHGEN_INITIATOR_SIZE2 B) 0

/-- Sum of the multiplicity fields of an array of records. -/
def total_multiplicity (l : List generated_edge) : Nat := (l.map (fun e => e.multiplicity)).sum

/-! ## What a run stores: the content lemma -/

/-- Slot `j` of a worker's array, whose slot 0 is the edge index `o`, lies in
the edge interval `[fei, fei + len)` and in the worker's range. -/
@[reducible] def in_window {D : Type} (s : generator_settings D) (o fei len j : Nat) : Prop :=
  fei ≤ j + o ∧ j + o < fei + len ∧ s.my_first_edge ≤ j + o ∧ j + o < s.my_last_edge

/-- The array `out1` is `out` with the slots of the window of `[fei, fei +
cs.length)` replaced by the corresponding entries of `cs`. -/
def patched {D : Type} (s : generator_settings D) (o : Nat) (out out1 : List generated_edge)
    (fei : Nat) (cs : List generated_edge) : Prop :=
  out1.length = out.length ∧
  ∀ j : Nat, out1[j]? = if in_window s o fei cs.length j then cs[j + o - fei]? else out[j]?

/-- How a worker's array of `L` slots sits in the edge list: slot 0 is the edge
index `o`, the worker's range lies inside the array, and `write_offset`
subtracts `o`. -/
structure placement {D : Type} (B : Build) (s : generator_settings D) (o L : Nat) : Prop where
  origin_le : o ≤ s.my_first_edge
  last_le : s.my_last_edge ≤ o + L
  offset : ∀ x, s.my_first_edge ≤ x → x < s.my_last_edge → x < 18446744073709551616 →
    write_offset B s x = x - o

/-! ## A worker's array is a slice of the whole edge list -/

/-- The whole edge list of a run: the content of the root block. -/
def whole_cells {St D : Type} (C : Collab St D) (B : Build) (seed : Nat → Nat)
    (logN M : Nat) (initiator : Nat → D) : List generated_edge :=
  block_cells C B (settings_data B 0 1 logN M initiator)
    (C.mrg_seed (seed 0) (seed 1) (seed 2) (seed 3) (seed 4)) (logN + 1) M
    (count_pow B.GRAPHGEN_INITIATOR_SIZE logN) 0 0

/-! ## Size invariance, edge-count conservation, per-worker sums -/

/-- The arrays returned by the ranks `0, .., k - 1`, concatenated in rank order;
the first fault met, when a rank does not return. -/
def concat_ranks {α : Type} (run : Nat → Except Fault (List α)) : Nat → Except Fault (List α)
  | 0 => .ok []
  | k + 1 =>
    match concat_ranks run k with
    | .error e => .error e
    | .ok l =>
      match run k with
      | .error e => .error e
      | .ok p => .ok (l ++ p)

/-! # permutation_gen.c -/

/-! ## `random_up_to` (lines 50-75) -/

/-- The loop of lines 58-62: one draw per iteration, at most `fuel` iterations. -/
def random_up_to_one_draw {St D : Type} (C : Collab St D) (n acc_value_limit : Nat) :
    Nat → St → Except Fault (Nat × St)
  | 0, _ => .error Fault.budget
  | fuel + 1, st =>
    let r := C.mrg_get_uint_orig st
    if acc_value_limit ≤ r.1 then random_up_to_one_draw C n acc_value_limit fuel r.2
    else .ok (r.1 % n, r.2)

/-- The loop of lines 65-70: two draws per iteration, at most `fuel` iterations. -/
def random_up_to_two_draws {St D : Type} (C : Collab St D) (n acc_value_limit : Nat) :
    Nat → St → Except Fault (Nat × St)
  | 0, _ => .error Fault.budget
  | fuel + 1, st =>
    let r1 := C.mrg_get_uint_orig st
    let r2 := C.mrg_get_uint_orig r1.2
    let acc := cadd (cmul r1.1 2147483647) r2.1
    if acc_value_limit ≤ acc then random_up_to_two_draws C n acc_value_limit fuel r2.2
    else .ok (acc % n, r2.2)

/-- The function `random_up_to`; `fuel` bounds the iterations of its rejection
loop. -/
def random_up_to {St D : Type} (C : Collab St D) (fuel : Nat) (st : St) (n : Nat) :
    Except Fault (Nat × St) :=
  if 0 < n ∧ n ≤ 4611686014132420609 then
    if n = 1 then .ok (0, st)
    else if n ≤ 2147483647 then
      random_up_to_one_draw C n (cmul (2147483647 / n) n) fuel st
    else if n ≤ 4611686014132420609 then
      random_up_to_two_draws C n (cmul (4611686014132420609 / n) n) fuel st
    else .ok (0, st)
  else .error Fault.random_up_to_domain

/-! ## The hash table (lines 77-170) -/

/-- The struct `slot_data`. -/
structure slot_data where
  index : Nat
  value : Nat
  deriving DecidableEq, Repr

/-- The marker `(count_type)(-1)` of an unused slot. -/
def UNUSED : Nat := 18446744073709551615

/-- One of the two `for` loops of `hashtable_insert` (lines 117-122 and
123-128): `todo` iterations are left, `i` is the loop variable.  `none` means
that the loop ended without finding an unused slot. -/
def hashtable_insert_scan (ht : List slot_data) (index value : Nat) :
    Nat → Nat → Except Fault (Option (List slot_data))
  | 0, _ => .ok none
  | todo + 1, i =>
    match ht[i]? with
    | none => .error Fault.out_of_bounds
    | some sl =>
      if sl.index = UNUSED then .ok (some (ht.set i ⟨index, value⟩))
      else hashtable_insert_scan ht index value todo (i + 1)

/-- The function `hashtable_insert`. -/
def hashtable_insert (ht : List slot_data) (ht_size index value hashval : Nat) :
    Except Fault (List slot_data) :=
  match hashtable_insert_scan ht index value (ht_size - hashval) hashval with
  | .error e => .error e
  | .ok (some ht1) => .ok ht1
  | .ok none =>
    match hashtable_insert_scan ht index value hashval 0 with
    | .error e => .error e
    | .ok (some ht1) => .ok ht1
    | .ok none => .error Fault.hash_table_overflow

/-- One of the two `for` loops of `hashtable_count_key` (lines 138-140 and
142-144).  Returns the count and the value of `i` at the end of the loop. -/
def hashtable_count_scan (ht : List slot_data) (index : Nat) :
    Nat → Nat → Nat → Except Fault (Nat × Nat)
  | 0, i, c => .ok (c, i)
  | todo + 1, i, c =>
    match ht[i]? with
    | none => .error Fault.out_of_bounds
    | some sl =>
      if sl.index = UNUSED then .ok (c, i)
      else hashtable_count_scan ht index todo (i + 1) (if sl.index = index then c + 1 else c)

/-- The function `hashtable_count_key`. -/
def hashtable_count_key (ht : List slot_data) (ht_size index hashval : Nat) :
    Except Fault Nat :=
  match hashtable_count_scan ht index (ht_size - hashval) hashval 0 with
  | .error e => .error e
  | .ok r =>
    if r.2 = ht_size then
      match hashtable_count_scan ht index hashval 0 r.1 with
      | .error e => .error e
      | .ok r1 => .ok r1.1
    else .ok r.1

/-- One of the two `for` loops of `hashtable_get_values` (lines 157-161 and
163-167).  Returns `x`, the value of `i` at the end of the loop and the array
`result`. -/
def hashtable_get_scan (ht : List slot_data) (index : Nat) :
    Nat → Nat → Nat → List Nat → Except Fault (Nat × Nat × List Nat)
  | 0, i, x, result => .ok (x, i, result)
  | todo + 1, i, x, result =>
    match ht[i]? with
    | none => .error Fault.out_of_bounds
    | some sl =>
      if sl.index = UNUSED then .ok (x, i, result)
      else if sl.index = index then
        match store result x sl.value with
        | .error e => .error e
        | .ok result1 => hashtable_get_scan ht index todo (i + 1) (x + 1) result1
      else hashtable_get_scan ht index todo (i + 1) x result

/-- The function `hashtable_get_values`; returns the element count and the
array `result`. -/
def hashtable_get_values (ht : List slot_data) (ht_size index hashval : Nat)
    (result : List Nat) : Except Fault (Nat × List Nat) :=
  match hashtable_get_scan ht index (ht_size - hashval) hashval 0 result with
  | .error e => .error e
  | .ok r =>
    if r.2.1 = ht_size then
      match hashtable_get_scan ht index hashval 0 r.1 r.2.2 with
      | .error e => .error e
      | .ok r1 => .ok (r1.1, r1.2.2)
    else .ok (r.1, r.2.2)

/-! ## `selection_sort` (lines 175-189) and `randomly_permute` (lines 195-206) -/

/-- The inner loop of lines 180-182: returns `minpos`. -/
def selection_sort_minpos (a : List Nat) : Nat → Nat → Nat → Nat
  | 0, _, minpos => minpos
  | todo + 1, j, minpos =>
    selection_sort_minpos a todo (j + 1) (if a.getD j 0 < a.getD minpos 0 then j else minpos)

/-- The outer loop of lines 178-188 on an array of at least `n` entries. -/
def selection_sort_loop (n : Nat) : Nat → Nat → List Nat → List Nat
  | 0, _, a => a
  | todo + 1, i, a =>
    let minpos := selection_sort_minpos a (n - (i + 1)) (i + 1) i
    let a1 := if minpos ≠ i then (a.set minpos (a.getD i 0)).set i (a.getD minpos 0) else a
    selection_sort_loop n todo (i + 1) a1

/-- The function `selection_sort` on the array `a`.  For `n ≥ 2` the first pass
of the inner loop reads every `a[j]` with `j < n`, so the accesses are in
bounds exactly when the array has `n` entries. -/
def selection_sort (a : List Nat) (n : Nat) : Except Fault (List Nat) :=
  if n ≤ 1 then .ok a
  else if n ≤ a.length then .ok (selection_sort_loop n (n - 1) 0 a)
  else .error Fault.out_of_bounds

/-- Exchange `a[i]` and `a[j]`. -/
def swap_entries (a : List Nat) (i j : Nat) : Except Fault (List Nat) :=
  match a[i]?, a[j]? with
  | some x, some y => .ok ((a.set i y).set j x)
  | _, _ => .error Fault.out_of_bounds

/-- The loop of lines 198-205; the first argument is the loop variable `i`,
which runs downwards and stops at 0. -/
def randomly_permute_loop {St D : Type} (C : Collab St D) (fuel : Nat) :
    Nat → List Nat → St → Except Fault (List Nat × St)
  | 0, a, st => .ok (a, st)
  | i + 1, a, st =>
    match random_up_to C fuel st (cadd (i + 1) 1) with
    | .error e => .error e
    | .ok r =>
      if i + 1 ≠ r.1 then
        match swap_entries a (i + 1) r.1 with
        | .error e => .error e
        | .ok a1 => randomly_permute_loop C fuel i a1 r.2
      else randomly_permute_loop C fuel i a r.2

/-- The function `randomly_permute`. -/
def randomly_permute {St D : Type} (C : Collab St D) (fuel : Nat) (a : List Nat) (n : Nat)
    (st : St) : Except Fault (List Nat × St) :=
  if n ≤ 1 then .ok (a, st) else randomly_permute_loop C fuel (csub n 1) a st

/-! ## The bucket passes shared by `rand_sort_shared` and `rand_sort_mpi` -/

/-- The loops of lines 253-256 and 418-421: the counts of the keys
`i, i + 1, ..` of a table slice starting at the key `ht_my_start` (0 in the
shared variant, where `HT_LOCAL` is the identity). -/
def bucket_count_loop (ht : List slot_data) (ht_size ht_my_start : Nat) :
    Nat → Nat → Except Fault (List Nat)
  | 0, _ => .ok []
  | todo + 1, i =>
    match hashtable_count_key ht ht_size i (csub i ht_my_start) with
    | .error e => .error e
    | .ok c =>
      match bucket_count_loop ht ht_size ht_my_start todo (cadd i 1) with
      | .error e => .error e
      | .ok cs => .ok (c :: cs)

/-- The loops of lines 263-267 and 425-429: exclusive prefix sums of the bucket
counts, and the final `running_sum`. -/
def bucket_starts_loop : List Nat → Nat → List Nat × Nat
  | [], running_sum => ([], running_sum)
  | c :: cs, running_sum =>
    let r := bucket_starts_loop cs (cadd running_sum c)
    (running_sum :: r.1, r.2)

/-- The body of the loops of lines 274-287 and 432-445 for the key `i`, with
`temp = result + result_start_idx`: gather, sort and shuffle the bucket. -/
def bucket_fill {St D : Type} (C : Collab St D) (fuel : Nat) (st : St)
    (ht : List slot_data) (ht_size ht_my_start i result_start_idx : Nat) (result : List Nat) :
    Except Fault (List Nat) :=
  match hashtable_get_values ht ht_size i (csub i ht_my_start)
      (result.drop result_start_idx) with
  | .error e => .error e
  | .ok r =>
    if 1 < r.1 then
      match selection_sort (r.2.take r.1) r.1 with
      | .error e => .error e
      | .ok sorted =>
        match randomly_permute C fuel sorted r.1 (C.mrg_skip st 1 i 100) with
        | .error e => .error e
        | .ok p => .ok (result.take result_start_idx ++ p.1 ++ r.2.drop r.1)
    else .ok (result.take result_start_idx ++ r.2)

/-- The loops of lines 274-287 and 432-445 over the bucket starts of the keys
`i, i + 1, ..`. -/
def bucket_fill_loop {St D : Type} (C : Collab St D) (fuel : Nat) (st : St)
    (ht : List slot_data) (ht_size ht_my_start : Nat) :
    List Nat → Nat → List Nat → Except Fault (List Nat)
  | [], _, result => .ok result
  | result_start_idx :: starts, i, result =>
    match bucket_fill C fuel st ht ht_size ht_my_start i result_start_idx result with
    | .error e => .error e
    | .ok result1 =>
      bucket_fill_loop C fuel st ht ht_size ht_my_start starts (cadd i 1) result1

/-- Lines 248-287 and 417-445: count the buckets, turn the counts into starts,
check the total against `expected`, fill the result. -/
def bucket_passes {St D : Type} (C : Collab St D) (fuel : Nat) (st : St)
    (ht : List slot_data) (ht_size ht_my_start expected : Nat) (result : List Nat) :
    Except Fault (List Nat) :=
  match bucket_count_loop ht ht_size ht_my_start ht_size ht_my_start with
  | .error e => .error e
  | .ok bucket_counts =>
    let r := bucket_starts_loop bucket_counts 0
    if r.2 = expected then
      bucket_fill_loop C fuel st ht ht_size ht_my_start r.1 ht_my_start result
    else .error Fault.running_sum

/-! ## `rand_sort_shared` (lines 228-290) -/

/-- The loop of lines 241-246: elements `i, i + 1, .., n - 1` are hashed and
inserted. -/
def shared_insert_loop {St D : Type} (C : Collab St D) (fuel : Nat) (st : St)
    (hash_table_size : Nat) : Nat → Nat → List slot_data → Except Fault (List slot_data)
  | 0, _, ht => .ok ht
  | todo + 1, i, ht =>
    match random_up_to C fuel (C.mrg_skip st 1 i 0) hash_table_size with
    | .error e => .error e
    | .ok r =>
      match hashtable_insert ht hash_table_size r.1 i r.1 with
      | .error e => .error e
      | .ok ht1 => shared_insert_loop C fuel st hash_table_size todo (cadd i 1) ht1

/-- The function `rand_sort_shared`; `result` is the caller's array and `fuel`
bounds the iterations of every rejection loop of `random_up_to`. -/
def rand_sort_shared {St D : Type} (C : Collab St D) (fuel : Nat) (st : St) (n : Nat)
    (result : List Nat) : Except Fault (List Nat) :=
  let hash_table_size := cadd (cmul 2 n) 128
  match shared_insert_loop C fuel st hash_table_size n 0
      (List.replicate hash_table_size ⟨UNUSED, 0⟩) with
  | .error e => .error e
  | .ok ht => bucket_passes C fuel st ht hash_table_size 0 n result

/-! ## `rand_sort_mpi` (lines 293-448) -/

/-- The block distribution of the hash table (lines 317-335). -/
structure ht_layout where
  total_hash_table_size : Nat
  ht_base_block_size : Nat
  ht_block_size_cutoff_rank : Nat
  ht_block_size_cutoff_index : Nat
  ht_my_size : Nat
  ht_my_start : Nat
  ht_my_end : Nat
  deriving DecidableEq, Repr

/-- Lines 317-330 for the rank `rank` of `size`. -/
def ht_layout_of (n size rank : Nat) : ht_layout :=
  let total_hash_table_size := cadd (cmul 2 n) 128
  let ht_base_block_size := total_hash_table_size / size
  let ht_block_size_cutoff_rank := total_hash_table_size % size
  let ht_block_size_cutoff_index := cmul ht_block_size_cutoff_rank (cadd ht_base_block_size 1)
  let ht_my_size := cadd ht_base_block_size (if rank < ht_block_size_cutoff_rank then 1 else 0)
  let ht_my_start :=
    if rank < ht_block_size_cutoff_rank then cmul rank (cadd ht_base_block_size 1)
    else cadd ht_block_size_cutoff_index
      (cmul (csub rank ht_block_size_cutoff_rank) ht_base_block_size)
  { total_hash_table_size := total_hash_table_size
    ht_base_block_size := ht_base_block_size
    ht_block_size_cutoff_rank := ht_block_size_cutoff_rank
    ht_block_size_cutoff_index := ht_block_size_cutoff_index
    ht_my_size := ht_my_size
    ht_my_start := ht_my_start
    ht_my_end := cadd ht_my_start ht_my_size }

/-- The macro `HT_OWNER` (lines 331-334); a division by zero is a fault. -/
def HT_OWNER (L : ht_layout) (e : Nat) : Except Fault Nat :=
  if e < L.ht_block_size_cutoff_index then
    if cadd L.ht_base_block_size 1 = 0 then .error Fault.division_by_zero
    else .ok (e / cadd L.ht_base_block_size 1)
  else if L.ht_base_block_size = 0 then .error Fault.division_by_zero
  else .ok (cadd L.ht_block_size_cutoff_rank
    (csub e L.ht_block_size_cutoff_index / L.ht_base_block_size))

/-- The macro `HT_LOCAL` (line 335). -/
def HT_LOCAL (L : ht_layout) (e : Nat) : Nat := csub e L.ht_my_start

/-- The value of `elt_my_size` (line 339). -/
def elt_my_size (n size rank : Nat) : Nat :=
  cadd (n / size) (if rank < n % size then 1 else 0)

/-- The loop of lines 347-356 of rank `rank`: the key-value pairs
`kv_pairs[i], kv_pairs[i + 1], ..`. -/
def kv_pairs_loop {St D : Type} (C : Collab St D) (fuel : Nat) (st : St) (size rank : Nat)
    (L : ht_layout) : Nat → Nat → Except Fault (List slot_data)
  | 0, _ => .ok []
  | todo + 1, i =>
    match random_up_to C fuel (C.mrg_skip st 1 (cadd (cmul i size) rank) 0)
        L.total_hash_table_size with
    | .error e => .error e
    | .ok r =>
      match HT_OWNER L r.1 with
      | .error e => .error e
      | .ok owner =>
        if owner < size then
          match kv_pairs_loop C fuel st size rank L todo (i + 1) with
          | .error e => .error e
          | .ok kvs => .ok (⟨r.1, cadd (cmul i size) rank⟩ :: kvs)
        else .error Fault.owner_lt_size

/-- Lines 339-356 of rank `rank`: its key-value pairs in the order of the loop. -/
def kv_pairs_of {St D : Type} (C : Collab St D) (fuel : Nat) (st : St) (n size rank : Nat) :
    Except Fault (List slot_data) :=
  kv_pairs_loop C fuel st size rank (ht_layout_of n size rank) (elt_my_size n size rank) 0

/-- The pairs of one sender that are owned by `rank`, in the sender's order. -/
def owned_by (L : ht_layout) (rank : Nat) (kvs : List slot_data) : List slot_data :=
  kvs.filter (fun kv =>
    match HT_OWNER L kv.index with
    | .ok owner => decide (owner = rank)
    | .error _ => false)

/-- Modelled from the spec: lines 358-396 pack the pairs by destination and
hand them to `MPI_Alltoall` and `MPI_Alltoallv`, whose code is not among the
sources.  The exchange delivers to rank `rank`, in sender-rank order, the
`(hash, value)` pairs whose `HT_OWNER` is `rank`; the argument counts the
senders gathered so far. -/
def exchange {St D : Type} (C : Collab St D) (fuel : Nat) (st : St) (n size rank : Nat) :
    Nat → Except Fault (List slot_data)
  | 0 => .ok []
  | sender + 1 =>
    match exchange C fuel st n size rank sender with
    | .error e => .error e
    | .ok indata =>
      match kv_pairs_of C fuel st n size sender with
      | .error e => .error e
      | .ok kvs => .ok (indata ++ owned_by (ht_layout_of n size rank) rank kvs)

/-- The loop of lines 403-407: insert the received pairs. -/
def mpi_insert_loop (L : ht_layout) (rank : Nat) :
    List slot_data → List slot_data → Except Fault (List slot_data)
  | [], ht => .ok ht
  | kv :: indata, ht =>
    match HT_OWNER L kv.index with
    | .error e => .error e
    | .ok owner =>
      if owner = rank then
        match hashtable_insert ht L.ht_my_size kv.index kv.value (HT_LOCAL L kv.index) with
        | .error e => .error e
        | .ok ht1 => mpi_insert_loop L rank indata ht1
      else .error Fault.owner_is_rank

/-- The function `rand_sort_mpi` on rank `rank` of a communicator of `size`
ranks; returns the array `*result_ptr`, whose length is `*result_size_ptr`. -/
def rand_sort_mpi {St D : Type} (C : Collab St D) (fuel : Nat) (size rank : Nat) (st : St)
    (n : Nat) : Except Fault (List Nat) :=
  let L := ht_layout_of n size rank
  match exchange C fuel st n size rank size with
  | .error e => .error e
  | .ok indata =>
    match mpi_insert_loop L rank indata (List.replicate L.ht_my_size ⟨UNUSED, 0⟩) with
    | .error e => .error e
    | .ok ht =>
      bucket_passes C fuel st ht L.ht_my_size L.ht_my_start indata.length
        (List.replicate indata.length 0)

/-- Every rejection loop of `random_up_to` ends within `fuel` iterations, from
every state of the generator. -/
def rejection_ends {St D : Type} (C : Collab St D) (fuel : Nat) : Prop :=
  ∀ (st : St) (n : Nat), 0 < n → n ≤ 4611686014132420609 →
    ∃ r, random_up_to C fuel st n = .ok r

/-! ## The probe order of the hash table -/

/-- The slot at position `p` of a table; positions past the end read as unused. -/
def slot_at (ht : List slot_data) (p : Nat) : slot_data := ht.getD p ⟨UNUSED, 0⟩

/-- Position `p` holds an element. -/
def used (ht : List slot_data) (p : Nat) : Bool := decide ((slot_at ht p).index ≠ UNUSED)

/-- The positions visited by the two loops of the hash-table functions, in the
order visited: `hashval, .., ht_size - 1, 0, .., hashval - 1`. -/
def probe_order (ht_size hashval : Nat) : List Nat :=
  List.range' hashval (ht_size - hashval) ++ List.range' 0 hashval

/-- The values that a scan over the positions `ps` collects for the key
`index`: it stops at the first unused slot. -/
def scan_vals (ht : List slot_data) (index : Nat) : List Nat → List Nat
  | [] => []
  | p :: ps =>
    if used ht p then
      if (slot_at ht p).index = index then (slot_at ht p).value :: scan_vals ht index ps
      else scan_vals ht index ps
    else []

/-! ## The hash table built by inserting a list of pairs -/

/-- The values of the pairs with the key `k`, in the order of `kvs`. -/
def key_vals (kvs : List slot_data) (k : Nat) : List Nat :=
  (kvs.filter (fun kv => decide (kv.index = k))).map (fun kv => kv.value)

/-- Linear probing never leaves a gap: every position before an element in the
probe order of its key holds an element. -/
def probe_inv (ht : List slot_data) (ht_size base : Nat) : Prop :=
  ∀ k p, base ≤ k → k < base + ht_size → p < ht_size → used ht p = true →
    (slot_at ht p).index = k →
    ∀ q ∈ (probe_order ht_size (k - base)).takeWhile (fun q => decide (q ≠ p)),
      used ht q = true

/-- The table `ht` of `ht_size` slots for the keys `base, .., base + ht_size - 1`
holds exactly the pairs `kvs`, placed by linear probing. -/
structure table_inv (ht : List slot_data) (ht_size base : Nat) (kvs : List slot_data) :
    Prop where
  len : ht.length = ht_size
  keys : ∀ kv ∈ kvs, base ≤ kv.index ∧ kv.index < base + ht_size ∧ kv.index ≠ UNUSED
  content : (ht.filter (fun sl => decide (sl.index ≠ UNUSED))).Perm kvs
  probe : probe_inv ht ht_size base

/-! ## The result of one bucket -/

/-- What lines 279-286 (and 437-444) leave in the result for a bucket with the
gathered values `vals`: the sorted values, shuffled with the stream of the key. -/
def bucket_result {St D : Type} (C : Collab St D) (fuel : Nat) (st : St) (i : Nat)
    (vals : List Nat) : Except Fault (List Nat) :=
  if 1 < vals.length then
    match randomly_permute C fuel (vals.insertionSort (fun x y => x ≤ y)) vals.length
        (C.mrg_skip st 1 i 100) with
    | .error e => .error e
    | .ok p => .ok p.1
  else .ok vals

/-! ## The bucket passes in terms of `bucket_result` -/

/-- The results of the buckets of the keys `i, .., i + todo - 1`, concatenated;
`vals_of` gives the values gathered for a key. -/
def buckets_result {St D : Type} (C : Collab St D) (fuel : Nat) (st : St)
    (vals_of : Nat → List Nat) : Nat → Nat → Except Fault (List Nat)
  | 0, _ => .ok []
  | todo + 1, i =>
    match bucket_result C fuel st i (vals_of i) with
    | .error e => .error e
    | .ok out =>
      match buckets_result C fuel st vals_of todo (i + 1) with
      | .error e => .error e
      | .ok outs => .ok (out ++ outs)

/-- Sum of the lengths of the value lists of the keys `i, .., i + todo - 1`. -/
def vals_total (vals_of : Nat → List Nat) : Nat → Nat → Nat
  | 0, _ => 0
  | todo + 1, i => (vals_of i).length + vals_total vals_of todo (i + 1)

/-! ## The insertion loop of `rand_sort_shared` -/

/-- The hash of the element `v`: the value drawn by `random_up_to` from the
stream of `v` (line 466), 0 if the draw does not return. -/
def hash_key {St D : Type} (C : Collab St D) (fuel : Nat) (st : St) (ht_size v : Nat) : Nat :=
  match random_up_to C fuel (C.mrg_skip st 1 v 0) ht_size with
  | .ok r => r.1
  | .error _ => 0

/-- The `(hash, value)` pairs of the elements `ids`. -/
def hash_pairs {St D : Type} (C : Collab St D) (fuel : Nat) (st : St) (ht_size : Nat)
    (ids : List Nat) : List slot_data :=
  ids.map (fun v => ⟨hash_key C fuel st ht_size v, v⟩)

/-- The first key of the slice of rank `r` when `H` keys are distributed over
`size` ranks: the closed form of `ht_my_start`. -/
def ht_start (H size r : Nat) : Nat := r * (H / size) + min r (H % size)

/-! ## The cyclic distribution of the elements in `rand_sort_mpi` -/

/-- The elements `i * size + s` that rank `s` hashes (line 348), in loop order. -/
def ids_of (n size s : Nat) : List Nat :=
  (List.range' 0 (elt_my_size n size s)).map (fun j => j * size + s)

/-- The elements hashed by the ranks `0, .., k - 1`, in rank order. -/
def dist_ids (n size : Nat) : Nat → List Nat
  | 0 => []
  | k + 1 => dist_ids n size k ++ ids_of n size k

/-! ## `random_up_to`: acceptance limits and uniformity -/

/-- The value of `acc_value_limit` (lines 58 and 65) for the raw range `range`:
`(range / n) * n` in `count_type`. -/
def acc_value_limit (range n : Nat) : Nat := cmul (range / n) n

/-- The value `acc` of lines 67-68 composed from the two draws `a` and `b`. -/
def two_draw_acc (a b : Nat) : Nat := cadd (cmul a 2147483647) b

/-- A generator whose draws alternate between `a` and `b`, starting with `a`;
its state tells which of the two comes next. -/
def draw_collab (a b : Nat) : Collab Bool Nat where
  mrg_seed _ _ _ _ _ := false
  mrg_skip st _ _ _ := st
  mrg_get_double_orig st := (0, st)
  mrg_get_uint_orig st := (if st then b else a, !st)
  btrd_binomial_distribution _ _ st := (0, st)
  dlt x y := decide (x < y)
  dsub x y := x - y
  ddiv x y := x / y
  done := 1

/-- The value returned by a call of `random_up_to`, if it returns. -/
def returned_value {St : Type} (x : Except Fault (Nat × St)) : Option Nat :=
  match x with
  | .ok r => some r.1
  | .error _ => none

/-! ## The stream offset of a block -/

/-- Modelled from the spec: `mrg_skip (st, n0, n1, n2)` advances the stream by
`n0 + 2^31 * n1 + 2^62 * n2` steps (the code of `splittable_mrg` is not among
the sources).  A state of this generator is its position in the stream, over
exact integers; the draws are those of `sample_collab`. -/
def stream_collab : Collab Nat Nat :=
  { sample_collab with
    mrg_skip := fun st n0 n1 n2 => st + n0 + 2147483648 * n1 + 4611686018427387904 * n2 }

/-! ## The stores of a run, in order -/

/-- The stores of `generate_kronecker_internal` with
`GRAPHGEN_KEEP_MULTIPLICITIES` defined: the same recursion, with the output
array replaced by the list of the values of `first_edge_index` at which a record
is stored (lines 176-178 for a leaf, the call of `make_one_edge` at line 207 for
a single edge), in the order of the stores.  The slot stored is `write_offset`
of the logged index. -/
def generate_kronecker_internal_writes {St D : Type} (C : Collab St D) (B : Build) :
    Nat → St → Nat → Nat → Nat → generator_settings D → Nat → Nat → List Nat →
      Except Fault (List Nat)
  | 0, _, _, _, _, _, _, _, _ => .error Fault.budget
  | depth + 1, orig_state, first_edge_index, num_edges, nverts, s, base_src, base_tgt, log =>
    if nverts = 0 then .error Fault.division_by_zero
    else
      let state := block_state C s orig_state nverts base_src base_tgt
      if B.GRAPHGEN_UNDIRECTED && decide (base_tgt < base_src) then
        .error Fault.base_src_le_base_tgt
      else if nverts = 1 then
        if num_edges = 0 then .error Fault.num_edges_nonzero
        else if in_my_range s first_edge_index then .ok (log ++ [first_edge_index])
        else .ok log
      else if num_edges = 1 then
        if in_my_range s first_edge_index then
          match make_one_edge_loop C B s nverts base_src base_tgt nverts state with
          | .error e => .error e
          | .ok _ => .ok (log ++ [first_edge_index])
        else .ok log
      else
        kronecker_children B s (block_counts C B s state num_edges base_src base_tgt)
          (nverts / B.GRAPHGEN_INITIATOR_SIZE) base_src base_tgt
          (fun fei count bs bt o =>
            generate_kronecker_internal_writes C B depth orig_state fei count
              (nverts / B.GRAPHGEN_INITIATOR_SIZE) s bs bt o)
          (GRAPHGEN_INITIATOR_SIZE2 B) 0 first_edge_index log

/-- The stores of `generate_kronecker` on rank `rank` of `size`, in order. -/
def generate_kronecker_writes {St D : Type} (C : Collab St D) (B : Build) (rank size : Nat)
    (seed : Nat → Nat) (logN M : Nat) (initiator : Nat → D) : Except Fault (List Nat) :=
  generate_kronecker_internal_writes C B (logN + 1)
    (C.mrg_seed (seed 0) (seed 1) (seed 2) (seed 3) (seed 4)) 0 M
    (count_pow B.GRAPHGEN_INITIATOR_SIZE logN % 18446744073709551616)
    (settings_data B rank size logN M initiator) 0 0
    []

/-- The counts `sc i, .., sc (i + todo - 1)` added up. -/
def tail_sum (sc : Nat → Nat) : Nat → Nat → Nat
  | 0, _ => 0
  | todo + 1, i => sc i + tail_sum sc todo (i + 1)

/-- The stores `ws` of a block with the edge interval `[fei, fei + len)`: what
the unpruned traversal `run_all` appends to its log, of which the worker's
traversal `run` appends the indices in the worker's range; the indices increase
and lie in the interval. -/
def block_writes {D : Type} (s : generator_settings D) (fei len : Nat)
    (run_all run : List Nat → Except Fault (List Nat)) (ws : List Nat) : Prop :=
  (∀ log, run_all log = .ok (log ++ ws)) ∧
  (∀ log, run log = .ok (log ++ ws.filter (fun f => in_my_range s f))) ∧
  ws.Pairwise (fun a b => a < b) ∧ ∀ f ∈ ws, fei ≤ f ∧ f < fei + len

/-- The number of records of the array `edges`: the worker's share (line 277)
when the output edge list is local, the whole edge list when it is global (the
comment on `out` at lines 29-33). -/
def edge_array_length (B : Build) (rank size M : Nat) : Nat :=
  if B.GRAPHGEN_DISTRIBUTED_MEMORY then compute_edge_array_size rank size M else M

/-- The edge index of slot 0 of the array `edges`. -/
def edge_array_origin (B : Build) (rank size M : Nat) : Nat :=
  if B.GRAPHGEN_DISTRIBUTED_MEMORY then my_start_edge rank size M else 0

/-! ## Overflow of a rank's local hash table -/

/-- A generator whose every draw is 0, so that every element hashes to key 0. -/
def zero_draw_collab : Collab Nat Nat :=
  { sample_collab with mrg_get_uint_orig := fun st => (0, st) }

/-! ## Independence of `rand_sort_shared` from the order of the insertions -/

/-- Modelled from the spec: the loop of lines 240-246 visiting the elements in
the order `order` instead of `0, 1, .., n - 1`; the body is that of
`shared_insert_loop`, each element using the hash drawn from its own stream. -/
def shared_insert_order {St D : Type} (C : Collab St D) (fuel : Nat) (st : St)
    (hash_table_size : Nat) : List Nat → List slot_data → Except Fault (List slot_data)
  | [], ht => .ok ht
  | i :: rest, ht =>
    match random_up_to C fuel (C.mrg_skip st 1 i 0) hash_table_size with
    | .error e => .error e
    | .ok r =>
      match hashtable_insert ht hash_table_size r.1 i r.1 with
      | .error e => .error e
      | .ok ht1 => shared_insert_order C fuel st hash_table_size rest ht1

/-- Modelled from the spec: `rand_sort_shared` with the insertions made in the
order `order`; the rest of the function is unchanged. -/
def rand_sort_shared_order {St D : Type} (C : Collab St D) (fuel : Nat) (st : St) (n : Nat)
    (order : List Nat) (result : List Nat) : Except Fault (List Nat) :=
  let hash_table_size := cadd (cmul 2 n) 128
  match shared_insert_order C fuel st hash_table_size order
      (List.replicate hash_table_size ⟨UNUSED, 0⟩) with
  | .error e => .error e
  | .ok ht => bucket_passes C fuel st ht hash_table_size 0 n result

/-! ## The block distribution of the distributed hash table -/

/-- Lines 323-330 for the rank `rank` of `size`, for a table of
`total_hash_table_size` slots. -/
def ht_layout_at (total_hash_table_size size rank : Nat) : ht_layout :=
  let ht_base_block_size := total_hash_table_size / size
  let ht_block_size_cutoff_rank := total_hash_table_size % size
  let ht_block_size_cutoff_index := cmul ht_block_size_cutoff_rank (cadd ht_base_block_size 1)
  let ht_my_size := cadd ht_base_block_size (if rank < ht_block_size_cutoff_rank then 1 else 0)
  let ht_my_start :=
    if rank < ht_block_size_cutoff_rank then cmul rank (cadd ht_base_block_size 1)
    else cadd ht_block_size_cutoff_index
      (cmul (csub rank ht_block_size_cutoff_rank) ht_base_block_size)
  { total_hash_table_size := total_hash_table_size
    ht_base_block_size := ht_base_block_size
    ht_block_size_cutoff_rank := ht_block_size_cutoff_rank
    ht_block_size_cutoff_index := ht_block_size_cutoff_index
    ht_my_size := ht_my_size
    ht_my_start := ht_my_start
    ht_my_end := cadd ht_my_start ht_my_size }

/-! # Lemmas and theorems -/

/-! ## Lemmas on `count_type` arithmetic -/

theorem cadd_eq_of_lt {a b : Nat} (h : a + b < 18446744073709551616) :
    cadd a b = a + b := by
  unfold cadd; omega

theorem csub_eq_of_le {a b : Nat} (h : b ≤ a) (ha : a < 18446744073709551616) :
    csub a b = a - b := by
  unfold csub; omega

theorem cmul_eq_of_lt {a b : Nat} (h : a * b < 18446744073709551616) :
    cmul a b = a * b := by
  unfold cmul; exact Nat.mod_eq_of_lt h

/-! ## The balanced split -/

theorem rank_mul_div_le {r size M : Nat} (h : r ≤ size) :
    r * (M / size) ≤ size * (M / size) :=
  Nat.mul_le_mul_right _ h

/-- Exact value of `my_start_edge` for a rank of the communicator. -/
theorem my_start_edge_eq {rank size M : Nat} (hM : M < 18446744073709551616)
    (hr : rank ≤ size) :
    my_start_edge rank size M = rank * (M / size) + min rank (M % size) := by
  have h1 : rank * (M / size) ≤ size * (M / size) := rank_mul_div_le hr
  have h2 : size * (M / size) + M % size = M := Nat.div_add_mod M size
  have h3 : min rank (M % size) ≤ M % size := Nat.min_le_right _ _
  have hmin : (if rank < M % size then rank else M % size) = min rank (M % size) := by
    rw [Nat.min_def]
    by_cases hlt : rank < M % size
    · have hle : rank ≤ M % size := Nat.le_of_lt hlt
      simp [hlt, hle]
    · by_cases heq : rank = M % size
      · simp [← heq]
      · have hnle : ¬ rank ≤ M % size := by omega
        simp [hlt, hnle]
  unfold my_start_edge
  rw [hmin, cmul_eq_of_lt (by omega), cadd_eq_of_lt (by omega)]

/-- Exact value of `my_end_edge` for a rank of the communicator. -/
theorem my_end_edge_eq {rank size M : Nat} (hM : M < 18446744073709551616)
    (hsize : size < 18446744073709551616) (hr : rank < size) :
    my_end_edge rank size M = (rank + 1) * (M / size) + min (rank + 1) (M % size) := by
  have h := @my_start_edge_eq (rank + 1) size M hM hr
  have hc : cadd rank 1 = rank + 1 := cadd_eq_of_lt (by omega)
  unfold my_end_edge
  unfold my_start_edge at h
  rw [hc]
  exact h

/-- The start of a rank's range does not exceed its end, and the end does not exceed `M`. -/
theorem my_start_le_end {rank size M : Nat} (hM : M < 18446744073709551616)
    (hsize : size < 18446744073709551616) (hr : rank < size) :
    my_start_edge rank size M ≤ my_end_edge rank size M ∧ my_end_edge rank size M ≤ M := by
  rw [my_start_edge_eq hM (Nat.le_of_lt hr), my_end_edge_eq hM hsize hr]
  have h1 : (rank + 1) * (M / size) ≤ size * (M / size) := rank_mul_div_le hr
  have h2 : size * (M / size) + M % size = M := Nat.div_add_mod M size
  have h3 : (rank + 1) * (M / size) = rank * (M / size) + M / size := by ring
  have h4 : min (rank + 1) (M % size) ≤ M % size := Nat.min_le_right _ _
  have h5 : min rank (M % size) ≤ min (rank + 1) (M % size) := by
    simp only [Nat.min_def]; split <;> split <;> omega
  generalize M / size = q at *
  generalize M % size = m at *
  generalize size * q = sq at *
  generalize rank * q = rq at *
  omega

/-- The end of a rank's range is the start of the next rank's range. -/
theorem my_end_eq_next_start {rank size M : Nat} (hM : M < 18446744073709551616)
    (hsize : size < 18446744073709551616) (hr : rank < size) :
    my_end_edge rank size M = my_start_edge (rank + 1) size M := by
  rw [my_end_edge_eq hM hsize hr, my_start_edge_eq hM hr]

theorem my_start_edge_zero (size M : Nat) : my_start_edge 0 size M = 0 := by
  simp only [my_start_edge, cmul, cadd, Nat.zero_mul, Nat.zero_mod, Nat.zero_add]
  split <;> omega

theorem my_start_edge_size {size M : Nat} (hM : M < 18446744073709551616)
    (hpos : 0 < size) : my_start_edge size size M = M := by
  rw [my_start_edge_eq hM (Nat.le_refl _)]
  have h2 : size * (M / size) + M % size = M := Nat.div_add_mod M size
  have h3 : M % size < size := Nat.mod_lt _ hpos
  rw [Nat.min_eq_right (Nat.le_of_lt h3)]; exact h2

/-- The size of a rank's slice is the difference of its range ends. -/
theorem compute_edge_array_size_eq {rank size M : Nat} (hM : M < 18446744073709551616)
    (hsize : size < 18446744073709551616) (hr : rank < size) :
    compute_edge_array_size rank size M
      = my_end_edge rank size M - my_start_edge rank size M := by
  have h := my_start_le_end hM hsize hr
  unfold compute_edge_array_size
  exact csub_eq_of_le h.1 (by omega)

/-- Prefix sums of the slice sizes are the range starts. -/
theorem sum_compute_edge_array_size {size M : Nat} (hM : M < 18446744073709551616)
    (hsize : size < 18446744073709551616) (k : Nat) (hk : k ≤ size) :
    ((List.range k).map (fun r => compute_edge_array_size r size M)).sum
      = my_start_edge k size M := by
  induction k with
  | zero => simp [my_start_edge_zero]
  | succ k ih =>
    have hk1 : k < size := hk
    rw [List.range_succ, List.map_append, List.sum_append, ih (Nat.le_of_lt hk1)]
    simp only [List.map_cons, List.map_nil, List.sum_cons, List.sum_nil, Nat.add_zero]
    rw [compute_edge_array_size_eq hM hsize hk1, ← my_end_eq_next_start hM hsize hk1]
    have h := my_start_le_end hM hsize hk1
    omega

/-! ## The categorical sampler -/

theorem nway_scan_bound {St D : Type} (C : Collab St D) (initiator : Nat → D) (K : Nat) :
    ∀ (todo j : Nat) (r : D), j + todo = K → 0 < todo →
      ∃ x, nway_scan C initiator K todo j r = some x ∧ j ≤ x ∧ x < K := by
  intro todo
  induction todo with
  | zero => intro j r _ h; omega
  | succ todo ih =>
    intro j r hK _
    unfold nway_scan
    by_cases hc : (C.dlt r (initiator j) || j == K - 1) = true
    · rw [if_pos hc]; exact ⟨j, rfl, Nat.le_refl _, by omega⟩
    · rw [if_neg hc]
      have hj : ¬ (j = K - 1) := by
        intro hj
        apply hc
        simp [hj]
      obtain ⟨x, hx, h1, h2⟩ := ih (j + 1) (C.dsub r (initiator j)) (by omega) (by omega)
      exact ⟨x, hx, by omega, h2⟩

theorem generate_nway_bernoulli_ok {St D : Type} (C : Collab St D) (B : Build)
    (s : generator_settings D) (st : St) (hK : 0 < GRAPHGEN_INITIATOR_SIZE2 B) :
    ∃ square st1, generate_nway_bernoulli C B s st = .ok (square, st1)
      ∧ square < GRAPHGEN_INITIATOR_SIZE2 B := by
  obtain ⟨x, hx, _, h2⟩ := nway_scan_bound C s.initiator (GRAPHGEN_INITIATOR_SIZE2 B)
    (GRAPHGEN_INITIATOR_SIZE2 B) 0 (C.mrg_get_double_orig st).1 (by omega) hK
  refine ⟨x, (C.mrg_get_double_orig st).2, ?_, h2⟩
  unfold generate_nway_bernoulli
  simp only [hx]

/-- The sampler reads only the initiator of the settings. -/
theorem generate_nway_bernoulli_congr {St D : Type} (C : Collab St D) (B : Build)
    (s s1 : generator_settings D) (h : s.initiator = s1.initiator) (st : St) :
    generate_nway_bernoulli C B s st = generate_nway_bernoulli C B s1 st := by
  unfold generate_nway_bernoulli
  rw [h]

theorem pow_succ_div (S k : Nat) (hS : 0 < S) : S ^ (k + 1) / S = S ^ k := by
  rw [Nat.pow_succ]; exact Nat.mul_div_cancel _ hS

theorem one_lt_pow_succ (S k : Nat) (hS : 2 ≤ S) : 1 < S ^ (k + 1) := by
  have h1 : 0 < S ^ k := pow_pos (by omega) k
  rw [Nat.pow_succ]
  calc 1 < 1 * S := by omega
    _ ≤ S ^ k * S := Nat.mul_le_mul_right _ h1

theorem block_child_arith (N P S bs bt so_ to_ : Nat) (U : Prop)
    (hN : N < 18446744073709551616) (h1 : bs + P * S ≤ N) (h2 : bt + P * S ≤ N)
    (h3 : U → bs = bt ∨ bs + P * S ≤ bt) (hso_ : so_ < S) (hto_ : to_ < S)
    (hdiag : U → bs = bt → so_ ≤ to_) :
    cadd bs (cmul P so_) = bs + P * so_ ∧ cadd bt (cmul P to_) = bt + P * to_
    ∧ (bs + P * so_ + P ≤ N ∧ bt + P * to_ + P ≤ N
      ∧ (U → bs + P * so_ = bt + P * to_ ∨ bs + P * so_ + P ≤ bt + P * to_)) := by
  have e1 : P * so_ + P ≤ P * S := by
    have : P * (so_ + 1) ≤ P * S := Nat.mul_le_mul_left _ hso_
    rw [Nat.mul_add, Nat.mul_one] at this; exact this
  have e2 : P * to_ + P ≤ P * S := by
    have : P * (to_ + 1) ≤ P * S := Nat.mul_le_mul_left _ hto_
    rw [Nat.mul_add, Nat.mul_one] at this; exact this
  have c1 : cmul P so_ = P * so_ := cmul_eq_of_lt (by omega)
  have c2 : cmul P to_ = P * to_ := cmul_eq_of_lt (by omega)
  rw [c1, c2, cadd_eq_of_lt (by omega), cadd_eq_of_lt (by omega)]
  refine ⟨rfl, rfl, by omega, by omega, ?_⟩
  intro hU
  rcases h3 hU with h3 | h3
  · have hle := hdiag hU h3
    rcases Nat.eq_or_lt_of_le hle with heq | hlt
    · left; rw [h3, heq]
    · right
      have : P * (so_ + 1) ≤ P * to_ := Nat.mul_le_mul_left _ hlt
      rw [Nat.mul_add, Nat.mul_one] at this
      omega
  · right; omega

/-- A sub-block with offsets `so_ < S`, `to_ < S` of a block satisfying
the invariant satisfies it again; in undirected mode a diagonal block must be
left through an offset pair with `so_ ≤ to_`. -/
theorem block_inv_child (B : Build) (N k bs bt so_ to_ : Nat)
    (hN : N < 18446744073709551616) (h : block_inv B N (k + 1) bs bt)
    (hso_ : so_ < B.GRAPHGEN_INITIATOR_SIZE) (hto_ : to_ < B.GRAPHGEN_INITIATOR_SIZE)
    (hdiag : B.GRAPHGEN_UNDIRECTED = true → bs = bt → so_ ≤ to_) :
    cadd bs (cmul (B.GRAPHGEN_INITIATOR_SIZE ^ k) so_) = bs + B.GRAPHGEN_INITIATOR_SIZE ^ k * so_
    ∧ cadd bt (cmul (B.GRAPHGEN_INITIATOR_SIZE ^ k) to_)
        = bt + B.GRAPHGEN_INITIATOR_SIZE ^ k * to_
    ∧ block_inv B N k (bs + B.GRAPHGEN_INITIATOR_SIZE ^ k * so_)
        (bt + B.GRAPHGEN_INITIATOR_SIZE ^ k * to_) := by
  unfold block_inv at h ⊢
  rw [Nat.pow_succ] at h
  exact block_child_arith N _ _ bs bt so_ to_ _ hN h.1 h.2.1 h.2.2 hso_ hto_ hdiag

theorem square_offsets_lt (S square : Nat) (h : square < S * S) :
    square / S < S ∧ square % S < S := by
  have hS : 0 < S := by
    rcases Nat.eq_zero_or_pos S with h0 | h0
    · subst h0; simp at h
    · exact h0
  exact ⟨Nat.div_lt_of_lt_mul h, Nat.mod_lt _ hS⟩

/-! ## `make_one_edge`: the walk stays inside its block -/

theorem make_one_edge_loop_ok {St D : Type} (C : Collab St D) (B : Build)
    (s : generator_settings D) (N : Nat) (hN : N < 18446744073709551616)
    (hS : 2 ≤ B.GRAPHGEN_INITIATOR_SIZE) :
    ∀ (k todo bs bt : Nat) (st : St), k ≤ todo → block_inv B N k bs bt →
      ∃ src tgt st1,
        make_one_edge_loop C B s todo bs bt (B.GRAPHGEN_INITIATOR_SIZE ^ k) st
          = .ok (src, tgt, st1)
        ∧ bs ≤ src ∧ src < bs + B.GRAPHGEN_INITIATOR_SIZE ^ k
        ∧ bt ≤ tgt ∧ tgt < bt + B.GRAPHGEN_INITIATOR_SIZE ^ k
        ∧ (B.GRAPHGEN_UNDIRECTED = true → src ≤ tgt) := by
  intro k
  induction k with
  | zero =>
    intro todo bs bt st _ hinv
    refine ⟨bs, bt, st, ?_, Nat.le_refl _, by simp, Nat.le_refl _, by simp, ?_⟩
    · cases todo <;> simp [make_one_edge_loop]
    · intro hU
      rcases hinv.2.2 hU with h | h
      · exact Nat.le_of_eq h
      · omega
  | succ k ih =>
    intro todo bs bt st hk hinv
    obtain ⟨todo, rfl⟩ : ∃ t, todo = t + 1 := ⟨todo - 1, by omega⟩
    have hgt : 1 < B.GRAPHGEN_INITIATOR_SIZE ^ (k + 1) := one_lt_pow_succ _ _ hS
    have hK : 0 < GRAPHGEN_INITIATOR_SIZE2 B := Nat.mul_pos (by omega) (by omega)
    obtain ⟨square, st1, hsq, hlt⟩ := generate_nway_bernoulli_ok C B s st hK
    obtain ⟨ho1, ho2⟩ := square_offsets_lt _ _ hlt
    have hassert : (B.GRAPHGEN_UNDIRECTED && decide (bt < bs)) = false := by
      cases hU : B.GRAPHGEN_UNDIRECTED
      · simp
      · have := hinv.2.2 hU
        simp only [Bool.true_and, decide_eq_false_iff_not]
        omega
    unfold make_one_edge_loop
    rw [if_pos hgt, hsq]
    simp only [hassert, Bool.false_eq_true, if_false, pow_succ_div _ _ (show 0 < B.GRAPHGEN_INITIATOR_SIZE by omega)]
    generalize hflip : (B.GRAPHGEN_UNDIRECTED && decide (bs = bt)
      && decide (square % B.GRAPHGEN_INITIATOR_SIZE < square / B.GRAPHGEN_INITIATOR_SIZE)) = flip
    have hdiag : B.GRAPHGEN_UNDIRECTED = true → bs = bt →
        (if flip = true then square % B.GRAPHGEN_INITIATOR_SIZE
          else square / B.GRAPHGEN_INITIATOR_SIZE)
        ≤ (if flip = true then square / B.GRAPHGEN_INITIATOR_SIZE
          else square % B.GRAPHGEN_INITIATOR_SIZE) := by
      intro hU hd
      cases flip
      · simp only [Bool.false_eq_true, if_false]
        simp [hU, hd] at hflip
        exact hflip
      · simp only [if_true]
        simp [hU, hd] at hflip
        exact Nat.le_of_lt hflip
    have hso : (if flip = true then square % B.GRAPHGEN_INITIATOR_SIZE
          else square / B.GRAPHGEN_INITIATOR_SIZE) < B.GRAPHGEN_INITIATOR_SIZE := by
      split <;> assumption
    have hto : (if flip = true then square / B.GRAPHGEN_INITIATOR_SIZE
          else square % B.GRAPHGEN_INITIATOR_SIZE) < B.GRAPHGEN_INITIATOR_SIZE := by
      split <;> assumption
    obtain ⟨e1, e2, hinv1⟩ := block_inv_child B N k bs bt _ _ hN hinv hso hto hdiag
    rw [e1, e2]
    obtain ⟨src, tgt, st2, hrun, b1, b2, b3, b4, b5⟩ := ih todo _ _ st1 (by omega) hinv1
    refine ⟨src, tgt, st2, hrun, by omega, ?_, by omega, ?_, b5⟩
    · have : B.GRAPHGEN_INITIATOR_SIZE ^ k * ((if flip = true then square % B.GRAPHGEN_INITIATOR_SIZE
          else square / B.GRAPHGEN_INITIATOR_SIZE) + 1)
          ≤ B.GRAPHGEN_INITIATOR_SIZE ^ k * B.GRAPHGEN_INITIATOR_SIZE :=
        Nat.mul_le_mul_left _ hso
      have hps : B.GRAPHGEN_INITIATOR_SIZE ^ (k + 1)
          = B.GRAPHGEN_INITIATOR_SIZE ^ k * B.GRAPHGEN_INITIATOR_SIZE := Nat.pow_succ _ _
      rw [Nat.mul_add, Nat.mul_one] at this
      omega
    · have : B.GRAPHGEN_INITIATOR_SIZE ^ k * ((if flip = true then square / B.GRAPHGEN_INITIATOR_SIZE
          else square % B.GRAPHGEN_INITIATOR_SIZE) + 1)
          ≤ B.GRAPHGEN_INITIATOR_SIZE ^ k * B.GRAPHGEN_INITIATOR_SIZE :=
        Nat.mul_le_mul_left _ hto
      have hps : B.GRAPHGEN_INITIATOR_SIZE ^ (k + 1)
          = B.GRAPHGEN_INITIATOR_SIZE ^ k * B.GRAPHGEN_INITIATOR_SIZE := Nat.pow_succ _ _
      rw [Nat.mul_add, Nat.mul_one] at this
      omega

/-! ## Clip-and-flip -/

theorem pair_div (S i j : Nat) (hj : j < S) : (i * S + j) / S = i := by
  have hS : 0 < S := by omega
  rw [Nat.add_comm, Nat.add_mul_div_right _ _ hS, Nat.div_eq_of_lt hj, Nat.zero_add]

theorem pair_mod (S i j : Nat) (hj : j < S) : (i * S + j) % S = j := by
  rw [Nat.add_comm, Nat.add_mul_mod_self_right, Nat.mod_eq_of_lt hj]

theorem pair_lt (S i j : Nat) (hi : i < S) (hj : j < S) : i * S + j < S * S := by
  have : (i + 1) * S ≤ S * S := Nat.mul_le_mul_right _ hi
  rw [Nat.add_mul, Nat.one_mul] at this
  omega

theorem pair_ne (S i j : Nat) (hij : i < j) (hj : j < S) : i * S + j ≠ j * S + i := by
  intro h
  have h1 := pair_div S i j hj
  have h2 := pair_div S j i (by omega)
  rw [h, h2] at h1
  omega

theorem flip_upto_step (S : Nat) (sc : Nat → Nat) (i j : Nat) (hij : i < j) (hj : j < S) :
    Function.update
      (Function.update (flip_upto S sc i j) (i * S + j)
        (cadd (flip_upto S sc i j (i * S + j)) (flip_upto S sc i j (j * S + i))))
      (j * S + i) 0 = flip_upto S sc i (j + 1) := by
  have hi : i < S := by omega
  have da := pair_div S i j hj
  have ma := pair_mod S i j hj
  have db := pair_div S j i hi
  have mb := pair_mod S j i hi
  have la := pair_lt S i j hi hj
  have lb := pair_lt S j i hj hi
  have hne := pair_ne S i j hij hj
  have Fa : flip_upto S sc i j (i * S + j) = sc (i * S + j) := by
    unfold flip_upto
    rw [da, ma]
    rw [if_neg (by omega), if_neg (by omega)]
  have Fb : flip_upto S sc i j (j * S + i) = sc (j * S + i) := by
    unfold flip_upto
    rw [db, mb]
    rw [if_neg (by omega), if_neg (by omega)]
  funext x
  by_cases hxb : x = j * S + i
  · subst hxb
    rw [Function.update_same]
    unfold flip_upto
    rw [db, mb, if_neg (by omega), if_pos ⟨lb, by omega, by omega⟩]
  · rw [Function.update_noteq hxb]
    by_cases hxa : x = i * S + j
    · subst hxa
      rw [Function.update_same, Fa, Fb]
      unfold flip_upto
      rw [da, ma, if_pos ⟨la, by omega, by omega⟩]
    · rw [Function.update_noteq hxa]
      have hx : S * (x / S) + x % S = x := Nat.div_add_mod x S
      have k1 : ¬ (x / S = i ∧ x % S = j) := by
        rintro ⟨h1, h2⟩
        apply hxa
        rw [← hx, h1, h2, Nat.mul_comm]
      have k2 : ¬ (x / S = j ∧ x % S = i) := by
        rintro ⟨h1, h2⟩
        apply hxb
        rw [← hx, h1, h2, Nat.mul_comm]
      unfold flip_upto
      generalize x / S = r at *
      generalize x % S = c at *
      have c1 : (x < S * S ∧ r < c ∧ (r < i ∨ (r = i ∧ c < j + 1)))
          ↔ (x < S * S ∧ r < c ∧ (r < i ∨ (r = i ∧ c < j))) := by
        constructor
        · rintro ⟨h1, h2, h3⟩; exact ⟨h1, h2, by omega⟩
        · rintro ⟨h1, h2, h3⟩; exact ⟨h1, h2, by omega⟩
      have c2 : (x < S * S ∧ c < r ∧ (c < i ∨ (c = i ∧ r < j + 1)))
          ↔ (x < S * S ∧ c < r ∧ (c < i ∨ (c = i ∧ r < j))) := by
        constructor
        · rintro ⟨h1, h2, h3⟩; exact ⟨h1, h2, by omega⟩
        · rintro ⟨h1, h2, h3⟩; exact ⟨h1, h2, by omega⟩
      simp only [c1, c2]

theorem clip_and_flip_row_eq (S : Nat) (sc : Nat → Nat) (i : Nat) :
    ∀ (todo j : Nat), i < j → j + todo = S →
      clip_and_flip_row S i todo j (flip_upto S sc i j) = flip_upto S sc i S := by
  intro todo
  induction todo with
  | zero => intro j _ h; simp only [clip_and_flip_row]; rw [← h]; rfl
  | succ todo ih =>
    intro j hij h
    unfold clip_and_flip_row
    simp only []
    rw [flip_upto_step S sc i j hij (by omega)]
    exact ih (j + 1) (by omega) (by omega)

theorem flip_upto_next_row (S : Nat) (sc : Nat → Nat) (i : Nat) :
    flip_upto S sc i S = flip_upto S sc (i + 1) (i + 1 + 1) := by
  funext x
  unfold flip_upto
  by_cases hx : x < S * S
  · have hS : 0 < S := by
      rcases Nat.eq_zero_or_pos S with h0 | h0
      · subst h0; simp at hx
      · exact h0
    have hr : x / S < S := Nat.div_lt_of_lt_mul hx
    have hc : x % S < S := Nat.mod_lt _ hS
    generalize x / S = r at *
    generalize x % S = c at *
    have c1 : (x < S * S ∧ r < c ∧ (r < i ∨ (r = i ∧ c < S)))
        ↔ (x < S * S ∧ r < c ∧ (r < i + 1 ∨ (r = i + 1 ∧ c < i + 1 + 1))) := by
      constructor
      · rintro ⟨h1, h2, h3⟩; exact ⟨h1, h2, by omega⟩
      · rintro ⟨h1, h2, h3⟩; exact ⟨h1, h2, by omega⟩
    have c2 : (x < S * S ∧ c < r ∧ (c < i ∨ (c = i ∧ r < S)))
        ↔ (x < S * S ∧ c < r ∧ (c < i + 1 ∨ (c = i + 1 ∧ r < i + 1 + 1))) := by
      constructor
      · rintro ⟨h1, h2, h3⟩; exact ⟨h1, h2, by omega⟩
      · rintro ⟨h1, h2, h3⟩; exact ⟨h1, h2, by omega⟩
    simp only [c1, c2]
  · simp [hx]

theorem clip_and_flip_rows_eq (S : Nat) (sc : Nat → Nat) :
    ∀ (todo i : Nat), i + todo = S →
      clip_and_flip_rows S todo i (flip_upto S sc i (i + 1)) = flip_upto S sc S (S + 1) := by
  intro todo
  induction todo with
  | zero => intro i h; simp only [clip_and_flip_rows]; rw [← h]; rfl
  | succ todo ih =>
    intro i h
    unfold clip_and_flip_rows
    rw [clip_and_flip_row_eq S sc i (S - (i + 1)) (i + 1) (by omega) (by omega),
      flip_upto_next_row]
    exact ih (i + 1) (by omega)

theorem flip_upto_zero (S : Nat) (sc : Nat → Nat) : flip_upto S sc 0 (0 + 1) = sc := by
  funext x
  unfold flip_upto
  generalize x / S = r
  generalize x % S = c
  rw [if_neg (by omega), if_neg (by omega)]

/-- Closed form of the clip-and-flip fold. -/
theorem clip_and_flip_eq (S : Nat) (sc : Nat → Nat) :
    clip_and_flip S sc = flip_upto S sc S (S + 1) := by
  unfold clip_and_flip
  have h := clip_and_flip_rows_eq S sc S 0 (by omega)
  rw [flip_upto_zero] at h
  exact h

/-- After the fold the counts strictly below the diagonal are zero. -/
theorem clip_and_flip_lower (S : Nat) (sc : Nat → Nat) (x : Nat) (hx : x < S * S)
    (hlow : x % S < x / S) : clip_and_flip S sc x = 0 := by
  rw [clip_and_flip_eq]
  unfold flip_upto
  have hr : x / S < S := Nat.div_lt_of_lt_mul hx
  generalize x / S = r at *
  generalize x % S = c at *
  rw [if_neg (by omega), if_pos ⟨hx, hlow, by omega⟩]

theorem frame_refl (good : generated_edge → Prop) (out : List generated_edge) :
    frame good out out :=
  ⟨rfl, fun _ _ h => Or.inl h⟩

theorem frame_trans (good : generated_edge → Prop) {a b c : List generated_edge}
    (h1 : frame good a b) (h2 : frame good b c) : frame good a c := by
  refine ⟨h2.1.trans h1.1, ?_⟩
  intro i e he
  rcases h2.2 i e he with h | h
  · exact h1.2 i e h
  · exact Or.inr h

theorem frame_set (good : generated_edge → Prop) (out : List generated_edge) (i : Nat)
    (v : generated_edge) (hv : good v) : frame good out (out.set i v) := by
  refine ⟨List.length_set .., ?_⟩
  intro j e he
  rw [List.getElem?_set] at he
  by_cases hij : i = j
  · rw [if_pos hij] at he
    by_cases hl : i < out.length
    · rw [if_pos hl] at he
      right
      have : v = e := Option.some.inj he
      rw [← this]; exact hv
    · rw [if_neg hl] at he; cases he
  · rw [if_neg hij] at he
    exact Or.inl he

theorem run_safe_store (good : generated_edge → Prop) (out : List generated_edge) (i : Nat)
    (v : generated_edge) (hv : good v) : run_safe good out (store out i v) := by
  unfold store
  by_cases h : i < out.length
  · rw [if_pos h]; exact frame_set good out i v hv
  · rw [if_neg h]; exact Or.inr (Or.inr rfl)

theorem kronecker_children_safe {D : Type} (B : Build) (s : generator_settings D)
    (good : generated_edge → Prop) (sc : Nat → Nat) (nn bs bt K : Nat)
    (descend : Nat → Nat → Nat → Nat → List generated_edge →
      Except Fault (List generated_edge))
    (hdesc : ∀ x, x < K → sc x ≠ 0 → ∀ fei o,
      run_safe good o (descend fei (sc x)
        (cadd bs (cmul nn (x / B.GRAPHGEN_INITIATOR_SIZE)))
        (cadd bt (cmul nn (x % B.GRAPHGEN_INITIATOR_SIZE))) o)) :
    ∀ (todo i fei : Nat) (out : List generated_edge), i + todo = K →
      run_safe good out (kronecker_children B s sc nn bs bt descend todo i fei out) := by
  intro todo
  induction todo with
  | zero => intro i fei out _; exact frame_refl good out
  | succ todo ih =>
    intro i fei out hK
    unfold kronecker_children
    by_cases hz : sc i ≠ 0
    · rw [if_pos hz]
      by_cases ht : descend_test s fei (sc i) = true
      · rw [if_pos ht]
        have hd := hdesc i (by omega) hz fei out
        generalize descend fei (sc i) (cadd bs (cmul nn (i / B.GRAPHGEN_INITIATOR_SIZE)))
          (cadd bt (cmul nn (i % B.GRAPHGEN_INITIATOR_SIZE))) out = r at hd
        cases r with
        | error e => exact hd
        | ok out1 =>
          have h2 := ih (i + 1) (cadd fei (sc i)) out1 (by omega)
          simp only []
          generalize kronecker_children B s sc nn bs bt descend todo (i + 1)
            (cadd fei (sc i)) out1 = r2 at h2
          cases r2 with
          | error e => exact h2
          | ok out2 => exact frame_trans good hd h2
      · rw [if_neg ht]
        exact ih (i + 1) (cadd fei (sc i)) out (by omega)
    · rw [if_neg hz]
      exact ih (i + 1) fei out (by omega)

/-- Offsets of a sub-block that is descended: in undirected mode on a diagonal
block the count below the diagonal is zero, so the column offset is at least
the row offset. -/
theorem block_counts_diag {St D : Type} (C : Collab St D) (B : Build)
    (s : generator_settings D) (state : St) (num_edges bs bt x : Nat)
    (hx : x < GRAPHGEN_INITIATOR_SIZE2 B)
    (hnz : block_counts C B s state num_edges bs bt x ≠ 0)
    (hU : B.GRAPHGEN_UNDIRECTED = true) (hd : bs = bt) :
    x / B.GRAPHGEN_INITIATOR_SIZE ≤ x % B.GRAPHGEN_INITIATOR_SIZE := by
  by_contra hcon
  apply hnz
  unfold block_counts
  simp only [hU, hd, Bool.true_and, decide_True, if_true]
  exact clip_and_flip_lower _ _ x hx (by omega)

theorem generate_kronecker_internal_safe {St D : Type} (C : Collab St D) (B : Build)
    (s : generator_settings D) (orig_state : St) (N : Nat)
    (hN : N < 18446744073709551616) (hS : 2 ≤ B.GRAPHGEN_INITIATOR_SIZE) :
    ∀ (k depth fei num_edges bs bt : Nat) (out : List generated_edge), k < depth →
      block_inv B N k bs bt →
      run_safe (edge_ok B N) out
        (generate_kronecker_internal C B depth orig_state fei num_edges
          (B.GRAPHGEN_INITIATOR_SIZE ^ k) s bs bt out) := by
  intro k
  induction k with
  | zero =>
    intro depth fei num_edges bs bt out hd hinv
    obtain ⟨depth, rfl⟩ : ∃ d, depth = d + 1 := ⟨depth - 1, by omega⟩
    have hassert : (B.GRAPHGEN_UNDIRECTED && decide (bt < bs)) = false := by
      cases hU : B.GRAPHGEN_UNDIRECTED
      · simp
      · have := hinv.2.2 hU
        simp only [Bool.true_and, decide_eq_false_iff_not]
        omega
    have hgood : ∀ m, edge_ok B N ⟨bs, bt, m⟩ := by
      intro m
      obtain ⟨h1, h2, h3⟩ := hinv
      simp only [Nat.pow_zero] at h1 h2 h3
      refine ⟨by simp only []; omega, by simp only []; omega, ?_⟩
      intro hU
      rcases h3 hU with h | h
      · exact Nat.le_of_eq h
      · simp only []; omega
    unfold generate_kronecker_internal
    simp only [Nat.pow_zero, Nat.one_ne_zero, if_false, hassert, Bool.false_eq_true, if_true]
    by_cases hE : num_edges = 0
    · rw [if_pos hE]; exact Or.inl rfl
    · rw [if_neg hE]
      by_cases hr : in_my_range s fei = true
      · rw [if_pos hr]; exact run_safe_store _ _ _ _ (hgood _)
      · rw [if_neg hr]; exact frame_refl _ _
  | succ k ih =>
    intro depth fei num_edges bs bt out hd hinv
    obtain ⟨depth, rfl⟩ : ∃ d, depth = d + 1 := ⟨depth - 1, by omega⟩
    have hgt : 1 < B.GRAPHGEN_INITIATOR_SIZE ^ (k + 1) := one_lt_pow_succ _ _ hS
    have hassert : (B.GRAPHGEN_UNDIRECTED && decide (bt < bs)) = false := by
      cases hU : B.GRAPHGEN_UNDIRECTED
      · simp
      · have := hinv.2.2 hU
        simp only [Bool.true_and, decide_eq_false_iff_not]
        omega
    unfold generate_kronecker_internal
    rw [if_neg (by omega)]
    simp only [hassert, Bool.false_eq_true, if_false]
    rw [if_neg (by omega)]
    by_cases hE : num_edges = 1
    · rw [if_pos hE]
      by_cases hr : in_my_range s fei = true
      · rw [if_pos hr]
        obtain ⟨src, tgt, st1, hrun, b1, b2, b3, b4, b5⟩ :=
          make_one_edge_loop_ok C B s N hN hS (k + 1)
            (B.GRAPHGEN_INITIATOR_SIZE ^ (k + 1)) bs bt
            (block_state C s orig_state (B.GRAPHGEN_INITIATOR_SIZE ^ (k + 1)) bs bt)
            (Nat.le_of_lt (Nat.lt_pow_self (by omega) _)) hinv
        unfold make_one_edge
        rw [hrun]
        simp only []
        cases hget : out[write_offset B s fei]? with
        | none => exact Or.inr (Or.inr rfl)
        | some e =>
          simp only []
          by_cases hm : e.multiplicity = 0
          · rw [if_pos hm]
            apply frame_set
            exact ⟨by simp only []; have := hinv.1; omega,
              by simp only []; have := hinv.2.1; omega, b5⟩
          · rw [if_neg hm]; exact Or.inr (Or.inl rfl)
      · rw [if_neg hr]; exact frame_refl _ _
    · rw [if_neg hE]
      rw [pow_succ_div _ _ (show 0 < B.GRAPHGEN_INITIATOR_SIZE by omega)]
      apply kronecker_children_safe B s (edge_ok B N) _ _ bs bt (GRAPHGEN_INITIATOR_SIZE2 B)
      · intro x hx hnz fei1 o
        obtain ⟨ho1, ho2⟩ := square_offsets_lt _ _ hx
        obtain ⟨e1, e2, hinv1⟩ := block_inv_child B N k bs bt _ _ hN hinv ho1 ho2
          (fun hU hdg => block_counts_diag C B s _ num_edges bs bt x hx hnz hU hdg)
        rw [e1, e2]
        exact ih depth fei1 _ _ _ o (by omega) hinv1
      · omega

/-! ## Vertex bounds and undirected ordering -/

/-- A representable vertex count is stored in `count_type` unchanged. -/
theorem count_pow_mod {S logN : Nat} (hN : count_pow S logN < 18446744073709551616) :
    count_pow S logN % 18446744073709551616 = count_pow S logN := Nat.mod_eq_of_lt hN

theorem settings_data_total_nverts {D : Type} (B : Build) (rank size logN M : Nat)
    (initiator : Nat → D)
    (hN : count_pow B.GRAPHGEN_INITIATOR_SIZE logN < 18446744073709551616) :
    (settings_data B rank size logN M initiator).total_nverts
      = count_pow B.GRAPHGEN_INITIATOR_SIZE logN := Nat.mod_eq_of_lt hN

theorem root_block_inv (B : Build) (logN : Nat) :
    block_inv B (count_pow B.GRAPHGEN_INITIATOR_SIZE logN) logN 0 0 := by
  unfold block_inv count_pow
  exact ⟨by omega, by omega, fun _ => Or.inl rfl⟩

theorem generate_kronecker_safe {St D : Type} (C : Collab St D) (B : Build)
    (rank size : Nat) (seed : Nat → Nat) (logN M : Nat) (initiator : Nat → D)
    (edges : List generated_edge) (hS : 2 ≤ B.GRAPHGEN_INITIATOR_SIZE)
    (hN : count_pow B.GRAPHGEN_INITIATOR_SIZE logN < 18446744073709551616) :
    run_safe (edge_ok B (count_pow B.GRAPHGEN_INITIATOR_SIZE logN)) edges
      (generate_kronecker C B rank size seed logN M initiator edges) := by
  unfold generate_kronecker
  rw [count_pow_mod hN]
  exact generate_kronecker_internal_safe C B _ _ _ hN hS logN (logN + 1) 0 M 0 0 edges
    (by omega) (root_block_inv B logN)

/-- C3 (vertex bounds).  Whatever the collaborators, the seed, `logN`, `M`, the
initiator, the rank, the communicator size and the caller's array: a run of
`generate_kronecker` that returns leaves every slot of the array either as it
was or holding a record with `src < N` and `tgt < N`, `N = S^logN`; a run that
does not return stopped at `assert (num_edges != 0)`, at
`assert (result->multiplicity == 0)` or at a store outside the caller's array. -/
theorem vertex_bounds {St D : Type} (C : Collab St D) (B : Build)
    (rank size : Nat) (seed : Nat → Nat) (logN M : Nat) (initiator : Nat → D)
    (edges : List generated_edge) (hS : 2 ≤ B.GRAPHGEN_INITIATOR_SIZE)
    (hN : count_pow B.GRAPHGEN_INITIATOR_SIZE logN < 18446744073709551616) :
    match generate_kronecker C B rank size seed logN M initiator edges with
    | .ok out =>
      out.length = edges.length ∧
      ∀ (i : Nat) (e : generated_edge), out[i]? = some e →
        edges[i]? = some e ∨
        (e.src < count_pow B.GRAPHGEN_INITIATOR_SIZE logN
          ∧ e.tgt < count_pow B.GRAPHGEN_INITIATOR_SIZE logN)
    | .error f =>
      f = Fault.num_edges_nonzero ∨ f = Fault.slot_not_used ∨ f = Fault.out_of_bounds := by
  have h := generate_kronecker_safe C B rank size seed logN M initiator edges hS hN
  generalize generate_kronecker C B rank size seed logN M initiator edges = r at h
  cases r with
  | error f => exact h
  | ok out =>
    refine ⟨h.1, ?_⟩
    intro i e he
    rcases h.2 i e he with h1 | h1
    · exact Or.inl h1
    · exact Or.inr ⟨h1.1, h1.2.1⟩

/-- Witness of C3: rank 1 of 2, `logN = 2`, `M = 6` on the sample collaborators;
the run returns three records, all below `N = 4`. -/
theorem vertex_bounds_witness :
    generate_kronecker sample_collab ⟨2, false, true⟩ 1 2 sample_seed 2 6 sample_initiator
        (zero_edges 3) = .ok [⟨0, 3, 1⟩, ⟨1, 2, 1⟩, ⟨2, 0, 1⟩]
    ∧ match generate_kronecker sample_collab ⟨2, false, true⟩ 1 2 sample_seed 2 6
        sample_initiator (zero_edges 3) with
      | .ok out =>
        out.length = (zero_edges 3).length ∧
        ∀ (i : Nat) (e : generated_edge), out[i]? = some e →
          (zero_edges 3)[i]? = some e ∨ (e.src < count_pow 2 2 ∧ e.tgt < count_pow 2 2)
      | .error f =>
        f = Fault.num_edges_nonzero ∨ f = Fault.slot_not_used ∨ f = Fault.out_of_bounds :=
  ⟨by rfl, vertex_bounds sample_collab ⟨2, false, true⟩ 1 2 sample_seed 2 6 sample_initiator
    (zero_edges 3) (by decide) (by decide)⟩

/-- C4 (undirected ordering).  With `GRAPHGEN_UNDIRECTED` defined, whatever the
collaborators, the seed, `logN`, `M`, the initiator, the rank, the size and the
caller's array: a run of `generate_kronecker` that returns leaves every slot
either as it was or holding a record with `src ≤ tgt`, and a run that does not
return did not stop at one of the two `assert (base_src <= base_tgt)`. -/
theorem undirected_ordering {St D : Type} (C : Collab St D) (B : Build)
    (rank size : Nat) (seed : Nat → Nat) (logN M : Nat) (initiator : Nat → D)
    (edges : List generated_edge) (hS : 2 ≤ B.GRAPHGEN_INITIATOR_SIZE)
    (hN : count_pow B.GRAPHGEN_INITIATOR_SIZE logN < 18446744073709551616)
    (hU : B.GRAPHGEN_UNDIRECTED = true) :
    match generate_kronecker C B rank size seed logN M initiator edges with
    | .ok out =>
      out.length = edges.length ∧
      ∀ (i : Nat) (e : generated_edge), out[i]? = some e →
        edges[i]? = some e ∨ e.src ≤ e.tgt
    | .error f => f ≠ Fault.base_src_le_base_tgt := by
  have h := generate_kronecker_safe C B rank size seed logN M initiator edges hS hN
  generalize generate_kronecker C B rank size seed logN M initiator edges = r at h
  cases r with
  | error f =>
    rcases h with h | h | h <;> (subst h; intro hc; cases hc)
  | ok out =>
    refine ⟨h.1, ?_⟩
    intro i e he
    rcases h.2 i e he with h1 | h1
    · exact Or.inl h1
    · exact Or.inr (h1.2.2 hU)

/-- Witness of C4: the single worker, `logN = 2`, `M = 6`, undirected build. -/
theorem undirected_ordering_witness :
    generate_kronecker sample_collab ⟨2, true, true⟩ 0 1 sample_seed 2 6 sample_initiator
        (zero_edges 6)
      = .ok [⟨0, 0, 1⟩, ⟨1, 1, 1⟩, ⟨0, 2, 1⟩, ⟨0, 3, 1⟩, ⟨1, 2, 2⟩, ⟨0, 0, 0⟩]
    ∧ match generate_kronecker sample_collab ⟨2, true, true⟩ 0 1 sample_seed 2 6
        sample_initiator (zero_edges 6) with
      | .ok out =>
        out.length = (zero_edges 6).length ∧
        ∀ (i : Nat) (e : generated_edge), out[i]? = some e →
          (zero_edges 6)[i]? = some e ∨ e.src ≤ e.tgt
      | .error f => f ≠ Fault.base_src_le_base_tgt :=
  ⟨by rfl, undirected_ordering sample_collab ⟨2, true, true⟩ 0 1 sample_seed 2 6
    sample_initiator (zero_edges 6) (by decide) (by decide) rfl⟩

/-! ## The worker ranges -/

/-- C7 (the worker ranges tile the edge indices).  For every `M` and every
`size ≥ 1`, `first(r) = r * (M / size) + min r (M mod size)` and
`last(r) = (r + 1) * (M / size) + min (r + 1) (M mod size)` are the values
computed by the C expressions for every `r < size`; `first(0) = 0`,
`last(size - 1) = M`, `last(r) = first(r + 1)`, `first(r) ≤ last(r)`, and the
slice sizes `compute_edge_array_size r size M` add up to `M`. -/
theorem ranges_tile (size M : Nat) (hsize : 1 ≤ size) (hint : size < 18446744073709551616)
    (hM : M < 18446744073709551616) :
    my_start_edge 0 size M = 0
    ∧ my_end_edge (size - 1) size M = M
    ∧ (∀ r, r < size →
        my_start_edge r size M = r * (M / size) + min r (M % size)
        ∧ my_end_edge r size M = (r + 1) * (M / size) + min (r + 1) (M % size)
        ∧ my_end_edge r size M = my_start_edge (r + 1) size M
        ∧ my_start_edge r size M ≤ my_end_edge r size M)
    ∧ ((List.range size).map (fun r => compute_edge_array_size r size M)).sum = M := by
  refine ⟨my_start_edge_zero size M, ?_, ?_, ?_⟩
  · rw [my_end_eq_next_start hM hint (by omega)]
    have : size - 1 + 1 = size := by omega
    rw [this]
    exact my_start_edge_size hM (by omega)
  · intro r hr
    exact ⟨my_start_edge_eq hM (Nat.le_of_lt hr), my_end_edge_eq hM hint hr,
      my_end_eq_next_start hM hint hr, (my_start_le_end hM hint hr).1⟩
  · rw [sum_compute_edge_array_size hM hint size (Nat.le_refl _)]
    exact my_start_edge_size hM (by omega)

/-- Witness of C7: `M = 10` edges on `size = 4` workers. -/
theorem ranges_tile_witness :
    my_start_edge 0 4 10 = 0
    ∧ my_end_edge (4 - 1) 4 10 = 10
    ∧ (∀ r, r < 4 →
        my_start_edge r 4 10 = r * (10 / 4) + min r (10 % 4)
        ∧ my_end_edge r 4 10 = (r + 1) * (10 / 4) + min (r + 1) (10 % 4)
        ∧ my_end_edge r 4 10 = my_start_edge (r + 1) 4 10
        ∧ my_start_edge r 4 10 ≤ my_end_edge r 4 10)
    ∧ ((List.range 4).map (fun r => compute_edge_array_size r 4 10)).sum = 10 :=
  ranges_tile 4 10 (by decide) (by decide) (by decide)

/-- C8 (balanced split).  For every `M`, `size ≥ 1` and `rank < size`,
`compute_edge_array_size rank size M` is `M / size + 1` when
`rank < M mod size` and `M / size` otherwise, and it is the difference
`my_end_edge - my_start_edge` of the values computed in `generate_kronecker`. -/
theorem balanced_split {D : Type} (B : Build) (logN : Nat) (initiator : Nat → D)
    (rank size M : Nat) (hrank : rank < size)
    (hint : size < 18446744073709551616) (hM : M < 18446744073709551616) :
    compute_edge_array_size rank size M
      = (if rank < M % size then M / size + 1 else M / size)
    ∧ compute_edge_array_size rank size M
      = (settings_data B rank size logN M initiator).my_last_edge
        - (settings_data B rank size logN M initiator).my_first_edge := by
  have h := compute_edge_array_size_eq hM hint hrank
  refine ⟨?_, h⟩
  rw [h, my_start_edge_eq hM (Nat.le_of_lt hrank), my_end_edge_eq hM hint hrank]
  have h3 : (rank + 1) * (M / size) = rank * (M / size) + M / size := by ring
  rw [h3]
  generalize M / size = q
  generalize M % size = m
  generalize rank * q = rq
  by_cases hlt : rank < m
  · rw [if_pos hlt, Nat.min_eq_left (by omega), Nat.min_eq_left (by omega)]; omega
  · rw [if_neg hlt, Nat.min_eq_right (by omega), Nat.min_eq_right (by omega)]; omega

/-- Witness of C8: `M = 2` edges on `size = 16` workers give one slot to ranks
0 and 1 and none to the other ranks. -/
theorem balanced_split_witness :
    (List.range 16).map (fun r => compute_edge_array_size r 16 2)
      = [1, 1, 0, 0, 0, 0, 0, 0, 0, 0, 0, 0, 0, 0, 0, 0]
    ∧ compute_edge_array_size 1 16 2 = (if 1 < 2 % 16 then 2 / 16 + 1 else 2 / 16)
    ∧ compute_edge_array_size 1 16 2
      = (settings_data ⟨2, false, true⟩ 1 16 6 2 sample_initiator).my_last_edge
        - (settings_data ⟨2, false, true⟩ 1 16 6 2 sample_initiator).my_first_edge :=
  ⟨by decide, balanced_split ⟨2, false, true⟩ 6 sample_initiator 1 16 2 (by decide) (by decide)
    (by decide)⟩

/-! ## Tombstone mode: the leaf writes past the worker's slice -/

/-- C10, evaluation at the failing input.  Build without
`GRAPHGEN_KEEP_MULTIPLICITIES`, distributed memory, rank 0 of 2 workers,
`logN = 0`, `M = 2`: the worker's array has `2 * compute_edge_array_size 0 2 2
= 2` entries, the root block is a leaf with `first_edge_index = 0` inside the
worker's range `[0, 1)` and `num_edges = 2`, and the tombstone loop stores at
index 2, outside the array. -/
theorem tombstones_leave_slice :
    2 * compute_edge_array_size 0 2 2 = 2
    ∧ generate_kronecker_pairs sample_collab ⟨2, false, true⟩ 0 2 sample_seed 0 2
        sample_initiator (List.replicate (2 * compute_edge_array_size 0 2 2) 0)
      = .error Fault.out_of_bounds :=
  ⟨by decide, by rfl⟩

/-! ## The counts of a block add up to its number of edges -/

/-- Two distinct indices below `K` split a sum over `range K`. -/
theorem sum_split_two (f : Nat → Nat) (K a b : Nat) (hab : a ≠ b) (ha : a < K) (hb : b < K) :
    ∃ rest, (∑ x ∈ Finset.range K, f x) = f a + f b + rest
      ∧ ∀ va vb, (∑ x ∈ Finset.range K, Function.update (Function.update f a va) b vb x)
          = va + vb + rest := by
  have hbm : b ∈ Finset.range K := Finset.mem_range.mpr hb
  have ham : a ∈ (Finset.range K).erase b := by simp [ha, hab]
  have ham2 : a ∈ Finset.range K \ {b} := by simp [Finset.mem_sdiff, ha, hab]
  refine ⟨∑ x ∈ ((Finset.range K).erase b).erase a, f x, ?_, ?_⟩
  · rw [← Finset.add_sum_erase (Finset.range K) f hbm, ← Finset.add_sum_erase _ f ham]
    omega
  · intro va vb
    rw [Finset.sum_update_of_mem hbm, Finset.sum_update_of_mem ham2,
      Finset.sdiff_singleton_eq_erase, Finset.sdiff_singleton_eq_erase]
    omega

/-- One index below `K` splits a sum over `range K`. -/
theorem sum_split_one (f : Nat → Nat) (K a : Nat) (ha : a < K) :
    ∃ rest, (∑ x ∈ Finset.range K, f x) = f a + rest
      ∧ ∀ va, (∑ x ∈ Finset.range K, Function.update f a va x) = va + rest := by
  have ham : a ∈ Finset.range K := Finset.mem_range.mpr ha
  refine ⟨∑ x ∈ (Finset.range K).erase a, f x, ?_, ?_⟩
  · rw [← Finset.add_sum_erase (Finset.range K) f ham]
  · intro va
    rw [Finset.sum_update_of_mem ham, Finset.sdiff_singleton_eq_erase]

theorem sum_update_above (f : Nat → Nat) (K a v : Nat) (ha : K ≤ a) :
    (∑ x ∈ Finset.range K, Function.update f a v x) = ∑ x ∈ Finset.range K, f x := by
  apply Finset.sum_congr rfl
  intro x hx
  have : x < K := Finset.mem_range.mp hx
  rw [Function.update_noteq (by omega)]

theorem square_counts_direct_sum {St D : Type} (C : Collab St D) (initiator : Nat → D)
    (K : Nat) (hK : 0 < K) :
    ∀ (todo : Nat) (st : St) (sc : Nat → Nat),
      (∑ x ∈ Finset.range K, sc x) + todo < 18446744073709551616 →
      (∑ x ∈ Finset.range K, (square_counts_direct C initiator K todo st sc).1 x)
        = (∑ x ∈ Finset.range K, sc x) + todo := by
  intro todo
  induction todo with
  | zero => intro st sc _; rfl
  | succ todo ih =>
    intro st sc hlt
    obtain ⟨j, hj, _, hjK⟩ := nway_scan_bound C initiator K K 0
      (C.mrg_get_double_orig st).1 (by omega) hK
    unfold square_counts_direct
    simp only [hj]
    obtain ⟨rest, h1, h2⟩ := sum_split_one sc K j hjK
    have hc : cadd (sc j) 1 = sc j + 1 := cadd_eq_of_lt (by omega)
    rw [hc]
    have h3 := h2 (sc j + 1)
    rw [ih _ _ (by omega), h3]
    omega

theorem square_counts_binomial_sum {St D : Type} (C : Collab St D) (initiator : Nat → D)
    (hbin : ∀ n p st, (C.btrd_binomial_distribution n p st).1 ≤ n) :
    ∀ (todo i left : Nat) (divisor : D) (st : St) (sc : Nat → Nat),
      left < 18446744073709551616 →
      (∑ x ∈ Finset.range (i + todo),
          (square_counts_binomial C initiator todo i left divisor st sc).1 x)
        + (square_counts_binomial C initiator todo i left divisor st sc).2.1
        = (∑ x ∈ Finset.range i, sc x) + left := by
  intro todo
  induction todo with
  | zero => intro i left divisor st sc _; rfl
  | succ todo ih =>
    intro i left divisor st sc hlt
    unfold square_counts_binomial
    simp only []
    have hc := hbin left (C.ddiv (initiator i) divisor) st
    generalize (C.btrd_binomial_distribution left (C.ddiv (initiator i) divisor) st) = r at hc
    have hs : csub left r.1 = left - r.1 := csub_eq_of_le hc hlt
    rw [hs]
    have h := ih (i + 1) (left - r.1) (C.dsub divisor (initiator i)) r.2
      (Function.update sc i r.1) (by omega)
    have e : i + (todo + 1) = i + 1 + todo := by omega
    rw [e, h, Finset.sum_range_succ, Function.update_same, sum_update_above _ _ _ _ (Nat.le_refl _)]
    omega

/-- The counts written by `make_square_counts` add up to `num_edges`. -/
theorem make_square_counts_sum {St D : Type} (C : Collab St D) (B : Build)
    (hbin : ∀ n p st, (C.btrd_binomial_distribution n p st).1 ≤ n)
    (hK : 0 < GRAPHGEN_INITIATOR_SIZE2 B) (num_edges : Nat) (st : St)
    (s : generator_settings D) (sc : Nat → Nat) (hE : num_edges < 18446744073709551616) :
    (∑ x ∈ Finset.range (GRAPHGEN_INITIATOR_SIZE2 B),
      (make_square_counts C B num_edges st s sc).1 x) = num_edges := by
  unfold make_square_counts
  by_cases h20 : num_edges ≤ 20
  · rw [if_pos h20]
    have hz : (∑ x ∈ Finset.range (GRAPHGEN_INITIATOR_SIZE2 B),
        (fun i => if i < GRAPHGEN_INITIATOR_SIZE2 B then 0 else sc i) x) = 0 := by
      apply Finset.sum_eq_zero
      intro x hx
      have : x < GRAPHGEN_INITIATOR_SIZE2 B := Finset.mem_range.mp hx
      simp only [this, if_true]
    rw [square_counts_direct_sum C s.initiator _ hK _ _ _ (by rw [hz]; omega), hz]
    omega
  · rw [if_neg h20]
    simp only []
    have h := square_counts_binomial_sum C s.initiator hbin (GRAPHGEN_INITIATOR_SIZE2 B - 1) 0
      num_edges C.done st sc hE
    generalize square_counts_binomial C s.initiator (GRAPHGEN_INITIATOR_SIZE2 B - 1) 0 num_edges
      C.done st sc = r at h
    have e : GRAPHGEN_INITIATOR_SIZE2 B = (GRAPHGEN_INITIATOR_SIZE2 B - 1) + 1 := by omega
    rw [Nat.zero_add] at h
    simp only [Finset.range_zero, Finset.sum_empty, Nat.zero_add] at h
    generalize GRAPHGEN_INITIATOR_SIZE2 B - 1 = K1 at *
    rw [e, Finset.sum_range_succ, Function.update_same,
      sum_update_above _ _ _ _ (Nat.le_refl _)]
    exact h

theorem clip_and_flip_row_sum (S i : Nat) :
    ∀ (todo j : Nat) (sc : Nat → Nat), i < j → j + todo ≤ S →
      (∑ x ∈ Finset.range (S * S), sc x) < 18446744073709551616 →
      (∑ x ∈ Finset.range (S * S), clip_and_flip_row S i todo j sc x)
        = ∑ x ∈ Finset.range (S * S), sc x := by
  intro todo
  induction todo with
  | zero => intro j sc _ _ _; rfl
  | succ todo ih =>
    intro j sc hij hj hlt
    unfold clip_and_flip_row
    simp only []
    obtain ⟨rest, h1, h2⟩ := sum_split_two sc (S * S) (i * S + j) (j * S + i)
      (pair_ne S i j hij (by omega)) (pair_lt S i j (by omega) (by omega))
      (pair_lt S j i (by omega) (by omega))
    have hc : cadd (sc (i * S + j)) (sc (j * S + i)) = sc (i * S + j) + sc (j * S + i) :=
      cadd_eq_of_lt (by omega)
    rw [hc]
    have h3 := h2 (sc (i * S + j) + sc (j * S + i)) 0
    rw [ih (j + 1) _ (by omega) (by omega) (by rw [h3]; omega), h3]
    omega

theorem clip_and_flip_rows_sum (S : Nat) :
    ∀ (todo i : Nat) (sc : Nat → Nat), i + todo ≤ S →
      (∑ x ∈ Finset.range (S * S), sc x) < 18446744073709551616 →
      (∑ x ∈ Finset.range (S * S), clip_and_flip_rows S todo i sc x)
        = ∑ x ∈ Finset.range (S * S), sc x := by
  intro todo
  induction todo with
  | zero => intro i sc _ _; rfl
  | succ todo ih =>
    intro i sc hi hlt
    unfold clip_and_flip_rows
    have h := clip_and_flip_row_sum S i (S - (i + 1)) (i + 1) sc (by omega) (by omega) hlt
    rw [ih (i + 1) _ (by omega) (by rw [h]; exact hlt), h]

/-- The clip-and-flip fold leaves the total of the counts unchanged. -/
theorem clip_and_flip_sum (S : Nat) (sc : Nat → Nat)
    (hlt : (∑ x ∈ Finset.range (S * S), sc x) < 18446744073709551616) :
    (∑ x ∈ Finset.range (S * S), clip_and_flip S sc x) = ∑ x ∈ Finset.range (S * S), sc x :=
  clip_and_flip_rows_sum S S 0 sc (by omega) hlt

/-- The counts of the recursive case add up to `num_edges`. -/
theorem block_counts_sum {St D : Type} (C : Collab St D) (B : Build)
    (hbin : ∀ n p st, (C.btrd_binomial_distribution n p st).1 ≤ n)
    (hK : 0 < GRAPHGEN_INITIATOR_SIZE2 B) (s : generator_settings D) (state : St)
    (num_edges bs bt : Nat) (hE : num_edges < 18446744073709551616) :
    (∑ x ∈ Finset.range (GRAPHGEN_INITIATOR_SIZE2 B),
      block_counts C B s state num_edges bs bt x) = num_edges := by
  have h := make_square_counts_sum C B hbin hK num_edges state s (fun _ => 0) hE
  unfold block_counts
  split
  · unfold GRAPHGEN_INITIATOR_SIZE2 at h ⊢
    rw [clip_and_flip_sum _ _ (by rw [h]; exact hE)]
    exact h
  · exact h

/-- The settings enter the counts only through the initiator. -/
theorem block_counts_congr {St D : Type} (C : Collab St D) (B : Build)
    (s s1 : generator_settings D) (h : s.initiator = s1.initiator) (state : St)
    (num_edges bs bt : Nat) :
    block_counts C B s state num_edges bs bt = block_counts C B s1 state num_edges bs bt := by
  unfold block_counts make_square_counts
  rw [h]

theorem total_multiplicity_append (l1 l2 : List generated_edge) :
    total_multiplicity (l1 ++ l2) = total_multiplicity l1 + total_multiplicity l2 := by
  simp [total_multiplicity]

theorem total_multiplicity_zero (n : Nat) :
    total_multiplicity (List.replicate n zero_edge) = 0 := by
  induction n with
  | zero => rfl
  | succ n ih =>
    rw [List.replicate_succ]
    simp only [total_multiplicity, List.map_cons, List.sum_cons] at ih ⊢
    rw [ih]; rfl

theorem children_cells_measure (B : Build) (sc : Nat → Nat) (nn bs bt : Nat)
    (cells : Nat → Nat → Nat → List generated_edge) (K : Nat)
    (hcells : ∀ x, x < K → sc x ≠ 0 →
      (cells (sc x) (cadd bs (cmul nn (x / B.GRAPHGEN_INITIATOR_SIZE)))
        (cadd bt (cmul nn (x % B.GRAPHGEN_INITIATOR_SIZE)))).length = sc x
      ∧ total_multiplicity (cells (sc x) (cadd bs (cmul nn (x / B.GRAPHGEN_INITIATOR_SIZE)))
        (cadd bt (cmul nn (x % B.GRAPHGEN_INITIATOR_SIZE)))) = sc x) :
    ∀ (todo i : Nat), i + todo = K →
      (∑ x ∈ Finset.range i, sc x) + (children_cells B sc nn bs bt cells todo i).length
        = ∑ x ∈ Finset.range K, sc x
      ∧ (∑ x ∈ Finset.range i, sc x)
          + total_multiplicity (children_cells B sc nn bs bt cells todo i)
        = ∑ x ∈ Finset.range K, sc x := by
  intro todo
  induction todo with
  | zero =>
    intro i hi
    rw [Nat.add_zero] at hi
    subst hi
    exact ⟨rfl, rfl⟩
  | succ todo ih =>
    intro i hi
    obtain ⟨h1, h2⟩ := ih (i + 1) (by omega)
    rw [Finset.sum_range_succ] at h1 h2
    unfold children_cells
    rw [List.length_append, total_multiplicity_append]
    by_cases hz : sc i ≠ 0
    · obtain ⟨c1, c2⟩ := hcells i (by omega) hz
      rw [if_pos hz, c1, c2]
      omega
    · rw [if_neg hz]
      have : sc i = 0 := by omega
      simp only [List.length_nil, total_multiplicity, List.map_nil, List.sum_nil] at h1 h2 ⊢
      omega

theorem sum_le_of_mem (f : Nat → Nat) (K x : Nat) (hx : x < K) :
    f x ≤ ∑ y ∈ Finset.range K, f y := by
  obtain ⟨rest, h, _⟩ := sum_split_one f K x hx
  omega

/-- A block's content has one slot per edge, and its multiplicities add up to
the number of edges of the block. -/
theorem block_cells_measure {St D : Type} (C : Collab St D) (B : Build)
    (hbin : ∀ n p st, (C.btrd_binomial_distribution n p st).1 ≤ n)
    (hS : 2 ≤ B.GRAPHGEN_INITIATOR_SIZE) (s : generator_settings D) (orig_state : St) :
    ∀ (k depth num_edges bs bt : Nat), k < depth →
      num_edges < 18446744073709551616 → (k = 0 → num_edges ≠ 0) →
      (block_cells C B s orig_state depth num_edges (B.GRAPHGEN_INITIATOR_SIZE ^ k) bs bt).length
        = num_edges
      ∧ total_multiplicity
          (block_cells C B s orig_state depth num_edges (B.GRAPHGEN_INITIATOR_SIZE ^ k) bs bt)
          = num_edges := by
  have hK : 0 < GRAPHGEN_INITIATOR_SIZE2 B := Nat.mul_pos (by omega) (by omega)
  intro k
  induction k with
  | zero =>
    intro depth num_edges bs bt hd hE hleaf
    obtain ⟨depth, rfl⟩ : ∃ d, depth = d + 1 := ⟨depth - 1, by omega⟩
    have := hleaf rfl
    unfold block_cells
    rw [Nat.pow_zero, if_pos rfl]
    refine ⟨by rw [List.length_cons, List.length_replicate]; omega, ?_⟩
    have hz := total_multiplicity_zero (num_edges - 1)
    simp only [total_multiplicity, List.map_cons, List.sum_cons] at hz ⊢
    rw [hz]; rfl
  | succ k ih =>
    intro depth num_edges bs bt hd hE _
    obtain ⟨depth, rfl⟩ : ∃ d, depth = d + 1 := ⟨depth - 1, by omega⟩
    have hgt : 1 < B.GRAPHGEN_INITIATOR_SIZE ^ (k + 1) := one_lt_pow_succ _ _ hS
    unfold block_cells
    rw [if_neg (by omega)]
    by_cases h2 : num_edges = 1
    · rw [if_pos h2]
      split <;> (subst h2; exact ⟨rfl, rfl⟩)
    · rw [if_neg h2, pow_succ_div _ _ (show 0 < B.GRAPHGEN_INITIATOR_SIZE by omega)]
      have hsum := block_counts_sum C B hbin hK s
        (block_state C s orig_state (B.GRAPHGEN_INITIATOR_SIZE ^ (k + 1)) bs bt)
        num_edges bs bt hE
      generalize block_counts C B s
        (block_state C s orig_state (B.GRAPHGEN_INITIATOR_SIZE ^ (k + 1)) bs bt)
        num_edges bs bt = sc at hsum
      have h := children_cells_measure B sc (B.GRAPHGEN_INITIATOR_SIZE ^ k) bs bt
        (fun count bs1 bt1 =>
          block_cells C B s orig_state depth count (B.GRAPHGEN_INITIATOR_SIZE ^ k) bs1 bt1)
        (GRAPHGEN_INITIATOR_SIZE2 B)
        (fun x hx hnz => ih depth _ _ _ (by omega)
          (by have := sum_le_of_mem sc _ x hx
              omega)
          (fun _ => hnz))
        (GRAPHGEN_INITIATOR_SIZE2 B) 0 (by omega)
      simp only [Finset.range_zero, Finset.sum_empty, Nat.zero_add] at h
      rw [hsum] at h
      exact h

theorem patched_of_empty {D : Type} (s : generator_settings D) (o : Nat)
    (out : List generated_edge) (fei : Nat) (cs : List generated_edge)
    (h : ∀ j, ¬ in_window s o fei cs.length j) : patched s o out out fei cs := by
  refine ⟨rfl, ?_⟩
  intro j
  rw [if_neg (h j)]

theorem patched_append {D : Type} (s : generator_settings D) (o : Nat)
    (out out1 out2 : List generated_edge) (fei : Nat) (cs1 cs2 : List generated_edge)
    (h1 : patched s o out out1 fei cs1) (h2 : patched s o out1 out2 (fei + cs1.length) cs2) :
    patched s o out out2 fei (cs1 ++ cs2) := by
  refine ⟨h2.1.trans h1.1, ?_⟩
  intro j
  rw [h2.2 j, h1.2 j, List.length_append]
  by_cases w2 : in_window s o (fei + cs1.length) cs2.length j
  · rw [if_pos w2, if_pos (by unfold in_window at w2 ⊢; omega)]
    rw [List.getElem?_append_right (by unfold in_window at w2; omega)]
    congr 1
    unfold in_window at w2
    omega
  · rw [if_neg w2]
    by_cases w1 : in_window s o fei cs1.length j
    · rw [if_pos w1, if_pos (by unfold in_window at w1 ⊢; omega)]
      rw [List.getElem?_append_left (by unfold in_window at w1; omega)]
    · rw [if_neg w1, if_neg (by unfold in_window at w1 w2 ⊢; omega)]

/-- Soundness of the pruning test of line 240: a sub-block that is skipped has
no edge index in the worker's range. -/
theorem descend_test_false {D : Type} (s : generator_settings D) (fei count : Nat)
    (hlt : fei + count < 18446744073709551616) (h : descend_test s fei count = false) :
    ∀ y, fei ≤ y → y < fei + count → ¬ (s.my_first_edge ≤ y ∧ y < s.my_last_edge) := by
  intro y h1 h2 h3
  unfold descend_test edge_pos at h
  rw [cadd_eq_of_lt hlt] at h
  simp only [Bool.or_eq_false_iff, decide_eq_false_iff_not, ne_eq, Decidable.not_not] at h
  obtain ⟨⟨ha, hb⟩, hc⟩ := h
  by_cases c1 : fei < s.my_first_edge
  · by_cases c2 : fei + count < s.my_first_edge
    · omega
    · by_cases c3 : fei + count < s.my_last_edge
      · simp [c2, c3] at hb
      · simp [c1, c2, c3] at hc
  · by_cases c4 : fei < s.my_last_edge
    · simp [c1, c4] at ha
    · omega

theorem leaf_cells_get (r : generated_edge) (E idx : Nat) (h : idx < E) :
    (r :: List.replicate (E - 1) zero_edge)[idx]?
      = if idx = 0 then some r else some zero_edge := by
  cases idx with
  | zero => simp
  | succ n =>
    rw [List.getElem?_cons_succ, List.getElem?_replicate, if_pos (by omega), if_neg (by omega)]

theorem kronecker_children_content {D : Type} (B : Build) (s : generator_settings D)
    (o L : Nat) (sc : Nat → Nat) (nn bs bt K : Nat)
    (descend : Nat → Nat → Nat → Nat → List generated_edge →
      Except Fault (List generated_edge))
    (cf : Nat → Nat → Nat → List generated_edge)
    (hlen : ∀ x, x < K → sc x ≠ 0 →
      (cf (sc x) (cadd bs (cmul nn (x / B.GRAPHGEN_INITIATOR_SIZE)))
        (cadd bt (cmul nn (x % B.GRAPHGEN_INITIATOR_SIZE)))).length = sc x)
    (hdesc : ∀ x, x < K → sc x ≠ 0 → ∀ (fei : Nat) (out : List generated_edge),
      fei + sc x < 18446744073709551616 → out.length = L →
      (∀ j, in_window s o fei (sc x) j → out[j]? = some zero_edge) →
      ∃ out1, descend fei (sc x) (cadd bs (cmul nn (x / B.GRAPHGEN_INITIATOR_SIZE)))
          (cadd bt (cmul nn (x % B.GRAPHGEN_INITIATOR_SIZE))) out = .ok out1
        ∧ patched s o out out1 fei
            (cf (sc x) (cadd bs (cmul nn (x / B.GRAPHGEN_INITIATOR_SIZE)))
              (cadd bt (cmul nn (x % B.GRAPHGEN_INITIATOR_SIZE))))) :
    ∀ (todo i fei : Nat) (out : List generated_edge), i + todo = K →
      fei + (children_cells B sc nn bs bt cf todo i).length < 18446744073709551616 →
      out.length = L →
      (∀ j, in_window s o fei (children_cells B sc nn bs bt cf todo i).length j →
        out[j]? = some zero_edge) →
      ∃ out1, kronecker_children B s sc nn bs bt descend todo i fei out = .ok out1
        ∧ patched s o out out1 fei (children_cells B sc nn bs bt cf todo i) := by
  intro todo
  induction todo with
  | zero =>
    intro i fei out _ _ _ _
    refine ⟨out, rfl, patched_of_empty s o out fei _ ?_⟩
    intro j hw
    unfold in_window children_cells at hw
    simp only [List.length_nil] at hw
    omega
  | succ todo ih =>
    intro i fei out hK hlt hL hzero
    unfold kronecker_children
    unfold children_cells at hlt hzero ⊢
    rw [List.length_append] at hlt hzero
    by_cases hz : sc i ≠ 0
    · rw [if_pos hz] at hlt hzero ⊢
      rw [if_pos hz]
      have hl := hlen i (by omega) hz
      rw [hl] at hlt hzero
      have hcadd : cadd fei (sc i) = fei + sc i := cadd_eq_of_lt (by omega)
      rw [hcadd]
      have tail : ∀ out1 : List generated_edge, out1.length = L →
          patched s o out out1 fei
            (cf (sc i) (cadd bs (cmul nn (i / B.GRAPHGEN_INITIATOR_SIZE)))
              (cadd bt (cmul nn (i % B.GRAPHGEN_INITIATOR_SIZE)))) →
          ∃ out2, kronecker_children B s sc nn bs bt descend todo (i + 1) (fei + sc i) out1
              = .ok out2
            ∧ patched s o out out2 fei
                (cf (sc i) (cadd bs (cmul nn (i / B.GRAPHGEN_INITIATOR_SIZE)))
                    (cadd bt (cmul nn (i % B.GRAPHGEN_INITIATOR_SIZE)))
                  ++ children_cells B sc nn bs bt cf todo (i + 1)) := by
        intro out1 hL1 hpat
        obtain ⟨out2, hrun2, hpat2⟩ := ih (i + 1) (fei + sc i) out1 (by omega) (by omega) hL1
          (by
            intro j hw
            rw [hpat.2 j, hl, if_neg (by unfold in_window at hw ⊢; omega)]
            exact hzero j (by unfold in_window at hw ⊢; omega))
        refine ⟨out2, hrun2, ?_⟩
        apply patched_append s o out out1 out2 fei _ _ hpat
        rw [hl]; exact hpat2
      by_cases ht : descend_test s fei (sc i) = true
      · obtain ⟨out1, hrun, hpat⟩ := hdesc i (by omega) hz fei out (by omega) hL
          (fun j hw => hzero j (by unfold in_window at hw ⊢; omega))
        rw [if_pos ht, hrun]
        exact tail out1 (hpat.1.trans hL) hpat
      · rw [if_neg ht]
        apply tail out hL
        apply patched_of_empty
        intro j hw
        unfold in_window at hw
        rw [hl] at hw
        exact descend_test_false s fei (sc i) (by omega) (by simpa using ht) (j + o)
          hw.1 hw.2.1 ⟨hw.2.2.1, hw.2.2.2⟩
    · rw [if_neg hz] at hlt hzero ⊢
      rw [if_neg hz]
      simp only [List.length_nil, Nat.zero_add, List.nil_append] at hlt hzero ⊢
      exact ih (i + 1) fei out (by omega) hlt hL hzero

theorem in_my_range_iff {D : Type} (s : generator_settings D) (x : Nat) :
    in_my_range s x = true ↔ (s.my_first_edge ≤ x ∧ x < s.my_last_edge) := by
  unfold in_my_range
  simp

/-- The content lemma: on an array whose slots in the window of the block are
still zero, a run over the block returns, and it replaces exactly those slots by
the block's canonical content. -/
theorem generate_kronecker_internal_content {St D : Type} (C : Collab St D) (B : Build)
    (hbin : ∀ n p st, (C.btrd_binomial_distribution n p st).1 ≤ n)
    (hS : 2 ≤ B.GRAPHGEN_INITIATOR_SIZE) (s : generator_settings D) (orig_state : St)
    (N : Nat) (hN : N < 18446744073709551616) (o L : Nat) (hp : placement B s o L) :
    ∀ (k depth fei num_edges bs bt : Nat) (out : List generated_edge), k < depth →
      block_inv B N k bs bt → (k = 0 → num_edges ≠ 0) →
      fei + num_edges < 18446744073709551616 → out.length = L →
      (∀ j, in_window s o fei num_edges j → out[j]? = some zero_edge) →
      ∃ out1,
        generate_kronecker_internal C B depth orig_state fei num_edges
          (B.GRAPHGEN_INITIATOR_SIZE ^ k) s bs bt out = .ok out1
        ∧ patched s o out out1 fei
            (block_cells C B s orig_state depth num_edges (B.GRAPHGEN_INITIATOR_SIZE ^ k)
              bs bt) := by
  have hK : 0 < GRAPHGEN_INITIATOR_SIZE2 B := Nat.mul_pos (by omega) (by omega)
  intro k
  induction k with
  | zero =>
    intro depth fei num_edges bs bt out hd hinv hleaf hlt hL hzero
    obtain ⟨depth, rfl⟩ : ∃ d, depth = d + 1 := ⟨depth - 1, by omega⟩
    have hE := hleaf rfl
    have hassert : (B.GRAPHGEN_UNDIRECTED && decide (bt < bs)) = false := by
      cases hU : B.GRAPHGEN_UNDIRECTED
      · simp
      · have := hinv.2.2 hU
        simp only [Bool.true_and, decide_eq_false_iff_not]
        omega
    unfold generate_kronecker_internal block_cells
    simp only [Nat.pow_zero, Nat.one_ne_zero, if_false, hassert, Bool.false_eq_true, if_true]
    rw [if_neg hE]
    have hclen : (({ src := bs, tgt := bt, multiplicity := num_edges } : generated_edge)
        :: List.replicate (num_edges - 1) zero_edge).length = num_edges := by
      rw [List.length_cons, List.length_replicate]; omega
    by_cases hr : in_my_range s fei = true
    · rw [if_pos hr]
      have hr2 := (in_my_range_iff s fei).mp hr
      have hw := hp.offset fei hr2.1 hr2.2 (by omega)
      have ho := hp.origin_le
      have hl := hp.last_le
      unfold store
      rw [hw, if_pos (by omega)]
      refine ⟨_, rfl, List.length_set .., ?_⟩
      intro j
      rw [hclen, List.getElem?_set]
      by_cases hj : fei - o = j
      · rw [if_pos hj, if_pos (by omega), if_pos (by unfold in_window; omega)]
        rw [leaf_cells_get _ _ _ (by omega), if_pos (by omega)]
      · rw [if_neg hj]
        by_cases hwin : in_window s o fei num_edges j
        · rw [if_pos hwin, leaf_cells_get _ _ _ (by unfold in_window at hwin; omega),
            if_neg (by unfold in_window at hwin; omega)]
          exact hzero j hwin
        · rw [if_neg hwin]
    · rw [if_neg hr]
      refine ⟨out, rfl, rfl, ?_⟩
      intro j
      rw [hclen]
      have hr2 : ¬ (s.my_first_edge ≤ fei ∧ fei < s.my_last_edge) :=
        fun h => hr ((in_my_range_iff s fei).mpr h)
      by_cases hwin : in_window s o fei num_edges j
      · rw [if_pos hwin, leaf_cells_get _ _ _ (by unfold in_window at hwin; omega),
          if_neg (by unfold in_window at hwin; omega)]
        exact hzero j hwin
      · rw [if_neg hwin]
  | succ k ih =>
    intro depth fei num_edges bs bt out hd hinv _ hlt hL hzero
    obtain ⟨depth, rfl⟩ : ∃ d, depth = d + 1 := ⟨depth - 1, by omega⟩
    have hgt : 1 < B.GRAPHGEN_INITIATOR_SIZE ^ (k + 1) := one_lt_pow_succ _ _ hS
    have hassert : (B.GRAPHGEN_UNDIRECTED && decide (bt < bs)) = false := by
      cases hU : B.GRAPHGEN_UNDIRECTED
      · simp
      · have := hinv.2.2 hU
        simp only [Bool.true_and, decide_eq_false_iff_not]
        omega
    have hne0 : ¬ (B.GRAPHGEN_INITIATOR_SIZE ^ (k + 1) = 0) := by omega
    have hne1 : ¬ (B.GRAPHGEN_INITIATOR_SIZE ^ (k + 1) = 1) := by omega
    unfold generate_kronecker_internal block_cells
    simp only [hne0, hne1, hassert, Bool.false_eq_true, if_false]
    by_cases hE : num_edges = 1
    · rw [if_pos hE, if_pos hE]
      subst hE
      obtain ⟨src, tgt, st1, hrun, -⟩ :=
        make_one_edge_loop_ok C B s N hN hS (k + 1)
          (B.GRAPHGEN_INITIATOR_SIZE ^ (k + 1)) bs bt
          (block_state C s orig_state (B.GRAPHGEN_INITIATOR_SIZE ^ (k + 1)) bs bt)
          (Nat.le_of_lt (Nat.lt_pow_self (by omega) _)) hinv
      rw [hrun]
      simp only [List.length_singleton]
      by_cases hr : in_my_range s fei = true
      · rw [if_pos hr]
        have hr2 := (in_my_range_iff s fei).mp hr
        have hw := hp.offset fei hr2.1 hr2.2 (by omega)
        have ho := hp.origin_le
        have hl := hp.last_le
        have hslot := hzero (fei - o) (by unfold in_window; omega)
        unfold make_one_edge
        rw [hrun, hw]
        simp only [hslot]
        rw [if_pos (show zero_edge.multiplicity = 0 from rfl)]
        refine ⟨_, rfl, List.length_set .., ?_⟩
        intro j
        simp only [List.length_singleton]
        rw [List.getElem?_set]
        by_cases hj : fei - o = j
        · rw [if_pos hj, if_pos (by omega), if_pos (by unfold in_window; omega)]
          have : j + o - fei = 0 := by omega
          rw [this]; rfl
        · rw [if_neg hj, if_neg (by unfold in_window; omega)]
      · rw [if_neg hr]
        refine ⟨out, rfl, rfl, ?_⟩
        intro j
        simp only [List.length_singleton]
        have hr2 : ¬ (s.my_first_edge ≤ fei ∧ fei < s.my_last_edge) :=
          fun h => hr ((in_my_range_iff s fei).mpr h)
        rw [if_neg (by unfold in_window; omega)]
    · rw [if_neg hE, if_neg hE, pow_succ_div _ _ (show 0 < B.GRAPHGEN_INITIATOR_SIZE by omega)]
      have hElt : num_edges < 18446744073709551616 := by omega
      have hsum := block_counts_sum C B hbin hK s
        (block_state C s orig_state (B.GRAPHGEN_INITIATOR_SIZE ^ (k + 1)) bs bt)
        num_edges bs bt hElt
      have hdiag := fun x hx hnz => block_counts_diag C B s
        (block_state C s orig_state (B.GRAPHGEN_INITIATOR_SIZE ^ (k + 1)) bs bt)
        num_edges bs bt x hx hnz
      generalize block_counts C B s
        (block_state C s orig_state (B.GRAPHGEN_INITIATOR_SIZE ^ (k + 1)) bs bt)
        num_edges bs bt = sc at hsum hdiag
      have hcl : ∀ x, x < GRAPHGEN_INITIATOR_SIZE2 B → sc x ≠ 0 →
          (block_cells C B s orig_state depth (sc x) (B.GRAPHGEN_INITIATOR_SIZE ^ k)
            (cadd bs (cmul (B.GRAPHGEN_INITIATOR_SIZE ^ k) (x / B.GRAPHGEN_INITIATOR_SIZE)))
            (cadd bt (cmul (B.GRAPHGEN_INITIATOR_SIZE ^ k)
              (x % B.GRAPHGEN_INITIATOR_SIZE)))).length = sc x
          ∧ total_multiplicity
            (block_cells C B s orig_state depth (sc x) (B.GRAPHGEN_INITIATOR_SIZE ^ k)
            (cadd bs (cmul (B.GRAPHGEN_INITIATOR_SIZE ^ k) (x / B.GRAPHGEN_INITIATOR_SIZE)))
            (cadd bt (cmul (B.GRAPHGEN_INITIATOR_SIZE ^ k)
              (x % B.GRAPHGEN_INITIATOR_SIZE)))) = sc x := by
        intro x hx hnz
        exact block_cells_measure C B hbin hS s orig_state k depth _ _ _ (by omega)
          (by have := sum_le_of_mem sc _ x hx
              omega)
          (fun _ => hnz)
      have hmeas := children_cells_measure B sc (B.GRAPHGEN_INITIATOR_SIZE ^ k) bs bt
        (fun count bs1 bt1 =>
          block_cells C B s orig_state depth count (B.GRAPHGEN_INITIATOR_SIZE ^ k) bs1 bt1)
        (GRAPHGEN_INITIATOR_SIZE2 B) hcl (GRAPHGEN_INITIATOR_SIZE2 B) 0 (by omega)
      simp only [Finset.range_zero, Finset.sum_empty, Nat.zero_add] at hmeas
      rw [hsum] at hmeas
      apply kronecker_children_content B s o L sc (B.GRAPHGEN_INITIATOR_SIZE ^ k) bs bt
        (GRAPHGEN_INITIATOR_SIZE2 B) _
        (fun count bs1 bt1 =>
          block_cells C B s orig_state depth count (B.GRAPHGEN_INITIATOR_SIZE ^ k) bs1 bt1)
        (fun x hx hnz => (hcl x hx hnz).1)
      · intro x hx hnz fei1 o1 hlt1 hL1 hz1
        obtain ⟨ho1, ho2⟩ := square_offsets_lt _ _ hx
        obtain ⟨e1, e2, hinv1⟩ := block_inv_child B N k bs bt _ _ hN hinv ho1 ho2
          (fun hU hdg => hdiag x hx hnz hU hdg)
        rw [e1, e2]
        exact ih depth fei1 (sc x) _ _ o1 (by omega) hinv1 (fun _ => hnz) hlt1 hL1 hz1
      · omega
      · rw [hmeas.1]; exact hlt
      · exact hL
      · rw [hmeas.1]; exact hzero

/-! ## The content of a block does not depend on the worker -/

theorem make_one_edge_loop_congr {St D : Type} (C : Collab St D) (B : Build)
    (s s1 : generator_settings D) (h : s.initiator = s1.initiator) :
    ∀ (todo bs bt nverts : Nat) (st : St),
      make_one_edge_loop C B s todo bs bt nverts st
        = make_one_edge_loop C B s1 todo bs bt nverts st := by
  intro todo
  induction todo with
  | zero => intro bs bt nverts st; rfl
  | succ todo ih =>
    intro bs bt nverts st
    unfold make_one_edge_loop
    rw [generate_nway_bernoulli_congr C B s s1 h]
    by_cases hn : 1 < nverts
    · rw [if_pos hn, if_pos hn]
      cases hg : generate_nway_bernoulli C B s1 st with
      | error e => rfl
      | ok r =>
        obtain ⟨square, st1⟩ := r
        simp only []
        split
        · rfl
        · exact ih _ _ _ _
    · rw [if_neg hn, if_neg hn]

theorem block_cells_congr {St D : Type} (C : Collab St D) (B : Build)
    (s s1 : generator_settings D) (h : s.initiator = s1.initiator)
    (ht : s.total_nverts = s1.total_nverts) (orig_state : St) :
    ∀ (depth num_edges nverts bs bt : Nat),
      block_cells C B s orig_state depth num_edges nverts bs bt
        = block_cells C B s1 orig_state depth num_edges nverts bs bt := by
  have hst : ∀ nverts bs bt, block_state C s orig_state nverts bs bt
      = block_state C s1 orig_state nverts bs bt := by
    intro nverts bs bt
    unfold block_state
    rw [ht]
  intro depth
  induction depth with
  | zero => intro num_edges nverts bs bt; rfl
  | succ depth ih =>
    intro num_edges nverts bs bt
    unfold block_cells
    rw [hst, make_one_edge_loop_congr C B s s1 h, block_counts_congr C B s s1 h]
    have hf : (fun count bs1 bt1 =>
          block_cells C B s orig_state depth count (nverts / B.GRAPHGEN_INITIATOR_SIZE) bs1 bt1)
        = (fun count bs1 bt1 =>
          block_cells C B s1 orig_state depth count (nverts / B.GRAPHGEN_INITIATOR_SIZE)
            bs1 bt1) := by
      funext count bs1 bt1
      exact ih _ _ _ _
    rw [hf]

theorem zero_edges_get (n j : Nat) :
    (zero_edges n)[j]? = if j < n then some zero_edge else none := by
  unfold zero_edges zero_edge
  rw [List.getElem?_replicate]

/-- With a non-empty root block, rank `rank` of `size` returns the slots
`[first, last)` of the whole edge list. -/
theorem generate_kronecker_slice {St D : Type} (C : Collab St D) (B : Build)
    (hbin : ∀ n p st, (C.btrd_binomial_distribution n p st).1 ≤ n)
    (hS : 2 ≤ B.GRAPHGEN_INITIATOR_SIZE) (hD : B.GRAPHGEN_DISTRIBUTED_MEMORY = true)
    (rank size : Nat) (seed : Nat → Nat) (logN M : Nat) (initiator : Nat → D)
    (hN : count_pow B.GRAPHGEN_INITIATOR_SIZE logN < 18446744073709551616)
    (hrank : rank < size) (hint : size < 18446744073709551616)
    (hM : M < 18446744073709551616) (hne : logN = 0 → M ≠ 0) :
    generate_kronecker C B rank size seed logN M initiator
        (zero_edges (compute_edge_array_size rank size M))
      = .ok (((whole_cells C B seed logN M initiator).drop (my_start_edge rank size M)).take
          (compute_edge_array_size rank size M)) := by
  have hle := my_start_le_end hM hint hrank
  have hsz := compute_edge_array_size_eq hM hint hrank
  have hp : placement B (settings_data B rank size logN M initiator)
      (my_start_edge rank size M) (compute_edge_array_size rank size M) := by
    refine ⟨Nat.le_refl _, ?_, ?_⟩
    · show my_end_edge rank size M ≤ _
      omega
    · intro x h1 _ h3
      unfold write_offset
      rw [if_pos hD]
      exact csub_eq_of_le h1 h3
  obtain ⟨out1, hrun, hlen, hpat⟩ := generate_kronecker_internal_content C B hbin hS
    (settings_data B rank size logN M initiator)
    (C.mrg_seed (seed 0) (seed 1) (seed 2) (seed 3) (seed 4))
    (count_pow B.GRAPHGEN_INITIATOR_SIZE logN) hN _ _ hp logN (logN + 1) 0 M 0 0
    (zero_edges (compute_edge_array_size rank size M)) (by omega) (root_block_inv B logN) hne
    (by omega) (by unfold zero_edges; exact List.length_replicate ..)
    (by
      intro j hw
      rw [zero_edges_get, if_pos]
      unfold in_window at hw
      have h3 : (settings_data B rank size logN M initiator).my_last_edge
          = my_end_edge rank size M := rfl
      omega)
  have hmeas := block_cells_measure C B hbin hS (settings_data B rank size logN M initiator)
    (C.mrg_seed (seed 0) (seed 1) (seed 2) (seed 3) (seed 4)) logN (logN + 1) M 0 0
    (by omega) hM hne
  have hcongr := block_cells_congr C B (settings_data B rank size logN M initiator)
    (settings_data B 0 1 logN M initiator) rfl rfl
    (C.mrg_seed (seed 0) (seed 1) (seed 2) (seed 3) (seed 4)) (logN + 1) M
    (count_pow B.GRAPHGEN_INITIATOR_SIZE logN) 0 0
  unfold count_pow at hcongr
  rw [hcongr] at hmeas hpat
  unfold generate_kronecker whole_cells
  rw [count_pow_mod hN]
  unfold count_pow
  rw [hrun]
  congr 1
  apply List.ext_getElem?
  intro j
  rw [hpat j, hmeas.1, List.getElem?_take, List.getElem?_drop, zero_edges_get]
  have h1 : (settings_data B rank size logN M initiator).my_first_edge
      = my_start_edge rank size M := rfl
  have h2 : (settings_data B rank size logN M initiator).my_last_edge
      = my_end_edge rank size M := rfl
  by_cases hj : j < compute_edge_array_size rank size M
  · simp only [hj, if_true]
    rw [if_pos (by unfold in_window; rw [h1, h2]; omega)]
    congr 1
    omega
  · simp only [hj, if_false]
    rw [if_neg (by unfold in_window; rw [h1, h2]; omega)]

theorem concat_ranks_error {α : Type} (run : Nat → Except Fault (List α)) (e : Fault)
    (h : ∀ r, run r = .error e) : ∀ k, 0 < k → concat_ranks run k = .error e := by
  intro k
  induction k with
  | zero => intro h0; omega
  | succ k ih =>
    intro _
    unfold concat_ranks
    rcases Nat.eq_zero_or_pos k with h0 | h0
    · subst h0
      simp only [concat_ranks, h]
    · rw [ih h0]

theorem concat_ranks_slices {α : Type} (run : Nat → Except Fault (List α)) (w : List α)
    (a : Nat → Nat) (size : Nat) (h0 : a 0 = 0) (hmono : ∀ r, r < size → a r ≤ a (r + 1))
    (hrun : ∀ r, r < size → run r = .ok ((w.drop (a r)).take (a (r + 1) - a r))) :
    ∀ k, k ≤ size → concat_ranks run k = .ok (w.take (a k)) := by
  intro k
  induction k with
  | zero => intro _; rw [h0]; rfl
  | succ k ih =>
    intro hk
    unfold concat_ranks
    rw [ih (by omega), hrun k (by omega)]
    simp only []
    have hm := hmono k (by omega)
    have e : a (k + 1) = a k + (a (k + 1) - a k) := by omega
    congr 1
    conv_rhs => rw [e, List.take_add]

/-- With `logN = 0` and `M = 0` the root block is an empty leaf: every run stops
at `assert (num_edges != 0)`. -/
theorem generate_kronecker_empty_leaf {St D : Type} (C : Collab St D) (B : Build)
    (rank size : Nat) (seed : Nat → Nat) (initiator : Nat → D) (edges : List generated_edge) :
    generate_kronecker C B rank size seed 0 0 initiator edges
      = .error Fault.num_edges_nonzero := by
  unfold generate_kronecker generate_kronecker_internal count_pow
  simp

theorem single_worker_range {M : Nat} (hM : M < 18446744073709551616) :
    my_start_edge 0 1 M = 0 ∧ compute_edge_array_size 0 1 M = M := by
  have h1 := my_start_edge_zero 1 M
  have h2 := compute_edge_array_size_eq hM (by omega : (1 : Nat) < 18446744073709551616)
    (by omega : 0 < 1)
  have h3 := my_end_eq_next_start hM (by omega : (1 : Nat) < 18446744073709551616)
    (by omega : 0 < 1)
  have h4 := my_start_edge_size hM (by omega : 0 < 1)
  rw [Nat.zero_add] at h3
  rw [h3, h4, h1] at h2
  exact ⟨h1, h2⟩

theorem whole_cells_length {St D : Type} (C : Collab St D) (B : Build)
    (hbin : ∀ n p st, (C.btrd_binomial_distribution n p st).1 ≤ n)
    (hS : 2 ≤ B.GRAPHGEN_INITIATOR_SIZE) (seed : Nat → Nat) (logN M : Nat)
    (initiator : Nat → D) (hM : M < 18446744073709551616) (hne : logN = 0 → M ≠ 0) :
    (whole_cells C B seed logN M initiator).length = M
    ∧ total_multiplicity (whole_cells C B seed logN M initiator) = M :=
  block_cells_measure C B hbin hS (settings_data B 0 1 logN M initiator)
    (C.mrg_seed (seed 0) (seed 1) (seed 2) (seed 3) (seed 4)) logN (logN + 1) M 0 0
    (by omega) hM hne

/-- The single worker returns the whole edge list. -/
theorem generate_kronecker_whole {St D : Type} (C : Collab St D) (B : Build)
    (hbin : ∀ n p st, (C.btrd_binomial_distribution n p st).1 ≤ n)
    (hS : 2 ≤ B.GRAPHGEN_INITIATOR_SIZE) (hD : B.GRAPHGEN_DISTRIBUTED_MEMORY = true)
    (seed : Nat → Nat) (logN M : Nat) (initiator : Nat → D)
    (hN : count_pow B.GRAPHGEN_INITIATOR_SIZE logN < 18446744073709551616)
    (hM : M < 18446744073709551616) (hne : logN = 0 → M ≠ 0) :
    generate_kronecker C B 0 1 seed logN M initiator (zero_edges (compute_edge_array_size 0 1 M))
      = .ok (whole_cells C B seed logN M initiator) := by
  have h := generate_kronecker_slice C B hbin hS hD 0 1 seed logN M initiator hN (by omega)
    (by omega) hM hne
  obtain ⟨h1, h2⟩ := single_worker_range hM
  have hl := (whole_cells_length C B hbin hS seed logN M initiator hM hne).1
  rw [h, h1, h2, List.drop_zero, List.take_of_length_le (by omega)]

/-- The ranks of a communicator return the whole edge list, cut at the range
ends. -/
theorem concat_ranks_whole {St D : Type} (C : Collab St D) (B : Build)
    (hbin : ∀ n p st, (C.btrd_binomial_distribution n p st).1 ≤ n)
    (hS : 2 ≤ B.GRAPHGEN_INITIATOR_SIZE) (hD : B.GRAPHGEN_DISTRIBUTED_MEMORY = true)
    (size : Nat) (seed : Nat → Nat) (logN M : Nat) (initiator : Nat → D)
    (hN : count_pow B.GRAPHGEN_INITIATOR_SIZE logN < 18446744073709551616)
    (hsize : 1 ≤ size) (hint : size < 18446744073709551616)
    (hM : M < 18446744073709551616) (hne : logN = 0 → M ≠ 0) :
    concat_ranks (fun r => generate_kronecker C B r size seed logN M initiator
        (zero_edges (compute_edge_array_size r size M))) size
      = .ok (whole_cells C B seed logN M initiator) := by
  have hl := (whole_cells_length C B hbin hS seed logN M initiator hM hne).1
  have h := concat_ranks_slices
    (fun r => generate_kronecker C B r size seed logN M initiator
      (zero_edges (compute_edge_array_size r size M)))
    (whole_cells C B seed logN M initiator) (fun r => my_start_edge r size M) size
    (my_start_edge_zero size M)
    (fun r hr => by
      have := my_start_le_end hM hint hr
      rw [my_end_eq_next_start hM hint hr] at this
      exact this.1)
    (fun r hr => by
      have h := generate_kronecker_slice C B hbin hS hD r size seed logN M initiator hN hr
        hint hM hne
      have e : compute_edge_array_size r size M
          = my_start_edge (r + 1) size M - my_start_edge r size M := by
        rw [compute_edge_array_size_eq hM hint hr, my_end_eq_next_start hM hint hr]
      simp only []
      rw [h, e])
    size (Nat.le_refl _)
  rw [h]
  simp only [my_start_edge_size hM (show 0 < size by omega)]
  rw [List.take_of_length_le (by omega)]

theorem sample_collab_binomial :
    ∀ n p st, (sample_collab.btrd_binomial_distribution n p st).1 ≤ n :=
  fun _ _ _ => Nat.min_le_left _ _

/-- C1 (size invariance of the edge list, keep-multiplicities build with
distributed memory).  For every collaborator whose binomial sampler returns a
value in `[0, n]`, every seed, `logN`, `M`, initiator and every `size ≥ 1`: the
arrays returned by the ranks `0, .., size - 1` on zero-initialised arrays of
`compute_edge_array_size rank size M` records, concatenated in rank order, are
the array returned by the single worker; the single worker returns an array of
`M` records unless `logN = 0` and `M = 0`, where every run stops at
`assert (num_edges != 0)`. -/
theorem size_invariance {St D : Type} (C : Collab St D) (B : Build)
    (size : Nat) (seed : Nat → Nat) (logN M : Nat) (initiator : Nat → D)
    (hbin : ∀ n p st, (C.btrd_binomial_distribution n p st).1 ≤ n)
    (hS : 2 ≤ B.GRAPHGEN_INITIATOR_SIZE) (hD : B.GRAPHGEN_DISTRIBUTED_MEMORY = true)
    (hN : count_pow B.GRAPHGEN_INITIATOR_SIZE logN < 18446744073709551616)
    (hsize : 1 ≤ size) (hint : size < 18446744073709551616)
    (hM : M < 18446744073709551616) :
    concat_ranks (fun r => generate_kronecker C B r size seed logN M initiator
        (zero_edges (compute_edge_array_size r size M))) size
      = generate_kronecker C B 0 1 seed logN M initiator
          (zero_edges (compute_edge_array_size 0 1 M))
    ∧ match generate_kronecker C B 0 1 seed logN M initiator
          (zero_edges (compute_edge_array_size 0 1 M)) with
      | .ok whole => whole.length = M
      | .error f => f = Fault.num_edges_nonzero ∧ logN = 0 ∧ M = 0 := by
  by_cases hne : logN = 0 → M ≠ 0
  · rw [concat_ranks_whole C B hbin hS hD size seed logN M initiator hN hsize hint hM hne,
      generate_kronecker_whole C B hbin hS hD seed logN M initiator hN hM hne]
    exact ⟨rfl, (whole_cells_length C B hbin hS seed logN M initiator hM hne).1⟩
  · have h0 : logN = 0 ∧ M = 0 := by omega
    obtain ⟨h1, h2⟩ := h0
    subst h1 h2
    rw [concat_ranks_error _ Fault.num_edges_nonzero
      (fun r => generate_kronecker_empty_leaf C B r size seed initiator _) size (by omega),
      generate_kronecker_empty_leaf]
    exact ⟨rfl, rfl, rfl, rfl⟩

/-- Witness of C1: two workers against one, `logN = 2`, `M = 6`. -/
theorem size_invariance_witness :
    generate_kronecker sample_collab ⟨2, false, true⟩ 0 1 sample_seed 2 6 sample_initiator
        (zero_edges (compute_edge_array_size 0 1 6))
      = .ok [⟨0, 0, 1⟩, ⟨1, 1, 1⟩, ⟨0, 2, 1⟩, ⟨0, 3, 1⟩, ⟨1, 2, 1⟩, ⟨2, 0, 1⟩]
    ∧ (concat_ranks (fun r => generate_kronecker sample_collab ⟨2, false, true⟩ r 2 sample_seed
          2 6 sample_initiator (zero_edges (compute_edge_array_size r 2 6))) 2
        = generate_kronecker sample_collab ⟨2, false, true⟩ 0 1 sample_seed 2 6
            sample_initiator (zero_edges (compute_edge_array_size 0 1 6))
      ∧ match generate_kronecker sample_collab ⟨2, false, true⟩ 0 1 sample_seed 2 6
            sample_initiator (zero_edges (compute_edge_array_size 0 1 6)) with
        | .ok whole => whole.length = 6
        | .error f => f = Fault.num_edges_nonzero ∧ 2 = 0 ∧ 6 = 0) :=
  ⟨by rfl, size_invariance sample_collab ⟨2, false, true⟩ 2 sample_seed 2 6 sample_initiator
    sample_collab_binomial (by decide) rfl (by decide) (by decide) (by decide) (by decide)⟩

/-- C2 (edge-count conservation, keep-multiplicities build with distributed
memory).  For every collaborator whose binomial sampler returns a value in
`[0, n]`, every seed, `logN`, `M`, initiator and `size ≥ 1`, on zero-initialised
arrays: the multiplicity fields of all records of all workers' arrays add up to
`M`; the workers return unless `logN = 0` and `M = 0`. -/
theorem edge_count_conservation {St D : Type} (C : Collab St D) (B : Build)
    (size : Nat) (seed : Nat → Nat) (logN M : Nat) (initiator : Nat → D)
    (hbin : ∀ n p st, (C.btrd_binomial_distribution n p st).1 ≤ n)
    (hS : 2 ≤ B.GRAPHGEN_INITIATOR_SIZE) (hD : B.GRAPHGEN_DISTRIBUTED_MEMORY = true)
    (hN : count_pow B.GRAPHGEN_INITIATOR_SIZE logN < 18446744073709551616)
    (hsize : 1 ≤ size) (hint : size < 18446744073709551616)
    (hM : M < 18446744073709551616) :
    match concat_ranks (fun r => generate_kronecker C B r size seed logN M initiator
        (zero_edges (compute_edge_array_size r size M))) size with
    | .ok all => total_multiplicity all = M
    | .error f => f = Fault.num_edges_nonzero ∧ logN = 0 ∧ M = 0 := by
  by_cases hne : logN = 0 → M ≠ 0
  · rw [concat_ranks_whole C B hbin hS hD size seed logN M initiator hN hsize hint hM hne]
    exact (whole_cells_length C B hbin hS seed logN M initiator hM hne).2
  · have h0 : logN = 0 ∧ M = 0 := by omega
    obtain ⟨h1, h2⟩ := h0
    subst h1 h2
    rw [concat_ranks_error _ Fault.num_edges_nonzero
      (fun r => generate_kronecker_empty_leaf C B r size seed initiator _) size (by omega)]
    exact ⟨rfl, rfl, rfl⟩

/-- Witness of C2: three workers, `logN = 3`, `M = 30`. -/
theorem edge_count_conservation_witness :
    (match concat_ranks (fun r => generate_kronecker sample_collab ⟨2, false, true⟩ r 3
        sample_seed 3 30 sample_initiator (zero_edges (compute_edge_array_size r 3 30))) 3 with
      | .ok all => some (total_multiplicity all)
      | .error _ => none) = some 30
    ∧ match concat_ranks (fun r => generate_kronecker sample_collab ⟨2, false, true⟩ r 3
        sample_seed 3 30 sample_initiator (zero_edges (compute_edge_array_size r 3 30))) 3 with
      | .ok all => total_multiplicity all = 30
      | .error f => f = Fault.num_edges_nonzero ∧ 3 = 0 ∧ 30 = 0 :=
  ⟨by rfl, edge_count_conservation sample_collab ⟨2, false, true⟩ 3 sample_seed 3 30
    sample_initiator sample_collab_binomial (by decide) rfl (by decide) (by decide) (by decide)
    (by decide)⟩

/-- C9, counterexample.  Rank 0 of 2 workers, `logN = 0`, `M = 2`: the worker is
assigned `compute_edge_array_size 0 2 2 = 1` edge, and its array holds the one
record `(0, 0, 2)`, whose multiplicity is 2. -/
theorem per_worker_sum_counterexample :
    compute_edge_array_size 0 2 2 = 1
    ∧ generate_kronecker sample_collab ⟨2, false, true⟩ 0 2 sample_seed 0 2 sample_initiator
        (zero_edges (compute_edge_array_size 0 2 2)) = .ok [⟨0, 0, 2⟩]
    ∧ total_multiplicity [⟨0, 0, 2⟩] ≠ compute_edge_array_size 0 2 2 :=
  ⟨by decide, by rfl, by decide⟩

/-- C9 as amended.  In the keep-multiplicities build with distributed memory,
for every `size ≥ 1` and `rank < size` (root block not an empty leaf), worker
`rank` returns the slots `[first, last)` of the edge list returned by the single
worker, so the multiplicities of its array add up to the multiplicities of those
slots of the single worker's edge list; for `size = 1` the sum is `M`. -/
theorem per_worker_multiplicity {St D : Type} (C : Collab St D) (B : Build)
    (rank size : Nat) (seed : Nat → Nat) (logN M : Nat) (initiator : Nat → D)
    (hbin : ∀ n p st, (C.btrd_binomial_distribution n p st).1 ≤ n)
    (hS : 2 ≤ B.GRAPHGEN_INITIATOR_SIZE) (hD : B.GRAPHGEN_DISTRIBUTED_MEMORY = true)
    (hN : count_pow B.GRAPHGEN_INITIATOR_SIZE logN < 18446744073709551616)
    (hrank : rank < size) (hint : size < 18446744073709551616)
    (hM : M < 18446744073709551616) (hne : logN = 0 → M ≠ 0) :
    ∃ part whole,
      generate_kronecker C B rank size seed logN M initiator
          (zero_edges (compute_edge_array_size rank size M)) = .ok part
      ∧ generate_kronecker C B 0 1 seed logN M initiator
          (zero_edges (compute_edge_array_size 0 1 M)) = .ok whole
      ∧ part = (whole.drop (my_start_edge rank size M)).take
          (my_end_edge rank size M - my_start_edge rank size M)
      ∧ total_multiplicity part
          = total_multiplicity ((whole.drop (my_start_edge rank size M)).take
              (my_end_edge rank size M - my_start_edge rank size M))
      ∧ total_multiplicity whole = M
      ∧ (size = 1 → total_multiplicity part = M) := by
  have hw := generate_kronecker_whole C B hbin hS hD seed logN M initiator hN hM hne
  have hs := generate_kronecker_slice C B hbin hS hD rank size seed logN M initiator hN hrank
    hint hM hne
  have hm := whole_cells_length C B hbin hS seed logN M initiator hM hne
  rw [compute_edge_array_size_eq hM hint hrank] at hs
  rw [compute_edge_array_size_eq hM hint hrank]
  refine ⟨_, _, hs, hw, rfl, rfl, hm.2, ?_⟩
  intro h1
  subst h1
  have hr0 : rank = 0 := by omega
  subst hr0
  obtain ⟨e1, e2⟩ := single_worker_range hM
  have e3 := compute_edge_array_size_eq hM hint hrank
  rw [e2, e1] at e3
  rw [e1, ← e3, List.drop_zero, List.take_of_length_le (by omega)]
  exact hm.2

/-- Witness of amended C9 at the input of the counterexample. -/
theorem per_worker_multiplicity_witness :
    ∃ part whole,
      generate_kronecker sample_collab ⟨2, false, true⟩ 0 2 sample_seed 0 2 sample_initiator
          (zero_edges (compute_edge_array_size 0 2 2)) = .ok part
      ∧ generate_kronecker sample_collab ⟨2, false, true⟩ 0 1 sample_seed 0 2 sample_initiator
          (zero_edges (compute_edge_array_size 0 1 2)) = .ok whole
      ∧ part = (whole.drop (my_start_edge 0 2 2)).take
          (my_end_edge 0 2 2 - my_start_edge 0 2 2)
      ∧ total_multiplicity part
          = total_multiplicity ((whole.drop (my_start_edge 0 2 2)).take
              (my_end_edge 0 2 2 - my_start_edge 0 2 2))
      ∧ total_multiplicity whole = 2
      ∧ (2 = 1 → total_multiplicity part = 2) :=
  per_worker_multiplicity sample_collab ⟨2, false, true⟩ 0 2 sample_seed 0 2 sample_initiator
    sample_collab_binomial (by decide) rfl (by decide) (by decide) (by decide) (by decide)
    (by decide)

/-! ## `random_up_to` returns a value below `n` -/

theorem random_up_to_one_draw_lt {St D : Type} (C : Collab St D) (n limit : Nat)
    (hn : 0 < n) :
    ∀ (fuel : Nat) (st : St),
      match random_up_to_one_draw C n limit fuel st with
      | .ok r => r.1 < n
      | .error f => f = Fault.budget := by
  intro fuel
  induction fuel with
  | zero => intro st; rfl
  | succ fuel ih =>
    intro st
    unfold random_up_to_one_draw
    simp only []
    by_cases h : limit ≤ (C.mrg_get_uint_orig st).1
    · rw [if_pos h]; exact ih _
    · rw [if_neg h]; exact Nat.mod_lt _ hn

theorem random_up_to_two_draws_lt {St D : Type} (C : Collab St D) (n limit : Nat)
    (hn : 0 < n) :
    ∀ (fuel : Nat) (st : St),
      match random_up_to_two_draws C n limit fuel st with
      | .ok r => r.1 < n
      | .error f => f = Fault.budget := by
  intro fuel
  induction fuel with
  | zero => intro st; rfl
  | succ fuel ih =>
    intro st
    unfold random_up_to_two_draws
    simp only []
    by_cases h : limit ≤ cadd (cmul (C.mrg_get_uint_orig st).1 2147483647)
        (C.mrg_get_uint_orig (C.mrg_get_uint_orig st).2).1
    · rw [if_pos h]; exact ih _
    · rw [if_neg h]; exact Nat.mod_lt _ hn

/-- Inside its domain `random_up_to` returns a value below `n`, unless its
rejection loop exhausts the budget. -/
theorem random_up_to_lt {St D : Type} (C : Collab St D) (fuel : Nat) (st : St) (n : Nat)
    (hn : 0 < n) (hdom : n ≤ 4611686014132420609) :
    match random_up_to C fuel st n with
    | .ok r => r.1 < n
    | .error f => f = Fault.budget ∧ ¬ rejection_ends C fuel := by
  have h : match random_up_to C fuel st n with
      | .ok r => r.1 < n
      | .error f => f = Fault.budget := by
    unfold random_up_to
    rw [if_pos ⟨hn, hdom⟩]
    by_cases h1 : n = 1
    · rw [if_pos h1]; exact hn
    · rw [if_neg h1]
      by_cases h2 : n ≤ 2147483647
      · rw [if_pos h2]; exact random_up_to_one_draw_lt C n _ hn fuel st
      · rw [if_neg h2, if_pos hdom]; exact random_up_to_two_draws_lt C n _ hn fuel st
  cases hr : random_up_to C fuel st n with
  | error e =>
    rw [hr] at h
    refine ⟨h, fun hall => ?_⟩
    obtain ⟨r, hr2⟩ := hall st n hn hdom
    rw [hr] at hr2
    cases hr2
  | ok r => rw [hr] at h; exact h

theorem getElem?_eq_slot_at (ht : List slot_data) (p : Nat) (h : p < ht.length) :
    ht[p]? = some (slot_at ht p) := by
  unfold slot_at
  rw [List.getD_eq_getElem?_getD, List.getElem?_eq_getElem h]
  rfl

theorem used_iff (ht : List slot_data) (p : Nat) :
    used ht p = true ↔ (slot_at ht p).index ≠ UNUSED := by
  unfold used; simp

theorem scan_vals_cons (ht : List slot_data) (index p : Nat) (ps : List Nat) :
    scan_vals ht index (p :: ps)
      = if used ht p then
          if (slot_at ht p).index = index then (slot_at ht p).value :: scan_vals ht index ps
          else scan_vals ht index ps
        else [] := rfl

theorem scan_vals_append (ht : List slot_data) (index : Nat) (ps qs : List Nat) :
    scan_vals ht index (ps ++ qs)
      = if ps.all (used ht) then scan_vals ht index ps ++ scan_vals ht index qs
        else scan_vals ht index ps := by
  induction ps with
  | nil => rfl
  | cons p ps ih =>
    rw [List.cons_append, scan_vals_cons, scan_vals_cons, List.all_cons, ih]
    by_cases hu : used ht p = true
    · rw [if_pos hu, if_pos hu, hu, Bool.true_and]
      by_cases hk : (slot_at ht p).index = index
      · rw [if_pos hk, if_pos hk]
        by_cases ha : ps.all (used ht) = true
        · rw [if_pos ha, if_pos ha]; rfl
        · rw [if_neg ha, if_neg ha]
      · rw [if_neg hk, if_neg hk]
    · rw [if_neg hu, if_neg hu]
      have : used ht p = false := by simpa using hu
      rw [this, Bool.false_and, if_neg (by simp)]

theorem takeWhile_length_eq_iff {α : Type} (p : α → Bool) (l : List α) :
    (l.takeWhile p).length = l.length ↔ l.all p = true := by
  induction l with
  | nil => simp
  | cons a l ih =>
    rw [List.takeWhile_cons, List.all_cons]
    by_cases h : p a = true
    · rw [if_pos h, h, Bool.true_and, List.length_cons, List.length_cons]
      constructor
      · intro h1; exact ih.mp (by omega)
      · intro h1; rw [ih.mpr h1]
    · rw [if_neg h]
      have : p a = false := by simpa using h
      rw [this, Bool.false_and]
      simp

theorem set_length_append {α : Type} (pre : List α) (r0 v : α) (rest : List α) :
    (pre ++ r0 :: rest).set pre.length v = pre ++ v :: rest := by
  induction pre with
  | nil => rfl
  | cons a pre ih =>
    rw [List.cons_append, List.length_cons, List.set_cons_succ, ih]
    rfl

/-- One loop of `hashtable_get_values` in terms of `scan_vals`: the values are
appended behind the `x` entries already gathered. -/
theorem hashtable_get_scan_eq (ht : List slot_data) (index : Nat) :
    ∀ (todo i : Nat) (pre rest : List Nat), i + todo ≤ ht.length →
      (scan_vals ht index (List.range' i todo)).length ≤ rest.length →
      hashtable_get_scan ht index todo i pre.length (pre ++ rest)
        = .ok (pre.length + (scan_vals ht index (List.range' i todo)).length,
            i + ((List.range' i todo).takeWhile (used ht)).length,
            pre ++ scan_vals ht index (List.range' i todo)
              ++ rest.drop (scan_vals ht index (List.range' i todo)).length) := by
  intro todo
  induction todo with
  | zero =>
    intro i pre rest _ _
    simp [hashtable_get_scan, scan_vals]
  | succ todo ih =>
    intro i pre rest hlen hx
    unfold hashtable_get_scan
    rw [getElem?_eq_slot_at ht i (by omega)]
    simp only []
    rw [List.range'_succ, scan_vals_cons, List.takeWhile_cons] at *
    by_cases hu : used ht i = true
    · have hu2 : ¬ ((slot_at ht i).index = UNUSED) := (used_iff ht i).mp hu
      rw [if_neg hu2]
      rw [if_pos hu] at hx ⊢
      rw [if_pos hu]
      by_cases hk : (slot_at ht i).index = index
      · rw [if_pos hk] at hx ⊢
        rw [if_pos hk]
        rw [List.length_cons] at hx
        obtain ⟨r0, rest1, rfl⟩ : ∃ r0 rest1, rest = r0 :: rest1 := by
          cases rest with
          | nil => simp at hx
          | cons r0 rest1 => exact ⟨r0, rest1, rfl⟩
        unfold store
        rw [if_pos (by rw [List.length_append, List.length_cons]; omega)]
        simp only []
        rw [set_length_append]
        have e : pre ++ (slot_at ht i).value :: rest1
            = (pre ++ [(slot_at ht i).value]) ++ rest1 := by simp
        have e2 : (pre ++ [(slot_at ht i).value]).length = pre.length + 1 := by simp
        rw [e, ← e2, ih (i + 1) (pre ++ [(slot_at ht i).value]) rest1 (by omega)
          (by rw [List.length_cons] at hx; omega)]
        simp only [List.length_cons, List.length_append, List.length_nil, List.drop_succ_cons,
          List.append_assoc, List.singleton_append, Nat.add_assoc, Nat.add_comm 1]
      · rw [if_neg hk] at hx ⊢
        rw [if_neg hk, ih (i + 1) pre rest (by omega) hx]
        simp only [List.length_cons, Nat.add_assoc, Nat.add_comm 1]
    · have hu2 : (slot_at ht i).index = UNUSED := by
        by_contra hcon; exact hu ((used_iff ht i).mpr hcon)
      rw [if_pos hu2, if_neg hu, if_neg hu]
      simp

/-- One loop of `hashtable_count_key` in terms of `scan_vals`. -/
theorem hashtable_count_scan_eq (ht : List slot_data) (index : Nat) :
    ∀ (todo i c : Nat), i + todo ≤ ht.length →
      hashtable_count_scan ht index todo i c
        = .ok (c + (scan_vals ht index (List.range' i todo)).length,
            i + ((List.range' i todo).takeWhile (used ht)).length) := by
  intro todo
  induction todo with
  | zero =>
    intro i c _
    simp [hashtable_count_scan, scan_vals]
  | succ todo ih =>
    intro i c hlen
    unfold hashtable_count_scan
    rw [getElem?_eq_slot_at ht i (by omega)]
    simp only []
    rw [List.range'_succ, scan_vals_cons, List.takeWhile_cons]
    by_cases hu : used ht i = true
    · have hu2 : ¬ ((slot_at ht i).index = UNUSED) := (used_iff ht i).mp hu
      rw [if_neg hu2, if_pos hu, if_pos hu, ih (i + 1) _ (by omega)]
      by_cases hk : (slot_at ht i).index = index
      · rw [if_pos hk, if_pos hk]
        simp only [List.length_cons, Nat.add_assoc, Nat.add_comm 1]
      · rw [if_neg hk, if_neg hk]
        simp only [List.length_cons, Nat.add_assoc, Nat.add_comm 1]
    · have hu2 : (slot_at ht i).index = UNUSED := by
        by_contra hcon; exact hu ((used_iff ht i).mpr hcon)
      rw [if_pos hu2, if_neg hu, if_neg hu]
      simp

theorem hashtable_get_values_eq (ht : List slot_data) (ht_size index hashval : Nat)
    (result : List Nat) (hlen : ht.length = ht_size) (hh : hashval ≤ ht_size)
    (hfit : (scan_vals ht index (probe_order ht_size hashval)).length ≤ result.length) :
    hashtable_get_values ht ht_size index hashval result
      = .ok ((scan_vals ht index (probe_order ht_size hashval)).length,
          scan_vals ht index (probe_order ht_size hashval)
            ++ result.drop (scan_vals ht index (probe_order ht_size hashval)).length) := by
  unfold probe_order at hfit ⊢
  rw [scan_vals_append] at hfit ⊢
  unfold hashtable_get_values
  have h1 : (scan_vals ht index (List.range' hashval (ht_size - hashval))).length
      ≤ result.length := by
    by_cases ha : (List.range' hashval (ht_size - hashval)).all (used ht) = true
    · rw [if_pos ha, List.length_append] at hfit; omega
    · rw [if_neg ha] at hfit; exact hfit
  have hs := hashtable_get_scan_eq ht index (ht_size - hashval) hashval [] result (by omega) h1
  simp only [List.length_nil, List.nil_append, Nat.zero_add] at hs
  rw [hs]
  simp only []
  have hiff := takeWhile_length_eq_iff (used ht) (List.range' hashval (ht_size - hashval))
  rw [List.length_range'] at hiff
  by_cases ha : (List.range' hashval (ht_size - hashval)).all (used ht) = true
  · rw [if_pos ha] at hfit ⊢
    rw [if_pos (by have := hiff.mpr ha; omega)]
    rw [List.length_append] at hfit
    have h2 := hashtable_get_scan_eq ht index hashval 0
      (scan_vals ht index (List.range' hashval (ht_size - hashval)))
      (result.drop (scan_vals ht index (List.range' hashval (ht_size - hashval))).length)
      (by omega) (by rw [List.length_drop]; omega)
    rw [h2]
    simp only [List.length_append, List.drop_drop, List.append_assoc]
  · rw [if_neg ha] at hfit ⊢
    rw [if_neg (by
      intro hcon
      apply ha
      apply hiff.mp
      omega)]

theorem hashtable_count_key_eq (ht : List slot_data) (ht_size index hashval : Nat)
    (hlen : ht.length = ht_size) (hh : hashval ≤ ht_size) :
    hashtable_count_key ht ht_size index hashval
      = .ok (scan_vals ht index (probe_order ht_size hashval)).length := by
  unfold probe_order
  rw [scan_vals_append]
  unfold hashtable_count_key
  rw [hashtable_count_scan_eq ht index (ht_size - hashval) hashval 0 (by omega)]
  simp only [Nat.zero_add]
  have hiff := takeWhile_length_eq_iff (used ht) (List.range' hashval (ht_size - hashval))
  rw [List.length_range'] at hiff
  by_cases ha : (List.range' hashval (ht_size - hashval)).all (used ht) = true
  · rw [if_pos ha, if_pos (by have := hiff.mpr ha; omega)]
    rw [hashtable_count_scan_eq ht index hashval 0 _ (by omega)]
    simp only [List.length_append]
  · rw [if_neg ha]
    rw [if_neg (by
      intro hcon
      apply ha
      apply hiff.mp
      omega)]

/-- One loop of `hashtable_insert` in terms of `List.find?`. -/
theorem hashtable_insert_scan_eq (ht : List slot_data) (index value : Nat) :
    ∀ (todo i : Nat), i + todo ≤ ht.length →
      hashtable_insert_scan ht index value todo i
        = .ok (((List.range' i todo).find? (fun p => !used ht p)).map
            (fun p => ht.set p ⟨index, value⟩)) := by
  intro todo
  induction todo with
  | zero => intro i _; rfl
  | succ todo ih =>
    intro i hlen
    unfold hashtable_insert_scan
    rw [getElem?_eq_slot_at ht i (by omega)]
    simp only []
    rw [List.range'_succ, List.find?_cons]
    by_cases hu : used ht i = true
    · have hu2 : ¬ ((slot_at ht i).index = UNUSED) := (used_iff ht i).mp hu
      rw [if_neg hu2, ih (i + 1) (by omega)]
      simp only [hu, Bool.not_true]
    · have hu2 : (slot_at ht i).index = UNUSED := by
        by_contra hcon; exact hu ((used_iff ht i).mpr hcon)
      have hu3 : used ht i = false := by simpa using hu
      rw [if_pos hu2]
      simp only [hu3, Bool.not_false, Option.map_some']

theorem hashtable_insert_eq (ht : List slot_data) (ht_size index value hashval : Nat)
    (hlen : ht.length = ht_size) (hh : hashval ≤ ht_size) :
    hashtable_insert ht ht_size index value hashval
      = match (probe_order ht_size hashval).find? (fun p => !used ht p) with
        | some p => .ok (ht.set p ⟨index, value⟩)
        | none => .error Fault.hash_table_overflow := by
  unfold hashtable_insert probe_order
  rw [hashtable_insert_scan_eq ht index value _ _ (by omega),
    hashtable_insert_scan_eq ht index value _ _ (by omega), List.find?_append]
  cases h1 : (List.range' hashval (ht_size - hashval)).find? (fun p => !used ht p) with
  | some p => rfl
  | none =>
    simp only [Option.map_none', Option.none_or]
    cases h2 : (List.range' 0 hashval).find? (fun p => !used ht p) with
    | some p => rfl
    | none => rfl

theorem mem_probe_order (ht_size hashval p : Nat) (hh : hashval ≤ ht_size) :
    p ∈ probe_order ht_size hashval ↔ p < ht_size := by
  unfold probe_order
  rw [List.mem_append, List.mem_range', List.mem_range']
  constructor
  · rintro (⟨i, hi, rfl⟩ | ⟨i, hi, rfl⟩) <;> omega
  · intro hp
    by_cases h : p < hashval
    · right; exact ⟨p, h, by omega⟩
    · left; exact ⟨p - hashval, by omega, by omega⟩

theorem nodup_probe_order (ht_size hashval : Nat) : (probe_order ht_size hashval).Nodup := by
  unfold probe_order
  rw [List.nodup_append]
  refine ⟨List.nodup_range' _ _, List.nodup_range' _ _, ?_⟩
  intro a h1 h2
  rw [List.mem_range'] at h1 h2
  obtain ⟨i, _, rfl⟩ := h1
  obtain ⟨j, hj, h⟩ := h2
  omega

theorem probe_order_perm (ht_size hashval : Nat) (hh : hashval ≤ ht_size) :
    (probe_order ht_size hashval).Perm (List.range' 0 ht_size) := by
  unfold probe_order
  have h := List.range'_append 0 hashval (ht_size - hashval) 1
  rw [Nat.one_mul, Nat.zero_add] at h
  have e : ht_size - hashval + hashval = ht_size := by omega
  rw [e] at h
  rw [← h]
  exact List.perm_append_comm

theorem slot_at_set (ht : List slot_data) (p0 p : Nat) (v : slot_data) (h : p0 < ht.length) :
    slot_at (ht.set p0 v) p = if p = p0 then v else slot_at ht p := by
  unfold slot_at
  rw [List.getD_eq_getElem?_getD, List.getD_eq_getElem?_getD, List.getElem?_set]
  by_cases hp : p = p0
  · subst hp
    rw [if_pos rfl, if_pos h, if_pos rfl]; rfl
  · rw [if_neg (fun h => hp h.symm), if_neg hp]

theorem map_slot_at_range (ht : List slot_data) :
    (List.range' 0 ht.length).map (slot_at ht) = ht := by
  apply List.ext_getElem
  · simp
  · intro i h1 h2
    rw [List.getElem_map, List.getElem_range']
    unfold slot_at
    rw [List.getD_eq_getElem?_getD, List.getElem?_eq_getElem (by simpa using h2)]
    simp

/-- Under the probe invariant a scan finds every element with the key. -/
theorem scan_vals_complete (ht : List slot_data) (k : Nat) :
    ∀ ps : List Nat, ps.Nodup →
      (∀ p ∈ ps, used ht p = true → (slot_at ht p).index = k →
        ∀ q ∈ ps.takeWhile (fun q => decide (q ≠ p)), used ht q = true) →
      scan_vals ht k ps
        = (ps.filter (fun p => used ht p && decide ((slot_at ht p).index = k))).map
            (fun p => (slot_at ht p).value) := by
  intro ps
  induction ps with
  | nil => intro _ _; rfl
  | cons a rest ih =>
    intro hnd hinv
    have hnd2 := List.nodup_cons.mp hnd
    rw [scan_vals_cons, List.filter_cons]
    by_cases hu : used ht a = true
    · have hrest : ∀ p ∈ rest, used ht p = true → (slot_at ht p).index = k →
          ∀ q ∈ rest.takeWhile (fun q => decide (q ≠ p)), used ht q = true := by
        intro p hp hup hkp q hq
        apply hinv p (List.mem_cons_of_mem _ hp) hup hkp q
        rw [List.takeWhile_cons]
        have hne : a ≠ p := fun h => hnd2.1 (h ▸ hp)
        rw [if_pos (by simpa using hne)]
        exact List.mem_cons_of_mem _ hq
      rw [if_pos hu, ih hnd2.2 hrest, hu, Bool.true_and]
      by_cases hk : (slot_at ht a).index = k
      · rw [if_pos hk, if_pos (by simpa using hk), List.map_cons]
      · rw [if_neg hk, if_neg (by simpa using hk)]
    · have hu3 : used ht a = false := by simpa using hu
      rw [if_neg hu, hu3, Bool.false_and, if_neg (by simp)]
      symm
      rw [List.map_eq_nil_iff, List.filter_eq_nil_iff]
      intro p hp hcon
      rw [Bool.and_eq_true, decide_eq_true_eq] at hcon
      have hq := hinv p (List.mem_cons_of_mem _ hp) hcon.1 hcon.2 a (by
        rw [List.takeWhile_cons]
        have hne : a ≠ p := fun h => hnd2.1 (h ▸ hp)
        rw [if_pos (by simpa using hne)]
        exact List.mem_cons_self _ _)
      rw [hq] at hu3
      cases hu3

theorem used_filter_key (ht : List slot_data) (k : Nat) (hk : k ≠ UNUSED) :
    (ht.filter (fun sl => decide (sl.index ≠ UNUSED))).filter (fun sl => decide (sl.index = k))
      = ht.filter (fun sl => decide (sl.index = k)) := by
  rw [List.filter_filter]
  apply List.filter_congr
  intro sl _
  by_cases h : sl.index = k
  · simp [h, hk]
  · simp [h]

/-- In a table satisfying the invariant, the scan for a key of the slice collects
a permutation of the values inserted with that key. -/
theorem scan_vals_perm (ht : List slot_data) (ht_size base : Nat) (kvs : List slot_data)
    (hinv : table_inv ht ht_size base kvs) (k : Nat) (hk1 : base ≤ k)
    (hk2 : k < base + ht_size) (hk3 : k ≠ UNUSED) :
    (scan_vals ht k (probe_order ht_size (k - base))).Perm (key_vals kvs k) := by
  have hh : k - base ≤ ht_size := by omega
  rw [scan_vals_complete ht k _ (nodup_probe_order _ _) (by
    intro p hp hu hkp q hq
    exact hinv.probe k p hk1 hk2 ((mem_probe_order _ _ _ hh).mp hp) hu hkp q hq)]
  have h1 := ((probe_order_perm ht_size (k - base) hh).filter
    (fun p => used ht p && decide ((slot_at ht p).index = k))).map
    (fun p => (slot_at ht p).value)
  refine h1.trans ?_
  have h2 : ((List.range' 0 ht_size).filter
        (fun p => used ht p && decide ((slot_at ht p).index = k))).map
        (fun p => (slot_at ht p).value)
      = (ht.filter (fun sl => decide (sl.index = k))).map (fun sl => sl.value) := by
    have hm := map_slot_at_range ht
    rw [hinv.len] at hm
    conv_rhs => rw [← hm]
    rw [List.filter_map, List.map_map]
    congr 1
    apply List.filter_congr
    intro p _
    simp only [Function.comp, used]
    by_cases h : (slot_at ht p).index = k
    · simp [h, hk3]
    · simp [h]
  rw [h2, ← used_filter_key ht k hk3]
  unfold key_vals
  exact (hinv.content.filter _).map _

theorem table_inv_empty (ht_size base : Nat) :
    table_inv (List.replicate ht_size ⟨UNUSED, 0⟩) ht_size base [] := by
  have hu : ∀ p, used (List.replicate ht_size (⟨UNUSED, 0⟩ : slot_data)) p = false := by
    intro p
    unfold used slot_at
    rw [List.getD_eq_getElem?_getD, List.getElem?_replicate]
    split <;> simp
  refine ⟨List.length_replicate .., ?_, ?_, ?_⟩
  · intro kv h; cases h
  · rw [List.filter_eq_nil_iff.mpr]
    intro a ha
    rw [List.mem_replicate] at ha
    simp [ha.2]
  · intro k p _ _ _ hp
    rw [hu p] at hp
    cases hp

theorem filter_set_unused (ht : List slot_data) (p0 : Nat) (v : slot_data)
    (h : p0 < ht.length) (hun : used ht p0 = false) (hv : v.index ≠ UNUSED) :
    ((ht.set p0 v).filter (fun sl => decide (sl.index ≠ UNUSED))).Perm
      (ht.filter (fun sl => decide (sl.index ≠ UNUSED)) ++ [v]) := by
  have hold : (slot_at ht p0).index = UNUSED := by
    by_contra hcon
    rw [(used_iff ht p0).mpr hcon] at hun
    cases hun
  have hget : ht[p0] = slot_at ht p0 := by
    have := getElem?_eq_slot_at ht p0 h
    rw [List.getElem?_eq_getElem h] at this
    exact Option.some.inj this
  have hsplit : ht = ht.take p0 ++ slot_at ht p0 :: ht.drop (p0 + 1) := by
    conv_lhs => rw [← List.take_append_drop p0 ht]
    rw [← hget, List.getElem_cons_drop]
  rw [List.set_eq_take_append_cons_drop, if_pos h]
  conv_rhs => rw [hsplit]
  rw [List.filter_append, List.filter_append, List.filter_cons, List.filter_cons,
    if_pos (by simpa using hv), if_neg (by simp [hold])]
  rw [List.append_assoc]
  apply List.Perm.append_left
  exact (List.perm_append_singleton _ _).symm

/-- Inserting a pair at the first unused position of the probe order of its key
keeps the table invariant. -/
theorem table_inv_insert (ht : List slot_data) (ht_size base : Nat) (kvs : List slot_data)
    (hinv : table_inv ht ht_size base kvs) (k0 v0 p0 : Nat) (hk1 : base ≤ k0)
    (hk2 : k0 < base + ht_size) (hk3 : k0 ≠ UNUSED)
    (hfind : (probe_order ht_size (k0 - base)).find? (fun p => !used ht p) = some p0) :
    table_inv (ht.set p0 ⟨k0, v0⟩) ht_size base (kvs ++ [⟨k0, v0⟩]) := by
  have hh : k0 - base ≤ ht_size := by omega
  obtain ⟨hun, as, bs, hsplit, hbefore⟩ := List.find?_eq_some.mp hfind
  have hun2 : used ht p0 = false := by simpa using hun
  have hp0 : p0 < ht_size := by
    apply (mem_probe_order ht_size (k0 - base) p0 hh).mp
    rw [hsplit]; simp
  have hp0l : p0 < ht.length := by rw [hinv.len]; exact hp0
  have hslot : ∀ p, slot_at (ht.set p0 ⟨k0, v0⟩) p
      = if p = p0 then ⟨k0, v0⟩ else slot_at ht p := fun p => slot_at_set ht p0 p _ hp0l
  have hmono : ∀ q, used ht q = true → used (ht.set p0 ⟨k0, v0⟩) q = true := by
    intro q hq
    rw [used_iff, hslot]
    by_cases h : q = p0
    · rw [if_pos h]; exact hk3
    · rw [if_neg h]; exact (used_iff ht q).mp hq
  refine ⟨by rw [List.length_set]; exact hinv.len, ?_, ?_, ?_⟩
  · intro kv hkv
    rw [List.mem_append, List.mem_singleton] at hkv
    rcases hkv with h | h
    · exact hinv.keys kv h
    · subst h; exact ⟨hk1, hk2, hk3⟩
  · exact (filter_set_unused ht p0 ⟨k0, v0⟩ hp0l hun2 hk3).trans
      (List.Perm.append_right _ hinv.content)
  · intro k p hkb1 hkb2 hp hu hkp q hq
    rw [hslot] at hkp
    by_cases h : p = p0
    · subst h
      rw [if_pos rfl] at hkp
      have hkk : k = k0 := hkp.symm
      subst hkk
      apply hmono
      rw [hsplit, List.takeWhile_append] at hq
      have hq2 : q ∈ as := by
        split at hq
        · rw [List.mem_append] at hq
          rcases hq with hq | hq
          · exact hq
          · rw [List.takeWhile_cons, if_neg (by simp)] at hq
            cases hq
        · exact (List.takeWhile_sublist _).subset hq
      have := hbefore q hq2
      simpa using this
    · rw [if_neg h] at hkp
      have hu2 : used ht p = true := by
        rw [used_iff, hslot, if_neg h] at hu
        exact (used_iff ht p).mpr hu
      exact hmono q (hinv.probe k p hkb1 hkb2 hp hu2 hkp q hq)

theorem used_count (ht : List slot_data) :
    (∀ p, p < ht.length → used ht p = true) →
      (ht.filter (fun sl => decide (sl.index ≠ UNUSED))).length = ht.length := by
  intro h
  rw [List.filter_eq_self.mpr]
  intro sl hsl
  obtain ⟨p, hp, rfl⟩ := List.getElem_of_mem hsl
  have := h p hp
  rw [used_iff] at this
  have hg := getElem?_eq_slot_at ht p hp
  rw [List.getElem?_eq_getElem hp] at hg
  rw [Option.some.inj hg]
  simpa using this

/-- A table that holds fewer pairs than it has slots has an unused position on
every probe order. -/
theorem table_inv_find (ht : List slot_data) (ht_size base : Nat) (kvs : List slot_data)
    (hinv : table_inv ht ht_size base kvs) (hroom : kvs.length < ht_size) (hashval : Nat)
    (hh : hashval ≤ ht_size) :
    ∃ p0, (probe_order ht_size hashval).find? (fun p => !used ht p) = some p0 := by
  cases hf : (probe_order ht_size hashval).find? (fun p => !used ht p) with
  | some p0 => exact ⟨p0, rfl⟩
  | none =>
    exfalso
    rw [List.find?_eq_none] at hf
    have hall : ∀ p, p < ht.length → used ht p = true := by
      intro p hp
      rw [hinv.len] at hp
      have := hf p ((mem_probe_order ht_size hashval p hh).mpr hp)
      simpa using this
    have h1 := used_count ht hall
    have h2 := hinv.content.length_eq
    rw [hinv.len] at h1
    omega

/-- `hashtable_insert` on a table satisfying the invariant: it stops at the
overflow assertion or returns a table satisfying the invariant for one more
pair; with room left it returns. -/
theorem hashtable_insert_inv (ht : List slot_data) (ht_size base : Nat) (kvs : List slot_data)
    (hinv : table_inv ht ht_size base kvs) (k0 v0 : Nat) (hk1 : base ≤ k0)
    (hk2 : k0 < base + ht_size) (hk3 : k0 ≠ UNUSED) :
    match hashtable_insert ht ht_size k0 v0 (k0 - base) with
    | .ok ht1 => table_inv ht1 ht_size base (kvs ++ [⟨k0, v0⟩])
    | .error f => f = Fault.hash_table_overflow ∧ ht_size ≤ kvs.length := by
  rw [hashtable_insert_eq ht ht_size k0 v0 (k0 - base) hinv.len (by omega)]
  cases hf : (probe_order ht_size (k0 - base)).find? (fun p => !used ht p) with
  | some p0 => exact table_inv_insert ht ht_size base kvs hinv k0 v0 p0 hk1 hk2 hk3 hf
  | none =>
    refine ⟨rfl, ?_⟩
    by_contra hcon
    obtain ⟨p0, hp0⟩ := table_inv_find ht ht_size base kvs hinv (by omega) (k0 - base)
      (by omega)
    rw [hp0] at hf
    cases hf

/-! ## `selection_sort` sorts -/

theorem getD_set_eq (a : List Nat) (i y v : Nat) (hi : i < a.length) :
    (a.set i v).getD y 0 = if y = i then v else a.getD y 0 := by
  rw [List.getD_eq_getElem?_getD, List.getD_eq_getElem?_getD, List.getElem?_set]
  by_cases h : y = i
  · subst h; rw [if_pos rfl, if_pos hi, if_pos rfl]; rfl
  · rw [if_neg (fun e => h e.symm), if_neg h]

/-- Exchanging two entries of a list permutes it. -/
theorem swap_perm (a : List Nat) (i j : Nat) (hi : i < a.length) (hj : j < a.length) :
    ((a.set i (a.getD j 0)).set j (a.getD i 0)).Perm a := by
  rw [List.perm_iff_count]
  intro b
  have hgi : a.getD i 0 = a[i] := List.getD_eq_getElem a 0 hi
  have hgj : a.getD j 0 = a[j] := List.getD_eq_getElem a 0 hj
  rw [List.count_set _ _ _ _ (by rw [List.length_set]; exact hj), List.count_set _ _ _ _ hi,
    List.getElem_set, hgi, hgj]
  have hci : a[i] = b → 0 < List.count b a := by
    intro h; rw [List.count_pos_iff]; exact h ▸ List.getElem_mem hi
  have hcj : a[j] = b → 0 < List.count b a := by
    intro h; rw [List.count_pos_iff]; exact h ▸ List.getElem_mem hj
  by_cases hij : i = j
  · subst hij
    simp only [if_true, beq_iff_eq]
    by_cases h1 : a[i] = b
    · have := hci h1
      simp only [h1, if_true]; omega
    · simp only [h1, if_false]; omega
  · simp only [hij, if_false, beq_iff_eq]
    by_cases h1 : a[i] = b <;> by_cases h2 : a[j] = b
    · have := hci h1
      simp only [h1, h2, if_true]; omega
    · have := hci h1
      simp only [h1, h2, if_true, if_false]; omega
    · have := hcj h2
      simp only [h1, h2, if_true, if_false]; omega
    · simp only [h1, h2, if_false]; omega

theorem selection_sort_minpos_spec (a : List Nat) (i : Nat) :
    ∀ (todo j m : Nat), i ≤ m → m < j →
      (∀ y, i ≤ y → y < j → a.getD m 0 ≤ a.getD y 0) →
      i ≤ selection_sort_minpos a todo j m ∧ selection_sort_minpos a todo j m < j + todo
      ∧ ∀ y, i ≤ y → y < j + todo →
          a.getD (selection_sort_minpos a todo j m) 0 ≤ a.getD y 0 := by
  intro todo
  induction todo with
  | zero => intro j m h1 h2 h3; exact ⟨h1, h2, h3⟩
  | succ todo ih =>
    intro j m h1 h2 h3
    unfold selection_sort_minpos
    by_cases hlt : a.getD j 0 < a.getD m 0
    · rw [if_pos hlt]
      obtain ⟨r1, r2, r3⟩ := ih (j + 1) j (by omega) (by omega) (by
        intro y hy1 hy2
        by_cases hyj : y = j
        · subst hyj; exact Nat.le_refl _
        · have := h3 y hy1 (by omega); omega)
      exact ⟨r1, by omega, fun y hy1 hy2 => r3 y hy1 (by omega)⟩
    · rw [if_neg hlt]
      obtain ⟨r1, r2, r3⟩ := ih (j + 1) m h1 (by omega) (by
        intro y hy1 hy2
        by_cases hyj : y = j
        · subst hyj; omega
        · exact h3 y hy1 (by omega))
      exact ⟨r1, by omega, fun y hy1 hy2 => r3 y hy1 (by omega)⟩

theorem selection_sort_loop_spec (n : Nat) :
    ∀ (todo i : Nat) (a : List Nat), a.length = n → i + todo + 1 = n →
      (∀ x y, x < i → x < y → y < n → a.getD x 0 ≤ a.getD y 0) →
      (selection_sort_loop n todo i a).Perm a
      ∧ ∀ x y, x < y → y < n →
          (selection_sort_loop n todo i a).getD x 0 ≤ (selection_sort_loop n todo i a).getD y 0 := by
  intro todo
  induction todo with
  | zero =>
    intro i a _ hi hinv
    exact ⟨List.Perm.refl _, fun x y hxy hy => hinv x y (by omega) hxy hy⟩
  | succ todo ih =>
    intro i a hlen hi hinv
    unfold selection_sort_loop
    simp only []
    obtain ⟨m1, m2, m3⟩ := selection_sort_minpos_spec a i (n - (i + 1)) (i + 1) i
      (Nat.le_refl _) (by omega) (by
        intro y hy1 hy2
        have : y = i := by omega
        subst this; exact Nat.le_refl _)
    generalize selection_sort_minpos a (n - (i + 1)) (i + 1) i = m at m1 m2 m3
    have hm : m < n := by omega
    have e : i + 1 + (n - (i + 1)) = n := by omega
    rw [e] at m3
    by_cases hmi : m ≠ i
    · rw [if_pos hmi]
      have hperm := swap_perm a m i (by omega) (by omega)
      have hget : ∀ y, ((a.set m (a.getD i 0)).set i (a.getD m 0)).getD y 0
          = if y = i then a.getD m 0 else if y = m then a.getD i 0 else a.getD y 0 := by
        intro y
        rw [getD_set_eq _ _ _ _ (by rw [List.length_set]; omega), getD_set_eq _ _ _ _ (by omega)]
      obtain ⟨p1, p2⟩ := ih (i + 1) ((a.set m (a.getD i 0)).set i (a.getD m 0))
        (by rw [List.length_set, List.length_set]; exact hlen) (by omega) (by
          intro x y hx hxy hy
          rw [hget, hget]
          by_cases hxi : x = i
          · subst hxi
            rw [if_pos rfl, if_neg (by omega)]
            by_cases hym : y = m
            · rw [if_pos hym]; exact m3 x (Nat.le_refl _) (by omega)
            · rw [if_neg hym]; exact m3 y (by omega) hy
          · rw [if_neg hxi, if_neg (by omega)]
            by_cases hyi : y = i
            · rw [if_pos hyi]; exact hinv x m (by omega) (by omega) (by omega)
            · rw [if_neg hyi]
              by_cases hym : y = m
              · rw [if_pos hym]; exact hinv x i (by omega) (by omega) (by omega)
              · rw [if_neg hym]; exact hinv x y (by omega) hxy hy)
      exact ⟨p1.trans hperm, p2⟩
    · rw [if_neg hmi]
      have hmi2 : m = i := by omega
      subst hmi2
      exact ih (m + 1) a hlen (by omega) (by
        intro x y hx hxy hy
        by_cases hxi : x = m
        · rw [hxi]; exact m3 y (by omega) hy
        · exact hinv x y (by omega) hxy hy)

/-- On an array of `n` entries `selection_sort` returns the sorted list of the
entries. -/
theorem selection_sort_eq (a : List Nat) (n : Nat) (hlen : a.length = n) :
    selection_sort a n = .ok (a.insertionSort (fun x y => x ≤ y)) := by
  unfold selection_sort
  by_cases h1 : n ≤ 1
  · rw [if_pos h1]
    congr 1
    symm
    apply List.Sorted.insertionSort_eq
    match a, hlen with
    | [], _ => exact List.sorted_nil
    | [x], _ => exact List.sorted_singleton x
    | x :: y :: l, h => simp at h; omega
  · rw [if_neg h1, if_pos (by omega)]
    congr 1
    obtain ⟨p1, p2⟩ := selection_sort_loop_spec n (n - 1) 0 a hlen (by omega)
      (fun x y hx _ _ => by omega)
    apply List.eq_of_perm_of_sorted (r := fun x y => x ≤ y)
      (p1.trans (List.perm_insertionSort _ a).symm) _ (List.sorted_insertionSort _ a)
    unfold List.Sorted
    rw [List.pairwise_iff_getElem]
    intro x y hx hy hxy
    have hl := p1.length_eq
    have := p2 x y hxy (by omega)
    rw [List.getD_eq_getElem _ 0 hx, List.getD_eq_getElem _ 0 hy] at this
    exact this

/-! ## `randomly_permute` permutes -/

theorem swap_entries_perm (a : List Nat) (i j : Nat) (hi : i < a.length) (hj : j < a.length) :
    ∃ a1, swap_entries a i j = .ok a1 ∧ a1.Perm a := by
  refine ⟨(a.set i (a.getD j 0)).set j (a.getD i 0), ?_, swap_perm a i j hi hj⟩
  unfold swap_entries
  rw [List.getElem?_eq_getElem hi, List.getElem?_eq_getElem hj,
    List.getD_eq_getElem a 0 hi, List.getD_eq_getElem a 0 hj]

theorem randomly_permute_loop_perm {St D : Type} (C : Collab St D) (fuel : Nat) :
    ∀ (i : Nat) (a : List Nat) (st : St), i < a.length → a.length < 4611686014132420609 →
      match randomly_permute_loop C fuel i a st with
      | .ok r => r.1.Perm a
      | .error f => f = Fault.budget ∧ ¬ rejection_ends C fuel := by
  intro i
  induction i with
  | zero => intro a st _ _; exact List.Perm.refl _
  | succ i ih =>
    intro a st hi hdom
    unfold randomly_permute_loop
    have hc : cadd (i + 1) 1 = i + 2 := cadd_eq_of_lt (by omega)
    rw [hc]
    have hr := random_up_to_lt C fuel st (i + 2) (by omega) (by omega)
    cases hrun : random_up_to C fuel st (i + 2) with
    | error e => rw [hrun] at hr; exact hr
    | ok r =>
      rw [hrun] at hr
      simp only [] at hr ⊢
      by_cases hne : i + 1 ≠ r.1
      · rw [if_pos hne]
        obtain ⟨a1, hs, hp⟩ := swap_entries_perm a (i + 1) r.1 hi (by omega)
        rw [hs]
        simp only []
        have h := ih a1 r.2 (by rw [hp.length_eq]; omega) (by rw [hp.length_eq]; exact hdom)
        cases hl : randomly_permute_loop C fuel i a1 r.2 with
        | error e => rw [hl] at h; exact h
        | ok r2 => rw [hl] at h; exact h.trans hp
      · rw [if_neg hne]
        exact ih a r.2 (by omega) hdom

/-- `randomly_permute` returns a permutation of the array, unless a rejection
loop of `random_up_to` exhausts the budget. -/
theorem randomly_permute_perm {St D : Type} (C : Collab St D) (fuel : Nat) (a : List Nat)
    (n : Nat) (st : St) (hlen : a.length = n) (hdom : n < 4611686014132420609) :
    match randomly_permute C fuel a n st with
    | .ok r => r.1.Perm a
    | .error f => f = Fault.budget ∧ ¬ rejection_ends C fuel := by
  by_cases h1 : n ≤ 1
  · have e : randomly_permute C fuel a n st = .ok (a, st) := by
      unfold randomly_permute
      rw [if_pos h1]
    rw [e]
  · have h2 : 1 ≤ n := Nat.le_of_lt (Nat.lt_of_not_le h1)
    have h3 : n < 18446744073709551616 := by omega
    have hc : csub n 1 = n - 1 := csub_eq_of_le h2 h3
    have h4 : n - 1 < a.length := by omega
    have h5 : a.length < 4611686014132420609 := by omega
    have e : randomly_permute C fuel a n st = randomly_permute_loop C fuel (n - 1) a st := by
      unfold randomly_permute
      rw [if_neg h1, hc]
    rw [e]
    exact randomly_permute_loop_perm C fuel (n - 1) a st h4 h5

theorem bucket_result_perm {St D : Type} (C : Collab St D) (fuel : Nat) (st : St) (i : Nat)
    (vals : List Nat) (hdom : vals.length < 4611686014132420609) :
    match bucket_result C fuel st i vals with
    | .ok out => out.Perm vals
    | .error f => f = Fault.budget ∧ ¬ rejection_ends C fuel := by
  unfold bucket_result
  by_cases h : 1 < vals.length
  · rw [if_pos h]
    have hp := List.perm_insertionSort (fun x y => x ≤ y) vals
    have h1 := randomly_permute_perm C fuel (vals.insertionSort (fun x y => x ≤ y)) vals.length
      (C.mrg_skip st 1 i 100) hp.length_eq hdom
    cases hr : randomly_permute C fuel (vals.insertionSort (fun x y => x ≤ y)) vals.length
        (C.mrg_skip st 1 i 100) with
    | error e => rw [hr] at h1; exact h1
    | ok r => rw [hr] at h1; exact h1.trans hp
  · rw [if_neg h]

/-- The result of a bucket depends only on the multiset of the gathered values. -/
theorem bucket_result_congr {St D : Type} (C : Collab St D) (fuel : Nat) (st : St) (i : Nat)
    (v1 v2 : List Nat) (hp : v1.Perm v2) :
    bucket_result C fuel st i v1 = bucket_result C fuel st i v2 := by
  unfold bucket_result
  have hl := hp.length_eq
  rw [hl]
  by_cases h : 1 < v2.length
  · rw [if_pos h, if_pos h]
    have hs : v1.insertionSort (fun x y => x ≤ y) = v2.insertionSort (fun x y => x ≤ y) := by
      apply List.eq_of_perm_of_sorted (r := fun x y => x ≤ y)
        (((List.perm_insertionSort _ v1).trans hp).trans (List.perm_insertionSort _ v2).symm)
        (List.sorted_insertionSort _ v1) (List.sorted_insertionSort _ v2)
    rw [hs]
  · rw [if_neg h, if_neg h]
    congr 1
    cases v2 with
    | nil => exact List.Perm.eq_nil hp
    | cons x l =>
      cases l with
      | nil => exact List.perm_singleton.mp hp
      | cons y l =>
        exfalso
        apply h
        rw [List.length_cons, List.length_cons]
        omega

/-- The body of the fill loop in terms of `bucket_result`. -/
theorem bucket_fill_eq {St D : Type} (C : Collab St D) (fuel : Nat) (st : St)
    (ht : List slot_data) (ht_size ht_my_start i : Nat) (done rest : List Nat)
    (hlen : ht.length = ht_size) (hi1 : ht_my_start ≤ i) (hi2 : i < ht_my_start + ht_size)
    (hi3 : i < 18446744073709551616)
    (hfit : (scan_vals ht i (probe_order ht_size (i - ht_my_start))).length ≤ rest.length) :
    bucket_fill C fuel st ht ht_size ht_my_start i done.length (done ++ rest)
      = match bucket_result C fuel st i
            (scan_vals ht i (probe_order ht_size (i - ht_my_start))) with
        | .error e => .error e
        | .ok out =>
          .ok (done ++ out
            ++ rest.drop (scan_vals ht i (probe_order ht_size (i - ht_my_start))).length) := by
  unfold bucket_fill bucket_result
  rw [csub_eq_of_le hi1 hi3, List.drop_left, List.take_left]
  rw [hashtable_get_values_eq ht ht_size i (i - ht_my_start) rest hlen (by omega) hfit]
  simp only []
  by_cases h : 1 < (scan_vals ht i (probe_order ht_size (i - ht_my_start))).length
  · rw [if_pos h, if_pos h, List.take_left, List.drop_left,
      selection_sort_eq _ _ rfl]
    simp only []
    cases randomly_permute C fuel
        ((scan_vals ht i (probe_order ht_size (i - ht_my_start))).insertionSort
          (fun x y => x ≤ y))
        (scan_vals ht i (probe_order ht_size (i - ht_my_start))).length
        (C.mrg_skip st 1 i 100) with
    | error e => rfl
    | ok p => rfl
  · rw [if_neg h, if_neg h, ← List.append_assoc]

theorem bucket_count_loop_eq (ht : List slot_data) (ht_size ht_my_start : Nat)
    (hlen : ht.length = ht_size) :
    ∀ (todo i : Nat), ht_my_start ≤ i → i + todo ≤ ht_my_start + ht_size →
      i + todo < 18446744073709551616 →
      bucket_count_loop ht ht_size ht_my_start todo i
        = .ok ((List.range' i todo).map
            (fun k => (scan_vals ht k (probe_order ht_size (k - ht_my_start))).length)) := by
  intro todo
  induction todo with
  | zero => intro i _ _ _; rfl
  | succ todo ih =>
    intro i h1 h2 h3
    unfold bucket_count_loop
    rw [csub_eq_of_le h1 (by omega),
      hashtable_count_key_eq ht ht_size i (i - ht_my_start) hlen (by omega),
      cadd_eq_of_lt (by omega), ih (i + 1) (by omega) (by omega) (by omega)]
    rfl

theorem bucket_starts_loop_cons (c : Nat) (cs : List Nat) (r : Nat) :
    bucket_starts_loop (c :: cs) r
      = (r :: (bucket_starts_loop cs (cadd r c)).1, (bucket_starts_loop cs (cadd r c)).2) :=
  rfl

theorem vals_total_succ (vals_of : Nat → List Nat) (todo i : Nat) :
    vals_total vals_of (todo + 1) i = (vals_of i).length + vals_total vals_of todo (i + 1) :=
  rfl

theorem bucket_starts_loop_sum (vals_of : Nat → List Nat) :
    ∀ (todo i r : Nat), r + vals_total vals_of todo i < 18446744073709551616 →
      (bucket_starts_loop ((List.range' i todo).map (fun k => (vals_of k).length)) r).2
        = r + vals_total vals_of todo i := by
  intro todo
  induction todo with
  | zero => intro i r _; rfl
  | succ todo ih =>
    intro i r h
    rw [vals_total_succ] at h ⊢
    rw [List.range'_succ, List.map_cons, bucket_starts_loop_cons]
    simp only []
    rw [cadd_eq_of_lt (by omega), ih (i + 1) _ (by omega)]
    omega

theorem bucket_fill_loop_eq {St D : Type} (C : Collab St D) (fuel : Nat) (st : St)
    (ht : List slot_data) (ht_size ht_my_start : Nat) (hlen : ht.length = ht_size) :
    ∀ (todo i : Nat) (done rest : List Nat), ht_my_start ≤ i →
      i + todo ≤ ht_my_start + ht_size → i + todo < 18446744073709551616 →
      rest.length
        = vals_total (fun k => scan_vals ht k (probe_order ht_size (k - ht_my_start))) todo i →
      done.length + rest.length < 4611686014132420609 →
      bucket_fill_loop C fuel st ht ht_size ht_my_start
          (bucket_starts_loop ((List.range' i todo).map
            (fun k => (scan_vals ht k (probe_order ht_size (k - ht_my_start))).length))
            done.length).1 i (done ++ rest)
        = match buckets_result C fuel st
              (fun k => scan_vals ht k (probe_order ht_size (k - ht_my_start))) todo i with
          | .error e => .error e
          | .ok outs => .ok (done ++ outs) := by
  intro todo
  induction todo with
  | zero =>
    intro i done rest _ _ _ hrest _
    unfold vals_total at hrest
    have : rest = [] := List.length_eq_zero.mp hrest
    subst this
    simp [bucket_starts_loop, bucket_fill_loop, buckets_result]
  | succ todo ih =>
    intro i done rest h1 h2 h3 hrest hdom
    rw [vals_total_succ] at hrest
    rw [List.range'_succ, List.map_cons, bucket_starts_loop_cons]
    simp only []
    unfold bucket_fill_loop
    conv_rhs => unfold buckets_result
    rw [bucket_fill_eq C fuel st ht ht_size ht_my_start i done rest hlen h1 (by omega)
      (by omega) (by omega)]
    have hperm := bucket_result_perm C fuel st i
      (scan_vals ht i (probe_order ht_size (i - ht_my_start))) (by omega)
    cases hb : bucket_result C fuel st i
        (scan_vals ht i (probe_order ht_size (i - ht_my_start))) with
    | error e => rfl
    | ok out =>
      rw [hb] at hperm
      simp only [] at hperm ⊢
      have hl := hperm.length_eq
      have e1 : cadd done.length
          (scan_vals ht i (probe_order ht_size (i - ht_my_start))).length
          = (done ++ out).length := by
        rw [cadd_eq_of_lt (by omega), List.length_append, hl]
      rw [e1, cadd_eq_of_lt (by omega),
        ih (i + 1) (done ++ out) _ (by omega) (by omega) (by omega)
          (by rw [List.length_drop]; omega)
          (by rw [List.length_drop, List.length_append]; omega)]
      cases buckets_result C fuel st
          (fun k => scan_vals ht k (probe_order ht_size (k - ht_my_start))) todo (i + 1) with
      | error e => rfl
      | ok outs => simp only [List.append_assoc]

/-- The values of the pairs whose key lies in `[i, i + todo)`. -/
theorem key_vals_partition (kvs : List slot_data) :
    ∀ (todo i : Nat),
      ((List.range' i todo).map (key_vals kvs)).flatten.Perm
        ((kvs.filter (fun kv => decide (i ≤ kv.index ∧ kv.index < i + todo))).map
          (fun kv => kv.value)) := by
  intro todo
  induction todo with
  | zero =>
    intro i
    rw [List.filter_eq_nil_iff.mpr]
    · exact List.Perm.refl _
    · intro a _; simp
  | succ todo ih =>
    intro i
    rw [List.range'_succ, List.map_cons, List.flatten_cons]
    have hsplit := List.filter_append_perm (fun kv : slot_data => decide (kv.index = i))
      (kvs.filter (fun kv => decide (i ≤ kv.index ∧ kv.index < i + (todo + 1))))
    rw [List.filter_filter, List.filter_filter] at hsplit
    have e1 : kvs.filter (fun a => decide (a.index = i)
          && decide (i ≤ a.index ∧ a.index < i + (todo + 1)))
        = kvs.filter (fun kv => decide (kv.index = i)) := by
      apply List.filter_congr
      intro a _
      by_cases h : a.index = i
      · simp [h]
      · simp [h]
    have e2 : kvs.filter (fun a => (!decide (a.index = i))
          && decide (i ≤ a.index ∧ a.index < i + (todo + 1)))
        = kvs.filter (fun kv => decide (i + 1 ≤ kv.index ∧ kv.index < i + 1 + todo)) := by
      apply List.filter_congr
      intro a _
      by_cases h : a.index = i
      · simp [h]
      · have : (i + 1 ≤ a.index ∧ a.index < i + 1 + todo)
            ↔ (i ≤ a.index ∧ a.index < i + (todo + 1)) := by omega
        simp [h, this]
    rw [e1, e2] at hsplit
    refine List.Perm.trans ?_ (hsplit.map _)
    rw [List.map_append]
    exact List.Perm.append_left _ (ih (i + 1))

theorem flatten_length_vals_total (vals_of : Nat → List Nat) :
    ∀ (todo i : Nat),
      ((List.range' i todo).map vals_of).flatten.length = vals_total vals_of todo i := by
  intro todo
  induction todo with
  | zero => intro i; rfl
  | succ todo ih =>
    intro i
    rw [List.range'_succ, List.map_cons, List.flatten_cons, List.length_append, ih (i + 1)]
    rfl

theorem vals_total_congr (f g : Nat → List Nat) :
    ∀ (todo i : Nat), (∀ k, i ≤ k → k < i + todo → (f k).length = (g k).length) →
      vals_total f todo i = vals_total g todo i := by
  intro todo
  induction todo with
  | zero => intro i _; rfl
  | succ todo ih =>
    intro i h
    unfold vals_total
    rw [h i (Nat.le_refl _) (by omega), ih (i + 1) (fun k h1 h2 => h k (by omega) (by omega))]

theorem buckets_result_congr {St D : Type} (C : Collab St D) (fuel : Nat) (st : St)
    (f g : Nat → List Nat) :
    ∀ (todo i : Nat), (∀ k, i ≤ k → k < i + todo → (f k).Perm (g k)) →
      buckets_result C fuel st f todo i = buckets_result C fuel st g todo i := by
  intro todo
  induction todo with
  | zero => intro i _; rfl
  | succ todo ih =>
    intro i h
    unfold buckets_result
    rw [bucket_result_congr C fuel st i (f i) (g i) (h i (Nat.le_refl _) (by omega)),
      ih (i + 1) (fun k h1 h2 => h k (by omega) (by omega))]

theorem key_vals_total (kvs : List slot_data) (todo i : Nat)
    (hkeys : ∀ kv ∈ kvs, i ≤ kv.index ∧ kv.index < i + todo) :
    vals_total (key_vals kvs) todo i = kvs.length := by
  rw [← flatten_length_vals_total, (key_vals_partition kvs todo i).length_eq, List.length_map,
    List.filter_eq_self.mpr]
  intro kv hkv
  have := hkeys kv hkv
  simpa using this

/-- On a table satisfying the invariant, the bucket passes return the
concatenated bucket results of the keys of the slice. -/
theorem bucket_passes_eq {St D : Type} (C : Collab St D) (fuel : Nat) (st : St)
    (ht : List slot_data) (ht_size ht_my_start : Nat) (kvs : List slot_data)
    (hinv : table_inv ht ht_size ht_my_start kvs) (result : List Nat)
    (hres : result.length = kvs.length) (hlt : ht_my_start + ht_size < 18446744073709551616)
    (hdom : kvs.length < 4611686014132420609) :
    bucket_passes C fuel st ht ht_size ht_my_start kvs.length result
      = buckets_result C fuel st (key_vals kvs) ht_size ht_my_start := by
  have hperm : ∀ k, ht_my_start ≤ k → k < ht_my_start + ht_size →
      (scan_vals ht k (probe_order ht_size (k - ht_my_start))).Perm (key_vals kvs k) := by
    intro k h1 h2
    exact scan_vals_perm ht ht_size ht_my_start kvs hinv k h1 h2 (by unfold UNUSED; omega)
  have htot : vals_total (fun k => scan_vals ht k (probe_order ht_size (k - ht_my_start)))
      ht_size ht_my_start = kvs.length := by
    rw [vals_total_congr _ (key_vals kvs) ht_size ht_my_start
      (fun k h1 h2 => (hperm k h1 h2).length_eq)]
    exact key_vals_total kvs ht_size ht_my_start (fun kv hkv =>
      ⟨(hinv.keys kv hkv).1, (hinv.keys kv hkv).2.1⟩)
  unfold bucket_passes
  rw [bucket_count_loop_eq ht ht_size ht_my_start hinv.len ht_size ht_my_start (Nat.le_refl _)
    (Nat.le_refl _) hlt]
  simp only []
  rw [bucket_starts_loop_sum _ ht_size ht_my_start 0 (by rw [htot]; omega), htot, Nat.zero_add,
    if_pos rfl]
  have hfill := bucket_fill_loop_eq C fuel st ht ht_size ht_my_start hinv.len ht_size
    ht_my_start [] result (Nat.le_refl _) (Nat.le_refl _) hlt (by rw [htot]; exact hres)
    (by rw [List.length_nil, hres]; omega)
  rw [List.length_nil, List.nil_append] at hfill
  rw [hfill, buckets_result_congr C fuel st _ (key_vals kvs) ht_size ht_my_start hperm]
  cases buckets_result C fuel st (key_vals kvs) ht_size ht_my_start with
  | error e => rfl
  | ok outs => rfl

theorem buckets_result_succ {St D : Type} (C : Collab St D) (fuel : Nat) (st : St)
    (f : Nat → List Nat) (todo i : Nat) :
    buckets_result C fuel st f (todo + 1) i
      = match bucket_result C fuel st i (f i) with
        | .error e => .error e
        | .ok out =>
          match buckets_result C fuel st f todo (i + 1) with
          | .error e => .error e
          | .ok outs => .ok (out ++ outs) := rfl

/-- The bucket results of two adjacent key ranges. -/
theorem buckets_result_append {St D : Type} (C : Collab St D) (fuel : Nat) (st : St)
    (f : Nat → List Nat) (b : Nat) :
    ∀ (a i : Nat),
      buckets_result C fuel st f (a + b) i
        = match buckets_result C fuel st f a i with
          | .error e => .error e
          | .ok o1 =>
            match buckets_result C fuel st f b (i + a) with
            | .error e => .error e
            | .ok o2 => .ok (o1 ++ o2) := by
  intro a
  induction a with
  | zero =>
    intro i
    rw [Nat.zero_add, Nat.add_zero]
    cases buckets_result C fuel st f b i with
    | error e => rfl
    | ok o => rfl
  | succ a ih =>
    intro i
    have e : a + 1 + b = (a + b) + 1 := by omega
    rw [e, buckets_result_succ, buckets_result_succ, ih (i + 1)]
    have e2 : i + 1 + a = i + (a + 1) := by omega
    rw [e2]
    cases bucket_result C fuel st i (f i) with
    | error e => rfl
    | ok out =>
      simp only []
      cases buckets_result C fuel st f a (i + 1) with
      | error e => rfl
      | ok o1 =>
        simp only []
        cases buckets_result C fuel st f b (i + (a + 1)) with
        | error e => rfl
        | ok o2 => simp only [List.append_assoc]

theorem hash_key_lt {St D : Type} (C : Collab St D) (fuel : Nat) (st : St) (ht_size v : Nat)
    (hH : 0 < ht_size) (hdom : ht_size ≤ 4611686014132420609) :
    hash_key C fuel st ht_size v < ht_size := by
  unfold hash_key
  have h := random_up_to_lt C fuel (C.mrg_skip st 1 v 0) ht_size hH hdom
  cases hr : random_up_to C fuel (C.mrg_skip st 1 v 0) ht_size with
  | error e => exact hH
  | ok r => rw [hr] at h; exact h

theorem shared_insert_loop_spec {St D : Type} (C : Collab St D) (fuel : Nat) (st : St)
    (H : Nat) (hH : 0 < H) (hdom : H ≤ 4611686014132420609) :
    ∀ (todo i : Nat) (ht kvs : List slot_data), table_inv ht H 0 kvs →
      kvs.length + todo < H → i + todo < 18446744073709551616 →
      match shared_insert_loop C fuel st H todo i ht with
      | .ok ht1 =>
        table_inv ht1 H 0 (kvs ++ hash_pairs C fuel st H (List.range' i todo)) ∧
          ∀ v, i ≤ v → v < i + todo →
            ∃ r, random_up_to C fuel (C.mrg_skip st 1 v 0) H = .ok r
      | .error f =>
        (f = Fault.budget ∧ ¬ rejection_ends C fuel) ∧ ∃ v, i ≤ v ∧ v < i + todo ∧
          random_up_to C fuel (C.mrg_skip st 1 v 0) H = .error Fault.budget := by
  intro todo
  induction todo with
  | zero =>
    intro i ht kvs hinv _ _
    unfold shared_insert_loop
    refine ⟨?_, ?_⟩
    · simpa [hash_pairs] using hinv
    · intro v h1 h2; omega
  | succ todo ih =>
    intro i ht kvs hinv hlen hi
    unfold shared_insert_loop
    have hlt := random_up_to_lt C fuel (C.mrg_skip st 1 i 0) H hH hdom
    have hkey : hash_key C fuel st H i
        = match random_up_to C fuel (C.mrg_skip st 1 i 0) H with
          | .ok r => r.1
          | .error _ => 0 := rfl
    cases hr : random_up_to C fuel (C.mrg_skip st 1 i 0) H with
    | error e =>
      rw [hr] at hlt
      simp only [] at hlt ⊢
      obtain ⟨hb, hne⟩ := hlt
      subst hb
      exact ⟨⟨rfl, hne⟩, i, Nat.le_refl _, by omega, hr⟩
    | ok r =>
      rw [hr] at hlt hkey
      simp only [] at hlt hkey ⊢
      have hins := hashtable_insert_inv ht H 0 kvs hinv r.1 i (Nat.zero_le _) (by omega)
        (by unfold UNUSED; omega)
      rw [Nat.sub_zero] at hins
      cases hi1 : hashtable_insert ht H r.1 i r.1 with
      | error e =>
        rw [hi1] at hins
        simp only [] at hins
        omega
      | ok ht1 =>
        rw [hi1] at hins
        simp only [] at hins ⊢
        have hc : cadd i 1 = i + 1 := cadd_eq_of_lt (by omega)
        rw [hc]
        have hrec := ih (i + 1) ht1 (kvs ++ [⟨r.1, i⟩]) hins
          (by rw [List.length_append, List.length_singleton]; omega) (by omega)
        have hp : kvs ++ hash_pairs C fuel st H (List.range' i (todo + 1))
            = kvs ++ [⟨r.1, i⟩] ++ hash_pairs C fuel st H (List.range' (i + 1) todo) := by
          rw [List.range'_succ]
          unfold hash_pairs
          rw [List.map_cons, hkey, List.append_assoc, List.singleton_append]
        rw [hp]
        cases hl : shared_insert_loop C fuel st H todo (i + 1) ht1 with
        | error e =>
          rw [hl] at hrec
          obtain ⟨h1, v, h2, h3, h4⟩ := hrec
          exact ⟨h1, v, by omega, by omega, h4⟩
        | ok ht2 =>
          rw [hl] at hrec
          refine ⟨hrec.1, ?_⟩
          intro v h1 h2
          by_cases hv : v = i
          · subst hv; exact ⟨r, hr⟩
          · exact hrec.2 v (by omega) (by omega)

/-! ## `rand_sort_shared` returns a permutation -/

theorem hash_table_size_eq (n : Nat) (hn : n ≤ 2305843007066210240) :
    cadd (cmul 2 n) 128 = 2 * n + 128 := by
  rw [cmul_eq_of_lt (by omega), cadd_eq_of_lt (by omega)]

theorem hash_pairs_length {St D : Type} (C : Collab St D) (fuel : Nat) (st : St)
    (ht_size : Nat) (ids : List Nat) : (hash_pairs C fuel st ht_size ids).length = ids.length := by
  unfold hash_pairs
  rw [List.length_map]

/-- The table that the insertion loop of `rand_sort_shared` builds from the
empty table holds the pairs of the elements `0, .., n - 1`; the loop stops only
where a rejection loop of `random_up_to` exhausts the budget. -/
theorem shared_table {St D : Type} (C : Collab St D) (fuel : Nat) (st : St) (n : Nat)
    (hn : n ≤ 2305843007066210240) :
    match shared_insert_loop C fuel st (2 * n + 128) n 0
        (List.replicate (2 * n + 128) ⟨UNUSED, 0⟩) with
    | .ok ht =>
      table_inv ht (2 * n + 128) 0 (hash_pairs C fuel st (2 * n + 128) (List.range' 0 n)) ∧
        ∀ v, v < n → ∃ r, random_up_to C fuel (C.mrg_skip st 1 v 0) (2 * n + 128) = .ok r
    | .error f =>
      (f = Fault.budget ∧ ¬ rejection_ends C fuel) ∧ ∃ v, v < n ∧
        random_up_to C fuel (C.mrg_skip st 1 v 0) (2 * n + 128) = .error Fault.budget := by
  have h := shared_insert_loop_spec C fuel st (2 * n + 128) (by omega) (by omega) n 0
    (List.replicate (2 * n + 128) ⟨UNUSED, 0⟩) [] (table_inv_empty _ _)
    (by rw [List.length_nil]; omega) (by omega)
  cases hl : shared_insert_loop C fuel st (2 * n + 128) n 0
      (List.replicate (2 * n + 128) ⟨UNUSED, 0⟩) with
  | error e =>
    rw [hl] at h
    obtain ⟨h1, v, _, h3, h4⟩ := h
    exact ⟨h1, v, by omega, h4⟩
  | ok ht =>
    rw [hl] at h
    rw [List.nil_append] at h
    exact ⟨h.1, fun v hv => h.2 v (Nat.zero_le _) (by omega)⟩

/-- On a table holding the pairs of the elements `0, .., n - 1` the bucket
passes of `rand_sort_shared` return the bucket results of those pairs. -/
theorem shared_passes {St D : Type} (C : Collab St D) (fuel : Nat) (st : St) (n : Nat)
    (hn : n ≤ 2305843007066210240) (result : List Nat) (hres : result.length = n)
    (ht : List slot_data)
    (hinv : table_inv ht (2 * n + 128) 0
      (hash_pairs C fuel st (2 * n + 128) (List.range' 0 n))) :
    bucket_passes C fuel st ht (2 * n + 128) 0 n result
      = buckets_result C fuel st
          (key_vals (hash_pairs C fuel st (2 * n + 128) (List.range' 0 n))) (2 * n + 128) 0 := by
  have hl : (hash_pairs C fuel st (2 * n + 128) (List.range' 0 n)).length = n := by
    rw [hash_pairs_length, List.length_range']
  have h := bucket_passes_eq C fuel st ht (2 * n + 128) 0 _ hinv result (hres.trans hl.symm)
    (by omega) (by rw [hl]; omega)
  rw [hl] at h
  exact h

/-- When every hash draw returns, `rand_sort_shared` returns the concatenated
bucket results of the pairs of `0, .., n - 1`. -/
theorem rand_sort_shared_eq {St D : Type} (C : Collab St D) (fuel : Nat) (st : St) (n : Nat)
    (result : List Nat) (hn : n ≤ 2305843007066210240) (hres : result.length = n)
    (hdraw : ∀ v, v < n → ∃ r, random_up_to C fuel (C.mrg_skip st 1 v 0) (2 * n + 128) = .ok r) :
    rand_sort_shared C fuel st n result
      = buckets_result C fuel st
          (key_vals (hash_pairs C fuel st (2 * n + 128) (List.range' 0 n))) (2 * n + 128) 0 := by
  have ht := shared_table C fuel st n hn
  have e : rand_sort_shared C fuel st n result
      = match shared_insert_loop C fuel st (2 * n + 128) n 0
            (List.replicate (2 * n + 128) ⟨UNUSED, 0⟩) with
        | .error e => .error e
        | .ok ht => bucket_passes C fuel st ht (2 * n + 128) 0 n result := by
    unfold rand_sort_shared
    simp only []
    rw [hash_table_size_eq n hn]
  rw [e]
  cases hl : shared_insert_loop C fuel st (2 * n + 128) n 0
      (List.replicate (2 * n + 128) ⟨UNUSED, 0⟩) with
  | error f =>
    rw [hl] at ht
    obtain ⟨_, v, hv, hbad⟩ := ht
    obtain ⟨r, hr⟩ := hdraw v hv
    rw [hr] at hbad
    cases hbad
  | ok tab =>
    rw [hl] at ht
    exact shared_passes C fuel st n hn result hres tab ht.1

/-- Past the domain of `random_up_to` the first hash draw stops at the
assertion of line 56. -/
theorem rand_sort_shared_domain {St D : Type} (C : Collab St D) (fuel : Nat) (st : St)
    (n : Nat) (result : List Nat) (h1 : 2305843007066210240 < n)
    (h2 : n < 9223372036854775744) :
    rand_sort_shared C fuel st n result = .error Fault.random_up_to_domain := by
  obtain ⟨k, rfl⟩ : ∃ k, n = k + 1 := ⟨n - 1, by omega⟩
  unfold rand_sort_shared
  simp only []
  rw [cmul_eq_of_lt (by omega), cadd_eq_of_lt (by omega)]
  unfold shared_insert_loop
  unfold random_up_to
  rw [if_neg (by omega)]

theorem ht_start_zero (H size : Nat) : ht_start H size 0 = 0 := by
  unfold ht_start
  rw [Nat.zero_mul, Nat.zero_min]

theorem ht_start_size (H size : Nat) (hsize : 0 < size) : ht_start H size size = H := by
  unfold ht_start
  have h1 := Nat.mod_lt H hsize
  rw [Nat.min_eq_right (Nat.le_of_lt h1)]
  exact Nat.div_add_mod H size

theorem ht_start_succ (H size r : Nat) :
    ht_start H size (r + 1)
      = ht_start H size r + (H / size + if r < H % size then 1 else 0) := by
  unfold ht_start
  have h : (r + 1) * (H / size) = r * (H / size) + H / size := Nat.succ_mul _ _
  rw [h]
  by_cases hc : r < H % size
  · rw [if_pos hc, Nat.min_eq_left (by omega : r + 1 ≤ H % size),
      Nat.min_eq_left (by omega : r ≤ H % size)]
    omega
  · rw [if_neg hc, Nat.min_eq_right (by omega : H % size ≤ r + 1),
      Nat.min_eq_right (by omega : H % size ≤ r)]
    omega

theorem ht_start_mono (H size : Nat) {r1 r2 : Nat} (h : r1 ≤ r2) :
    ht_start H size r1 ≤ ht_start H size r2 := by
  unfold ht_start
  have h1 : r1 * (H / size) ≤ r2 * (H / size) := Nat.mul_le_mul_right _ h
  have h2 : min r1 (H % size) ≤ min r2 (H % size) := by
    simp only [Nat.min_def]
    split <;> split <;> omega
  omega

theorem ht_start_le (H size r : Nat) (hsize : 0 < size) (hr : r ≤ size) :
    ht_start H size r ≤ H := by
  have h := ht_start_mono H size hr
  rw [ht_start_size H size hsize] at h
  exact h

/-- The layout computed at lines 317-330 without the wrap-around: rank `rank`
holds the keys from `ht_start` of `rank` up to `ht_start` of `rank + 1`. -/
theorem ht_layout_of_eq (n size rank : Nat) (hn : n < 9223372036854775744)
    (hsize : 0 < size) (hint : size < 18446744073709551616) (hr : rank < size) :
    ht_layout_of n size rank =
      { total_hash_table_size := 2 * n + 128
        ht_base_block_size := (2 * n + 128) / size
        ht_block_size_cutoff_rank := (2 * n + 128) % size
        ht_block_size_cutoff_index := (2 * n + 128) % size * ((2 * n + 128) / size + 1)
        ht_my_size := (2 * n + 128) / size + (if rank < (2 * n + 128) % size then 1 else 0)
        ht_my_start := ht_start (2 * n + 128) size rank
        ht_my_end := ht_start (2 * n + 128) size (rank + 1) } := by
  have hH : cadd (cmul 2 n) 128 = 2 * n + 128 := by
    rw [cmul_eq_of_lt (by omega), cadd_eq_of_lt (by omega)]
  have hsucc := ht_start_succ (2 * n + 128) size rank
  unfold ht_layout_of
  simp only []
  rw [hH]
  unfold ht_start at hsucc ⊢
  have h0 := Nat.div_add_mod (2 * n + 128) size
  have hc := Nat.mod_lt (2 * n + 128) hsize
  have h1 : (2 * n + 128) % size * ((2 * n + 128) / size)
      ≤ size * ((2 * n + 128) / size) := Nat.mul_le_mul_right _ (Nat.le_of_lt hc)
  have h2 : rank * ((2 * n + 128) / size)
      ≤ size * ((2 * n + 128) / size) := Nat.mul_le_mul_right _ (Nat.le_of_lt hr)
  have h3 : (2 * n + 128) % size * ((2 * n + 128) / size + 1)
      = (2 * n + 128) % size * ((2 * n + 128) / size) + (2 * n + 128) % size :=
    Nat.mul_succ _ _
  have h4 : rank * ((2 * n + 128) / size + 1)
      = rank * ((2 * n + 128) / size) + rank := Nat.mul_succ _ _
  have h5 : (rank - (2 * n + 128) % size) * ((2 * n + 128) / size)
      = rank * ((2 * n + 128) / size) - (2 * n + 128) % size * ((2 * n + 128) / size) :=
    Nat.sub_mul _ _ _
  have hb : (2 * n + 128) / size ≤ 2 * n + 128 := Nat.div_le_self _ _
  have h7 : (rank + 1) * ((2 * n + 128) / size)
      = rank * ((2 * n + 128) / size) + (2 * n + 128) / size := Nat.succ_mul _ _
  have h8 : (rank + 1) * ((2 * n + 128) / size)
      ≤ size * ((2 * n + 128) / size) := Nat.mul_le_mul_right _ hr
  have e1 : cadd ((2 * n + 128) / size) 1 = (2 * n + 128) / size + 1 :=
    cadd_eq_of_lt (by omega)
  rw [e1]
  have e2 : cmul ((2 * n + 128) % size) ((2 * n + 128) / size + 1)
      = (2 * n + 128) % size * ((2 * n + 128) / size + 1) := cmul_eq_of_lt (by omega)
  rw [e2]
  by_cases hlt : rank < (2 * n + 128) % size
  · have h6 : rank * ((2 * n + 128) / size)
        ≤ (2 * n + 128) % size * ((2 * n + 128) / size) :=
      Nat.mul_le_mul_right _ (Nat.le_of_lt hlt)
    have h9 : (rank + 1) * ((2 * n + 128) / size)
        ≤ (2 * n + 128) % size * ((2 * n + 128) / size) :=
      Nat.mul_le_mul_right _ hlt
    simp only [if_pos hlt] at hsucc ⊢
    have e3 : cmul rank ((2 * n + 128) / size + 1) = rank * ((2 * n + 128) / size + 1) :=
      cmul_eq_of_lt (by omega)
    rw [e1, e3]
    rw [Nat.min_eq_left (Nat.le_of_lt hlt)]
    rw [Nat.min_eq_left (Nat.le_of_lt hlt)] at hsucc
    have e5 : cadd (rank * ((2 * n + 128) / size + 1)) ((2 * n + 128) / size + 1)
        = (rank + 1) * ((2 * n + 128) / size) + min (rank + 1) ((2 * n + 128) % size) := by
      have e : cadd (rank * ((2 * n + 128) / size + 1)) ((2 * n + 128) / size + 1)
          = rank * ((2 * n + 128) / size + 1) + ((2 * n + 128) / size + 1) :=
        cadd_eq_of_lt (by omega)
      rw [e]
      omega
    rw [e5, h4]
  · have h6 : (2 * n + 128) % size * ((2 * n + 128) / size)
        ≤ rank * ((2 * n + 128) / size) :=
      Nat.mul_le_mul_right _ (Nat.le_of_not_lt hlt)
    simp only [if_neg hlt] at hsucc ⊢
    have e3 : csub rank ((2 * n + 128) % size) = rank - (2 * n + 128) % size :=
      csub_eq_of_le (Nat.le_of_not_lt hlt) (by omega)
    rw [e3]
    have e4 : cmul (rank - (2 * n + 128) % size) ((2 * n + 128) / size)
        = (rank - (2 * n + 128) % size) * ((2 * n + 128) / size) :=
      cmul_eq_of_lt (by omega)
    rw [e4]
    rw [Nat.min_eq_right (Nat.le_of_not_lt hlt)]
    rw [Nat.min_eq_right (Nat.le_of_not_lt hlt)] at hsucc
    have e6 : cadd ((2 * n + 128) / size) 0 = (2 * n + 128) / size := cadd_eq_of_lt (by omega)
    rw [e6]
    have e7 : cadd ((2 * n + 128) % size * ((2 * n + 128) / size + 1))
        ((rank - (2 * n + 128) % size) * ((2 * n + 128) / size))
          = rank * ((2 * n + 128) / size) + (2 * n + 128) % size := by
      have e : cadd ((2 * n + 128) % size * ((2 * n + 128) / size + 1))
          ((rank - (2 * n + 128) % size) * ((2 * n + 128) / size))
            = (2 * n + 128) % size * ((2 * n + 128) / size + 1)
              + (rank - (2 * n + 128) % size) * ((2 * n + 128) / size) :=
        cadd_eq_of_lt (by omega)
      rw [e]
      omega
    rw [e7]
    have e8 : cadd (rank * ((2 * n + 128) / size) + (2 * n + 128) % size) ((2 * n + 128) / size)
        = (rank + 1) * ((2 * n + 128) / size) + min (rank + 1) ((2 * n + 128) % size) := by
      have e : cadd (rank * ((2 * n + 128) / size) + (2 * n + 128) % size)
          ((2 * n + 128) / size)
            = rank * ((2 * n + 128) / size) + (2 * n + 128) % size + (2 * n + 128) / size :=
        cadd_eq_of_lt (by omega)
      rw [e]
      omega
    rw [e8]
    rfl

/-- The rank computed by `HT_OWNER` for a key below the table size is a rank
of the communicator and its slice contains the key. -/
theorem HT_OWNER_spec (n size rank e : Nat) (hn : n < 9223372036854775744)
    (hsize : 0 < size) (hint : size < 18446744073709551616) (hr : rank < size)
    (he : e < 2 * n + 128) :
    ∃ o, HT_OWNER (ht_layout_of n size rank) e = .ok o ∧ o < size ∧
      ht_start (2 * n + 128) size o ≤ e ∧ e < ht_start (2 * n + 128) size (o + 1) := by
  rw [ht_layout_of_eq n size rank hn hsize hint hr]
  unfold HT_OWNER ht_start
  simp only []
  have h0 := Nat.div_add_mod (2 * n + 128) size
  have hc := Nat.mod_lt (2 * n + 128) hsize
  have hbH : (2 * n + 128) / size ≤ 2 * n + 128 := Nat.div_le_self _ _
  generalize (2 * n + 128) / size = b at *
  generalize (2 * n + 128) % size = c at *
  have hcb : c * (b + 1) = c * b + c := Nat.mul_succ _ _
  have hcs : c * b ≤ size * b := Nat.mul_le_mul_right _ (Nat.le_of_lt hc)
  have e1 : cadd b 1 = b + 1 := cadd_eq_of_lt (by omega)
  rw [e1]
  by_cases hlt : e < c * (b + 1)
  · rw [if_pos hlt, if_neg (Nat.succ_ne_zero b)]
    have ho1 : e / (b + 1) * (b + 1) ≤ e := Nat.div_mul_le_self e (b + 1)
    have ho2 : e < (b + 1) * (e / (b + 1) + 1) := Nat.lt_mul_div_succ e (Nat.succ_pos b)
    have ho3 : e / (b + 1) < c := Nat.div_lt_of_lt_mul (by rw [Nat.mul_comm]; exact hlt)
    generalize e / (b + 1) = o at *
    have h1 : o * (b + 1) = o * b + o := Nat.mul_succ _ _
    have h2 : (b + 1) * (o + 1) = (o + 1) * b + (o + 1) := by ring
    refine ⟨o, rfl, by omega, ?_, ?_⟩
    · rw [Nat.min_eq_left (Nat.le_of_lt ho3)]; omega
    · rw [Nat.min_eq_left ho3]; omega
  · rw [if_neg hlt]
    have hb : b ≠ 0 := by
      intro hb0
      subst hb0
      omega
    rw [if_neg hb]
    have e2 : csub e (c * (b + 1)) = e - c * (b + 1) :=
      csub_eq_of_le (Nat.le_of_not_lt hlt) (by omega)
    rw [e2]
    have hq1 : (e - c * (b + 1)) / b * b ≤ e - c * (b + 1) := Nat.div_mul_le_self _ _
    have hq2 : e - c * (b + 1) < b * ((e - c * (b + 1)) / b + 1) :=
      Nat.lt_mul_div_succ _ (Nat.pos_of_ne_zero hb)
    generalize (e - c * (b + 1)) / b = q at *
    have h1 : (c + q) * b = c * b + q * b := Nat.add_mul _ _ _
    have h2 : b * (q + 1) = q * b + b := by ring
    have h3 : (c + q + 1) * b = (c + q) * b + b := Nat.succ_mul _ _
    have h4 : c + q < size := by
      apply Nat.lt_of_mul_lt_mul_right (a := b)
      omega
    have e3 : cadd c q = c + q := cadd_eq_of_lt (by omega)
    rw [e3]
    refine ⟨c + q, rfl, h4, ?_, ?_⟩
    · rw [Nat.min_eq_right (by omega : c ≤ c + q)]; omega
    · rw [Nat.min_eq_right (by omega : c ≤ c + q + 1)]; omega

/-- `HT_OWNER` does not depend on the rank that evaluates it. -/
theorem HT_OWNER_rank (n size r1 r2 e : Nat) :
    HT_OWNER (ht_layout_of n size r1) e = HT_OWNER (ht_layout_of n size r2) e := rfl

/-- For a key below the table size, `HT_OWNER` returns `rank` exactly when the
key lies in the slice of `rank`. -/
theorem HT_OWNER_iff (n size rank e : Nat) (hn : n < 9223372036854775744)
    (hsize : 0 < size) (hint : size < 18446744073709551616) (hr : rank < size)
    (he : e < 2 * n + 128) :
    HT_OWNER (ht_layout_of n size rank) e = .ok rank ↔
      ht_start (2 * n + 128) size rank ≤ e ∧ e < ht_start (2 * n + 128) size (rank + 1) := by
  obtain ⟨o, ho, _, h1, h2⟩ := HT_OWNER_spec n size rank e hn hsize hint hr he
  rw [ho]
  constructor
  · intro h
    cases h
    exact ⟨h1, h2⟩
  · intro h
    have h3 : ¬ o < rank := fun hlt => by
      have := ht_start_mono (2 * n + 128) size (by omega : o + 1 ≤ rank)
      omega
    have h4 : ¬ rank < o := fun hlt => by
      have := ht_start_mono (2 * n + 128) size (by omega : rank + 1 ≤ o)
      omega
    have h5 : o = rank := by omega
    rw [h5]

theorem elt_my_size_eq (n size s : Nat) (hn : n < 9223372036854775744) :
    elt_my_size n size s = n / size + (if s < n % size then 1 else 0) := by
  unfold elt_my_size
  have h : n / size ≤ n := Nat.div_le_self _ _
  apply cadd_eq_of_lt
  split <;> omega

theorem ids_lt (n size s j : Nat) (hn : n < 9223372036854775744) (hs : s < size)
    (hj : j < elt_my_size n size s) : j * size + s < n := by
  rw [elt_my_size_eq n size s hn] at hj
  have h0 := Nat.div_add_mod n size
  have h1 : size * (n / size) = n / size * size := Nat.mul_comm _ _
  by_cases hq : j < n / size
  · have h2 : (j + 1) * size ≤ n / size * size := Nat.mul_le_mul_right _ hq
    have h3 : (j + 1) * size = j * size + size := Nat.succ_mul _ _
    omega
  · have hlt : s < n % size := by
      by_cases hc : s < n % size
      · exact hc
      · rw [if_neg hc] at hj; omega
    rw [if_pos hlt] at hj
    have hjq : j = n / size := by omega
    subst hjq
    omega

theorem div_lt_elt (n size v : Nat) (hn : n < 9223372036854775744) (hsize : 0 < size)
    (hv : v < n) : v / size < elt_my_size n size (v % size) := by
  rw [elt_my_size_eq n size (v % size) hn]
  have h0 := Nat.div_add_mod n size
  have h1 := Nat.div_add_mod v size
  have h2 := Nat.mod_lt n hsize
  have h3 := Nat.mod_lt v hsize
  by_cases hq : v / size < n / size
  · omega
  · have h4 : size * (n / size) ≤ size * (v / size) :=
      Nat.mul_le_mul_left _ (Nat.le_of_not_lt hq)
    by_cases hq2 : v / size = n / size
    · rw [hq2] at h1 ⊢
      have : v % size < n % size := by omega
      rw [if_pos this]
      omega
    · have h5 : size * (n / size + 1) ≤ size * (v / size) :=
        Nat.mul_le_mul_left _ (by omega)
      have h6 : size * (n / size + 1) = size * (n / size) + size := Nat.mul_succ _ _
      omega

theorem mem_ids_of (n size s v : Nat) (hn : n < 9223372036854775744) (hs : s < size) :
    v ∈ ids_of n size s ↔ v < n ∧ v % size = s := by
  unfold ids_of
  rw [List.mem_map]
  constructor
  · rintro ⟨j, hj, rfl⟩
    rw [List.mem_range'_1] at hj
    refine ⟨ids_lt n size s j hn hs (by omega), ?_⟩
    rw [Nat.add_comm, Nat.add_mul_mod_self_right]
    exact Nat.mod_eq_of_lt hs
  · rintro ⟨hv, rfl⟩
    have hsize : 0 < size := by omega
    refine ⟨v / size, ?_, ?_⟩
    · rw [List.mem_range'_1]
      exact ⟨Nat.zero_le _, by have := div_lt_elt n size v hn hsize hv; omega⟩
    · have := Nat.div_add_mod v size
      rw [Nat.mul_comm] at this
      exact this

theorem mem_dist_ids (n size v : Nat) (hn : n < 9223372036854775744) :
    ∀ k, k ≤ size → (v ∈ dist_ids n size k ↔ v < n ∧ v % size < k) := by
  intro k
  induction k with
  | zero =>
    intro _
    unfold dist_ids
    simp
  | succ k ih =>
    intro hk
    unfold dist_ids
    rw [List.mem_append, ih (by omega), mem_ids_of n size k v hn (by omega)]
    omega

theorem nodup_ids_of (n size s : Nat) (hsize : 0 < size) : (ids_of n size s).Nodup := by
  unfold ids_of
  apply List.Nodup.map
  · intro a b hab
    have h : a * size = b * size := by
      simp only [] at hab
      omega
    exact Nat.eq_of_mul_eq_mul_right hsize h
  · exact List.nodup_range' _ _

theorem nodup_dist_ids (n size : Nat) (hn : n < 9223372036854775744) :
    ∀ k, k ≤ size → (dist_ids n size k).Nodup := by
  intro k
  induction k with
  | zero => intro _; exact List.nodup_nil
  | succ k ih =>
    intro hk
    unfold dist_ids
    rw [List.nodup_append]
    refine ⟨ih (by omega), nodup_ids_of n size k (by omega), ?_⟩
    intro v h1 h2
    rw [mem_dist_ids n size v hn k (by omega)] at h1
    rw [mem_ids_of n size k v hn (by omega)] at h2
    omega

/-- Together the ranks hash every element `0, .., n - 1` exactly once. -/
theorem dist_ids_perm (n size : Nat) (hn : n < 9223372036854775744) (hsize : 0 < size) :
    (dist_ids n size size).Perm (List.range' 0 n) := by
  rw [List.perm_ext_iff_of_nodup (nodup_dist_ids n size hn size (Nat.le_refl _))
    (List.nodup_range' _ _)]
  intro v
  rw [mem_dist_ids n size v hn size (Nat.le_refl _), List.mem_range'_1]
  have := Nat.mod_lt v hsize
  omega

/-! ## The pairs received by a rank of `rand_sort_mpi` -/

theorem ht_total_eq (n size rank : Nat) (hn : n < 9223372036854775744) :
    (ht_layout_of n size rank).total_hash_table_size = 2 * n + 128 := by
  unfold ht_layout_of
  simp only []
  rw [cmul_eq_of_lt (by omega), cadd_eq_of_lt (by omega)]

theorem hash_key_of_ok {St D : Type} (C : Collab St D) (fuel : Nat) (st : St) (H v : Nat)
    (r : Nat × St) (h : random_up_to C fuel (C.mrg_skip st 1 v 0) H = .ok r) :
    hash_key C fuel st H v = r.1 ∧ r.1 < H := by
  have hk : hash_key C fuel st H v = r.1 := by
    unfold hash_key
    rw [h]
  refine ⟨hk, ?_⟩
  by_cases hd : 0 < H ∧ H ≤ 4611686014132420609
  · rw [← hk]
    exact hash_key_lt C fuel st H v hd.1 hd.2
  · unfold random_up_to at h
    rw [if_neg hd] at h
    cases h

theorem hash_pairs_append {St D : Type} (C : Collab St D) (fuel : Nat) (st : St) (H : Nat)
    (a b : List Nat) :
    hash_pairs C fuel st H (a ++ b) = hash_pairs C fuel st H a ++ hash_pairs C fuel st H b := by
  unfold hash_pairs
  exact List.map_append _ _ _

theorem owned_by_append (L : ht_layout) (rank : Nat) (a b : List slot_data) :
    owned_by L rank (a ++ b) = owned_by L rank a ++ owned_by L rank b := by
  unfold owned_by
  exact List.filter_append _ _

/-- When the loop of lines 347-356 returns, it returns the pairs of the elements
`j * size + rank` and the hash draw of each of them has returned. -/
theorem kv_pairs_loop_spec {St D : Type} (C : Collab St D) (fuel : Nat) (st : St)
    (size rank : Nat) (L : ht_layout) :
    ∀ (todo i : Nat) (kvs : List slot_data),
      (∀ j, i ≤ j → j < i + todo → j * size + rank < 18446744073709551616) →
      kv_pairs_loop C fuel st size rank L todo i = .ok kvs →
      kvs = hash_pairs C fuel st L.total_hash_table_size
          ((List.range' i todo).map (fun j => j * size + rank)) ∧
        ∀ j, i ≤ j → j < i + todo →
          ∃ r, random_up_to C fuel (C.mrg_skip st 1 (j * size + rank) 0)
            L.total_hash_table_size = .ok r := by
  intro todo
  induction todo with
  | zero =>
    intro i kvs _ h
    unfold kv_pairs_loop at h
    cases h
    exact ⟨rfl, fun j h1 h2 => by omega⟩
  | succ todo ih =>
    intro i kvs hw h
    have hwi := hw i (Nat.le_refl _) (by omega)
    have e1 : cmul i size = i * size := cmul_eq_of_lt (by omega)
    have e2 : cadd (i * size) rank = i * size + rank := cadd_eq_of_lt hwi
    unfold kv_pairs_loop at h
    rw [e1, e2] at h
    cases hr : random_up_to C fuel (C.mrg_skip st 1 (i * size + rank) 0)
        L.total_hash_table_size with
    | error e => rw [hr] at h; cases h
    | ok r =>
      rw [hr] at h
      simp only [] at h
      cases ho : HT_OWNER L r.1 with
      | error e => rw [ho] at h; cases h
      | ok owner =>
        rw [ho] at h
        simp only [] at h
        by_cases hlt : owner < size
        · rw [if_pos hlt] at h
          cases hk : kv_pairs_loop C fuel st size rank L todo (i + 1) with
          | error e => rw [hk] at h; cases h
          | ok kvs1 =>
            rw [hk] at h
            cases h
            have hrec := ih (i + 1) kvs1 (fun j h1 h2 => hw j (by omega) (by omega)) hk
            refine ⟨?_, ?_⟩
            · rw [List.range'_succ, List.map_cons]
              unfold hash_pairs
              rw [List.map_cons, (hash_key_of_ok C fuel st _ _ r hr).1]
              unfold hash_pairs at hrec
              rw [← hrec.1]
            · intro j h1 h2
              by_cases hj : j = i
              · subst hj; exact ⟨r, hr⟩
              · exact hrec.2 j (by omega) (by omega)
        · rw [if_neg hlt] at h; cases h

/-- When the exchange of rank `rank` returns after the senders `0, .., k - 1`,
it has delivered the pairs of their elements that `rank` owns, and the hash draw
of every element of these senders has returned. -/
theorem exchange_spec {St D : Type} (C : Collab St D) (fuel : Nat) (st : St)
    (n size rank : Nat) (hn : n < 9223372036854775744) :
    ∀ (k : Nat) (indata : List slot_data), k ≤ size →
      exchange C fuel st n size rank k = .ok indata →
      indata = owned_by (ht_layout_of n size rank) rank
          (hash_pairs C fuel st (2 * n + 128) (dist_ids n size k)) ∧
        ∀ v ∈ dist_ids n size k,
          ∃ r, random_up_to C fuel (C.mrg_skip st 1 v 0) (2 * n + 128) = .ok r := by
  intro k
  induction k with
  | zero =>
    intro indata _ h
    unfold exchange at h
    cases h
    refine ⟨rfl, ?_⟩
    intro v hv
    unfold dist_ids at hv
    cases hv
  | succ k ih =>
    intro indata hk h
    unfold exchange at h
    cases he : exchange C fuel st n size rank k with
    | error e => rw [he] at h; cases h
    | ok ind1 =>
      rw [he] at h
      simp only [] at h
      cases hp : kv_pairs_of C fuel st n size k with
      | error e => rw [hp] at h; cases h
      | ok kvs =>
        rw [hp] at h
        cases h
        have hrec := ih ind1 (by omega) he
        unfold kv_pairs_of at hp
        have hspec := kv_pairs_loop_spec C fuel st size k (ht_layout_of n size k)
          (elt_my_size n size k) 0 kvs
          (fun j _ h2 => by
            have := ids_lt n size k j hn (by omega) (by omega)
            omega) hp
        rw [ht_total_eq n size k hn] at hspec
        have hids : (List.range' 0 (elt_my_size n size k)).map (fun j => j * size + k)
            = ids_of n size k := rfl
        rw [hids] at hspec
        refine ⟨?_, ?_⟩
        · unfold dist_ids
          rw [hash_pairs_append, owned_by_append, ← hrec.1, hspec.1]
        · intro v hv
          unfold dist_ids at hv
          rw [List.mem_append] at hv
          cases hv with
          | inl h1 => exact hrec.2 v h1
          | inr h2 =>
            unfold ids_of at h2
            obtain ⟨j, hj, rfl⟩ := List.mem_map.mp h2
            rw [List.mem_range'_1] at hj
            exact hspec.2 j hj.1 (by omega)

/-- When the insertion loop of lines 403-407 returns, the table holds the
received pairs. -/
theorem mpi_insert_loop_spec (L : ht_layout) (rank : Nat) :
    ∀ (indata ht kvs ht1 : List slot_data),
      table_inv ht L.ht_my_size L.ht_my_start kvs →
      (∀ kv ∈ indata, L.ht_my_start ≤ kv.index ∧ kv.index < L.ht_my_start + L.ht_my_size ∧
        kv.index < 18446744073709551615) →
      mpi_insert_loop L rank indata ht = .ok ht1 →
      table_inv ht1 L.ht_my_size L.ht_my_start (kvs ++ indata) := by
  intro indata
  induction indata with
  | nil =>
    intro ht kvs ht1 hinv _ h
    unfold mpi_insert_loop at h
    cases h
    rw [List.append_nil]
    exact hinv
  | cons kv indata ih =>
    intro ht kvs ht1 hinv hmem h
    have hkv := hmem kv (List.mem_cons_self _ _)
    unfold mpi_insert_loop at h
    cases ho : HT_OWNER L kv.index with
    | error e => rw [ho] at h; cases h
    | ok owner =>
      rw [ho] at h
      simp only [] at h
      by_cases hr : owner = rank
      · rw [if_pos hr] at h
        have hloc : HT_LOCAL L kv.index = kv.index - L.ht_my_start := by
          unfold HT_LOCAL
          exact csub_eq_of_le hkv.1 (by omega)
        rw [hloc] at h
        have hins := hashtable_insert_inv ht L.ht_my_size L.ht_my_start kvs hinv kv.index
          kv.value hkv.1 hkv.2.1 (by unfold UNUSED; omega)
        cases hi : hashtable_insert ht L.ht_my_size kv.index kv.value
            (kv.index - L.ht_my_start) with
        | error e => rw [hi] at h; cases h
        | ok ht2 =>
          rw [hi] at h hins
          simp only [] at h hins
          have hrec := ih ht2 (kvs ++ [⟨kv.index, kv.value⟩]) ht1 hins
            (fun kv1 h1 => hmem kv1 (List.mem_cons_of_mem _ h1)) h
          rw [List.append_assoc, List.singleton_append] at hrec
          exact hrec
      · rw [if_neg hr] at h; cases h

theorem key_vals_owned_by (L : ht_layout) (rank : Nat) (kvs : List slot_data) (k : Nat)
    (hk : HT_OWNER L k = .ok rank) :
    key_vals (owned_by L rank kvs) k = key_vals kvs k := by
  unfold key_vals owned_by
  rw [List.filter_filter]
  congr 1
  apply List.filter_congr
  intro kv _
  by_cases h : kv.index = k
  · rw [h, hk]
    simp
  · simp [h]

theorem key_vals_hash_pairs_perm {St D : Type} (C : Collab St D) (fuel : Nat) (st : St)
    (H : Nat) (a b : List Nat) (hp : a.Perm b) (k : Nat) :
    (key_vals (hash_pairs C fuel st H a) k).Perm (key_vals (hash_pairs C fuel st H b) k) := by
  unfold key_vals hash_pairs
  exact ((hp.map _).filter _).map _

theorem domain_of_ok {St D : Type} (C : Collab St D) (fuel : Nat) (st : St) (H : Nat)
    (r : Nat × St) (h : random_up_to C fuel st H = .ok r) : H ≤ 4611686014132420609 := by
  by_cases hd : 0 < H ∧ H ≤ 4611686014132420609
  · exact hd.2
  · unfold random_up_to at h
    rw [if_neg hd] at h
    cases h

/-- A rank of `rand_sort_mpi` that returns has returned the concatenated bucket
results of the keys of its slice, taken over the pairs of all the elements
`0, .., n - 1`; and the hash draw of every element has returned. -/
theorem rand_sort_mpi_eq {St D : Type} (C : Collab St D) (fuel : Nat) (size rank : Nat)
    (st : St) (n : Nat) (out : List Nat) (hn : n < 9223372036854775744) (hsize : 0 < size)
    (hint : size < 18446744073709551616) (hr : rank < size)
    (h : rand_sort_mpi C fuel size rank st n = .ok out) :
    (∀ v, v < n → ∃ r, random_up_to C fuel (C.mrg_skip st 1 v 0) (2 * n + 128) = .ok r) ∧
      rand_sort_mpi C fuel size rank st n
        = buckets_result C fuel st
            (key_vals (hash_pairs C fuel st (2 * n + 128) (List.range' 0 n)))
            ((2 * n + 128) / size + (if rank < (2 * n + 128) % size then 1 else 0))
            (ht_start (2 * n + 128) size rank) := by
  have hL := ht_layout_of_eq n size rank hn hsize hint hr
  have hsz : (ht_layout_of n size rank).ht_my_size
      = (2 * n + 128) / size + (if rank < (2 * n + 128) % size then 1 else 0) := by rw [hL]
  have hst : (ht_layout_of n size rank).ht_my_start = ht_start (2 * n + 128) size rank := by
    rw [hL]
  have hsucc := ht_start_succ (2 * n + 128) size rank
  have hend := ht_start_le (2 * n + 128) size (rank + 1) hsize hr
  have e : rand_sort_mpi C fuel size rank st n
      = match exchange C fuel st n size rank size with
        | .error e => .error e
        | .ok indata =>
          match mpi_insert_loop (ht_layout_of n size rank) rank indata
              (List.replicate (ht_layout_of n size rank).ht_my_size ⟨UNUSED, 0⟩) with
          | .error e => .error e
          | .ok ht =>
            bucket_passes C fuel st ht (ht_layout_of n size rank).ht_my_size
              (ht_layout_of n size rank).ht_my_start indata.length
              (List.replicate indata.length 0) := rfl
  rw [e] at h ⊢
  cases he : exchange C fuel st n size rank size with
  | error f => rw [he] at h; cases h
  | ok indata =>
    rw [he] at h
    simp only [] at h ⊢
    cases hm : mpi_insert_loop (ht_layout_of n size rank) rank indata
        (List.replicate (ht_layout_of n size rank).ht_my_size ⟨UNUSED, 0⟩) with
    | error f => rw [hm] at h; cases h
    | ok ht =>
      simp only []
      obtain ⟨hind, hdraw⟩ := exchange_spec C fuel st n size rank hn size indata
        (Nat.le_refl _) he
      have hperm := dist_ids_perm n size hn hsize
      have hdraw2 : ∀ v, v < n →
          ∃ r, random_up_to C fuel (C.mrg_skip st 1 v 0) (2 * n + 128) = .ok r := by
        intro v hv
        apply hdraw v
        rw [hperm.mem_iff, List.mem_range'_1]
        omega
      have hn2 : n ≤ 2305843007066210240 := by
        by_cases h0 : n = 0
        · omega
        · obtain ⟨r, hr0⟩ := hdraw2 0 (by omega)
          have := domain_of_ok C fuel _ _ r hr0
          omega
      have hlen : indata.length ≤ n := by
        rw [hind]
        unfold owned_by
        have h1 := List.length_filter_le
          (fun kv : slot_data =>
            match HT_OWNER (ht_layout_of n size rank) kv.index with
            | .ok owner => decide (owner = rank)
            | .error _ => false)
          (hash_pairs C fuel st (2 * n + 128) (dist_ids n size size))
        rw [hash_pairs_length, hperm.length_eq, List.length_range'] at h1
        exact h1
      have hmem : ∀ kv ∈ indata,
          (ht_layout_of n size rank).ht_my_start ≤ kv.index ∧
          kv.index < (ht_layout_of n size rank).ht_my_start
            + (ht_layout_of n size rank).ht_my_size ∧
          kv.index < 18446744073709551615 := by
        intro kv hkv
        rw [hind] at hkv
        unfold owned_by at hkv
        rw [List.mem_filter] at hkv
        obtain ⟨hx, hown⟩ := hkv
        unfold hash_pairs at hx
        obtain ⟨v, hv, rfl⟩ := List.mem_map.mp hx
        obtain ⟨r, hrv⟩ := hdraw v hv
        have hk := (hash_key_of_ok C fuel st _ v r hrv).2
        rw [← (hash_key_of_ok C fuel st _ v r hrv).1] at hk
        simp only [] at hown ⊢
        have hown2 : HT_OWNER (ht_layout_of n size rank)
            (hash_key C fuel st (2 * n + 128) v) = .ok rank := by
          cases ho : HT_OWNER (ht_layout_of n size rank)
              (hash_key C fuel st (2 * n + 128) v) with
          | error f => rw [ho] at hown; cases hown
          | ok o =>
            rw [ho] at hown
            simp only [decide_eq_true_eq] at hown
            rw [hown]
        have hsl := (HT_OWNER_iff n size rank _ hn hsize hint hr hk).mp hown2
        rw [hst, hsz]
        omega
      have hinv := mpi_insert_loop_spec (ht_layout_of n size rank) rank indata _ [] ht
        (table_inv_empty _ _) hmem hm
      rw [List.nil_append] at hinv
      have hpass := bucket_passes_eq C fuel st ht _ _ indata hinv
        (List.replicate indata.length 0) (List.length_replicate _ _)
        (by rw [hst, hsz]; omega) (by omega)
      refine ⟨hdraw2, ?_⟩
      rw [hpass, hst, hsz]
      apply buckets_result_congr
      intro k hk1 hk2
      have hkH : k < 2 * n + 128 := by omega
      have hown := (HT_OWNER_iff n size rank k hn hsize hint hr hkH).mpr ⟨hk1, by omega⟩
      rw [hind, key_vals_owned_by _ rank _ k hown]
      exact key_vals_hash_pairs_perm C fuel st _ _ _ hperm k

/-- The results of the ranks `0, .., k - 1`, concatenated in rank order, are the
concatenated bucket results of the keys below the slice of rank `k`. -/
theorem concat_ranks_mpi {St D : Type} (C : Collab St D) (fuel : Nat) (st : St)
    (F : Nat → List Nat) (H size : Nat) (run : Nat → Except Fault (List Nat))
    (hrun : ∀ r, r < size →
      run r = buckets_result C fuel st F
        (H / size + (if r < H % size then 1 else 0)) (ht_start H size r)) :
    ∀ k, k ≤ size →
      concat_ranks run k = buckets_result C fuel st F (ht_start H size k) 0 := by
  intro k
  induction k with
  | zero =>
    intro _
    rw [ht_start_zero]
    rfl
  | succ k ih =>
    intro hk
    unfold concat_ranks
    rw [ih (by omega), hrun k (by omega), ht_start_succ,
      buckets_result_append C fuel st F (H / size + (if k < H % size then 1 else 0))
        (ht_start H size k) 0, Nat.zero_add]
    cases buckets_result C fuel st F (ht_start H size k) 0 with
    | error e => rfl
    | ok l =>
      simp only []
      cases buckets_result C fuel st F (H / size + (if k < H % size then 1 else 0))
          (ht_start H size k) with
      | error e => rfl
      | ok p => rfl

/-- C6: for every generator, root state, `n` with `2 n + 128` representable in
`count_type` and communicator of `size ≥ 1` ranks, if every rank of
`rand_sort_mpi` returns, then the per-rank results concatenated in rank order
are exactly the array returned by `rand_sort_shared` for the same root state
and `n` (whatever the caller's array held before).  The exchange delivers to
each rank, in sender order, the pairs whose `HT_OWNER` is that rank. -/
theorem permutation_size_invariance {St D : Type} (C : Collab St D) (fuel : Nat) (st : St)
    (n size : Nat) (result : List Nat) (hn : n < 9223372036854775744) (hsize : 0 < size)
    (hint : size < 18446744073709551616) (hres : result.length = n)
    (hall : ∀ rank, rank < size → ∃ out, rand_sort_mpi C fuel size rank st n = .ok out) :
    concat_ranks (fun rank => rand_sort_mpi C fuel size rank st n) size
      = rand_sort_shared C fuel st n result := by
  obtain ⟨out0, h0⟩ := hall 0 hsize
  have hdraw := (rand_sort_mpi_eq C fuel size 0 st n out0 hn hsize hint hsize h0).1
  have hn2 : n ≤ 2305843007066210240 := by
    by_cases hz : n = 0
    · omega
    · obtain ⟨r, hr0⟩ := hdraw 0 (by omega)
      have := domain_of_ok C fuel _ _ r hr0
      omega
  rw [rand_sort_shared_eq C fuel st n result hn2 hres hdraw]
  have hcat := concat_ranks_mpi C fuel st
    (key_vals (hash_pairs C fuel st (2 * n + 128) (List.range' 0 n))) (2 * n + 128) size
    (fun rank => rand_sort_mpi C fuel size rank st n)
    (fun r hr => by
      obtain ⟨out, ho⟩ := hall r hr
      exact (rand_sort_mpi_eq C fuel size r st n out hn hsize hint hr ho).2)
    size (Nat.le_refl _)
  rw [hcat, ht_start_size _ _ hsize]

set_option maxRecDepth 100000 in
theorem permutation_size_invariance_witness :
    rand_sort_mpi sample_collab 2 3 0 7 10 = .ok [9, 6, 3, 0] ∧
      rand_sort_mpi sample_collab 2 3 1 7 10 = .ok [7, 4, 1] ∧
      rand_sort_mpi sample_collab 2 3 2 7 10 = .ok [8, 5, 2] ∧
      rand_sort_shared sample_collab 2 7 10 (List.replicate 10 0)
        = .ok [9, 6, 3, 0, 7, 4, 1, 8, 5, 2] ∧
      concat_ranks (fun rank => rand_sort_mpi sample_collab 2 3 rank 7 10) 3
        = rand_sort_shared sample_collab 2 7 10 (List.replicate 10 0) :=
  ⟨by rfl, by rfl, by rfl, by rfl,
    permutation_size_invariance sample_collab 2 7 10 3 (List.replicate 10 0) (by decide)
      (by decide) (by decide) (by rfl)
      (fun rank hr => by
        have h : rank = 0 ∨ rank = 1 ∨ rank = 2 := by omega
        rcases h with h | h | h
        · subst h; exact ⟨_, by rfl⟩
        · subst h; exact ⟨_, by rfl⟩
        · subst h; exact ⟨_, by rfl⟩)⟩

theorem acc_value_limit_eq (range n : Nat) (hR : range < 18446744073709551616) :
    acc_value_limit range n = range / n * n := by
  unfold acc_value_limit
  have h : range / n * n ≤ range := Nat.div_mul_le_self _ _
  exact cmul_eq_of_lt (by omega)

theorem two_draw_acc_eq (a b : Nat) (ha : a < 2147483647) (hb : b < 2147483647) :
    two_draw_acc a b = a * 2147483647 + b := by
  unfold two_draw_acc
  rw [cmul_eq_of_lt (by omega), cadd_eq_of_lt (by omega)]

/-- `random_up_to` with its limits and its composition named. -/
theorem random_up_to_unfold {St D : Type} (C : Collab St D) (fuel : Nat) (st : St) (n : Nat)
    (hn : 0 < n) (hdom : n ≤ 4611686014132420609) :
    random_up_to C fuel st n
      = if n = 1 then .ok (0, st)
        else if n ≤ 2147483647 then
          random_up_to_one_draw C n (acc_value_limit 2147483647 n) fuel st
        else random_up_to_two_draws C n (acc_value_limit 4611686014132420609 n) fuel st := by
  unfold random_up_to acc_value_limit
  rw [if_pos ⟨hn, hdom⟩, if_pos hdom]

theorem random_up_to_two_draws_succ {St D : Type} (C : Collab St D) (n limit fuel : Nat)
    (st : St) :
    random_up_to_two_draws C n limit (fuel + 1) st
      = if limit ≤ two_draw_acc (C.mrg_get_uint_orig st).1
            (C.mrg_get_uint_orig (C.mrg_get_uint_orig st).2).1 then
          random_up_to_two_draws C n limit fuel
            (C.mrg_get_uint_orig (C.mrg_get_uint_orig st).2).2
        else .ok (two_draw_acc (C.mrg_get_uint_orig st).1
            (C.mrg_get_uint_orig (C.mrg_get_uint_orig st).2).1 % n,
          (C.mrg_get_uint_orig (C.mrg_get_uint_orig st).2).2) := rfl

theorem random_up_to_one_draw_succ {St D : Type} (C : Collab St D) (n limit fuel : Nat)
    (st : St) :
    random_up_to_one_draw C n limit (fuel + 1) st
      = if limit ≤ (C.mrg_get_uint_orig st).1 then
          random_up_to_one_draw C n limit fuel (C.mrg_get_uint_orig st).2
        else .ok ((C.mrg_get_uint_orig st).1 % n, (C.mrg_get_uint_orig st).2) := rfl

/-- Below a multiple `q * n` of `n` every residue has exactly `q` values. -/
theorem card_residue (R q n r : Nat) (hr : r < n) (hq : q * n ≤ R) :
    ((Finset.range R).filter (fun v => ¬ q * n ≤ v ∧ v % n = r)).card = q := by
  have hn : 0 < n := by omega
  have himg : (Finset.range R).filter (fun v => ¬ q * n ≤ v ∧ v % n = r)
      = (Finset.range q).image (fun k => k * n + r) := by
    ext v
    simp only [Finset.mem_filter, Finset.mem_range, Finset.mem_image]
    constructor
    · rintro ⟨_, h2, h3⟩
      refine ⟨v / n, ?_, ?_⟩
      · apply Nat.div_lt_of_lt_mul
        rw [Nat.mul_comm]
        omega
      · have := Nat.div_add_mod v n
        rw [Nat.mul_comm] at this
        omega
    · rintro ⟨k, hk, rfl⟩
      have h1 : (k + 1) * n ≤ q * n := Nat.mul_le_mul_right _ hk
      have h2 : (k + 1) * n = k * n + n := Nat.succ_mul _ _
      refine ⟨by omega, by omega, ?_⟩
      rw [Nat.add_comm, Nat.add_mul_mod_self_right]
      exact Nat.mod_eq_of_lt hr
  rw [himg, Finset.card_image_of_injective, Finset.card_range]
  intro a b hab
  simp only [] at hab
  exact Nat.eq_of_mul_eq_mul_right hn (by omega)

/-- The composition of two draws is a bijection onto `[0, 0x7FFFFFFF ^ 2)`. -/
theorem two_draw_acc_bijective :
    (∀ a b a1 b1, a < 2147483647 → b < 2147483647 → a1 < 2147483647 → b1 < 2147483647 →
      two_draw_acc a b = two_draw_acc a1 b1 → a = a1 ∧ b = b1) ∧
    (∀ a b, a < 2147483647 → b < 2147483647 → two_draw_acc a b < 4611686014132420609) ∧
    (∀ w, w < 4611686014132420609 →
      ∃ a b, a < 2147483647 ∧ b < 2147483647 ∧ two_draw_acc a b = w) := by
  refine ⟨?_, ?_, ?_⟩
  · intro a b a1 b1 ha hb ha1 hb1 h
    rw [two_draw_acc_eq a b ha hb, two_draw_acc_eq a1 b1 ha1 hb1] at h
    omega
  · intro a b ha hb
    rw [two_draw_acc_eq a b ha hb]
    omega
  · intro w hw
    refine ⟨w / 2147483647, w % 2147483647, by omega, by omega, ?_⟩
    rw [two_draw_acc_eq _ _ (by omega) (by omega)]
    omega

/-- A bijection from the pairs below `M` onto the values below `R` carries the
count of the accepted values of a residue over to the pairs. -/
theorem card_pairs_of_bijective (M R q n r : Nat) (f : Nat → Nat → Nat)
    (hinj : ∀ a b a1 b1, a < M → b < M → a1 < M → b1 < M → f a b = f a1 b1 → a = a1 ∧ b = b1)
    (hlt : ∀ a b, a < M → b < M → f a b < R)
    (hsurj : ∀ w, w < R → ∃ a b, a < M ∧ b < M ∧ f a b = w) :
    ((Finset.range M ×ˢ Finset.range M).filter
      (fun p => ¬ q * n ≤ f p.1 p.2 ∧ f p.1 p.2 % n = r)).card
      = ((Finset.range R).filter (fun v => ¬ q * n ≤ v ∧ v % n = r)).card := by
  apply Finset.card_bij (fun p _ => f p.1 p.2)
  · intro p hp
    simp only [Finset.mem_filter, Finset.mem_product, Finset.mem_range] at hp ⊢
    exact ⟨hlt p.1 p.2 hp.1.1 hp.1.2, hp.2⟩
  · intro p hp p1 hp1 h
    simp only [Finset.mem_filter, Finset.mem_product, Finset.mem_range] at hp hp1
    obtain ⟨h1, h2⟩ := hinj p.1 p.2 p1.1 p1.2 hp.1.1 hp.1.2 hp1.1.1 hp1.1.2 h
    exact Prod.ext h1 h2
  · intro w hw
    simp only [Finset.mem_filter, Finset.mem_range] at hw
    obtain ⟨a, b, ha, hb, hab⟩ := hsurj w hw.1
    refine ⟨(a, b), ?_, hab⟩
    simp only [Finset.mem_filter, Finset.mem_product, Finset.mem_range]
    rw [hab]
    exact ⟨⟨ha, hb⟩, hw.2⟩

/-- Among the pairs of draws, every residue has exactly `q` accepted pairs. -/
theorem card_residue_pairs (q n r : Nat) (hr : r < n) (hq : q * n ≤ 4611686014132420609) :
    ((Finset.range 2147483647 ×ˢ Finset.range 2147483647).filter
      (fun p => ¬ q * n ≤ two_draw_acc p.1 p.2 ∧ two_draw_acc p.1 p.2 % n = r)).card = q :=
  (card_pairs_of_bijective 2147483647 4611686014132420609 q n r two_draw_acc
    two_draw_acc_bijective.1 two_draw_acc_bijective.2.1 two_draw_acc_bijective.2.2).trans
    (card_residue 4611686014132420609 q n r hr hq)

theorem acc_value_limit_spec (range n : Nat) (hR : range < 18446744073709551616)
    (hn : 0 < n) (hle : n ≤ range) :
    n ∣ acc_value_limit range n ∧ acc_value_limit range n ≤ range ∧
      acc_value_limit range n / n = range / n ∧ 1 ≤ range / n := by
  rw [acc_value_limit_eq range n hR]
  exact ⟨Dvd.intro_left _ rfl, Nat.div_mul_le_self _ _, Nat.mul_div_cancel _ hn,
    Nat.div_pos hle hn⟩

theorem draw_collab_one_draw (v n limit : Nat) :
    ∀ (fuel : Nat) (st : Bool),
      random_up_to_one_draw (draw_collab v v) n limit (fuel + 1) st
        = if limit ≤ v then .error Fault.budget else .ok (v % n, !st) := by
  intro fuel
  induction fuel with
  | zero =>
    intro st
    rw [random_up_to_one_draw_succ]
    have e : ((draw_collab v v).mrg_get_uint_orig st) = (v, !st) := by
      cases st <;> rfl
    rw [e]
    by_cases h : limit ≤ v
    · rw [if_pos h, if_pos h]; rfl
    · rw [if_neg h, if_neg h]
  | succ fuel ih =>
    intro st
    rw [random_up_to_one_draw_succ]
    have e : ((draw_collab v v).mrg_get_uint_orig st) = (v, !st) := by
      cases st <;> rfl
    rw [e]
    by_cases h : limit ≤ v
    · rw [if_pos h, if_pos h, ih, if_pos h]
    · rw [if_neg h, if_neg h]

theorem draw_collab_two_draws (a b n limit : Nat) :
    ∀ (fuel : Nat),
      random_up_to_two_draws (draw_collab a b) n limit (fuel + 1) false
        = if limit ≤ two_draw_acc a b then .error Fault.budget
          else .ok (two_draw_acc a b % n, false) := by
  intro fuel
  induction fuel with
  | zero =>
    rw [random_up_to_two_draws_succ]
    by_cases h : limit ≤ two_draw_acc a b
    · rw [if_pos h]
      exact if_pos h
    · rw [if_neg h]
      exact if_neg h
  | succ fuel ih =>
    rw [random_up_to_two_draws_succ]
    by_cases h : limit ≤ two_draw_acc a b
    · rw [if_pos h]
      exact (if_pos h).trans (ih.trans (if_pos h))
    · rw [if_neg h]
      exact if_neg h

/-- With the draw `v`, the one-draw path returns `r` exactly when `v` passes the
test of line 61 and reduces to `r`. -/
theorem returned_value_one_draw (v n r fuel : Nat) (h1 : 1 < n) (h2 : n ≤ 2147483647) :
    returned_value (random_up_to (draw_collab v v) (fuel + 1) false n) = some r
      ↔ ¬ acc_value_limit 2147483647 n ≤ v ∧ v % n = r := by
  rw [random_up_to_unfold _ _ _ _ (by omega) (by omega), if_neg (show ¬ n = 1 by omega),
    if_pos h2, draw_collab_one_draw]
  by_cases h : acc_value_limit 2147483647 n ≤ v
  · rw [if_pos h]
    constructor
    · intro hc; cases hc
    · intro hc; exact absurd h hc.1
  · rw [if_neg h]
    constructor
    · intro hc; exact ⟨h, Option.some.inj hc⟩
    · intro hc; exact congrArg some hc.2

/-- With the draws `a` then `b`, the two-draw path returns `r` exactly when the
composed value passes the test of line 69 and reduces to `r`. -/
theorem returned_value_two_draws (a b n r fuel : Nat) (h1 : 2147483647 < n)
    (h2 : n ≤ 4611686014132420609) :
    returned_value (random_up_to (draw_collab a b) (fuel + 1) false n) = some r
      ↔ ¬ acc_value_limit 4611686014132420609 n ≤ two_draw_acc a b
        ∧ two_draw_acc a b % n = r := by
  rw [random_up_to_unfold _ _ _ _ (by omega) h2, if_neg (show ¬ n = 1 by omega),
    if_neg (show ¬ n ≤ 2147483647 by omega), draw_collab_two_draws]
  by_cases h : acc_value_limit 4611686014132420609 n ≤ two_draw_acc a b
  · rw [if_pos h]
    constructor
    · intro hc; cases hc
    · intro hc; exact absurd h hc.1
  · rw [if_neg h]
    constructor
    · intro hc; exact ⟨h, Option.some.inj hc⟩
    · intro hc; exact congrArg some hc.2

theorem filter_card_congr {α : Type} (s : Finset α) (p q : α → Prop) [DecidablePred p]
    [DecidablePred q] (h : ∀ x, p x ↔ q x) : (s.filter p).card = (s.filter q).card := by
  rw [Finset.filter_congr (fun x _ => h x)]

/-- C11: for every `n` in `[1, 0x3FFFFFFF00000001]` and every generator, a value
returned by `random_up_to` is below `n` (the only other outcome is a rejection
loop that has not ended within the budget).  The acceptance limit of each path
is a multiple of `n` that does not exceed the raw range (`0x7FFFFFFF` for one
draw, `0x3FFFFFFF00000001` for two) and holds at least one multiple, and the
values (pairs) below the limit that reduce to a residue `r < n` are `limit / n`
many.  An iteration of `random_up_to` returns the raw value modulo `n` when the
raw value is below the limit and draws again otherwise (one draw per iteration
for `1 < n ≤ 0x7FFFFFFF`, two composed draws above).  Hence, counting through
`random_up_to` itself: for every residue `r < n` the raw values `v` (one-draw
path) or pairs of raw values `(a, b)` (two-draw path) on which `random_up_to`
returns `r` are exactly `limit / n` many.  The composition of lines 67-68 is a
bijection from the pairs of draws below `0x7FFFFFFF` onto the values below
`0x3FFFFFFF00000001`. -/
theorem random_up_to_unbiased {St D : Type} (C : Collab St D) (fuel : Nat) (st : St) (n : Nat)
    (hn : 0 < n) (hdom : n ≤ 4611686014132420609) :
    (match random_up_to C fuel st n with
      | .ok r => r.1 < n
      | .error f => f = Fault.budget) ∧
    (n ≤ 2147483647 →
      n ∣ acc_value_limit 2147483647 n ∧ acc_value_limit 2147483647 n ≤ 2147483647 ∧
      1 ≤ acc_value_limit 2147483647 n / n ∧
      ∀ r, r < n →
        ((Finset.range 2147483647).filter
          (fun v => ¬ acc_value_limit 2147483647 n ≤ v ∧ v % n = r)).card
          = acc_value_limit 2147483647 n / n) ∧
    (n ∣ acc_value_limit 4611686014132420609 n ∧
      acc_value_limit 4611686014132420609 n ≤ 4611686014132420609 ∧
      1 ≤ acc_value_limit 4611686014132420609 n / n ∧
      ∀ r, r < n →
        ((Finset.range 2147483647 ×ˢ Finset.range 2147483647).filter
          (fun p => ¬ acc_value_limit 4611686014132420609 n ≤ two_draw_acc p.1 p.2
            ∧ two_draw_acc p.1 p.2 % n = r)).card
          = acc_value_limit 4611686014132420609 n / n) ∧
    (1 < n → n ≤ 2147483647 →
      random_up_to C (fuel + 1) st n
        = (if acc_value_limit 2147483647 n ≤ (C.mrg_get_uint_orig st).1 then
            random_up_to C fuel (C.mrg_get_uint_orig st).2 n
          else .ok ((C.mrg_get_uint_orig st).1 % n, (C.mrg_get_uint_orig st).2)) ∧
      ∀ r, r < n →
        ((Finset.range 2147483647).filter
          (fun v => returned_value (random_up_to (draw_collab v v) (fuel + 1) false n)
            = some r)).card
          = acc_value_limit 2147483647 n / n) ∧
    (2147483647 < n →
      random_up_to C (fuel + 1) st n
        = (if acc_value_limit 4611686014132420609 n
              ≤ two_draw_acc (C.mrg_get_uint_orig st).1
                (C.mrg_get_uint_orig (C.mrg_get_uint_orig st).2).1 then
            random_up_to C fuel (C.mrg_get_uint_orig (C.mrg_get_uint_orig st).2).2 n
          else .ok (two_draw_acc (C.mrg_get_uint_orig st).1
              (C.mrg_get_uint_orig (C.mrg_get_uint_orig st).2).1 % n,
            (C.mrg_get_uint_orig (C.mrg_get_uint_orig st).2).2)) ∧
      ∀ r, r < n →
        ((Finset.range 2147483647 ×ˢ Finset.range 2147483647).filter
          (fun p => returned_value (random_up_to (draw_collab p.1 p.2) (fuel + 1) false n)
            = some r)).card
          = acc_value_limit 4611686014132420609 n / n) ∧
    ((∀ a b a1 b1, a < 2147483647 → b < 2147483647 → a1 < 2147483647 → b1 < 2147483647 →
        two_draw_acc a b = two_draw_acc a1 b1 → a = a1 ∧ b = b1) ∧
      (∀ a b, a < 2147483647 → b < 2147483647 → two_draw_acc a b < 4611686014132420609) ∧
      (∀ w, w < 4611686014132420609 →
        ∃ a b, a < 2147483647 ∧ b < 2147483647 ∧ two_draw_acc a b = w)) := by
  have hone : n ≤ 2147483647 →
      n ∣ acc_value_limit 2147483647 n ∧ acc_value_limit 2147483647 n ≤ 2147483647 ∧
      1 ≤ acc_value_limit 2147483647 n / n ∧
      ∀ r, r < n →
        ((Finset.range 2147483647).filter
          (fun v => ¬ acc_value_limit 2147483647 n ≤ v ∧ v % n = r)).card
          = acc_value_limit 2147483647 n / n := by
    intro h1
    obtain ⟨d1, d2, d3, d4⟩ := acc_value_limit_spec 2147483647 n (by omega) hn h1
    refine ⟨d1, d2, by omega, ?_⟩
    intro r hr
    rw [d3]
    have e := acc_value_limit_eq 2147483647 n (by omega)
    rw [e]
    rw [e] at d2
    exact card_residue 2147483647 (2147483647 / n) n r hr d2
  have htwo : n ∣ acc_value_limit 4611686014132420609 n ∧
      acc_value_limit 4611686014132420609 n ≤ 4611686014132420609 ∧
      1 ≤ acc_value_limit 4611686014132420609 n / n ∧
      ∀ r, r < n →
        ((Finset.range 2147483647 ×ˢ Finset.range 2147483647).filter
          (fun p => ¬ acc_value_limit 4611686014132420609 n ≤ two_draw_acc p.1 p.2
            ∧ two_draw_acc p.1 p.2 % n = r)).card
          = acc_value_limit 4611686014132420609 n / n := by
    obtain ⟨d1, d2, d3, d4⟩ := acc_value_limit_spec 4611686014132420609 n (by omega) hn hdom
    refine ⟨d1, d2, by omega, ?_⟩
    intro r hr
    rw [d3]
    have e := acc_value_limit_eq 4611686014132420609 n (by omega)
    rw [e]
    rw [e] at d2
    exact card_residue_pairs (4611686014132420609 / n) n r hr d2
  refine ⟨?_, hone, htwo, ?_, ?_, two_draw_acc_bijective⟩
  · have h := random_up_to_lt C fuel st n hn hdom
    cases hr : random_up_to C fuel st n with
    | error f => rw [hr] at h; exact h.1
    | ok r => rw [hr] at h; exact h
  · intro h1 h2
    have e : ∀ (f : Nat) (s : St), random_up_to C f s n
        = random_up_to_one_draw C n (acc_value_limit 2147483647 n) f s := by
      intro f s
      rw [random_up_to_unfold C f s n (by omega) (by omega),
        if_neg (show ¬ n = 1 by omega), if_pos h2]
    refine ⟨by rw [e, e, random_up_to_one_draw_succ], ?_⟩
    intro r hr
    exact (filter_card_congr _ _ _
      (fun v => returned_value_one_draw v n r fuel h1 h2)).trans ((hone h2).2.2.2 r hr)
  · intro h1
    have e : ∀ (f : Nat) (s : St), random_up_to C f s n
        = random_up_to_two_draws C n (acc_value_limit 4611686014132420609 n) f s := by
      intro f s
      rw [random_up_to_unfold C f s n (by omega) hdom,
        if_neg (show ¬ n = 1 by omega), if_neg (show ¬ n ≤ 2147483647 by omega)]
    refine ⟨by rw [e, e, random_up_to_two_draws_succ], ?_⟩
    intro r hr
    have hc : ∀ p : Nat × Nat,
        returned_value (random_up_to (draw_collab p.1 p.2) (fuel + 1) false n) = some r
          ↔ ¬ acc_value_limit 4611686014132420609 n ≤ two_draw_acc p.1 p.2
            ∧ two_draw_acc p.1 p.2 % n = r :=
      fun p => returned_value_two_draws p.1 p.2 n r fuel h1 hdom
    exact (filter_card_congr _ _ _ hc).trans (htwo.2.2.2 r hr)

theorem random_up_to_unbiased_witness :
    (random_up_to sample_collab 2 7 10 = .ok (6, 599) ∧
      acc_value_limit 2147483647 10 = 2147483640 ∧
      returned_value (random_up_to (draw_collab 2147483633 2147483633) 3 false 10) = some 3 ∧
      returned_value (random_up_to (draw_collab 2147483643 2147483643) 3 false 10) = none) ∧
    ((Finset.range 2147483647).filter
        (fun v => returned_value (random_up_to (draw_collab v v) (2 + 1) false 10)
          = some 3)).card
      = acc_value_limit 2147483647 10 / 10 :=
  ⟨⟨by rfl, by decide, by rfl, by rfl⟩,
    ((random_up_to_unbiased sample_collab 2 7 10 (by decide) (by decide)).2.2.2.1
      (by decide) (by decide)).2 3 (by decide)⟩

/-! ## The domain and the two paths of `random_up_to` -/

/-- C12 as stated fails: `n = 4611686014132420610` lies above `2^31 - 1` and
not above `2^31 * (2^31 - 1) + 1 = 4611686016279904257`, yet it exceeds the bound
`0x3FFFFFFF00000001 = (2^31 - 1)^2` of the assertion of line 53, so the call
stops at that assertion. -/
theorem random_up_to_domain_counterexample :
    2147483648 - 1 < 4611686014132420610 ∧
      4611686014132420610 ≤ 2147483648 * (2147483648 - 1) + 1 ∧
      random_up_to sample_collab 2 7 4611686014132420610
        = .error Fault.random_up_to_domain :=
  ⟨by decide, by decide, by rfl⟩

/-- C12 (amended): the assertion of line 53 holds exactly for
`1 ≤ n ≤ 0x3FFFFFFF00000001 = (2^31 - 1)^2`.  For `n = 1` the call returns 0 and
leaves the generator untouched; for `1 < n ≤ 2^31 - 1` each iteration takes one
draw, compares it with the one-draw limit and either returns the draw modulo
`n` or retries; for `2^31 - 1 < n ≤ (2^31 - 1)^2` each iteration takes two
draws, composes them, compares with the two-draw limit and either returns the
composed value modulo `n` or retries. -/
theorem random_up_to_paths {St D : Type} (C : Collab St D) (fuel : Nat) (st : St) (n : Nat) :
    (n = 0 ∨ 4611686014132420609 < n →
      random_up_to C fuel st n = .error Fault.random_up_to_domain) ∧
    (n = 1 → random_up_to C fuel st n = .ok (0, st)) ∧
    (1 < n → n ≤ 2147483647 →
      random_up_to C (fuel + 1) st n
        = if acc_value_limit 2147483647 n ≤ (C.mrg_get_uint_orig st).1 then
            random_up_to C fuel (C.mrg_get_uint_orig st).2 n
          else .ok ((C.mrg_get_uint_orig st).1 % n, (C.mrg_get_uint_orig st).2)) ∧
    (2147483647 < n → n ≤ 4611686014132420609 →
      random_up_to C (fuel + 1) st n
        = if acc_value_limit 4611686014132420609 n
              ≤ two_draw_acc (C.mrg_get_uint_orig st).1
                (C.mrg_get_uint_orig (C.mrg_get_uint_orig st).2).1 then
            random_up_to C fuel (C.mrg_get_uint_orig (C.mrg_get_uint_orig st).2).2 n
          else .ok (two_draw_acc (C.mrg_get_uint_orig st).1
              (C.mrg_get_uint_orig (C.mrg_get_uint_orig st).2).1 % n,
            (C.mrg_get_uint_orig (C.mrg_get_uint_orig st).2).2)) := by
  refine ⟨?_, ?_, ?_, ?_⟩
  · intro h
    unfold random_up_to
    rw [if_neg (by omega)]
  · intro h
    rw [random_up_to_unfold C fuel st n (by omega) (by omega), if_pos h]
  · intro h1 h2
    have e : ∀ (f : Nat) (s : St), random_up_to C f s n
        = random_up_to_one_draw C n (acc_value_limit 2147483647 n) f s := by
      intro f s
      rw [random_up_to_unfold C f s n (by omega) (by omega),
        if_neg (show ¬ n = 1 by omega), if_pos h2]
    rw [e, e, random_up_to_one_draw_succ]
  · intro h1 h2
    have e : ∀ (f : Nat) (s : St), random_up_to C f s n
        = random_up_to_two_draws C n (acc_value_limit 4611686014132420609 n) f s := by
      intro f s
      rw [random_up_to_unfold C f s n (by omega) h2,
        if_neg (show ¬ n = 1 by omega), if_neg (show ¬ n ≤ 2147483647 by omega)]
    rw [e, e, random_up_to_two_draws_succ]

theorem random_up_to_paths_witness :
    random_up_to sample_collab 2 7 4611686014132420609 = .ok (119069383035056, 44999) ∧
      random_up_to sample_collab (1 + 1) 7 4611686014132420609
        = if acc_value_limit 4611686014132420609 4611686014132420609
              ≤ two_draw_acc (sample_collab.mrg_get_uint_orig 7).1
                (sample_collab.mrg_get_uint_orig (sample_collab.mrg_get_uint_orig 7).2).1 then
            random_up_to sample_collab 1
              (sample_collab.mrg_get_uint_orig (sample_collab.mrg_get_uint_orig 7).2).2
              4611686014132420609
          else .ok (two_draw_acc (sample_collab.mrg_get_uint_orig 7).1
              (sample_collab.mrg_get_uint_orig (sample_collab.mrg_get_uint_orig 7).2).1
                % 4611686014132420609,
            (sample_collab.mrg_get_uint_orig (sample_collab.mrg_get_uint_orig 7).2).2) :=
  ⟨by rfl, (random_up_to_paths sample_collab 1 7 4611686014132420609).2.2.2 (by decide)
    (by decide)⟩

theorem block_state_stream (s : generator_settings Nat) (nverts bs bt : Nat) :
    block_state stream_collab s 0 nverts bs bt
      = 2147483648 * (cadd bs s.total_nverts / nverts)
        + 4611686018427387904 * (cadd bt s.total_nverts / nverts) := by
  unfold block_state stream_collab
  simp only [Nat.zero_add]

theorem two_mul_pow_le (S d d1 : Nat) (hS : 2 ≤ S) (h : d < d1) : 2 * S ^ d ≤ S ^ d1 := by
  have h1 : S ^ (d + 1) ≤ S ^ d1 := Nat.pow_le_pow_right (by omega) h
  have h2 : S ^ (d + 1) = S ^ d * S := Nat.pow_succ _ _
  have h3 : S ^ d * 2 ≤ S ^ d * S := Nat.mul_le_mul_left _ hS
  omega

/-- The skip argument of a coordinate `base` of a block of `S ^ k` vertices lies
in `[S ^ (logN - k), 2 * S ^ (logN - k))` and determines `base`. -/
theorem skip_arg_range (S logN k base : Nat) (hS : 2 ≤ S) (hk : k ≤ logN)
    (hN : S ^ logN ≤ 9223372036854775808) (hdvd : S ^ k ∣ base) (hlt : base < S ^ logN) :
    S ^ (logN - k) ≤ cadd base (S ^ logN) / S ^ k ∧
      cadd base (S ^ logN) / S ^ k < 2 * S ^ (logN - k) ∧
      base = (cadd base (S ^ logN) / S ^ k - S ^ (logN - k)) * S ^ k := by
  have hpos : 0 < S ^ k := pow_pos (by omega) k
  have hsplit : S ^ logN = S ^ (logN - k) * S ^ k := by
    rw [← Nat.pow_add]
    congr 1
    omega
  have hbase : base / S ^ k * S ^ k = base := Nat.div_mul_cancel hdvd
  have harg : cadd base (S ^ logN) / S ^ k = base / S ^ k + S ^ (logN - k) := by
    rw [cadd_eq_of_lt (by omega), hsplit]
    exact Nat.add_mul_div_right _ _ hpos
  have hi : base / S ^ k < S ^ (logN - k) := by
    apply Nat.lt_of_mul_lt_mul_right (a := S ^ k)
    rw [hbase, ← hsplit]
    exact hlt
  rw [harg, Nat.add_sub_cancel, hbase]
  generalize base / S ^ k = i at hi
  exact ⟨by omega, by omega, rfl⟩

theorem level_of_arg (S d d1 a : Nat) (hS : 2 ≤ S) (h1 : S ^ d ≤ a) (h2 : a < 2 * S ^ d)
    (h3 : S ^ d1 ≤ a) (h4 : a < 2 * S ^ d1) : d = d1 := by
  by_contra hne
  by_cases hlt : d < d1
  · have := two_mul_pow_le S d d1 hS hlt
    omega
  · have := two_mul_pow_le S d1 d hS (by omega)
    omega

/-- C13 as stated fails for `N > 2^31`: with `S = 2` and `logN = 32` the leaf
blocks `(base_src, base_tgt) = (2^31, 0)` and `(0, 1)` get the skip arguments
`(2^32 + 2^31, 2^32)` and `(2^32, 2^32 + 1)`, hence the same stream offset
`2^31 * a + 2^62 * b`. -/
theorem stream_offset_counterexample :
    (2147483648 < count_pow 2 32 ∧ 1 < count_pow 2 32) ∧
      ((2147483648, 0) : Nat × Nat) ≠ (0, 1) ∧
      block_state stream_collab (settings_data ⟨2, false, true⟩ 0 1 32 1 sample_initiator) 0
          (2 ^ 0) 2147483648 0
        = block_state stream_collab (settings_data ⟨2, false, true⟩ 0 1 32 1 sample_initiator) 0
          (2 ^ 0) 0 1 :=
  ⟨⟨by decide, by decide⟩, by decide, by rfl⟩

/-- C13 (amended): for `S ≥ 2` and `N = S ^ logN ≤ 2^63` (so that `base + N`
does not wrap in `count_type`), two distinct blocks `(base_src, base_tgt, S ^ k)`
of the recursion tree (`k ≤ logN`, the bases multiples of `S ^ k` below `N`) get
distinct pairs of skip arguments `a = (base_src + N) / nverts`,
`b = (base_tgt + N) / nverts`; and when `N ≤ 2^31` they get distinct stream
offsets `2^31 * a + 2^62 * b`. -/
theorem stream_offset_unique (S logN k k1 bs bt bs1 bt1 : Nat) (s : generator_settings Nat)
    (hs : s.total_nverts = S ^ logN) (hS : 2 ≤ S) (hN : S ^ logN ≤ 9223372036854775808)
    (hk : k ≤ logN) (hk1 : k1 ≤ logN) (h1 : S ^ k ∣ bs) (h2 : S ^ k ∣ bt)
    (h3 : S ^ k1 ∣ bs1) (h4 : S ^ k1 ∣ bt1) (h5 : bs < S ^ logN) (h6 : bt < S ^ logN)
    (h7 : bs1 < S ^ logN) (h8 : bt1 < S ^ logN) (hne : (k, bs, bt) ≠ (k1, bs1, bt1)) :
    (cadd bs s.total_nverts / S ^ k, cadd bt s.total_nverts / S ^ k)
        ≠ (cadd bs1 s.total_nverts / S ^ k1, cadd bt1 s.total_nverts / S ^ k1) ∧
    (S ^ logN ≤ 2147483648 →
      block_state stream_collab s 0 (S ^ k) bs bt
        ≠ block_state stream_collab s 0 (S ^ k1) bs1 bt1) := by
  rw [block_state_stream, block_state_stream, hs]
  obtain ⟨a1, a2, a3⟩ := skip_arg_range S logN k bs hS hk hN h1 h5
  obtain ⟨b1, b2, b3⟩ := skip_arg_range S logN k bt hS hk hN h2 h6
  obtain ⟨c1, c2, c3⟩ := skip_arg_range S logN k1 bs1 hS hk1 hN h3 h7
  obtain ⟨d1, d2, d3⟩ := skip_arg_range S logN k1 bt1 hS hk1 hN h4 h8
  generalize cadd bs (S ^ logN) / S ^ k = a at *
  generalize cadd bt (S ^ logN) / S ^ k = b at *
  generalize cadd bs1 (S ^ logN) / S ^ k1 = c at *
  generalize cadd bt1 (S ^ logN) / S ^ k1 = d at *
  have pairs : a = c → b = d → False := by
    intro hac hbd
    subst hac hbd
    have hd := level_of_arg S (logN - k) (logN - k1) a hS a1 a2 c1 c2
    have hkk : k = k1 := by omega
    subst hkk
    apply hne
    rw [a3.trans c3.symm, b3.trans d3.symm]
  refine ⟨fun h => pairs (Prod.mk.inj h).1 (Prod.mk.inj h).2, ?_⟩
  intro hsmall hoff
  have hp : S ^ (logN - k) ≤ S ^ logN := Nat.pow_le_pow_right (by omega) (by omega)
  by_cases hlt : logN - k < logN - k1
  · have := two_mul_pow_le S _ _ hS hlt
    omega
  · by_cases hgt : logN - k1 < logN - k
    · have := two_mul_pow_le S _ _ hS hgt
      omega
    · have he : logN - k = logN - k1 := by omega
      rw [he] at a1 a2 b1 b2 hp
      apply pairs <;> omega

theorem stream_offset_unique_witness :
    (block_state stream_collab (settings_data ⟨2, false, true⟩ 0 1 3 1 sample_initiator) 0
        (2 ^ 1) 2 4 = 27670116121301745664 ∧
      block_state stream_collab (settings_data ⟨2, false, true⟩ 0 1 3 1 sample_initiator) 0
        (2 ^ 1) 2 6 = 32281802139729133568 ∧
      block_state stream_collab (settings_data ⟨2, false, true⟩ 0 1 3 1 sample_initiator) 0
        (2 ^ 0) 2 4 = 55340232242603491328) ∧
    (block_state stream_collab (settings_data ⟨2, false, true⟩ 0 1 3 1 sample_initiator) 0
        (2 ^ 1) 2 4
      ≠ block_state stream_collab (settings_data ⟨2, false, true⟩ 0 1 3 1 sample_initiator) 0
        (2 ^ 0) 2 4) :=
  ⟨⟨by rfl, by rfl, by rfl⟩, (stream_offset_unique 2 3 1 0 2 4 2 4
    (settings_data ⟨2, false, true⟩ 0 1 3 1 sample_initiator) rfl (by decide) (by decide)
    (by decide) (by decide) (by decide) (by decide) (by decide) (by decide) (by decide)
    (by decide) (by decide) (by decide) (by decide)).2 (by decide)⟩

/-- Past `N = 2^63` the sum `base + N` of line 160 wraps in `count_type`: with
`S = 3` and `logN = 40` the leaf block at `base_src = base_tgt =
10341633767671599082` and the block of 3 vertices at `(0, 0)` get the same pair
of skip arguments, `3^39` twice. -/
theorem skip_arguments_wrap :
    (9223372036854775808 < count_pow 3 40 ∧ count_pow 3 40 < 18446744073709551616) ∧
      10341633767671599082 < count_pow 3 40 ∧
      cadd 10341633767671599082
          (settings_data ⟨3, false, true⟩ 0 1 40 1 sample_initiator).total_nverts / 3 ^ 0
        = cadd 0 (settings_data ⟨3, false, true⟩ 0 1 40 1 sample_initiator).total_nverts / 3 ^ 1 ∧
      block_state stream_collab (settings_data ⟨3, false, true⟩ 0 1 40 1 sample_initiator) 0
          (3 ^ 0) 10341633767671599082 10341633767671599082
        = block_state stream_collab (settings_data ⟨3, false, true⟩ 0 1 40 1 sample_initiator) 0
          (3 ^ 1) 0 0 :=
  ⟨⟨by decide, by decide⟩, by decide, by rfl, by rfl⟩

/-! ## Conservation of the edge count by `make_square_counts` and by the fold -/

/-- C19: for every generator whose binomial sampler returns a value in `[0, n]`,
every initiator, `S ≥ 1` and `num_edges` representable in `count_type`, the
`K = S^2` entries written by `make_square_counts` add up to `num_edges`, in the
direct regime (`num_edges ≤ 20`) and in the conditional-binomial regime; in the
latter the value of `num_edges_left` after the loop is `num_edges` minus the
counts drawn, without wrap-around, and it is the last entry. -/
theorem square_counts_conserve {St D : Type} (C : Collab St D) (B : Build) (num_edges : Nat)
    (st : St) (s : generator_settings D) (square_counts : Nat → Nat)
    (hbin : ∀ n p st, (C.btrd_binomial_distribution n p st).1 ≤ n)
    (hS : 1 ≤ B.GRAPHGEN_INITIATOR_SIZE) (hE : num_edges < 18446744073709551616) :
    (∑ x ∈ Finset.range (GRAPHGEN_INITIATOR_SIZE2 B),
      (make_square_counts C B num_edges st s square_counts).1 x) = num_edges ∧
    (20 < num_edges →
      (∑ x ∈ Finset.range (GRAPHGEN_INITIATOR_SIZE2 B - 1),
          (square_counts_binomial C s.initiator (GRAPHGEN_INITIATOR_SIZE2 B - 1) 0 num_edges
            C.done st square_counts).1 x)
        + (square_counts_binomial C s.initiator (GRAPHGEN_INITIATOR_SIZE2 B - 1) 0 num_edges
            C.done st square_counts).2.1 = num_edges ∧
      (make_square_counts C B num_edges st s square_counts).1 (GRAPHGEN_INITIATOR_SIZE2 B - 1)
        = (square_counts_binomial C s.initiator (GRAPHGEN_INITIATOR_SIZE2 B - 1) 0 num_edges
            C.done st square_counts).2.1) := by
  have hK : 0 < GRAPHGEN_INITIATOR_SIZE2 B := Nat.mul_pos hS hS
  refine ⟨make_square_counts_sum C B hbin hK num_edges st s square_counts hE, ?_⟩
  intro h20
  have h := square_counts_binomial_sum C s.initiator hbin (GRAPHGEN_INITIATOR_SIZE2 B - 1) 0
    num_edges C.done st square_counts hE
  simp only [Finset.range_zero, Finset.sum_empty, Nat.zero_add] at h
  refine ⟨h, ?_⟩
  unfold make_square_counts
  rw [if_neg (by omega)]
  simp only [Function.update_same]

theorem square_counts_conserve_witness :
    (List.range 4).map (make_square_counts sample_collab ⟨2, false, true⟩ 30 7
        (settings_data ⟨2, false, true⟩ 0 1 3 30 sample_initiator) (fun _ => 0)).1
      = [17, 6, 6, 1] ∧
    (List.range 4).map (make_square_counts sample_collab ⟨2, false, true⟩ 6 7
        (settings_data ⟨2, false, true⟩ 0 1 3 30 sample_initiator) (fun _ => 0)).1
      = [6, 0, 0, 0] ∧
    (∑ x ∈ Finset.range (GRAPHGEN_INITIATOR_SIZE2 ⟨2, false, true⟩),
      (make_square_counts sample_collab ⟨2, false, true⟩ 30 7
        (settings_data ⟨2, false, true⟩ 0 1 3 30 sample_initiator) (fun _ => 0)).1 x) = 30 :=
  ⟨by rfl, by rfl,
    (square_counts_conserve sample_collab ⟨2, false, true⟩ 30 7
      (settings_data ⟨2, false, true⟩ 0 1 3 30 sample_initiator) (fun _ => 0)
      sample_collab_binomial (by decide) (by decide)).1⟩

/-- C20: for every `S` and every count vector `c` with `S^2` entries whose
total is representable in `count_type`, the fold of lines 226-231 leaves the
total unchanged, leaves the diagonal entries unchanged, and for `i < j` sets the
entry `c[j*S+i]` below the diagonal to 0 and the entry `c[i*S+j]` above the
diagonal to the sum of the original pair. -/
theorem clip_and_flip_fold (S : Nat) (c : Nat → Nat)
    (hlt : (∑ x ∈ Finset.range (S * S), c x) < 18446744073709551616) :
    (∑ x ∈ Finset.range (S * S), clip_and_flip S c x) = (∑ x ∈ Finset.range (S * S), c x) ∧
    (∀ i, i < S → clip_and_flip S c (i * S + i) = c (i * S + i)) ∧
    (∀ i j, i < j → j < S →
      clip_and_flip S c (j * S + i) = 0 ∧
      clip_and_flip S c (i * S + j) = c (i * S + j) + c (j * S + i)) := by
  refine ⟨clip_and_flip_sum S c hlt, ?_, ?_⟩
  · intro i hi
    rw [clip_and_flip_eq]
    unfold flip_upto
    rw [pair_div S i i hi, pair_mod S i i hi, if_neg (by omega), if_neg (by omega)]
  · intro i j hij hj
    have hi : i < S := by omega
    refine ⟨?_, ?_⟩
    · apply clip_and_flip_lower S c _ (pair_lt S j i hj hi)
      rw [pair_div S j i hi, pair_mod S j i hi]
      exact hij
    · obtain ⟨rest, h1, _⟩ := sum_split_two c (S * S) (i * S + j) (j * S + i)
        (pair_ne S i j hij hj) (pair_lt S i j hi hj) (pair_lt S j i hj hi)
      rw [clip_and_flip_eq]
      unfold flip_upto
      rw [pair_div S i j hj, pair_mod S i j hj, if_pos ⟨pair_lt S i j hi hj, hij, by omega⟩]
      exact cadd_eq_of_lt (by omega)

theorem clip_and_flip_fold_witness :
    (List.range 4).map (clip_and_flip 2 (fun x => [5, 3, 4, 1].getD x 0)) = [5, 7, 0, 1] ∧
    ((∑ x ∈ Finset.range (2 * 2), clip_and_flip 2 (fun x => [5, 3, 4, 1].getD x 0) x)
        = (∑ x ∈ Finset.range (2 * 2), (fun x => [5, 3, 4, 1].getD x 0) x) ∧
      (∀ i, i < 2 → clip_and_flip 2 (fun x => [5, 3, 4, 1].getD x 0) (i * 2 + i)
        = (fun x => [5, 3, 4, 1].getD x 0) (i * 2 + i)) ∧
      (∀ i j, i < j → j < 2 →
        clip_and_flip 2 (fun x => [5, 3, 4, 1].getD x 0) (j * 2 + i) = 0 ∧
        clip_and_flip 2 (fun x => [5, 3, 4, 1].getD x 0) (i * 2 + j)
          = (fun x => [5, 3, 4, 1].getD x 0) (i * 2 + j)
            + (fun x => [5, 3, 4, 1].getD x 0) (j * 2 + i))) :=
  ⟨by rfl, clip_and_flip_fold 2 (fun x => [5, 3, 4, 1].getD x 0) (by decide)⟩

/-! ## The pruning test of line 240 -/

/-- The pruning test in closed form: a sub-block is descended exactly when its
first edge index is below the worker's last edge and the end `fei + count` of
its interval is not below the worker's first edge. -/
theorem descend_test_iff {D : Type} (s : generator_settings D) (fei count : Nat)
    (hlt : fei + count < 18446744073709551616) (hcount : 0 < count)
    (hrange : s.my_first_edge ≤ s.my_last_edge) :
    descend_test s fei count = true ↔
      (s.my_first_edge ≤ fei + count ∧ fei < s.my_last_edge) := by
  unfold descend_test edge_pos
  rw [cadd_eq_of_lt hlt]
  by_cases c1 : fei < s.my_first_edge <;> by_cases c2 : fei < s.my_last_edge <;>
    by_cases c3 : fei + count < s.my_first_edge <;>
    by_cases c4 : fei + count < s.my_last_edge <;>
    simp [c1, c2, c3, c4] <;> omega

/-- C18 as stated fails: for the worker with range `[5, 10)` (rank 1 of 2,
`M = 10`) the sub-block with `fei = 3` and count 2 has the interval `[3, 5)`,
entirely outside the range, yet `rhs_pos` is taken at the exclusive end
`fei + count = 5`, which lies in the range, so the sub-block is descended. -/
theorem pruning_exact_counterexample :
    (settings_data ⟨2, false, true⟩ 1 2 3 10 sample_initiator).my_first_edge = 5 ∧
      (settings_data ⟨2, false, true⟩ 1 2 3 10 sample_initiator).my_last_edge = 10 ∧
      (¬ ∃ y, 3 ≤ y ∧ y < 3 + 2 ∧ 5 ≤ y ∧ y < 10) ∧
      descend_test (settings_data ⟨2, false, true⟩ 1 2 3 10 sample_initiator) 3 2 = true :=
  ⟨by decide, by decide, by rintro ⟨y, h⟩; omega, by decide⟩

/-- C18 (amended): for a sub-block with a non-zero count, `fei + count`
representable and a worker range with `my_first_edge ≤ my_last_edge`, the test of
line 240 holds exactly when `fei < my_last_edge` and
`my_first_edge ≤ fei + count`.  So a sub-block whose interval ends below
`my_first_edge` or starts at or after `my_last_edge` is skipped; a sub-block that
is descended has an edge index in the worker's range, or ends exactly at
`my_first_edge`, or the worker's range is empty. -/
theorem pruning_exact {D : Type} (s : generator_settings D) (fei count : Nat)
    (hlt : fei + count < 18446744073709551616) (hcount : 0 < count)
    (hrange : s.my_first_edge ≤ s.my_last_edge) :
    (descend_test s fei count = true ↔
      (s.my_first_edge ≤ fei + count ∧ fei < s.my_last_edge)) ∧
    (fei + count < s.my_first_edge ∨ s.my_last_edge ≤ fei →
      descend_test s fei count = false) ∧
    (descend_test s fei count = true →
      (∃ y, fei ≤ y ∧ y < fei + count ∧ s.my_first_edge ≤ y ∧ y < s.my_last_edge) ∨
        fei + count = s.my_first_edge ∨ s.my_first_edge = s.my_last_edge) := by
  have h := descend_test_iff s fei count hlt hcount hrange
  refine ⟨h, ?_, ?_⟩
  · intro hout
    cases hd : descend_test s fei count with
    | false => rfl
    | true =>
      have := h.mp hd
      omega
  · intro hd
    have h1 := h.mp hd
    by_cases hx : fei + count = s.my_first_edge ∨ s.my_first_edge = s.my_last_edge
    · exact Or.inr hx
    · refine Or.inl ⟨max fei s.my_first_edge, ?_⟩
      simp only [Nat.max_def]
      split <;> omega

theorem pruning_exact_witness :
    descend_test (settings_data ⟨2, false, true⟩ 1 2 3 10 sample_initiator) 1 3 = false ∧
      (descend_test (settings_data ⟨2, false, true⟩ 1 2 3 10 sample_initiator) 3 4 = true ↔
        ((settings_data ⟨2, false, true⟩ 1 2 3 10 sample_initiator).my_first_edge ≤ 3 + 4 ∧
          3 < (settings_data ⟨2, false, true⟩ 1 2 3 10 sample_initiator).my_last_edge)) :=
  ⟨by decide, (pruning_exact (settings_data ⟨2, false, true⟩ 1 2 3 10 sample_initiator) 3 4
    (by decide) (by decide) (by decide)).1⟩

theorem tail_sum_succ (sc : Nat → Nat) (todo i : Nat) :
    tail_sum sc (todo + 1) i = sc i + tail_sum sc todo (i + 1) := rfl

theorem tail_sum_range (sc : Nat → Nat) :
    ∀ (todo i : Nat),
      (∑ x ∈ Finset.range i, sc x) + tail_sum sc todo i = ∑ x ∈ Finset.range (i + todo), sc x := by
  intro todo
  induction todo with
  | zero => intro i; rfl
  | succ todo ih =>
    intro i
    have h := ih (i + 1)
    rw [Finset.sum_range_succ] at h
    have e : i + (todo + 1) = i + 1 + todo := by omega
    rw [e, ← h, tail_sum_succ]
    omega

theorem kronecker_children_writes {D : Type} (B : Build) (s sf : generator_settings D)
    (hsf : sf.my_first_edge = 0) (sc : Nat → Nat) (nn bs bt K : Nat)
    (descend_all descend : Nat → Nat → Nat → Nat → List Nat → Except Fault (List Nat))
    (hdesc : ∀ x, x < K → sc x ≠ 0 → ∀ (fei : Nat),
      fei + sc x < 18446744073709551616 → fei + sc x ≤ sf.my_last_edge →
      ∃ ws, block_writes s fei (sc x)
        (descend_all fei (sc x) (cadd bs (cmul nn (x / B.GRAPHGEN_INITIATOR_SIZE)))
          (cadd bt (cmul nn (x % B.GRAPHGEN_INITIATOR_SIZE))))
        (descend fei (sc x) (cadd bs (cmul nn (x / B.GRAPHGEN_INITIATOR_SIZE)))
          (cadd bt (cmul nn (x % B.GRAPHGEN_INITIATOR_SIZE)))) ws) :
    ∀ (todo i fei : Nat), i + todo = K →
      fei + tail_sum sc todo i < 18446744073709551616 →
      fei + tail_sum sc todo i ≤ sf.my_last_edge →
      ∃ ws, block_writes s fei (tail_sum sc todo i)
        (kronecker_children B sf sc nn bs bt descend_all todo i fei)
        (kronecker_children B s sc nn bs bt descend todo i fei) ws := by
  intro todo
  induction todo with
  | zero =>
    intro i fei _ _ _
    refine ⟨[], ?_, ?_, List.Pairwise.nil, ?_⟩
    · intro log; rw [List.append_nil]; rfl
    · intro log; rw [List.filter_nil, List.append_nil]; rfl
    · intro f hf; cases hf
  | succ todo ih =>
    intro i fei hK hlt hlast
    rw [tail_sum_succ] at hlt hlast ⊢
    by_cases hz : sc i ≠ 0
    · have hcadd : cadd fei (sc i) = fei + sc i := cadd_eq_of_lt (by omega)
      obtain ⟨ws1, ha1, hr1, hp1, hw1⟩ := hdesc i (by omega) hz fei (by omega) (by omega)
      obtain ⟨ws2, ha2, hr2, hp2, hw2⟩ := ih (i + 1) (fei + sc i) (by omega) (by omega)
        (by omega)
      have htest : descend_test sf fei (sc i) = true := by
        unfold descend_test edge_pos
        rw [hsf, if_neg (by omega), if_pos (by omega)]
        simp
      refine ⟨ws1 ++ ws2, ?_, ?_, ?_, ?_⟩
      · intro log
        unfold kronecker_children
        rw [if_pos hz, if_pos htest, ha1 log, hcadd]
        simp only []
        rw [ha2, List.append_assoc]
      · intro log
        unfold kronecker_children
        rw [if_pos hz, hcadd, List.filter_append]
        by_cases ht : descend_test s fei (sc i) = true
        · rw [if_pos ht, hr1 log]
          simp only []
          rw [hr2, List.append_assoc]
        · rw [if_neg ht, hr2]
          have hnil : ws1.filter (fun f => in_my_range s f) = [] := by
            rw [List.filter_eq_nil_iff]
            intro f hf hin
            have hwin := hw1 f hf
            exact descend_test_false s fei (sc i) (by omega) (by simpa using ht) f
              hwin.1 hwin.2 ((in_my_range_iff s f).mp hin)
          rw [hnil, List.nil_append]
      · rw [List.pairwise_append]
        refine ⟨hp1, hp2, ?_⟩
        intro a ha b hb
        have := hw1 a ha
        have := hw2 b hb
        omega
      · intro f hf
        rw [List.mem_append] at hf
        cases hf with
        | inl h => have := hw1 f h; omega
        | inr h => have := hw2 f h; omega
    · have hz0 : sc i = 0 := by omega
      rw [hz0, Nat.zero_add] at hlt hlast ⊢
      obtain ⟨ws2, ha2, hr2, hp2, hw2⟩ := ih (i + 1) fei (by omega) hlt hlast
      refine ⟨ws2, ?_, ?_, hp2, hw2⟩
      · intro log
        unfold kronecker_children
        rw [if_neg hz]
        exact ha2 log
      · intro log
        unfold kronecker_children
        rw [if_neg hz]
        exact hr2 log

theorem block_state_congr {St D : Type} (C : Collab St D) (s s1 : generator_settings D)
    (ht : s.total_nverts = s1.total_nverts) (orig_state : St) (nverts bs bt : Nat) :
    block_state C s orig_state nverts bs bt = block_state C s1 orig_state nverts bs bt := by
  unfold block_state
  rw [ht]

theorem writes_leaf {St D : Type} (C : Collab St D) (B : Build) (s : generator_settings D)
    (orig_state : St) (depth fei E bs bt : Nat) (log : List Nat)
    (hassert : (B.GRAPHGEN_UNDIRECTED && decide (bt < bs)) = false) (hE : E ≠ 0) :
    generate_kronecker_internal_writes C B (depth + 1) orig_state fei E 1 s bs bt log
      = if in_my_range s fei then .ok (log ++ [fei]) else .ok log := by
  unfold generate_kronecker_internal_writes
  simp only [Nat.one_ne_zero, if_false, hassert, Bool.false_eq_true, if_true]
  rw [if_neg hE]

theorem writes_single {St D : Type} (C : Collab St D) (B : Build) (s : generator_settings D)
    (orig_state : St) (depth fei nverts bs bt : Nat) (log : List Nat)
    (hassert : (B.GRAPHGEN_UNDIRECTED && decide (bt < bs)) = false) (hn : 1 < nverts)
    (r : Nat × Nat × St)
    (hloop : make_one_edge_loop C B s nverts bs bt nverts
      (block_state C s orig_state nverts bs bt) = .ok r) :
    generate_kronecker_internal_writes C B (depth + 1) orig_state fei 1 nverts s bs bt log
      = if in_my_range s fei then .ok (log ++ [fei]) else .ok log := by
  have hne0 : ¬ (nverts = 0) := by omega
  have hne1 : ¬ (nverts = 1) := by omega
  unfold generate_kronecker_internal_writes
  simp only [hne0, hne1, hassert, Bool.false_eq_true, if_false, if_true, hloop]

theorem writes_rec {St D : Type} (C : Collab St D) (B : Build) (s : generator_settings D)
    (orig_state : St) (depth fei E nverts bs bt : Nat) (log : List Nat)
    (hassert : (B.GRAPHGEN_UNDIRECTED && decide (bt < bs)) = false) (hn : 1 < nverts)
    (hE : E ≠ 1) :
    generate_kronecker_internal_writes C B (depth + 1) orig_state fei E nverts s bs bt log
      = kronecker_children B s
          (block_counts C B s (block_state C s orig_state nverts bs bt) E bs bt)
          (nverts / B.GRAPHGEN_INITIATOR_SIZE) bs bt
          (fun fei count bs bt o =>
            generate_kronecker_internal_writes C B depth orig_state fei count
              (nverts / B.GRAPHGEN_INITIATOR_SIZE) s bs bt o)
          (GRAPHGEN_INITIATOR_SIZE2 B) 0 fei log := by
  have hne0 : ¬ (nverts = 0) := by omega
  have hne1 : ¬ (nverts = 1) := by omega
  conv_lhs => unfold generate_kronecker_internal_writes
  simp only [hne0, hne1, hassert, Bool.false_eq_true, if_false, hE]

/-- A block that stores one record, at its first edge index. -/
theorem block_writes_one {D : Type} (s : generator_settings D) (fei E : Nat)
    (run_all run : List Nat → Except Fault (List Nat)) (hE : E ≠ 0)
    (hall : ∀ log, run_all log = .ok (log ++ [fei]))
    (hrun : ∀ log, run log = if in_my_range s fei then .ok (log ++ [fei]) else .ok log) :
    block_writes s fei E run_all run [fei] := by
  refine ⟨hall, ?_, List.pairwise_singleton _ _, ?_⟩
  · intro log
    rw [hrun log]
    by_cases h : in_my_range s fei = true
    · rw [if_pos h, List.filter_cons_of_pos h, List.filter_nil]
    · rw [if_neg h, List.filter_cons_of_neg h, List.filter_nil, List.append_nil]
  · intro f hf
    rw [List.mem_singleton] at hf
    omega

theorem in_my_range_whole {D : Type} (sf : generator_settings D) (hsf : sf.my_first_edge = 0)
    (fei : Nat) (h : fei < sf.my_last_edge) : in_my_range sf fei = true := by
  rw [in_my_range_iff, hsf]
  exact ⟨Nat.zero_le _, h⟩

/-- The stores of a block: the traversal `sf` of the whole range
(`my_first_edge = 0`, the block's interval below `my_last_edge`) stores at
increasing edge indices inside the block's interval, and the worker `s` stores
at those of them that lie in its range. -/
theorem generate_kronecker_internal_writes_spec {St D : Type} (C : Collab St D) (B : Build)
    (hbin : ∀ n p st, (C.btrd_binomial_distribution n p st).1 ≤ n)
    (hS : 2 ≤ B.GRAPHGEN_INITIATOR_SIZE) (s sf : generator_settings D) (orig_state : St)
    (N : Nat) (hN : N < 18446744073709551616) (hi : sf.initiator = s.initiator)
    (ht : sf.total_nverts = s.total_nverts) (hsf : sf.my_first_edge = 0) :
    ∀ (k depth fei E bs bt : Nat), k < depth → block_inv B N k bs bt → (k = 0 → E ≠ 0) →
      fei + E < 18446744073709551616 → fei + E ≤ sf.my_last_edge →
      ∃ ws, block_writes s fei E
        (generate_kronecker_internal_writes C B depth orig_state fei E
          (B.GRAPHGEN_INITIATOR_SIZE ^ k) sf bs bt)
        (generate_kronecker_internal_writes C B depth orig_state fei E
          (B.GRAPHGEN_INITIATOR_SIZE ^ k) s bs bt) ws := by
  have hK : 0 < GRAPHGEN_INITIATOR_SIZE2 B := Nat.mul_pos (by omega) (by omega)
  intro k
  induction k with
  | zero =>
    intro depth fei E bs bt hd hinv hleaf hlt hlast
    obtain ⟨depth, rfl⟩ : ∃ d, depth = d + 1 := ⟨depth - 1, by omega⟩
    have hE := hleaf rfl
    have hassert : (B.GRAPHGEN_UNDIRECTED && decide (bt < bs)) = false := by
      cases hU : B.GRAPHGEN_UNDIRECTED
      · simp
      · have := hinv.2.2 hU
        simp only [Bool.true_and, decide_eq_false_iff_not]
        omega
    refine ⟨[fei], block_writes_one s fei E _ _ hE ?_ ?_⟩
    · intro log
      rw [Nat.pow_zero, writes_leaf C B sf orig_state depth fei E bs bt log hassert hE,
        if_pos (in_my_range_whole sf hsf fei (by omega))]
    · intro log
      rw [Nat.pow_zero, writes_leaf C B s orig_state depth fei E bs bt log hassert hE]
  | succ k ih =>
    intro depth fei E bs bt hd hinv _ hlt hlast
    obtain ⟨depth, rfl⟩ : ∃ d, depth = d + 1 := ⟨depth - 1, by omega⟩
    have hgt : 1 < B.GRAPHGEN_INITIATOR_SIZE ^ (k + 1) := one_lt_pow_succ _ _ hS
    have hassert : (B.GRAPHGEN_UNDIRECTED && decide (bt < bs)) = false := by
      cases hU : B.GRAPHGEN_UNDIRECTED
      · simp
      · have := hinv.2.2 hU
        simp only [Bool.true_and, decide_eq_false_iff_not]
        omega
    have hst := block_state_congr C sf s ht orig_state (B.GRAPHGEN_INITIATOR_SIZE ^ (k + 1)) bs bt
    by_cases hE : E = 1
    · subst hE
      obtain ⟨src, tgt, st1, hrun, -⟩ :=
        make_one_edge_loop_ok C B s N hN hS (k + 1)
          (B.GRAPHGEN_INITIATOR_SIZE ^ (k + 1)) bs bt
          (block_state C s orig_state (B.GRAPHGEN_INITIATOR_SIZE ^ (k + 1)) bs bt)
          (Nat.le_of_lt (Nat.lt_pow_self (by omega) _)) hinv
      have hrunf : make_one_edge_loop C B sf (B.GRAPHGEN_INITIATOR_SIZE ^ (k + 1)) bs bt
          (B.GRAPHGEN_INITIATOR_SIZE ^ (k + 1))
          (block_state C sf orig_state (B.GRAPHGEN_INITIATOR_SIZE ^ (k + 1)) bs bt)
            = .ok (src, tgt, st1) := by
        rw [hst, make_one_edge_loop_congr C B sf s hi]
        exact hrun
      refine ⟨[fei], block_writes_one s fei 1 _ _ (by omega) ?_ ?_⟩
      · intro log
        rw [writes_single C B sf orig_state depth fei _ bs bt log hassert hgt _ hrunf,
          if_pos (in_my_range_whole sf hsf fei (by omega))]
      · intro log
        rw [writes_single C B s orig_state depth fei _ bs bt log hassert hgt _ hrun]
    · have hElt : E < 18446744073709551616 := by omega
      have hsum := block_counts_sum C B hbin hK s
        (block_state C s orig_state (B.GRAPHGEN_INITIATOR_SIZE ^ (k + 1)) bs bt) E bs bt hElt
      have hdiag := fun x hx hnz => block_counts_diag C B s
        (block_state C s orig_state (B.GRAPHGEN_INITIATOR_SIZE ^ (k + 1)) bs bt) E bs bt x hx hnz
      have hscf : block_counts C B sf
          (block_state C sf orig_state (B.GRAPHGEN_INITIATOR_SIZE ^ (k + 1)) bs bt) E bs bt
          = block_counts C B s
            (block_state C s orig_state (B.GRAPHGEN_INITIATOR_SIZE ^ (k + 1)) bs bt) E bs bt := by
        rw [hst, block_counts_congr C B sf s hi]
      have hfun : ∀ f : List Nat → Except Fault (List Nat),
          (fun log => f log) = f := fun f => rfl
      have e1 : generate_kronecker_internal_writes C B (depth + 1) orig_state fei E
          (B.GRAPHGEN_INITIATOR_SIZE ^ (k + 1)) sf bs bt
          = kronecker_children B sf
              (block_counts C B s
                (block_state C s orig_state (B.GRAPHGEN_INITIATOR_SIZE ^ (k + 1)) bs bt) E bs bt)
              (B.GRAPHGEN_INITIATOR_SIZE ^ k) bs bt
              (fun fei count bs bt o =>
                generate_kronecker_internal_writes C B depth orig_state fei count
                  (B.GRAPHGEN_INITIATOR_SIZE ^ k) sf bs bt o)
              (GRAPHGEN_INITIATOR_SIZE2 B) 0 fei := by
        funext log
        rw [writes_rec C B sf orig_state depth fei E _ bs bt log hassert hgt hE, hscf,
          pow_succ_div _ _ (show 0 < B.GRAPHGEN_INITIATOR_SIZE by omega)]
      have e2 : generate_kronecker_internal_writes C B (depth + 1) orig_state fei E
          (B.GRAPHGEN_INITIATOR_SIZE ^ (k + 1)) s bs bt
          = kronecker_children B s
              (block_counts C B s
                (block_state C s orig_state (B.GRAPHGEN_INITIATOR_SIZE ^ (k + 1)) bs bt) E bs bt)
              (B.GRAPHGEN_INITIATOR_SIZE ^ k) bs bt
              (fun fei count bs bt o =>
                generate_kronecker_internal_writes C B depth orig_state fei count
                  (B.GRAPHGEN_INITIATOR_SIZE ^ k) s bs bt o)
              (GRAPHGEN_INITIATOR_SIZE2 B) 0 fei := by
        funext log
        rw [writes_rec C B s orig_state depth fei E _ bs bt log hassert hgt hE,
          pow_succ_div _ _ (show 0 < B.GRAPHGEN_INITIATOR_SIZE by omega)]
      rw [e1, e2]
      generalize block_counts C B s
        (block_state C s orig_state (B.GRAPHGEN_INITIATOR_SIZE ^ (k + 1)) bs bt)
        E bs bt = sc at hsum hdiag
      have htail := tail_sum_range sc (GRAPHGEN_INITIATOR_SIZE2 B) 0
      simp only [Finset.range_zero, Finset.sum_empty, Nat.zero_add] at htail
      rw [hsum] at htail
      have hch := kronecker_children_writes B s sf hsf sc (B.GRAPHGEN_INITIATOR_SIZE ^ k) bs bt
        (GRAPHGEN_INITIATOR_SIZE2 B)
        (fun fei count bs bt o =>
          generate_kronecker_internal_writes C B depth orig_state fei count
            (B.GRAPHGEN_INITIATOR_SIZE ^ k) sf bs bt o)
        (fun fei count bs bt o =>
          generate_kronecker_internal_writes C B depth orig_state fei count
            (B.GRAPHGEN_INITIATOR_SIZE ^ k) s bs bt o)
        (by
          intro x hx hnz fei1 hlt1 hlast1
          obtain ⟨ho1, ho2⟩ := square_offsets_lt _ _ hx
          obtain ⟨c1, c2, hinv1⟩ := block_inv_child B N k bs bt _ _ hN hinv ho1 ho2
            (fun hU hdg => hdiag x hx hnz hU hdg)
          rw [c1, c2]
          exact ih depth fei1 (sc x) _ _ (by omega) hinv1 (fun _ => hnz) hlt1 hlast1)
        (GRAPHGEN_INITIATOR_SIZE2 B) 0 fei (by omega) (by rw [htail]; exact hlt)
        (by rw [htail]; exact hlast)
      rw [htail] at hch
      exact hch

theorem single_worker_settings {D : Type} (B : Build) (logN M : Nat) (initiator : Nat → D)
    (hM : M < 18446744073709551616) :
    (settings_data B 0 1 logN M initiator).my_first_edge = 0 ∧
      (settings_data B 0 1 logN M initiator).my_last_edge = M := by
  have h1 := my_start_edge_zero 1 M
  have h3 := my_end_eq_next_start hM (by omega : (1 : Nat) < 18446744073709551616)
    (by omega : 0 < 1)
  have h4 := my_start_edge_size hM (by omega : 0 < 1)
  rw [Nat.zero_add] at h3
  exact ⟨h1, h3.trans h4⟩

theorem generate_kronecker_writes_empty_leaf {St D : Type} (C : Collab St D) (B : Build)
    (rank size : Nat) (seed : Nat → Nat) (initiator : Nat → D) :
    generate_kronecker_writes C B rank size seed 0 0 initiator
      = .error Fault.num_edges_nonzero := by
  unfold generate_kronecker_writes generate_kronecker_internal_writes count_pow
  simp

/-- The stores of a worker are the stores of the single worker at the edge
indices of the worker's range; the single worker stores at increasing edge
indices below `M`. -/
theorem generate_kronecker_writes_spec {St D : Type} (C : Collab St D) (B : Build)
    (hbin : ∀ n p st, (C.btrd_binomial_distribution n p st).1 ≤ n)
    (hS : 2 ≤ B.GRAPHGEN_INITIATOR_SIZE) (rank size : Nat) (seed : Nat → Nat) (logN M : Nat)
    (initiator : Nat → D)
    (hN : count_pow B.GRAPHGEN_INITIATOR_SIZE logN < 18446744073709551616)
    (hM : M < 18446744073709551616) (hne : logN = 0 → M ≠ 0) :
    ∃ ws, generate_kronecker_writes C B 0 1 seed logN M initiator = .ok ws ∧
      generate_kronecker_writes C B rank size seed logN M initiator
        = .ok (ws.filter (fun f => in_my_range (settings_data B rank size logN M initiator) f)) ∧
      ws.Pairwise (fun a b => a < b) ∧ ∀ f ∈ ws, f < M := by
  obtain ⟨hf0, hfM⟩ := single_worker_settings B logN M initiator hM
  obtain ⟨ws, hall, hrun, hp, hw⟩ := generate_kronecker_internal_writes_spec C B hbin hS
    (settings_data B rank size logN M initiator) (settings_data B 0 1 logN M initiator)
    (C.mrg_seed (seed 0) (seed 1) (seed 2) (seed 3) (seed 4))
    (count_pow B.GRAPHGEN_INITIATOR_SIZE logN) hN rfl rfl hf0 logN (logN + 1) 0 M 0 0
    (by omega) (root_block_inv B logN) hne (by omega) (by rw [hfM]; omega)
  refine ⟨ws, ?_, ?_, hp, fun f hf => by have := hw f hf; omega⟩
  · have := hall []
    rw [List.nil_append] at this
    unfold generate_kronecker_writes
    rw [count_pow_mod hN]
    exact this
  · have := hrun []
    rw [List.nil_append] at this
    unfold generate_kronecker_writes
    rw [count_pow_mod hN]
    exact this

theorem edge_array_placement {D : Type} (B : Build) (rank size logN M : Nat)
    (initiator : Nat → D) (hrank : rank < size) (hint : size < 18446744073709551616)
    (hM : M < 18446744073709551616) :
    placement B (settings_data B rank size logN M initiator)
      (edge_array_origin B rank size M) (edge_array_length B rank size M) := by
  have hle := my_start_le_end hM hint hrank
  have hsz := compute_edge_array_size_eq hM hint hrank
  unfold edge_array_origin edge_array_length
  cases hD : B.GRAPHGEN_DISTRIBUTED_MEMORY
  · refine ⟨Nat.zero_le _, ?_, ?_⟩
    · show my_end_edge rank size M ≤ _
      simp only [Bool.false_eq_true, if_false]
      omega
    · intro x _ _ _
      unfold write_offset
      rw [hD]
      simp
  · refine ⟨Nat.le_refl _, ?_, ?_⟩
    · show my_end_edge rank size M ≤ _
      simp only [if_true]
      omega
    · intro x h1 _ h3
      unfold write_offset
      rw [hD]
      simp only [if_true]
      exact csub_eq_of_le h1 h3

/-- On a zero-initialised array of the documented length a run returns. -/
theorem generate_kronecker_returns {St D : Type} (C : Collab St D) (B : Build)
    (hbin : ∀ n p st, (C.btrd_binomial_distribution n p st).1 ≤ n)
    (hS : 2 ≤ B.GRAPHGEN_INITIATOR_SIZE) (rank size : Nat) (seed : Nat → Nat) (logN M : Nat)
    (initiator : Nat → D)
    (hN : count_pow B.GRAPHGEN_INITIATOR_SIZE logN < 18446744073709551616)
    (hrank : rank < size) (hint : size < 18446744073709551616)
    (hM : M < 18446744073709551616) (hne : logN = 0 → M ≠ 0) :
    ∃ out, generate_kronecker C B rank size seed logN M initiator
        (zero_edges (edge_array_length B rank size M)) = .ok out ∧
      out.length = edge_array_length B rank size M := by
  have hp := edge_array_placement B rank size logN M initiator hrank hint hM
  have hzl : (zero_edges (edge_array_length B rank size M)).length
      = edge_array_length B rank size M := by
    unfold zero_edges; exact List.length_replicate ..
  obtain ⟨out1, hrun, hlen, -⟩ := generate_kronecker_internal_content C B hbin hS
    (settings_data B rank size logN M initiator)
    (C.mrg_seed (seed 0) (seed 1) (seed 2) (seed 3) (seed 4))
    (count_pow B.GRAPHGEN_INITIATOR_SIZE logN) hN _ _ hp logN (logN + 1) 0 M 0 0
    (zero_edges (edge_array_length B rank size M)) (by omega) (root_block_inv B logN) hne
    (by omega) hzl
    (by
      intro j hw
      rw [zero_edges_get, if_pos]
      unfold in_window at hw
      have := hp.last_le
      omega)
  refine ⟨out1, ?_, hlen.trans hzl⟩
  unfold generate_kronecker
  rw [count_pow_mod hN]
  exact hrun

/-- The slots stored by a worker are pairwise distinct and lie in its array. -/
theorem writes_slots_nodup {D : Type} (B : Build) (s : generator_settings D) (o L M : Nat)
    (hp : placement B s o L) (hM : M < 18446744073709551616) (ws : List Nat)
    (hpw : ws.Pairwise (fun a b => a < b)) (hw : ∀ f ∈ ws, f < M) :
    ((ws.filter (fun f => in_my_range s f)).map (write_offset B s)).Nodup ∧
      ∀ f ∈ ws.filter (fun f => in_my_range s f), write_offset B s f < L := by
  have hmem : ∀ f ∈ ws.filter (fun f => in_my_range s f),
      write_offset B s f = f - o ∧ o ≤ f ∧ f < o + L := by
    intro f hf
    rw [List.mem_filter] at hf
    have hr := (in_my_range_iff s f).mp hf.2
    have := hw f hf.1
    have := hp.origin_le
    have := hp.last_le
    exact ⟨hp.offset f hr.1 hr.2 (by omega), by omega, by omega⟩
  refine ⟨?_, ?_⟩
  · apply List.Nodup.map_on
    · intro x hx y hy hxy
      obtain ⟨h1, h2, _⟩ := hmem x hx
      obtain ⟨h3, h4, _⟩ := hmem y hy
      omega
    · exact (hpw.filter _).imp (fun h => Nat.ne_of_lt h)
  · intro f hf
    obtain ⟨h1, h2, h3⟩ := hmem f hf
    omega

/-- C14: in the keep-multiplicities build, for every generator whose binomial
sampler returns a value in `[0, n]`, every seed, `logN`, `M`, initiator, `size`
and `rank < size`, on a zero-initialised array: the run fails no assertion of
`make_one_edge` (it returns, unless `logN = 0` and `M = 0`, where it stops at
`assert (num_edges != 0)`), and the slots stored by the leaf and single-edge
invocations, listed in the order of the stores, are pairwise distinct and lie
inside the array. -/
theorem no_slot_written_twice {St D : Type} (C : Collab St D) (B : Build)
    (rank size : Nat) (seed : Nat → Nat) (logN M : Nat) (initiator : Nat → D)
    (hbin : ∀ n p st, (C.btrd_binomial_distribution n p st).1 ≤ n)
    (hS : 2 ≤ B.GRAPHGEN_INITIATOR_SIZE)
    (hN : count_pow B.GRAPHGEN_INITIATOR_SIZE logN < 18446744073709551616)
    (hrank : rank < size) (hint : size < 18446744073709551616)
    (hM : M < 18446744073709551616) :
    (match generate_kronecker C B rank size seed logN M initiator
        (zero_edges (edge_array_length B rank size M)) with
      | .ok out => out.length = edge_array_length B rank size M
      | .error f => f = Fault.num_edges_nonzero ∧ logN = 0 ∧ M = 0) ∧
    (match generate_kronecker_writes C B rank size seed logN M initiator with
      | .ok log =>
        (log.map (write_offset B (settings_data B rank size logN M initiator))).Nodup ∧
          ∀ f ∈ log, write_offset B (settings_data B rank size logN M initiator) f
            < edge_array_length B rank size M
      | .error f => f = Fault.num_edges_nonzero ∧ logN = 0 ∧ M = 0) := by
  by_cases hne : logN = 0 → M ≠ 0
  · obtain ⟨out, hrun, hlen⟩ := generate_kronecker_returns C B hbin hS rank size seed logN M
      initiator hN hrank hint hM hne
    obtain ⟨ws, -, hlog, hpw, hw⟩ := generate_kronecker_writes_spec C B hbin hS rank size seed
      logN M initiator hN hM hne
    rw [hrun, hlog]
    exact ⟨hlen, writes_slots_nodup B _ _ _ M
      (edge_array_placement B rank size logN M initiator hrank hint hM) hM ws hpw hw⟩
  · have h0 : logN = 0 ∧ M = 0 := by omega
    obtain ⟨h1, h2⟩ := h0
    subst h1 h2
    rw [generate_kronecker_empty_leaf, generate_kronecker_writes_empty_leaf]
    exact ⟨⟨rfl, rfl, rfl⟩, ⟨rfl, rfl, rfl⟩⟩

/-- C17: a sub-block whose edge interval `[fei, fei + count)` holds an index of
the worker's range passes the test of line 240 and is descended.  Consequently
a worker reaches every leaf and single-edge block whose first edge index lies in
its range: its stores are the stores of the single worker (whose range is the
whole edge list, so that it prunes nothing) at the edge indices of the worker's
range. -/
theorem pruning_sound {St D : Type} (C : Collab St D) (B : Build)
    (s : generator_settings D) (rank size : Nat) (seed : Nat → Nat) (logN M : Nat)
    (initiator : Nat → D)
    (hbin : ∀ n p st, (C.btrd_binomial_distribution n p st).1 ≤ n)
    (hS : 2 ≤ B.GRAPHGEN_INITIATOR_SIZE)
    (hN : count_pow B.GRAPHGEN_INITIATOR_SIZE logN < 18446744073709551616)
    (hM : M < 18446744073709551616) (hne : logN = 0 → M ≠ 0) :
    (∀ fei count y, fei + count < 18446744073709551616 → fei ≤ y → y < fei + count →
      s.my_first_edge ≤ y → y < s.my_last_edge → descend_test s fei count = true) ∧
    ∃ ws, generate_kronecker_writes C B 0 1 seed logN M initiator = .ok ws ∧
      generate_kronecker_writes C B rank size seed logN M initiator
        = .ok (ws.filter
            (fun f => in_my_range (settings_data B rank size logN M initiator) f)) := by
  refine ⟨?_, ?_⟩
  · intro fei count y hlt h1 h2 h3 h4
    cases hd : descend_test s fei count with
    | true => rfl
    | false => exact absurd ⟨h3, h4⟩ (descend_test_false s fei count hlt hd y h1 h2)
  · obtain ⟨ws, h1, h2, -, -⟩ := generate_kronecker_writes_spec C B hbin hS rank size seed
      logN M initiator hN hM hne
    exact ⟨ws, h1, h2⟩

theorem no_slot_written_twice_witness :
    generate_kronecker_writes sample_collab ⟨2, false, true⟩ 1 3 sample_seed 3 30
        sample_initiator = .ok [11, 12, 13, 14, 16, 17, 18, 19] ∧
    ((match generate_kronecker sample_collab ⟨2, false, true⟩ 1 3 sample_seed 3 30
          sample_initiator (zero_edges (edge_array_length ⟨2, false, true⟩ 1 3 30)) with
        | .ok out => out.length = edge_array_length ⟨2, false, true⟩ 1 3 30
        | .error f => f = Fault.num_edges_nonzero ∧ 3 = 0 ∧ 30 = 0) ∧
      (match generate_kronecker_writes sample_collab ⟨2, false, true⟩ 1 3 sample_seed 3 30
          sample_initiator with
        | .ok log =>
          (log.map (write_offset ⟨2, false, true⟩
            (settings_data ⟨2, false, true⟩ 1 3 3 30 sample_initiator))).Nodup ∧
            ∀ f ∈ log, write_offset ⟨2, false, true⟩
                (settings_data ⟨2, false, true⟩ 1 3 3 30 sample_initiator) f
              < edge_array_length ⟨2, false, true⟩ 1 3 30
        | .error f => f = Fault.num_edges_nonzero ∧ 3 = 0 ∧ 30 = 0)) :=
  ⟨by rfl, no_slot_written_twice sample_collab ⟨2, false, true⟩ 1 3 sample_seed 3 30
    sample_initiator sample_collab_binomial (by decide) (by decide) (by decide) (by decide)
    (by decide)⟩

theorem pruning_sound_witness :
    generate_kronecker_writes sample_collab ⟨2, false, true⟩ 0 1 sample_seed 3 30
        sample_initiator
      = .ok [0, 6, 9, 11, 12, 13, 14, 16, 17, 18, 19, 20, 22, 23, 25, 26, 27, 28] ∧
    generate_kronecker_writes sample_collab ⟨2, false, true⟩ 1 3 sample_seed 3 30
        sample_initiator = .ok [11, 12, 13, 14, 16, 17, 18, 19] ∧
    ∃ ws, generate_kronecker_writes sample_collab ⟨2, false, true⟩ 0 1 sample_seed 3 30
        sample_initiator = .ok ws ∧
      generate_kronecker_writes sample_collab ⟨2, false, true⟩ 1 3 sample_seed 3 30
          sample_initiator
        = .ok (ws.filter
            (fun f => in_my_range (settings_data ⟨2, false, true⟩ 1 3 3 30 sample_initiator) f)) :=
  ⟨by rfl, by rfl, (pruning_sound sample_collab ⟨2, false, true⟩
    (settings_data ⟨2, false, true⟩ 1 3 3 30 sample_initiator) 1 3 sample_seed 3 30
    sample_initiator sample_collab_binomial (by decide) (by decide) (by decide)
    (by decide)).2⟩

/-! ## The degenerate initiator -/

theorem generate_nway_bernoulli_zero {St D : Type} (C : Collab St D) (B : Build)
    (s : generator_settings D) (st : St) (hK : 0 < GRAPHGEN_INITIATOR_SIZE2 B)
    (hdraw : C.dlt (C.mrg_get_double_orig st).1 (s.initiator 0) = true) :
    generate_nway_bernoulli C B s st = .ok (0, (C.mrg_get_double_orig st).2) := by
  unfold generate_nway_bernoulli
  obtain ⟨K, hKe⟩ : ∃ K, GRAPHGEN_INITIATOR_SIZE2 B = K + 1 :=
    ⟨GRAPHGEN_INITIATOR_SIZE2 B - 1, by omega⟩
  rw [hKe]
  simp only [nway_scan, hdraw, Bool.true_or, if_true]

/-- With every draw below `initiator[0]` the walk of `make_one_edge` from the
block at `(0, 0)` stays at `(0, 0)`. -/
theorem make_one_edge_loop_zero {St D : Type} (C : Collab St D) (B : Build)
    (s : generator_settings D) (hS : 2 ≤ B.GRAPHGEN_INITIATOR_SIZE)
    (hdraw : ∀ st, C.dlt (C.mrg_get_double_orig st).1 (s.initiator 0) = true) :
    ∀ (k todo : Nat) (st : St), k ≤ todo →
      ∃ st1, make_one_edge_loop C B s todo 0 0 (B.GRAPHGEN_INITIATOR_SIZE ^ k) st
        = .ok (0, 0, st1) := by
  have hK : 0 < GRAPHGEN_INITIATOR_SIZE2 B := Nat.mul_pos (by omega) (by omega)
  intro k
  induction k with
  | zero =>
    intro todo st _
    refine ⟨st, ?_⟩
    cases todo <;> simp [make_one_edge_loop]
  | succ k ih =>
    intro todo st hk
    obtain ⟨todo, rfl⟩ : ∃ t, todo = t + 1 := ⟨todo - 1, by omega⟩
    have hgt : 1 < B.GRAPHGEN_INITIATOR_SIZE ^ (k + 1) := one_lt_pow_succ _ _ hS
    obtain ⟨st1, h1⟩ := ih todo (C.mrg_get_double_orig st).2 (by omega)
    refine ⟨st1, ?_⟩
    unfold make_one_edge_loop
    rw [if_pos hgt, generate_nway_bernoulli_zero C B s st hK (hdraw st)]
    simp only [Nat.zero_div, Nat.zero_mod, Nat.lt_irrefl, decide_False, Bool.and_false,
      Bool.false_eq_true, if_false]
    rw [pow_succ_div _ _ (show 0 < B.GRAPHGEN_INITIATOR_SIZE by omega)]
    have e : cadd 0 (cmul (B.GRAPHGEN_INITIATOR_SIZE ^ k) 0) = 0 := by
      unfold cadd cmul
      simp
    rw [e]
    exact h1

/-- C16: in the keep-multiplicities build (directed or undirected, local or
global array), when every draw is below `initiator[0]` (initiator `[1, 0, .., 0]`
with draws in `[0, 1)`), `M = 1` and a single worker, for every seed and every
`logN ≥ 0` whose vertex count `N = S^logN` is representable in `count_type`,
`generate_kronecker` on a zero-initialised array stores exactly one record, at
slot 0, equal to `(src = 0, tgt = 0, multiplicity = 1)`. -/
theorem degenerate_initiator {St D : Type} (C : Collab St D) (B : Build) (seed : Nat → Nat)
    (logN : Nat) (initiator : Nat → D) (L : Nat) (hS : 2 ≤ B.GRAPHGEN_INITIATOR_SIZE)
    (hN : count_pow B.GRAPHGEN_INITIATOR_SIZE logN < 18446744073709551616)
    (hdraw : ∀ st, C.dlt (C.mrg_get_double_orig st).1 (initiator 0) = true) (hL : 1 ≤ L) :
    generate_kronecker C B 0 1 seed logN 1 initiator (zero_edges L)
      = .ok ((zero_edges L).set 0 ⟨0, 0, 1⟩) := by
  obtain ⟨hf0, hfM⟩ := single_worker_settings B logN 1 initiator (by omega)
  have hr : in_my_range (settings_data B 0 1 logN 1 initiator) 0 = true := by
    rw [in_my_range_iff, hf0, hfM]
    omega
  have hwo : write_offset B (settings_data B 0 1 logN 1 initiator) 0 = 0 := by
    unfold write_offset
    rw [hf0]
    split
    · exact csub_eq_of_le (Nat.le_refl 0) (by omega)
    · rfl
  have hlen : (zero_edges L).length = L := by
    unfold zero_edges; exact List.length_replicate ..
  have hassert : (B.GRAPHGEN_UNDIRECTED && decide (0 < 0)) = false := by simp
  unfold generate_kronecker
  rw [count_pow_mod hN]
  unfold count_pow
  cases logN with
  | zero =>
    unfold generate_kronecker_internal
    simp only [Nat.pow_zero, Nat.one_ne_zero, if_false, hassert, Bool.false_eq_true, if_true,
      hr, hwo]
    unfold store
    rw [if_pos (by omega)]
  | succ k =>
    have hgt : 1 < B.GRAPHGEN_INITIATOR_SIZE ^ (k + 1) := one_lt_pow_succ _ _ hS
    have hne0 : ¬ (B.GRAPHGEN_INITIATOR_SIZE ^ (k + 1) = 0) := by omega
    have hne1 : ¬ (B.GRAPHGEN_INITIATOR_SIZE ^ (k + 1) = 1) := by omega
    obtain ⟨st1, hloop⟩ := make_one_edge_loop_zero C B (settings_data B 0 1 (k + 1) 1 initiator)
      hS hdraw (k + 1) (B.GRAPHGEN_INITIATOR_SIZE ^ (k + 1))
      (block_state C (settings_data B 0 1 (k + 1) 1 initiator)
        (C.mrg_seed (seed 0) (seed 1) (seed 2) (seed 3) (seed 4))
        (B.GRAPHGEN_INITIATOR_SIZE ^ (k + 1)) 0 0)
      (Nat.le_of_lt (Nat.lt_pow_self (by omega) _))
    have hslot : (zero_edges L)[0]? = some zero_edge := by
      rw [zero_edges_get, if_pos (by omega)]
    unfold generate_kronecker_internal
    simp only [hne0, hne1, hassert, Bool.false_eq_true, if_false, if_true, hr, hwo]
    unfold make_one_edge
    rw [hloop]
    simp only [hslot]
    rw [if_pos (show zero_edge.multiplicity = 0 from rfl)]

set_option maxRecDepth 100000 in
theorem degenerate_initiator_witness :
    generate_kronecker sample_collab ⟨2, false, true⟩ 0 1 sample_seed 4 1
        (fun j => [1000, 0, 0, 0].getD j 0) (zero_edges 1) = .ok [⟨0, 0, 1⟩] ∧
      generate_kronecker sample_collab ⟨2, false, true⟩ 0 1 sample_seed 4 1
          (fun j => [1000, 0, 0, 0].getD j 0) (zero_edges 1)
        = .ok ((zero_edges 1).set 0 ⟨0, 0, 1⟩) :=
  ⟨by rfl, degenerate_initiator sample_collab ⟨2, false, true⟩ sample_seed 4
    (fun j => [1000, 0, 0, 0].getD j 0) 1 (by decide) (by decide)
    (fun st => decide_eq_true (Nat.mod_lt _ (by decide))) (by decide)⟩

/-- Past the range of `count_type` the vertex count wraps: with `S = 2` and
`logN = 64` the root block has `nverts = 0` and the run stops at the division of
line 160. -/
theorem vertex_count_wraps :
    count_pow 2 64 % 18446744073709551616 = 0 ∧
      generate_kronecker sample_collab ⟨2, false, true⟩ 0 1 sample_seed 64 1
          (fun j => [1000, 0, 0, 0].getD j 0) (zero_edges 1)
        = .error Fault.division_by_zero :=
  ⟨by decide, by rfl⟩

/-- C15 fails: with `n = 10` elements on 17 ranks the table has
`2 * 10 + 128 = 148` keys and rank 0 holds the 9 slots of the keys `0, .., 8`.
When every hash draw is 0 all 10 pairs are owned by rank 0, and the tenth call of
`hashtable_insert` finds no empty slot: the run of rank 0 stops at
`assert (!"Should not happen: overflow in hash table")`. -/
theorem hash_table_overflow_reachable :
    (ht_layout_of 10 17 0).ht_my_size = 9 ∧
      hash_pairs zero_draw_collab 1 0 148 (List.range' 0 10)
        = (List.range' 0 10).map (fun v => ⟨0, v⟩) ∧
      HT_OWNER (ht_layout_of 10 17 0) 0 = .ok 0 ∧
      rand_sort_mpi zero_draw_collab 1 17 0 0 10 = .error Fault.hash_table_overflow :=
  ⟨by rfl, by rfl, by rfl, by rfl⟩

/-- When a rank of `rand_sort_mpi` stops at the overflow assertion, it has
received more pairs than its table has slots; a rank that receives at most
`ht_my_size` pairs does not overflow. -/
theorem mpi_insert_loop_overflow (L : ht_layout) (rank : Nat) :
    ∀ (indata ht kvs : List slot_data),
      table_inv ht L.ht_my_size L.ht_my_start kvs →
      (∀ kv ∈ indata, L.ht_my_start ≤ kv.index ∧ kv.index < L.ht_my_start + L.ht_my_size ∧
        kv.index < 18446744073709551615) →
      mpi_insert_loop L rank indata ht = .error Fault.hash_table_overflow →
      L.ht_my_size < kvs.length + indata.length := by
  intro indata
  induction indata with
  | nil =>
    intro ht kvs _ _ h
    unfold mpi_insert_loop at h
    cases h
  | cons kv indata ih =>
    intro ht kvs hinv hmem h
    have hkv := hmem kv (List.mem_cons_self _ _)
    unfold mpi_insert_loop at h
    cases ho : HT_OWNER L kv.index with
    | error e =>
      rw [ho] at h
      simp only [] at h
      unfold HT_OWNER at ho
      split at ho <;> split at ho <;> cases ho <;> cases h
    | ok owner =>
      rw [ho] at h
      simp only [] at h
      by_cases hr : owner = rank
      · rw [if_pos hr] at h
        have hloc : HT_LOCAL L kv.index = kv.index - L.ht_my_start := by
          unfold HT_LOCAL
          exact csub_eq_of_le hkv.1 (by omega)
        rw [hloc] at h
        have hins := hashtable_insert_inv ht L.ht_my_size L.ht_my_start kvs hinv kv.index
          kv.value hkv.1 hkv.2.1 (by unfold UNUSED; omega)
        cases hi : hashtable_insert ht L.ht_my_size kv.index kv.value
            (kv.index - L.ht_my_start) with
        | error e =>
          rw [hi] at hins
          simp only [] at hins
          rw [List.length_cons]
          omega
        | ok ht2 =>
          rw [hi] at h hins
          simp only [] at h hins
          have hrec := ih ht2 (kvs ++ [⟨kv.index, kv.value⟩]) hins
            (fun kv1 h1 => hmem kv1 (List.mem_cons_of_mem _ h1)) h
          rw [List.length_append, List.length_singleton] at hrec
          rw [List.length_cons]
          omega
      · rw [if_neg hr] at h; cases h

/-! ## `selection_sort` on the first `n` entries of a longer array -/

theorem selection_sort_minpos_append (p q : List Nat) :
    ∀ (todo j m : Nat), j + todo ≤ p.length → m < p.length →
      selection_sort_minpos (p ++ q) todo j m = selection_sort_minpos p todo j m := by
  intro todo
  induction todo with
  | zero => intro j m _ _; rfl
  | succ todo ih =>
    intro j m hj hm
    unfold selection_sort_minpos
    rw [List.getD_append _ _ _ _ (by omega), List.getD_append _ _ _ _ hm]
    exact ih (j + 1) _ (by omega) (by split <;> omega)

theorem selection_sort_minpos_lt (a : List Nat) :
    ∀ (todo j m : Nat), m < j → selection_sort_minpos a todo j m < j + todo := by
  intro todo
  induction todo with
  | zero => intro j m h; exact h
  | succ todo ih =>
    intro j m h
    unfold selection_sort_minpos
    have := ih (j + 1) (if a.getD j 0 < a.getD m 0 then j else m) (by split <;> omega)
    omega

/-- The loop of `selection_sort` leaves the entries from index `n` on alone. -/
theorem selection_sort_loop_append (n : Nat) (q : List Nat) :
    ∀ (todo i : Nat) (p : List Nat), p.length = n → i + todo + 1 = n →
      selection_sort_loop n todo i (p ++ q) = selection_sort_loop n todo i p ++ q := by
  intro todo
  induction todo with
  | zero => intro i p _ _; rfl
  | succ todo ih =>
    intro i p hlen hi
    unfold selection_sort_loop
    simp only []
    have hm := selection_sort_minpos_lt p (n - (i + 1)) (i + 1) i (by omega)
    rw [selection_sort_minpos_append p q _ _ _ (by omega) (by omega)]
    generalize selection_sort_minpos p (n - (i + 1)) (i + 1) i = m at hm
    have hmlt : m < p.length := by omega
    rw [List.getD_append _ _ _ _ (by omega : i < p.length), List.getD_append _ _ _ _ hmlt]
    by_cases hne : m ≠ i
    · rw [if_pos hne, if_pos hne]
      have e1 : (p ++ q).set m (p.getD i 0) = p.set m (p.getD i 0) ++ q :=
        List.set_append_left _ _ hmlt
      have e2 : (p.set m (p.getD i 0) ++ q).set i (p.getD m 0)
          = (p.set m (p.getD i 0)).set i (p.getD m 0) ++ q :=
        List.set_append_left _ _ (by rw [List.length_set]; omega)
      rw [e1, e2]
      exact ih (i + 1) _ (by rw [List.length_set, List.length_set]; exact hlen) (by omega)
    · rw [if_neg hne, if_neg hne]
      exact ih (i + 1) p hlen (by omega)

/-- On an array of at least `n` entries `selection_sort` returns the array with
its first `n` entries sorted and the other entries unchanged. -/
theorem selection_sort_prefix (a : List Nat) (n : Nat) (hn : n ≤ a.length) :
    selection_sort a n
      = .ok ((a.take n).insertionSort (fun x y => x ≤ y) ++ a.drop n) := by
  have hlen : (a.take n).length = n := by rw [List.length_take]; omega
  have hsort := selection_sort_eq (a.take n) n hlen
  unfold selection_sort at hsort ⊢
  by_cases h1 : n ≤ 1
  · rw [if_pos h1] at hsort ⊢
    have e : (a.take n).insertionSort (fun x y => x ≤ y) = a.take n :=
      (Except.ok.inj hsort).symm
    rw [e, List.take_append_drop]
  · rw [if_neg h1, if_pos (by omega)] at hsort
    rw [if_neg h1, if_pos hn]
    have e : selection_sort_loop n (n - 1) 0 (a.take n)
        = (a.take n).insertionSort (fun x y => x ≤ y) := Except.ok.inj hsort
    rw [← e, ← selection_sort_loop_append n (a.drop n) (n - 1) 0 (a.take n) hlen (by omega),
      List.take_append_drop]

/-- C24: for every array `a` of at least `n` entries, `selection_sort (a, n)`
returns; afterwards the first `n` entries are in non-decreasing order and are a
permutation of the original first `n` entries, and the other entries are
unchanged.  Hence the sorted entries depend only on the multiset of the inputs:
an array `b` whose first `n` entries are a permutation of those of `a` gets the
same first `n` entries. -/
theorem selection_sort_sorts (a : List Nat) (n : Nat) (hn : n ≤ a.length) :
    ∃ out, selection_sort a n = .ok out ∧ out.length = a.length ∧
      (out.take n).Sorted (fun x y => x ≤ y) ∧ (out.take n).Perm (a.take n) ∧
      out.drop n = a.drop n ∧
      ∀ b : List Nat, n ≤ b.length → (b.take n).Perm (a.take n) →
        ∃ out2, selection_sort b n = .ok out2 ∧ out2.take n = out.take n := by
  have hlen : ∀ c : List Nat, n ≤ c.length →
      ((c.take n).insertionSort (fun x y => x ≤ y)).length = n := by
    intro c hc
    rw [List.length_insertionSort, List.length_take]
    omega
  refine ⟨_, selection_sort_prefix a n hn, ?_, ?_, ?_, ?_, ?_⟩
  · rw [List.length_append, hlen a hn, List.length_drop]
    omega
  · rw [List.take_left' (hlen a hn)]
    exact List.sorted_insertionSort _ _
  · rw [List.take_left' (hlen a hn)]
    exact List.perm_insertionSort _ _
  · rw [List.drop_left' (hlen a hn)]
  · intro b hb hperm
    refine ⟨_, selection_sort_prefix b n hb, ?_⟩
    rw [List.take_left' (hlen a hn), List.take_left' (hlen b hb)]
    exact List.eq_of_perm_of_sorted
      (((List.perm_insertionSort _ _).trans hperm).trans (List.perm_insertionSort _ _).symm)
      (List.sorted_insertionSort _ _) (List.sorted_insertionSort _ _)

theorem selection_sort_sorts_witness :
    selection_sort [5, 3, 9, 1, 7] 4 = .ok [1, 3, 5, 9, 7] ∧
    ∃ out, selection_sort [5, 3, 9, 1, 7] 4 = .ok out ∧ out.length = [5, 3, 9, 1, 7].length ∧
      (out.take 4).Sorted (fun x y => x ≤ y) ∧ (out.take 4).Perm ([5, 3, 9, 1, 7].take 4) ∧
      out.drop 4 = [5, 3, 9, 1, 7].drop 4 ∧
      ∀ b : List Nat, 4 ≤ b.length → (b.take 4).Perm ([5, 3, 9, 1, 7].take 4) →
        ∃ out2, selection_sort b 4 = .ok out2 ∧ out2.take 4 = out.take 4 :=
  ⟨by rfl, selection_sort_sorts [5, 3, 9, 1, 7] 4 (by decide)⟩

/-! ## The assertion `num_edges != 0` of a leaf -/

theorem generate_nway_bernoulli_no_leaf_fault {St D : Type} (C : Collab St D) (B : Build)
    (s : generator_settings D) (st : St) :
    generate_nway_bernoulli C B s st ≠ .error Fault.num_edges_nonzero := by
  intro h
  unfold generate_nway_bernoulli at h
  simp only [] at h
  cases hs : nway_scan C s.initiator (GRAPHGEN_INITIATOR_SIZE2 B) (GRAPHGEN_INITIATOR_SIZE2 B) 0
      (C.mrg_get_double_orig st).1 with
  | none => rw [hs] at h; cases h
  | some j => rw [hs] at h; cases h

theorem make_one_edge_loop_no_leaf_fault {St D : Type} (C : Collab St D) (B : Build)
    (s : generator_settings D) :
    ∀ (todo bs bt nverts : Nat) (st : St),
      make_one_edge_loop C B s todo bs bt nverts st ≠ .error Fault.num_edges_nonzero := by
  intro todo
  induction todo with
  | zero =>
    intro bs bt nverts st h
    unfold make_one_edge_loop at h
    split at h <;> cases h
  | succ todo ih =>
    intro bs bt nverts st h
    unfold make_one_edge_loop at h
    by_cases hn : 1 < nverts
    · rw [if_pos hn] at h
      cases hg : generate_nway_bernoulli C B s st with
      | error e =>
        rw [hg] at h
        simp only [] at h
        cases h
        exact generate_nway_bernoulli_no_leaf_fault C B s st hg
      | ok r =>
        obtain ⟨square, st1⟩ := r
        rw [hg] at h
        simp only [] at h
        split at h
        · cases h
        · exact ih _ _ _ _ h
    · rw [if_neg hn] at h
      cases h

theorem make_one_edge_no_leaf_fault {St D : Type} (C : Collab St D) (B : Build)
    (bs bt nverts : Nat) (st : St) (s : generator_settings D) (out : List generated_edge)
    (loc : Nat) :
    make_one_edge C B bs bt nverts st s out loc ≠ .error Fault.num_edges_nonzero := by
  intro h
  unfold make_one_edge at h
  have hl := make_one_edge_loop_no_leaf_fault C B s nverts bs bt nverts st
  cases hr : make_one_edge_loop C B s nverts bs bt nverts st with
  | error e =>
    rw [hr] at h hl
    simp only [] at h
    cases h
    exact hl rfl
  | ok r =>
    obtain ⟨src, tgt, st1⟩ := r
    rw [hr] at h
    simp only [] at h
    cases ho : out[loc]? with
    | none => rw [ho] at h; cases h
    | some e =>
      rw [ho] at h
      simp only [] at h
      by_cases hm : e.multiplicity = 0
      · rw [if_pos hm] at h; cases h
      · rw [if_neg hm] at h; cases h

theorem store_no_leaf_fault {α : Type} (out : List α) (i : Nat) (v : α) :
    store out i v ≠ .error Fault.num_edges_nonzero := by
  intro h
  unfold store at h
  split at h <;> cases h

theorem kronecker_children_no_leaf_fault {D α : Type} (B : Build) (s : generator_settings D)
    (sc : Nat → Nat) (nn bs bt : Nat) (descend : Nat → Nat → Nat → Nat → α → Except Fault α)
    (hdesc : ∀ count, count ≠ 0 → ∀ fei b1 b2 out,
      descend fei count b1 b2 out ≠ .error Fault.num_edges_nonzero) :
    ∀ (todo i fei : Nat) (out : α),
      kronecker_children B s sc nn bs bt descend todo i fei out
        ≠ .error Fault.num_edges_nonzero := by
  intro todo
  induction todo with
  | zero =>
    intro i fei out h
    unfold kronecker_children at h
    cases h
  | succ todo ih =>
    intro i fei out h
    unfold kronecker_children at h
    by_cases hz : sc i ≠ 0
    · rw [if_pos hz] at h
      by_cases ht : descend_test s fei (sc i) = true
      · rw [if_pos ht] at h
        have hd := hdesc (sc i) hz fei
          (cadd bs (cmul nn (i / B.GRAPHGEN_INITIATOR_SIZE)))
          (cadd bt (cmul nn (i % B.GRAPHGEN_INITIATOR_SIZE))) out
        cases hr : descend fei (sc i) (cadd bs (cmul nn (i / B.GRAPHGEN_INITIATOR_SIZE)))
            (cadd bt (cmul nn (i % B.GRAPHGEN_INITIATOR_SIZE))) out with
        | error e =>
          rw [hr] at h hd
          simp only [] at h
          exact hd h
        | ok out1 =>
          rw [hr] at h
          exact ih _ _ _ h
      · rw [if_neg ht] at h
        exact ih _ _ _ h
    · rw [if_neg hz] at h
      exact ih _ _ _ h

/-- An invocation of `generate_kronecker_internal` that is not an empty leaf
does not stop at `assert (num_edges != 0)`, nor does any invocation below it:
the sub-blocks descended have a non-zero count. -/
theorem generate_kronecker_internal_no_leaf_fault {St D : Type} (C : Collab St D) (B : Build) :
    ∀ (depth : Nat) (orig_state : St) (fei E nverts : Nat) (s : generator_settings D)
      (bs bt : Nat) (out : List generated_edge), (E ≠ 0 ∨ nverts ≠ 1) →
      generate_kronecker_internal C B depth orig_state fei E nverts s bs bt out
        ≠ .error Fault.num_edges_nonzero := by
  intro depth
  induction depth with
  | zero =>
    intro orig_state fei E nverts s bs bt out _ h
    unfold generate_kronecker_internal at h
    cases h
  | succ depth ih =>
    intro orig_state fei E nverts s bs bt out hne h
    unfold generate_kronecker_internal at h
    by_cases h0 : nverts = 0
    · rw [if_pos h0] at h; cases h
    · rw [if_neg h0] at h
      simp only [] at h
      split at h
      · cases h
      · by_cases h1 : nverts = 1
        · rw [if_pos h1] at h
          have hE : E ≠ 0 := by
            rcases hne with h2 | h2
            · exact h2
            · exact absurd h1 h2
          rw [if_neg hE] at h
          split at h
          · exact store_no_leaf_fault _ _ _ h
          · cases h
        · rw [if_neg h1] at h
          by_cases hE1 : E = 1
          · rw [if_pos hE1] at h
            by_cases hr : in_my_range s fei = true
            · rw [if_pos hr] at h
              have hm := make_one_edge_no_leaf_fault C B bs bt nverts
                (block_state C s orig_state nverts bs bt) s out (write_offset B s fei)
              cases hrun : make_one_edge C B bs bt nverts
                  (block_state C s orig_state nverts bs bt) s out (write_offset B s fei) with
              | error e =>
                rw [hrun] at h hm
                simp only [] at h
                cases h
                exact hm rfl
              | ok r => rw [hrun] at h; cases h
            · rw [if_neg hr] at h; cases h
          · rw [if_neg hE1] at h
            exact kronecker_children_no_leaf_fault B s _ _ bs bt _
              (fun count hc fei1 b1 b2 o => ih orig_state fei1 count _ s b1 b2 o (Or.inl hc))
              _ _ _ _ h

theorem tombstones_no_leaf_fault :
    ∀ (todo i loc : Nat) (out : List Nat),
      tombstones todo i loc out ≠ .error Fault.num_edges_nonzero := by
  intro todo
  induction todo with
  | zero =>
    intro i loc out h
    unfold tombstones at h
    cases h
  | succ todo ih =>
    intro i loc out h
    unfold tombstones at h
    cases h1 : store out (loc + (2 * i + 0)) (COUNT_MOD - 1) with
    | error e =>
      rw [h1] at h
      simp only [] at h
      cases h
      exact store_no_leaf_fault _ _ _ h1
    | ok out1 =>
      rw [h1] at h
      simp only [] at h
      cases h2 : store out1 (loc + (2 * i + 1)) (COUNT_MOD - 1) with
      | error e =>
        rw [h2] at h
        simp only [] at h
        cases h
        exact store_no_leaf_fault _ _ _ h2
      | ok out2 =>
        rw [h2] at h
        exact ih _ _ _ h

theorem make_one_edge_pairs_no_leaf_fault {St D : Type} (C : Collab St D) (B : Build)
    (bs bt nverts : Nat) (st : St) (s : generator_settings D) (out : List Nat) (loc : Nat) :
    make_one_edge_pairs C B bs bt nverts st s out loc ≠ .error Fault.num_edges_nonzero := by
  intro h
  unfold make_one_edge_pairs at h
  have hl := make_one_edge_loop_no_leaf_fault C B s nverts bs bt nverts st
  cases hr : make_one_edge_loop C B s nverts bs bt nverts st with
  | error e =>
    rw [hr] at h hl
    simp only [] at h
    cases h
    exact hl rfl
  | ok r =>
    obtain ⟨src, tgt, st1⟩ := r
    rw [hr] at h
    simp only [] at h
    cases h1 : store out loc src with
    | error e =>
      rw [h1] at h
      simp only [] at h
      cases h
      exact store_no_leaf_fault _ _ _ h1
    | ok out1 =>
      rw [h1] at h
      simp only [] at h
      cases h2 : store out1 (loc + 1) tgt with
      | error e =>
        rw [h2] at h
        simp only [] at h
        cases h
        exact store_no_leaf_fault _ _ _ h2
      | ok out2 => rw [h2] at h; cases h

theorem generate_kronecker_internal_pairs_no_leaf_fault {St D : Type} (C : Collab St D)
    (B : Build) :
    ∀ (depth : Nat) (orig_state : St) (fei E nverts : Nat) (s : generator_settings D)
      (bs bt : Nat) (out : List Nat), (E ≠ 0 ∨ nverts ≠ 1) →
      generate_kronecker_internal_pairs C B depth orig_state fei E nverts s bs bt out
        ≠ .error Fault.num_edges_nonzero := by
  intro depth
  induction depth with
  | zero =>
    intro orig_state fei E nverts s bs bt out _ h
    unfold generate_kronecker_internal_pairs at h
    cases h
  | succ depth ih =>
    intro orig_state fei E nverts s bs bt out hne h
    unfold generate_kronecker_internal_pairs at h
    by_cases h0 : nverts = 0
    · rw [if_pos h0] at h; cases h
    · rw [if_neg h0] at h
      simp only [] at h
      split at h
      · cases h
      · by_cases h1 : nverts = 1
        · rw [if_pos h1] at h
          have hE : E ≠ 0 := by
            rcases hne with h2 | h2
            · exact h2
            · exact absurd h1 h2
          rw [if_neg hE] at h
          by_cases hr : in_my_range s fei = true
          · rw [if_pos hr] at h
            cases h3 : store out (cmul 2 (write_offset B s fei) + 0) bs with
            | error e =>
              rw [h3] at h
              simp only [] at h
              cases h
              exact store_no_leaf_fault _ _ _ h3
            | ok out1 =>
              rw [h3] at h
              simp only [] at h
              cases h4 : store out1 (cmul 2 (write_offset B s fei) + 1) bt with
              | error e =>
                rw [h4] at h
                simp only [] at h
                cases h
                exact store_no_leaf_fault _ _ _ h4
              | ok out2 =>
                rw [h4] at h
                exact tombstones_no_leaf_fault _ _ _ _ h
          · rw [if_neg hr] at h; cases h
        · rw [if_neg h1] at h
          by_cases hE1 : E = 1
          · rw [if_pos hE1] at h
            by_cases hr : in_my_range s fei = true
            · rw [if_pos hr] at h
              have hm := make_one_edge_pairs_no_leaf_fault C B bs bt nverts
                (block_state C s orig_state nverts bs bt) s out
                (cmul 2 (write_offset B s fei))
              cases hrun : make_one_edge_pairs C B bs bt nverts
                  (block_state C s orig_state nverts bs bt) s out
                  (cmul 2 (write_offset B s fei)) with
              | error e =>
                rw [hrun] at h hm
                simp only [] at h
                cases h
                exact hm rfl
              | ok r => rw [hrun] at h; cases h
            · rw [if_neg hr] at h; cases h
          · rw [if_neg hE1] at h
            exact kronecker_children_no_leaf_fault B s _ _ bs bt _
              (fun count hc fei1 b1 b2 o => ih orig_state fei1 count _ s b1 b2 o (Or.inl hc))
              _ _ _ _ h

/-- C22, evaluation at the failing input.  The stated preconditions of
`generate_kronecker` admit `logN = 0` with `M = 0`: the single worker's array has
`compute_edge_array_size 0 1 0 = 0` records, the root block is a leaf
(`nverts = 1`) with `num_edges = 0`, and the run stops at
`assert (num_edges != 0)` (line 167), with `GRAPHGEN_KEEP_MULTIPLICITIES` defined
or not.  With `M = 0` and `logN = 1` the root is not a leaf, no sub-block is
descended and the run returns. -/
theorem empty_leaf_assert_fails :
    compute_edge_array_size 0 1 0 = 0 ∧
    generate_kronecker sample_collab ⟨2, false, true⟩ 0 1 sample_seed 0 0 sample_initiator
      (zero_edges (compute_edge_array_size 0 1 0)) = .error Fault.num_edges_nonzero ∧
    generate_kronecker_pairs sample_collab ⟨2, false, true⟩ 0 1 sample_seed 0 0
      sample_initiator (List.replicate (2 * compute_edge_array_size 0 1 0) 0)
      = .error Fault.num_edges_nonzero ∧
    generate_kronecker sample_collab ⟨2, false, true⟩ 0 1 sample_seed 1 0 sample_initiator
      (zero_edges (compute_edge_array_size 0 1 0)) = .ok [] :=
  ⟨by decide, by rfl, by rfl, by rfl⟩

/-- The assertion of line 167 fails in no other case: for every generator, seed,
initiator, rank, size and caller array, `S ≥ 2` and `N = S^logN` representable in
`count_type`, and every `logN` and `M` other than `logN = 0` with `M = 0`, no
invocation of `generate_kronecker_internal` with `nverts == 1` has
`num_edges = 0`: the run of `generate_kronecker` does not stop at
`assert (num_edges != 0)`, with `GRAPHGEN_KEEP_MULTIPLICITIES` defined or not. -/
theorem leaves_nonempty {St D : Type} (C : Collab St D) (B : Build) (rank size : Nat)
    (seed : Nat → Nat) (logN M : Nat) (initiator : Nat → D) (edges : List generated_edge)
    (edges_pairs : List Nat) (hS : 2 ≤ B.GRAPHGEN_INITIATOR_SIZE)
    (hN : count_pow B.GRAPHGEN_INITIATOR_SIZE logN < 18446744073709551616)
    (hne : logN = 0 → M ≠ 0) :
    generate_kronecker C B rank size seed logN M initiator edges
        ≠ .error Fault.num_edges_nonzero ∧
      generate_kronecker_pairs C B rank size seed logN M initiator edges_pairs
        ≠ .error Fault.num_edges_nonzero := by
  have hroot : M ≠ 0 ∨ count_pow B.GRAPHGEN_INITIATOR_SIZE logN % 18446744073709551616 ≠ 1 := by
    rw [count_pow_mod hN]
    by_cases hM : M = 0
    · right
      obtain ⟨k, rfl⟩ : ∃ k, logN = k + 1 := ⟨logN - 1, by omega⟩
      have := one_lt_pow_succ B.GRAPHGEN_INITIATOR_SIZE k hS
      unfold count_pow
      omega
    · exact Or.inl hM
  exact ⟨generate_kronecker_internal_no_leaf_fault C B _ _ _ _ _ _ _ _ _ hroot,
    generate_kronecker_internal_pairs_no_leaf_fault C B _ _ _ _ _ _ _ _ _ hroot⟩

theorem leaves_nonempty_witness :
    generate_kronecker sample_collab ⟨2, false, true⟩ 0 1 sample_seed 1 0 sample_initiator
        (zero_edges 0) = .ok [] ∧
    (generate_kronecker sample_collab ⟨2, false, true⟩ 0 1 sample_seed 1 0 sample_initiator
          (zero_edges 0) ≠ .error Fault.num_edges_nonzero ∧
      generate_kronecker_pairs sample_collab ⟨2, false, true⟩ 0 1 sample_seed 1 0
          sample_initiator [] ≠ .error Fault.num_edges_nonzero) :=
  ⟨by rfl, leaves_nonempty sample_collab ⟨2, false, true⟩ 0 1 sample_seed 1 0 sample_initiator
    (zero_edges 0) [] (by decide) (by decide) (by decide)⟩

/-! ## Termination of the edge placer -/

/-- With fewer iterations than `k` the loop of `make_one_edge` on a block of
`S ^ k` vertices has not finished. -/
theorem make_one_edge_loop_budget {St D : Type} (C : Collab St D) (B : Build)
    (s : generator_settings D) (N : Nat) (hN : N < 18446744073709551616)
    (hS : 2 ≤ B.GRAPHGEN_INITIATOR_SIZE) :
    ∀ (todo k bs bt : Nat) (st : St), todo < k → block_inv B N k bs bt →
      make_one_edge_loop C B s todo bs bt (B.GRAPHGEN_INITIATOR_SIZE ^ k) st
        = .error Fault.budget := by
  intro todo
  induction todo with
  | zero =>
    intro k bs bt st hk _
    obtain ⟨k, rfl⟩ : ∃ j, k = j + 1 := ⟨k - 1, by omega⟩
    have hgt : 1 < B.GRAPHGEN_INITIATOR_SIZE ^ (k + 1) := one_lt_pow_succ _ _ hS
    unfold make_one_edge_loop
    rw [if_pos hgt]
  | succ todo ih =>
    intro k bs bt st hk hinv
    obtain ⟨k, rfl⟩ : ∃ j, k = j + 1 := ⟨k - 1, by omega⟩
    have hgt : 1 < B.GRAPHGEN_INITIATOR_SIZE ^ (k + 1) := one_lt_pow_succ _ _ hS
    have hK : 0 < GRAPHGEN_INITIATOR_SIZE2 B := Nat.mul_pos (by omega) (by omega)
    obtain ⟨square, st1, hsq, hlt⟩ := generate_nway_bernoulli_ok C B s st hK
    obtain ⟨ho1, ho2⟩ := square_offsets_lt _ _ hlt
    have hassert : (B.GRAPHGEN_UNDIRECTED && decide (bt < bs)) = false := by
      cases hU : B.GRAPHGEN_UNDIRECTED
      · simp
      · have := hinv.2.2 hU
        simp only [Bool.true_and, decide_eq_false_iff_not]
        omega
    unfold make_one_edge_loop
    rw [if_pos hgt, hsq]
    simp only [hassert, Bool.false_eq_true, if_false,
      pow_succ_div _ _ (show 0 < B.GRAPHGEN_INITIATOR_SIZE by omega)]
    generalize hflip : (B.GRAPHGEN_UNDIRECTED && decide (bs = bt)
      && decide (square % B.GRAPHGEN_INITIATOR_SIZE < square / B.GRAPHGEN_INITIATOR_SIZE)) = flip
    have hdiag : B.GRAPHGEN_UNDIRECTED = true → bs = bt →
        (if flip = true then square % B.GRAPHGEN_INITIATOR_SIZE
          else square / B.GRAPHGEN_INITIATOR_SIZE)
        ≤ (if flip = true then square / B.GRAPHGEN_INITIATOR_SIZE
          else square % B.GRAPHGEN_INITIATOR_SIZE) := by
      intro hU hd
      cases flip
      · simp only [Bool.false_eq_true, if_false]
        simp [hU, hd] at hflip
        exact hflip
      · simp only [if_true]
        simp [hU, hd] at hflip
        exact Nat.le_of_lt hflip
    have hso : (if flip = true then square % B.GRAPHGEN_INITIATOR_SIZE
          else square / B.GRAPHGEN_INITIATOR_SIZE) < B.GRAPHGEN_INITIATOR_SIZE := by
      split <;> assumption
    have hto : (if flip = true then square / B.GRAPHGEN_INITIATOR_SIZE
          else square % B.GRAPHGEN_INITIATOR_SIZE) < B.GRAPHGEN_INITIATOR_SIZE := by
      split <;> assumption
    obtain ⟨e1, e2, hinv1⟩ := block_inv_child B N k bs bt _ _ hN hinv hso hto hdiag
    rw [e1, e2]
    exact ih k _ _ st1 (by omega) hinv1

/-- C25: for every generator, seed, `M`, initiator, rank, size and caller array,
`S ≥ 2` and `N = S ^ logN` representable, the recursion started by
`generate_kronecker` ends within its `logN + 1` levels (the root at level `logN`,
the leaves at level 0) and never divides by `nverts = 0`; and on every block of
`S ^ k` vertices inside the matrix the loop of `make_one_edge` runs exactly `k`
iterations: `k` iterations finish it and fewer do not. -/
theorem edge_placer_terminates {St D : Type} (C : Collab St D) (B : Build)
    (rank size : Nat) (seed : Nat → Nat) (logN M : Nat) (initiator : Nat → D)
    (edges : List generated_edge) (hS : 2 ≤ B.GRAPHGEN_INITIATOR_SIZE)
    (hN : count_pow B.GRAPHGEN_INITIATOR_SIZE logN < 18446744073709551616) :
    (generate_kronecker_internal C B (logN + 1)
        (C.mrg_seed (seed 0) (seed 1) (seed 2) (seed 3) (seed 4)) 0 M
        (count_pow B.GRAPHGEN_INITIATOR_SIZE logN)
        (settings_data B rank size logN M initiator) 0 0 edges ≠ .error Fault.budget ∧
      generate_kronecker C B rank size seed logN M initiator edges ≠ .error Fault.budget ∧
      generate_kronecker C B rank size seed logN M initiator edges
        ≠ .error Fault.division_by_zero) ∧
    ∀ (s : generator_settings D) (k bs bt : Nat) (st : St),
      block_inv B (count_pow B.GRAPHGEN_INITIATOR_SIZE logN) k bs bt →
      (∃ r, make_one_edge_loop C B s k bs bt (B.GRAPHGEN_INITIATOR_SIZE ^ k) st = .ok r) ∧
      ∀ todo, todo < k →
        make_one_edge_loop C B s todo bs bt (B.GRAPHGEN_INITIATOR_SIZE ^ k) st
          = .error Fault.budget := by
  have h := generate_kronecker_safe C B rank size seed logN M initiator edges hS hN
  have hrun : generate_kronecker C B rank size seed logN M initiator edges ≠ .error Fault.budget ∧
      generate_kronecker C B rank size seed logN M initiator edges
        ≠ .error Fault.division_by_zero := by
    generalize generate_kronecker C B rank size seed logN M initiator edges = r at h
    cases r with
    | ok out => exact ⟨fun hc => (by cases hc), fun hc => (by cases hc)⟩
    | error f =>
      refine ⟨fun hc => ?_, fun hc => ?_⟩
      · cases hc
        rcases h with h1 | h1 | h1 <;> cases h1
      · cases hc
        rcases h with h1 | h1 | h1 <;> cases h1
  have hroot : generate_kronecker C B rank size seed logN M initiator edges
      = generate_kronecker_internal C B (logN + 1)
        (C.mrg_seed (seed 0) (seed 1) (seed 2) (seed 3) (seed 4)) 0 M
        (count_pow B.GRAPHGEN_INITIATOR_SIZE logN)
        (settings_data B rank size logN M initiator) 0 0 edges := by
    unfold generate_kronecker
    rw [count_pow_mod hN]
  refine ⟨⟨fun hc => hrun.1 (hroot.trans hc), hrun.1, hrun.2⟩, ?_⟩
  intro s k bs bt st hinv
  refine ⟨?_, fun todo htodo =>
    make_one_edge_loop_budget C B s _ hN hS todo k bs bt st htodo hinv⟩
  obtain ⟨src, tgt, st1, hok, -⟩ := make_one_edge_loop_ok C B s _ hN hS k k bs bt st
    (Nat.le_refl _) hinv
  exact ⟨_, hok⟩

theorem edge_placer_terminates_witness :
    generate_kronecker sample_collab ⟨2, false, true⟩ 0 1 sample_seed 2 6 sample_initiator
        (zero_edges 6)
      = .ok [⟨0, 0, 1⟩, ⟨1, 1, 1⟩, ⟨0, 2, 1⟩, ⟨0, 3, 1⟩, ⟨1, 2, 1⟩, ⟨2, 0, 1⟩] ∧
    make_one_edge_loop sample_collab ⟨2, false, true⟩
        (settings_data ⟨2, false, true⟩ 0 1 2 6 sample_initiator) 2 0 0 (2 ^ 2) 7
      = .ok (0, 0, 44999) ∧
    make_one_edge_loop sample_collab ⟨2, false, true⟩
        (settings_data ⟨2, false, true⟩ 0 1 2 6 sample_initiator) 1 0 0 (2 ^ 2) 7
      = .error Fault.budget ∧
    generate_kronecker sample_collab ⟨2, false, true⟩ 0 1 sample_seed 2 6 sample_initiator
        (zero_edges 6) ≠ .error Fault.budget :=
  ⟨by rfl, by rfl, by rfl,
    (edge_placer_terminates sample_collab ⟨2, false, true⟩ 0 1 sample_seed 2 6
      sample_initiator (zero_edges 6) (by decide) (by decide)).1.2.1⟩

/-- In the order `0, 1, .., n - 1` the reordered loop is the loop of the source. -/
theorem shared_insert_order_range {St D : Type} (C : Collab St D) (fuel : Nat) (st : St)
    (H : Nat) :
    ∀ (todo i : Nat) (ht : List slot_data), i + todo < 18446744073709551616 →
      shared_insert_order C fuel st H (List.range' i todo) ht
        = shared_insert_loop C fuel st H todo i ht := by
  intro todo
  induction todo with
  | zero => intro i ht _; rfl
  | succ todo ih =>
    intro i ht hi
    rw [List.range'_succ]
    unfold shared_insert_order shared_insert_loop
    cases random_up_to C fuel (C.mrg_skip st 1 i 0) H with
    | error e => rfl
    | ok r =>
      simp only []
      cases hashtable_insert ht H r.1 i r.1 with
      | error e => rfl
      | ok ht1 =>
        simp only []
        rw [cadd_eq_of_lt (by omega : i + 1 < 18446744073709551616)]
        exact ih (i + 1) ht1 (by omega)

theorem rand_sort_shared_order_range {St D : Type} (C : Collab St D) (fuel : Nat) (st : St)
    (n : Nat) (result : List Nat) (hn : n < 18446744073709551616) :
    rand_sort_shared_order C fuel st n (List.range' 0 n) result
      = rand_sort_shared C fuel st n result := by
  unfold rand_sort_shared_order rand_sort_shared
  simp only []
  rw [shared_insert_order_range C fuel st _ n 0 _ (by omega)]

/-- The layout of `rand_sort_mpi` is the layout for the table size of line 317. -/
theorem ht_layout_of_at (n size rank : Nat) :
    ht_layout_of n size rank = ht_layout_at (cadd (cmul 2 n) 128) size rank := rfl

theorem ht_layout_at_eq (H size rank : Nat) (hH : H < 18446744073709551615)
    (hsize : 0 < size) (hint : size < 18446744073709551616) (hr : rank < size) :
    ht_layout_at H size rank =
      { total_hash_table_size := H
        ht_base_block_size := H / size
        ht_block_size_cutoff_rank := H % size
        ht_block_size_cutoff_index := H % size * (H / size + 1)
        ht_my_size := H / size + (if rank < H % size then 1 else 0)
        ht_my_start := ht_start H size rank
        ht_my_end := ht_start H size (rank + 1) } := by
  have hsucc := ht_start_succ H size rank
  unfold ht_layout_at
  simp only []
  unfold ht_start at hsucc ⊢
  have h0 := Nat.div_add_mod H size
  have hc := Nat.mod_lt H hsize
  have h1 : H % size * (H / size)
      ≤ size * (H / size) := Nat.mul_le_mul_right _ (Nat.le_of_lt hc)
  have h2 : rank * (H / size)
      ≤ size * (H / size) := Nat.mul_le_mul_right _ (Nat.le_of_lt hr)
  have h3 : H % size * (H / size + 1)
      = H % size * (H / size) + H % size :=
    Nat.mul_succ _ _
  have h4 : rank * (H / size + 1)
      = rank * (H / size) + rank := Nat.mul_succ _ _
  have h5 : (rank - H % size) * (H / size)
      = rank * (H / size) - H % size * (H / size) :=
    Nat.sub_mul _ _ _
  have hb : H / size ≤ H := Nat.div_le_self _ _
  have h7 : (rank + 1) * (H / size)
      = rank * (H / size) + H / size := Nat.succ_mul _ _
  have h8 : (rank + 1) * (H / size)
      ≤ size * (H / size) := Nat.mul_le_mul_right _ hr
  have e1 : cadd (H / size) 1 = H / size + 1 :=
    cadd_eq_of_lt (by omega)
  rw [e1]
  have e2 : cmul (H % size) (H / size + 1)
      = H % size * (H / size + 1) := cmul_eq_of_lt (by omega)
  rw [e2]
  by_cases hlt : rank < H % size
  · have h6 : rank * (H / size)
        ≤ H % size * (H / size) :=
      Nat.mul_le_mul_right _ (Nat.le_of_lt hlt)
    have h9 : (rank + 1) * (H / size)
        ≤ H % size * (H / size) :=
      Nat.mul_le_mul_right _ hlt
    simp only [if_pos hlt] at hsucc ⊢
    have e3 : cmul rank (H / size + 1) = rank * (H / size + 1) :=
      cmul_eq_of_lt (by omega)
    rw [e1, e3]
    rw [Nat.min_eq_left (Nat.le_of_lt hlt)]
    rw [Nat.min_eq_left (Nat.le_of_lt hlt)] at hsucc
    have e5 : cadd (rank * (H / size + 1)) (H / size + 1)
        = (rank + 1) * (H / size) + min (rank + 1) (H % size) := by
      have e : cadd (rank * (H / size + 1)) (H / size + 1)
          = rank * (H / size + 1) + (H / size + 1) :=
        cadd_eq_of_lt (by omega)
      rw [e]
      omega
    rw [e5, h4]
  · have h6 : H % size * (H / size)
        ≤ rank * (H / size) :=
      Nat.mul_le_mul_right _ (Nat.le_of_not_lt hlt)
    simp only [if_neg hlt] at hsucc ⊢
    have e3 : csub rank (H % size) = rank - H % size :=
      csub_eq_of_le (Nat.le_of_not_lt hlt) (by omega)
    rw [e3]
    have e4 : cmul (rank - H % size) (H / size)
        = (rank - H % size) * (H / size) :=
      cmul_eq_of_lt (by omega)
    rw [e4]
    rw [Nat.min_eq_right (Nat.le_of_not_lt hlt)]
    rw [Nat.min_eq_right (Nat.le_of_not_lt hlt)] at hsucc
    have e6 : cadd (H / size) 0 = H / size := cadd_eq_of_lt (by omega)
    rw [e6]
    have e7 : cadd (H % size * (H / size + 1))
        ((rank - H % size) * (H / size))
          = rank * (H / size) + H % size := by
      have e : cadd (H % size * (H / size + 1))
          ((rank - H % size) * (H / size))
            = H % size * (H / size + 1)
              + (rank - H % size) * (H / size) :=
        cadd_eq_of_lt (by omega)
      rw [e]
      omega
    rw [e7]
    have e8 : cadd (rank * (H / size) + H % size) (H / size)
        = (rank + 1) * (H / size) + min (rank + 1) (H % size) := by
      have e : cadd (rank * (H / size) + H % size)
          (H / size)
            = rank * (H / size) + H % size + H / size :=
        cadd_eq_of_lt (by omega)
      rw [e]
      omega
    rw [e8]
    rfl

theorem HT_OWNER_at_spec (H size rank e : Nat) (hH : H < 18446744073709551615)
    (hsize : 0 < size) (hint : size < 18446744073709551616) (hr : rank < size)
    (he : e < H) :
    ∃ o, HT_OWNER (ht_layout_at H size rank) e = .ok o ∧ o < size ∧
      ht_start H size o ≤ e ∧ e < ht_start H size (o + 1) := by
  rw [ht_layout_at_eq H size rank hH hsize hint hr]
  unfold HT_OWNER ht_start
  simp only []
  have h0 := Nat.div_add_mod H size
  have hc := Nat.mod_lt H hsize
  have hbH : H / size ≤ H := Nat.div_le_self _ _
  generalize H / size = b at *
  generalize H % size = c at *
  have hcb : c * (b + 1) = c * b + c := Nat.mul_succ _ _
  have hcs : c * b ≤ size * b := Nat.mul_le_mul_right _ (Nat.le_of_lt hc)
  have e1 : cadd b 1 = b + 1 := cadd_eq_of_lt (by omega)
  rw [e1]
  by_cases hlt : e < c * (b + 1)
  · rw [if_pos hlt, if_neg (Nat.succ_ne_zero b)]
    have ho1 : e / (b + 1) * (b + 1) ≤ e := Nat.div_mul_le_self e (b + 1)
    have ho2 : e < (b + 1) * (e / (b + 1) + 1) := Nat.lt_mul_div_succ e (Nat.succ_pos b)
    have ho3 : e / (b + 1) < c := Nat.div_lt_of_lt_mul (by rw [Nat.mul_comm]; exact hlt)
    generalize e / (b + 1) = o at *
    have h1 : o * (b + 1) = o * b + o := Nat.mul_succ _ _
    have h2 : (b + 1) * (o + 1) = (o + 1) * b + (o + 1) := by ring
    refine ⟨o, rfl, by omega, ?_, ?_⟩
    · rw [Nat.min_eq_left (Nat.le_of_lt ho3)]; omega
    · rw [Nat.min_eq_left ho3]; omega
  · rw [if_neg hlt]
    have hb : b ≠ 0 := by
      intro hb0
      subst hb0
      omega
    rw [if_neg hb]
    have e2 : csub e (c * (b + 1)) = e - c * (b + 1) :=
      csub_eq_of_le (Nat.le_of_not_lt hlt) (by omega)
    rw [e2]
    have hq1 : (e - c * (b + 1)) / b * b ≤ e - c * (b + 1) := Nat.div_mul_le_self _ _
    have hq2 : e - c * (b + 1) < b * ((e - c * (b + 1)) / b + 1) :=
      Nat.lt_mul_div_succ _ (Nat.pos_of_ne_zero hb)
    generalize (e - c * (b + 1)) / b = q at *
    have h1 : (c + q) * b = c * b + q * b := Nat.add_mul _ _ _
    have h2 : b * (q + 1) = q * b + b := by ring
    have h3 : (c + q + 1) * b = (c + q) * b + b := Nat.succ_mul _ _
    have h4 : c + q < size := by
      apply Nat.lt_of_mul_lt_mul_right (a := b)
      omega
    have e3 : cadd c q = c + q := cadd_eq_of_lt (by omega)
    rw [e3]
    refine ⟨c + q, rfl, h4, ?_, ?_⟩
    · rw [Nat.min_eq_right (by omega : c ≤ c + q)]; omega
    · rw [Nat.min_eq_right (by omega : c ≤ c + q + 1)]; omega

theorem HT_OWNER_at_iff (H size rank e : Nat) (hH : H < 18446744073709551615)
    (hsize : 0 < size) (hint : size < 18446744073709551616) (hr : rank < size)
    (he : e < H) :
    HT_OWNER (ht_layout_at H size rank) e = .ok rank ↔
      ht_start H size rank ≤ e ∧ e < ht_start H size (rank + 1) := by
  obtain ⟨o, ho, _, h1, h2⟩ := HT_OWNER_at_spec H size rank e hH hsize hint hr he
  rw [ho]
  constructor
  · intro h
    cases h
    exact ⟨h1, h2⟩
  · intro h
    have h3 : ¬ o < rank := fun hlt => by
      have := ht_start_mono H size (by omega : o + 1 ≤ rank)
      omega
    have h4 : ¬ rank < o := fun hlt => by
      have := ht_start_mono H size (by omega : rank + 1 ≤ o)
      omega
    have h5 : o = rank := by omega
    rw [h5]

/-- The fields of the layout of a rank, without the wrap-around. -/
theorem ht_layout_at_fields (H size r : Nat) (hH : H < 18446744073709551615)
    (hsize : 0 < size) (hint : size < 18446744073709551616) (hr : r < size) :
    (ht_layout_at H size r).ht_my_start = ht_start H size r ∧
      (ht_layout_at H size r).ht_my_end = ht_start H size (r + 1) ∧
      (ht_layout_at H size r).ht_my_size = H / size + (if r < H % size then 1 else 0) := by
  rw [ht_layout_at_eq H size r hH hsize hint hr]
  exact ⟨rfl, rfl, rfl⟩

/-- C23: for every table size `H` and every number of ranks `size >= 1` (both
representable), the slices of lines 323-330 tile `[0, H)`: the slice of rank 0
starts at 0, each slice ends where the next one starts, the last one ends at
`H`, and the slice of rank `r` has `H / size + 1` slots if `r < H % size` and
`H / size` otherwise. For every key `e < H`, `HT_OWNER` returns without a
division by zero (whatever rank evaluates it, also when `size > H`); the rank it
returns is below `size`, its slice contains `e`, `HT_LOCAL` of `e` on that rank
is below `ht_my_size`, and no other rank has `e` in its slice. -/
theorem block_distribution (H size : Nat) (hH : H < 18446744073709551615)
    (hsize : 1 ≤ size) (hint : size < 18446744073709551616) :
    (ht_layout_at H size 0).ht_my_start = 0 ∧
    (ht_layout_at H size (size - 1)).ht_my_end = H ∧
    (∀ r, r < size →
      (ht_layout_at H size r).ht_my_size = H / size + (if r < H % size then 1 else 0) ∧
      (ht_layout_at H size r).ht_my_end
        = (ht_layout_at H size r).ht_my_start + (ht_layout_at H size r).ht_my_size ∧
      (r + 1 < size →
        (ht_layout_at H size (r + 1)).ht_my_start = (ht_layout_at H size r).ht_my_end)) ∧
    (∀ e rank, e < H → rank < size →
      ∃ o, HT_OWNER (ht_layout_at H size rank) e = .ok o ∧ o < size ∧
        (ht_layout_at H size o).ht_my_start ≤ e ∧ e < (ht_layout_at H size o).ht_my_end ∧
        HT_LOCAL (ht_layout_at H size o) e < (ht_layout_at H size o).ht_my_size ∧
        ∀ r, r < size → (ht_layout_at H size r).ht_my_start ≤ e →
          e < (ht_layout_at H size r).ht_my_end → r = o) := by
  have hf := fun r hr => ht_layout_at_fields H size r hH hsize hint hr
  refine ⟨?_, ?_, ?_, ?_⟩
  · rw [(hf 0 hsize).1, ht_start_zero]
  · rw [(hf (size - 1) (by omega)).2.1, Nat.sub_add_cancel hsize, ht_start_size H size hsize]
  · intro r hr
    obtain ⟨h1, h2, h3⟩ := hf r hr
    refine ⟨h3, ?_, ?_⟩
    · rw [h1, h2, h3, ht_start_succ]
    · intro hr1
      rw [(hf (r + 1) hr1).1, h2]
  · intro e rank he hrank
    obtain ⟨o, ho, hos, h1, h2⟩ := HT_OWNER_at_spec H size rank e hH hsize hint hrank he
    obtain ⟨g1, g2, g3⟩ := hf o hos
    refine ⟨o, ho, hos, by rw [g1]; exact h1, by rw [g2]; exact h2, ?_, ?_⟩
    · have hsucc := ht_start_succ H size o
      have hle := ht_start_le H size (o + 1) hsize hos
      unfold HT_LOCAL
      rw [g1, g3, csub_eq_of_le h1 (by omega)]
      omega
    · intro r hr hr1 hr2
      rw [(hf r hr).1] at hr1
      rw [(hf r hr).2.1] at hr2
      have h3 : ¬ o < r := fun hlt => by
        have := ht_start_mono H size (by omega : o + 1 ≤ r)
        omega
      have h4 : ¬ r < o := fun hlt => by
        have := ht_start_mono H size (by omega : r + 1 ≤ o)
        omega
      omega

theorem block_distribution_witness :
    (List.map (fun r => ((ht_layout_at 7 3 r).ht_my_start, (ht_layout_at 7 3 r).ht_my_end))
        [0, 1, 2] = [(0, 3), (3, 5), (5, 7)] ∧
      List.map (fun e => HT_OWNER (ht_layout_at 7 3 0) e) [0, 1, 2, 3, 4, 5, 6]
        = [.ok 0, .ok 0, .ok 0, .ok 1, .ok 1, .ok 2, .ok 2] ∧
      List.map (fun e => HT_OWNER (ht_layout_at 3 5 0) e) [0, 1, 2] = [.ok 0, .ok 1, .ok 2]) ∧
    ((ht_layout_at 3 5 0).ht_my_start = 0 ∧ (ht_layout_at 3 5 (5 - 1)).ht_my_end = 3) :=
  ⟨⟨by decide, by rfl, by rfl⟩,
    (block_distribution 3 5 (by decide) (by decide) (by decide)).1,
    (block_distribution 3 5 (by decide) (by decide) (by decide)).2.1⟩
